import Mathlib

/-!
# OS_Simulator: the scheduling and execution engine of `Sim04.cpp`

A shallow embedding of the simulator: the process table, the quantum-bounded
runner (`run`, `runProcess`), the policy selector (`getSchedule`), the
completion test (`checkCompleted`), the scheduler loop of `main`, the token
loop of `readInput`, the allocator `AllocateMemory`, the clock `timePassed`,
and the workers (`ioThread`) with the semaphores of the devices.

Conventions.

* C++ `int` fields are `Int`; the counters of the simulator are assumed to stay
  inside the `int` range.  Where a conversion between `int`, `long` and
  `unsigned int` is visible in the source (`AllocateMemory` and its call) it is
  written out with `toInt32` and `toUInt32`.
* A `while` loop that the source does not bound takes a fuel argument and
  yields `none` when the fuel is used up; `none` also stands for behaviour the
  source leaves undefined (a read of a variable that was never assigned, an
  index outside its array, a wait that is never answered).
* The fields of a `new Process` that `readInput` never assigns (`control.state`
  and the members `code`, `cycles` and `started` of `current`) hold any value.
  `readInputWith` and `mainWith` take these values as a parameter; `readInput`
  and `main` are the executions in which the memory is zero-filled.
* Wall-clock time is not modelled: busy waits take no part in the state, and a
  log line is recorded without its time stamp.
* The functions of the scheduler thread work on a state of its own.  There an
  I/O opcode is followed up to the point where `run` resumes (the worker has
  been created); the lines a worker writes and the counters it decrements when
  it ends are outside that state.  The workers have a section of their own,
  in which the threads take their steps in any order.
-/

namespace OSSim

/-! ## Constants (`Sim04.cpp`, lines 29-42) -/

/-- Maximum number of threads. -/
def MAX_THREADS : Int := 1000

/-- Scheduling algorithm identifier: round robin. -/
def RR : Int := 0
/-- Scheduling algorithm identifier: shortest remaining time first. -/
def SRTF : Int := 1
/-- Scheduling algorithm identifier: shortest job first. -/
def SJF : Int := 2

/-- PCB state `NEW`. -/
def NEW : Int := 0
/-- PCB state `READY`. -/
def READY : Int := 1
/-- PCB state `RUNNING`. -/
def RUNNING : Int := 2
/-- PCB state `WAITING`. -/
def WAITING : Int := 3
/-- PCB state `EXIT`. -/
def EXIT : Int := 4

/-! ## Structures (`Sim04.cpp`, lines 71-117) -/

/-- Configuration file data (`struct ConfigType`); the two file paths and the
log target play no part in the engine and are left out. -/
structure ConfigType where
  quantum : Int
  schedulingAlg : Int
  processor : Int
  monitor : Int
  hardDrive : Int
  printer : Int
  keyboard : Int
  memory : Int
  systemMemory : Int
  blockSize : Int
  printerCount : Int
  hdCount : Int
deriving DecidableEq

/-- One metadata object (`struct MetaDataType`). -/
structure MetaDataType where
  code : Char
  descriptor : String
  cycles : Int
  started : Bool
deriving DecidableEq

/-- Process control block (`struct PCB`). -/
structure PCB where
  state : Int
  processNum : Int
deriving DecidableEq

/-- An entire process (`struct Process`).  The queue `metaData` is given by the
sequence of its stored items, head first. -/
structure Process where
  control : PCB
  cacheCount : Int
  metaData : List MetaDataType
  current : MetaDataType
  timeRemaining : Int
  completed : Bool
  runningThreads : Int
deriving DecidableEq

/-! ## The queue (`SimpleQueue.cpp`, lines 74-111) -/

/-- Method `SimpleQueue::enqueue`: the item is stored behind the last one. -/
def SimpleQueue.enqueue {α : Type} (q : List α) (enqueueData : α) : List α :=
  q ++ [enqueueData]

/-- Method `SimpleQueue::dequeue`: on a non-empty queue the head is copied to the
output argument, the other items move one place forward and the call yields
`true`; on an empty queue nothing changes and the call yields `false`.
The result is `(returned flag, output argument, queue)`. -/
def SimpleQueue.dequeue {α : Type} (q : List α) (dequeueData : α) : Bool × α × List α :=
  match q with
  | [] => (false, dequeueData, [])
  | x :: rest => (true, x, rest)

/-! ## The log -/

/-- A line appended to the stream `output` by the scheduler thread, without its
time stamp.  The argument `n` is the process number written into the line. -/
inductive LogLine where
  /-- Line `Simulator program starting` -/
  | simulatorStarting
  /-- Line `Simulator program ending` -/
  | simulatorEnding
  /-- Line `OS: preparing process n` -/
  | osPreparing (n : Int)
  /-- Line `OS: starting process n` -/
  | osStarting (n : Int)
  /-- Line `OS: process n completed` -/
  | osCompleted (n : Int)
  /-- Line `Process n start processing action` -/
  | startProcessing (n : Int)
  /-- Line `Process n end processing action` -/
  | endProcessing (n : Int)
  /-- Line `Process n interrupt processing action` -/
  | interruptProcessing (n : Int)
  /-- Line `Process n allocating memory` -/
  | allocatingMemory (n : Int)
  /-- Line `Process n memory allocated at 0x<address>` -/
  | memoryAllocated (n : Int) (address : Nat)
  /-- Line `Process n interrupt memory allocation` -/
  | interruptAllocation (n : Int)
  /-- Line `Process n start memory caching` -/
  | startCaching (n : Int)
  /-- Line `Process n end memory caching` -/
  | endCaching (n : Int)
  /-- Line `Process n interrupt memory caching` -/
  | interruptCaching (n : Int)
deriving DecidableEq

/-- The global variables the scheduler thread works on (`Sim04.cpp`, lines
56-67), with two counters of instrumentation that the source does not have:
`executed` lists the opcodes `run` was called on, in call order, and
`cyclesDone` counts the executions of `runMeta->cycles--`. -/
structure Shared where
  output : List LogLine
  memoryLocation : Nat
  threadCount : Int
  threadIndex : Int
  executed : List MetaDataType
  cyclesDone : Nat
deriving DecidableEq

/-- The globals as initialised at lines 57-67: no thread, `threadIndex = -1`,
an empty stream and `memoryLocation = (unsigned int) -1`. -/
def Shared.init : Shared :=
  { output := [], memoryLocation := 4294967295, threadCount := 0, threadIndex := -1,
    executed := [], cyclesDone := 0 }

/-! ## `AllocateMemory` (`SimulatorFunctions.cpp`, lines 47-67) -/

/-- Conversion of an integer value to `int` (32 bits, two's complement). -/
def toInt32 (x : Int) : Int := (x + 2147483648) % 4294967296 - 2147483648

/-- Conversion of an integer value to `unsigned int` (32 bits). -/
def toUInt32 (x : Int) : Nat := (x % 4294967296).toNat

/-- Function `unsigned int AllocateMemory( int totMem, int blockSize, int lastLoc )`.
The arguments are `int` values.  Overflow of the `int` arithmetic, which C++
leaves undefined, is taken to wrap; the returned `int` is converted to the
`unsigned int` return type. -/
def AllocateMemory (totMem blockSize lastLoc : Int) : Nat :=
  if lastLoc < 0 then 0
  else if toInt32 (lastLoc + toInt32 (blockSize * 2)) < totMem then
    toUInt32 (lastLoc + blockSize)
  else 0

/-! ## `run` (`Sim04.cpp`, lines 621-794) -/

/-- The local state of one call of `run`: the process it works on, the
globals, the cycle counter and the flag the worker thread sets. -/
structure RunState where
  running : Process
  sh : Shared
  cycle : Int
  threadCreated : Bool
deriving DecidableEq

/-- Lines 630-653: the opcodes `S` and `A` set the state of the PCB. -/
def runLifecycle (control : PCB) (runMeta : MetaDataType) : PCB :=
  if runMeta.code = 'S' then
    if runMeta.descriptor = "start" then { control with state := READY }
    else if runMeta.descriptor = "end" then { control with state := EXIT }
    else control
  else if runMeta.code = 'A' then
    if runMeta.descriptor = "start" then { control with state := RUNNING }
    else if runMeta.descriptor = "end" then { control with state := EXIT }
    else control
  else control

/-- Lines 660-693: one pass of the loop for code `P`. -/
def processorStep (cfg : ConfigType) (st : RunState) : RunState :=
  let runMeta := st.running.current
  let n := st.running.control.processNum
  let out1 := if !runMeta.started then st.sh.output ++ [LogLine.startProcessing n]
              else st.sh.output
  let cycles1 := runMeta.cycles - 1
  let out2 := if cycles1 = 0 then out1 ++ [LogLine.endProcessing n]
              else if st.cycle = cfg.quantum - 1 then out1 ++ [LogLine.interruptProcessing n]
              else out1
  { st with
    running := { st.running with current := { runMeta with started := true, cycles := cycles1 } }
    sh := { st.sh with output := out2, cyclesDone := st.sh.cyclesDone + 1 } }

/-- Lines 697-731: one pass of the loop for code `M`, descriptor `allocate`.
On the last cycle the allocator is called with `cfg.systemMemory` (a `long`)
and `memoryLocation` (an `unsigned int`) converted to its `int` parameters. -/
def allocateStep (cfg : ConfigType) (st : RunState) : RunState :=
  let runMeta := st.running.current
  let n := st.running.control.processNum
  let out1 := if !runMeta.started then st.sh.output ++ [LogLine.allocatingMemory n]
              else st.sh.output
  let cycles1 := runMeta.cycles - 1
  let loc1 := if cycles1 = 0 then
                AllocateMemory (toInt32 cfg.systemMemory) cfg.blockSize
                  (toInt32 st.sh.memoryLocation)
              else st.sh.memoryLocation
  let out2 := if cycles1 = 0 then out1 ++ [LogLine.memoryAllocated n loc1]
              else if st.cycle = cfg.quantum - 1 then out1 ++ [LogLine.interruptAllocation n]
              else out1
  { st with
    running := { st.running with current := { runMeta with started := true, cycles := cycles1 } }
    sh := { st.sh with output := out2, memoryLocation := loc1,
                       cyclesDone := st.sh.cyclesDone + 1 } }

/-- Lines 733-767: one pass of the loop for code `M`, descriptor `cache`. -/
def cacheStep (cfg : ConfigType) (st : RunState) : RunState :=
  let runMeta := st.running.current
  let n := st.running.control.processNum
  let out1 := if !runMeta.started then st.sh.output ++ [LogLine.startCaching n]
              else st.sh.output
  let cycles1 := runMeta.cycles - 1
  let out2 := if cycles1 = 0 then out1 ++ [LogLine.endCaching n]
              else if st.cycle = cfg.quantum - 1 then out1 ++ [LogLine.interruptCaching n]
              else out1
  { st with
    running := { st.running with
                 current := { runMeta with started := true, cycles := cycles1 }
                 cacheCount := if cycles1 = 0 then st.running.cacheCount + 1
                               else st.running.cacheCount }
    sh := { st.sh with output := out2, cyclesDone := st.sh.cyclesDone + 1 } }

/-- Whether the worker created for the opcode reaches `*created = true`
(`ioThread`, lines 885-1018): it has to pass the semaphore of its device, which
for the hard drives and the printers needs at least one device, and a
descriptor that names no device never sets the flag. -/
def ioThreadCreated (cfg : ConfigType) (runMeta : MetaDataType) : Bool :=
  if runMeta.descriptor = "hard drive" then
    decide (0 < cfg.hdCount) && (runMeta.code = 'I' || runMeta.code = 'O')
  else if runMeta.descriptor = "keyboard" then true
  else if runMeta.descriptor = "monitor" then true
  else if runMeta.descriptor = "printer" then decide (0 < cfg.printerCount)
  else false

/-- Lines 770-785: one pass of the loop for code `I` or `O`.  The thread is
counted, stored at `io_thr[threadIndex]` and awaited; the wait
`while( !threadCreated )` ends when the worker sets the flag.  Then
`cycle = runMeta->cycles`. -/
def ioStep (cfg : ConfigType) (st : RunState) : Option RunState :=
  if st.sh.threadIndex + 1 < MAX_THREADS ∧ ioThreadCreated cfg st.running.current = true then
    some { running := { st.running with runningThreads := st.running.runningThreads + 1 }
           sh := { st.sh with threadCount := st.sh.threadCount + 1
                              threadIndex := st.sh.threadIndex + 1 }
           cycle := st.running.current.cycles
           threadCreated := true }
  else none

/-- Lines 656-788: the body of the loop of `run`, ending with `cycle++`. -/
def runBody (cfg : ConfigType) (st : RunState) : Option RunState :=
  let runMeta := st.running.current
  if runMeta.code = 'P' then
    let st1 := processorStep cfg st
    some { st1 with cycle := st1.cycle + 1 }
  else if runMeta.code = 'M' then
    let st1 := if runMeta.descriptor = "allocate" then allocateStep cfg st else st
    let st2 := if st1.running.current.descriptor = "cache" then cacheStep cfg st1 else st1
    some { st2 with cycle := st2.cycle + 1 }
  else if runMeta.code = 'I' ∨ runMeta.code = 'O' then
    (ioStep cfg st).map fun st1 => { st1 with cycle := st1.cycle + 1 }
  else
    some { st with cycle := st.cycle + 1 }

/-- Line 655: the condition of the loop of `run`. -/
def runCond (cfg : ConfigType) (st : RunState) : Bool :=
  decide (0 < st.running.current.cycles) && decide (st.cycle < cfg.quantum) && !st.threadCreated

/-- Lines 655-788: the loop of `run`, at most `fuel` passes. -/
def runLoop (cfg : ConfigType) : Nat → RunState → Option RunState
  | 0, st => if runCond cfg st then none else some st
  | fuel + 1, st =>
    if runCond cfg st then
      match runBody cfg st with
      | none => none
      | some st1 => runLoop cfg fuel st1
    else some st

/-- Function `int run( Process& running, const ConfigType& cfg, struct timeval start, int cycle )`.
The result is the process, the globals and the returned counter.  A pass that
does not set `threadCreated` adds one to `cycle`, so `cfg.quantum - cycle`
passes are the most the loop can make; the loop is given that many. -/
def run (running : Process) (sh : Shared) (cfg : ConfigType) (cycle : Int) :
    Option (Process × Shared × Int) :=
  let running1 := { running with control := runLifecycle running.control running.current }
  let sh1 := { sh with executed := sh.executed ++ [running.current] }
  match runLoop cfg (cfg.quantum - cycle).toNat
      { running := running1, sh := sh1, cycle := cycle, threadCreated := false } with
  | none => none
  | some st => some (st.running, st.sh, st.cycle)

/-! ## `runProcess` (`Sim04.cpp`, lines 796-826) -/

/-- The local state of one call of `runProcess`. -/
structure RunProcessState where
  running : Process
  sh : Shared
  dequeued : Bool
  cyclesRun : Int
deriving DecidableEq

/-- Lines 798-799: the locals at the entry of `runProcess`. -/
def RunProcessState.enter (running : Process) (sh : Shared) : RunProcessState :=
  { running := running, sh := sh, dequeued := true, cyclesRun := 0 }

/-- Lines 804-817: when the current opcode is used up or is an I/O opcode, the
next one is taken from the queue, and an opcode with descriptor `run` has its
cycles cut by twice the cache count. -/
def fetch (st : RunProcessState) : RunProcessState :=
  if st.running.current.cycles ≤ 0 ∨ st.running.current.code = 'I'
      ∨ st.running.current.code = 'O' then
    let r := SimpleQueue.dequeue st.running.metaData st.running.current
    let running1 := { st.running with metaData := r.2.2, current := r.2.1 }
    let running2 :=
      if running1.current.descriptor = "run" then
        let updateCycles := max 1 (running1.current.cycles - 2 * running1.cacheCount)
        { running1 with
          timeRemaining := running1.timeRemaining - (running1.current.cycles - updateCycles)
          current := { running1.current with cycles := updateCycles } }
      else running1
    { st with running := running2, dequeued := r.1 }
  else st

/-- Line 802: the condition of the loop of `runProcess`. -/
def runProcessCond (cfg : ConfigType) (st : RunProcessState) : Bool :=
  decide (st.cyclesRun < cfg.quantum) && decide (st.running.control.state ≠ EXIT)

/-- Lines 802-823: the loop of `runProcess`, at most `fuel` passes. -/
def runProcessLoop (cfg : ConfigType) : Nat → RunProcessState → Option RunProcessState
  | 0, st => if runProcessCond cfg st then none else some st
  | fuel + 1, st =>
    if runProcessCond cfg st then
      let st1 := fetch st
      if st1.dequeued then
        match run st1.running st1.sh cfg st1.cyclesRun with
        | none => none
        | some (p, sh, c) =>
          runProcessLoop cfg fuel { st1 with running := p, sh := sh, cyclesRun := c }
      else runProcessLoop cfg fuel st1
    else some st

/-- Function `void runProcess( Process& running, const ConfigType& cfg, struct timeval start )`:
the loop, then `running.timeRemaining -= cyclesRun`. -/
def runProcess (fuel : Nat) (running : Process) (sh : Shared) (cfg : ConfigType) :
    Option (Process × Shared) :=
  match runProcessLoop cfg fuel (RunProcessState.enter running sh) with
  | none => none
  | some st =>
    some ({ st.running with timeRemaining := st.running.timeRemaining - st.cyclesRun }, st.sh)

/-! ## `checkCompleted` and `getSchedule` (`Sim04.cpp`, lines 828-872)

The global `ProcessCount` is the length of the process table: `readInput`
adds one to it with every `push_back`. -/

/-- Function `bool checkCompleted( const vector<Process>& program )`: the conjunction,
taken in index order, of `program[index].control.state == EXIT`. -/
def checkCompleted (program : List Process) : Bool :=
  program.foldl (fun completed p => completed && decide (p.control.state = EXIT)) true

/-- The state of `program[index]` for an `int` index; an index outside the
table has no value. -/
def stateAt (program : List Process) (index : Int) : Option Int :=
  if 0 ≤ index then (program[index.toNat]?).map fun p => p.control.state else none

/-- Lines 849-852: the loop of the round robin branch, at most `fuel` steps of
`index = ( index + 1 ) % ProcessCount`. -/
def rrLoop (program : List Process) : Nat → Int → Option Int
  | 0, index =>
    match stateAt program index with
    | none => none
    | some s => if s = EXIT then none else some index
  | fuel + 1, index =>
    match stateAt program index with
    | none => none
    | some s =>
      if s = EXIT then rrLoop program fuel (Int.tmod (index + 1) program.length)
      else some index

/-- Lines 858-868: the scan of the shortest-job branch over the processes from
`index` on, with the running minimum and `retIndex`, which stays without a
value until the first assignment. -/
def sjfLoop : List Process → Int → Int → Option Int → Option Int
  | [], _, _, retIndex => retIndex
  | p :: rest, index, minTimeRemaining, retIndex =>
    if p.control.state ≠ EXIT ∧ p.timeRemaining < minTimeRemaining then
      sjfLoop rest (index + 1) p.timeRemaining (some index)
    else sjfLoop rest (index + 1) minTimeRemaining retIndex

/-- Function `int getSchedule( const vector<Process>& program, int algorithmID, int prevIndex )`.
The remainder by `ProcessCount = 0` and the return of a `retIndex` that was
never assigned have no value. -/
def getSchedule (fuel : Nat) (program : List Process) (algorithmID prevIndex : Int) :
    Option Int :=
  if algorithmID = RR then
    if program.length = 0 then none
    else rrLoop program fuel (Int.tmod (prevIndex + 1) program.length)
  else sjfLoop program 0 100000 none

/-! ## The scheduler loop of `main` (`Sim04.cpp`, lines 231-261) -/

/-- Lines 248-260: the scan that reports the processes that have finished. -/
def completionScan : List Process → List LogLine → List Process × List LogLine
  | [], out => ([], out)
  | p :: rest, out =>
    if p.control.state = EXIT ∧ p.completed = false ∧ p.runningThreads = 0 then
      let r := completionScan rest (out ++ [LogLine.osCompleted p.control.processNum])
      ({ p with completed := true } :: r.1, r.2)
    else
      let r := completionScan rest out
      (p :: r.1, r.2)

/-- The state of `main` during the scheduler loop; `schedule` is
instrumentation and lists the indices `getSchedule` has returned. -/
structure MainState where
  program : List Process
  sh : Shared
  processIndex : Int
  schedule : List Int
deriving DecidableEq

/-- Lines 233-260: one pass of the scheduler loop. -/
def mainBody (fuel : Nat) (config : ConfigType) (st : MainState) : Option MainState :=
  match getSchedule fuel st.program config.schedulingAlg st.processIndex with
  | none => none
  | some processIndex =>
    if 0 ≤ processIndex then
      match st.program[processIndex.toNat]? with
      | none => none
      | some p =>
        let sh1 := { st.sh with output := st.sh.output ++
          [LogLine.osPreparing p.control.processNum, LogLine.osStarting p.control.processNum] }
        match runProcess fuel p sh1 config with
        | none => none
        | some (p1, sh2) =>
          let r := completionScan (st.program.set processIndex.toNat p1) sh2.output
          some { program := r.1, sh := { sh2 with output := r.2 },
                 processIndex := processIndex, schedule := st.schedule ++ [processIndex] }
    else none

/-- Lines 231-261: the scheduler loop, at most `fuel` passes. -/
def mainLoop (config : ConfigType) : Nat → MainState → Option MainState
  | 0, st => if checkCompleted st.program then some st else none
  | fuel + 1, st =>
    if checkCompleted st.program then some st
    else
      match mainBody fuel config st with
      | none => none
      | some st1 => mainLoop config fuel st1

/-- The state in which `main` enters the scheduler loop (lines 198 and
228-229): `processIndex = -1` and the first line of the log written. -/
def MainState.init (program : List Process) : MainState :=
  { program := program
    sh := { Shared.init with output := [LogLine.simulatorStarting] }
    processIndex := -1
    schedule := [] }

/-! ## The token loop of `readInput` (`Sim04.cpp`, lines 508-558) -/

/-- The object `new Process` of `readInput` (lines 508 and 556) in the one
case that the memory it is given is zero-filled: the state is `NEW` and the
current opcode has no cycles.  The source assigns neither `control.state` nor
the members `code`, `cycles` and `started` of `current`, so these hold any
value in general; `newProcessWith` below has them as a parameter. -/
def newProcess : Process :=
  { control := { state := NEW, processNum := 0 }
    cacheCount := 0
    metaData := []
    current := { code := Char.ofNat 0, descriptor := "", cycles := 0, started := false }
    timeRemaining := 0
    completed := false
    runningThreads := 0 }

/-- Lines 538-558, for the opcodes `mdtmp` of the file in reading order: the
opcode is enqueued and its cycles added to `timeRemaining`; an `A(end)` numbers
the process, appends it to the list and starts a new one. -/
def readInputLoop : List MetaDataType → Process → List Process → List Process
  | [], _, processList => processList
  | mdtmp :: rest, ptmp, processList =>
    let ptmp1 := { ptmp with
      metaData := SimpleQueue.enqueue ptmp.metaData { mdtmp with started := false }
      timeRemaining := ptmp.timeRemaining + mdtmp.cycles }
    if mdtmp.descriptor = "end" ∧ mdtmp.code = 'A' then
      readInputLoop rest newProcess
        (processList ++ [{ ptmp1 with
          control := { ptmp1.control with processNum := processList.length + 1 }
          completed := false, cacheCount := 0, runningThreads := 0 }])
    else readInputLoop rest ptmp1 processList

/-- The process list `readInput` builds from the opcodes of a metadata file in
the executions in which every `new Process` is zero-filled.  The function for
any content of the unassigned fields is `readInputWith` below. -/
def readInput (opcodes : List MetaDataType) : List Process :=
  readInputLoop opcodes newProcess []

/-- An opcode as `readInput` builds it: `started` is false. -/
def opcode (code : Char) (descriptor : String) (cycles : Int) : MetaDataType :=
  { code := code, descriptor := descriptor, cycles := cycles, started := false }

/-! ## Definitions used to state the properties -/

/-- The opcodes that `run` executes cycle by cycle: code `P`, and code `M` with
descriptor `allocate` or `cache`. -/
def isCpuOrMemory (runMeta : MetaDataType) : Prop :=
  runMeta.code = 'P' ∨ (runMeta.code = 'M' ∧ runMeta.descriptor = "allocate")
    ∨ (runMeta.code = 'M' ∧ runMeta.descriptor = "cache")

/-- The start line of an opcode of process `n`: `start processing action`,
`allocating memory` or `start memory caching`. -/
def isStartLine (runMeta : MetaDataType) (n : Int) (l : LogLine) : Bool :=
  if runMeta.code = 'P' then decide (l = LogLine.startProcessing n)
  else if runMeta.code = 'M' ∧ runMeta.descriptor = "allocate" then
    decide (l = LogLine.allocatingMemory n)
  else if runMeta.code = 'M' ∧ runMeta.descriptor = "cache" then
    decide (l = LogLine.startCaching n)
  else false

/-- The completion line of an opcode of process `n`: `end processing action`,
`memory allocated at ...` (any address) or `end memory caching`. -/
def isCompletionLine (runMeta : MetaDataType) (n : Int) (l : LogLine) : Bool :=
  if runMeta.code = 'P' then decide (l = LogLine.endProcessing n)
  else if runMeta.code = 'M' ∧ runMeta.descriptor = "allocate" then
    match l with
    | LogLine.memoryAllocated k _ => decide (k = n)
    | _ => false
  else if runMeta.code = 'M' ∧ runMeta.descriptor = "cache" then
    decide (l = LogLine.endCaching n)
  else false

/-- The calls of `run` on the current opcode of one process over successive
turns.  A turn is the counter `run` is entered with and the globals as the turn
finds them (other processes may have run in between).  The result is the
process after the last turn and the lines these calls appended, in order. -/
def runTurns (cfg : ConfigType) : List (Int × Shared) → Process →
    Option (Process × List LogLine)
  | [], running => some (running, [])
  | (cycle, sh) :: rest, running =>
    match run running sh cfg cycle with
    | none => none
    | some (running1, sh1, _) =>
      match runTurns cfg rest running1 with
      | none => none
      | some (running2, lines) => some (running2, sh1.output.drop sh.output.length ++ lines)

/-- An opcode that sets the state `EXIT`: descriptor `end` with code `S` or `A`. -/
def isEndOpcode (runMeta : MetaDataType) : Prop :=
  (runMeta.code = 'S' ∨ runMeta.code = 'A') ∧ runMeta.descriptor = "end"

/-- The lines written by `run`, as opposed to the lines written by `main`. -/
def isRunnerLine : LogLine → Bool
  | LogLine.simulatorStarting => false
  | LogLine.simulatorEnding => false
  | LogLine.osPreparing _ => false
  | LogLine.osStarting _ => false
  | LogLine.osCompleted _ => false
  | _ => true

/-- The stream `out1` is `out` followed by lines of `run` only. -/
def OutputExtends (out out1 : List LogLine) : Prop :=
  ∃ added, out1 = out ++ added ∧ ∀ l ∈ added, isRunnerLine l = true

/-- A sequence of `n` calls of `runProcess` on one process. -/
def runProcessTimes (fuel : Nat) (cfg : ConfigType) : Nat → Process → Shared →
    Option (Process × Shared)
  | 0, running, sh => some (running, sh)
  | n + 1, running, sh =>
    match runProcess fuel running sh cfg with
    | none => none
    | some (running1, sh1) => runProcessTimes fuel cfg n running1 sh1

/-- The process is in `EXIT` exactly when `run` has been called on an opcode
that sets `EXIT`. -/
def ExitIffEnd (running : Process) (sh : Shared) : Prop :=
  running.control.state = EXIT ↔ ∃ op ∈ sh.executed, isEndOpcode op

/-- The process number of a line `OS: preparing process n`. -/
def preparingOf : LogLine → Option Int
  | LogLine.osPreparing n => some n
  | _ => none

/-- The process number of a line `OS: starting process n`. -/
def startingOf : LogLine → Option Int
  | LogLine.osStarting n => some n
  | _ => none

/-- The process number of `program[index]` for an `int` index. -/
def processNumAt (program : List Process) (index : Int) : Option Int :=
  if 0 ≤ index then (program[index.toNat]?).map fun p => p.control.processNum else none

/-- The invariant of the scheduler loop started on the table `program0`: the
process numbers stay in place, the `preparing` lines and the `starting` lines
name, in order, the processes of the scheduling decisions, and a process that
was never selected has kept its state. -/
def SchedulerInv (program0 : List Process) (st : MainState) : Prop :=
  (∀ i : Nat, (st.program[i]?).map (fun p => p.control.processNum)
      = (program0[i]?).map (fun p => p.control.processNum)) ∧
  (st.sh.output.filterMap preparingOf).map some = st.schedule.map (processNumAt program0) ∧
  (st.sh.output.filterMap startingOf).map some = st.schedule.map (processNumAt program0) ∧
  (∀ i : Nat, (i : Int) ∈ st.schedule ∨
    (st.program[i]?).map (fun p => p.control.state)
      = (program0[i]?).map (fun p => p.control.state))

/-! ## Concrete configurations and workloads -/

/-- A configuration with every cycle time 1 ms, 1000 kB of memory in blocks of
100 kB, one printer and one hard drive. -/
def exampleConfig (quantum schedulingAlg : Int) : ConfigType :=
  { quantum := quantum, schedulingAlg := schedulingAlg, processor := 1, monitor := 1,
    hardDrive := 1, printer := 1, keyboard := 1, memory := 1, systemMemory := 1000,
    blockSize := 100, printerCount := 1, hdCount := 1 }

/-- Metadata `A(start)0; P(run)4; I(keyboard)1; P(run)4; A(end)0`. -/
def ioBetweenRuns : List MetaDataType :=
  [opcode 'A' "start" 0, opcode 'P' "run" 4, opcode 'I' "keyboard" 1, opcode 'P' "run" 4,
   opcode 'A' "end" 0]

/-- Metadata `A(start)0; I(keyboard)5; A(end)0`. -/
def keyboardOnly : List MetaDataType :=
  [opcode 'A' "start" 0, opcode 'I' "keyboard" 5, opcode 'A' "end" 0]

/-- Metadata `A(start)0; O(monitor)1; A(end)0`. -/
def monitorOnly : List MetaDataType :=
  [opcode 'A' "start" 0, opcode 'O' "monitor" 1, opcode 'A' "end" 0]

/-- Metadata `A(start)0; M(cache)1; M(cache)1; P(run)10; A(end)0` (scenario S6). -/
def cacheWorkload : List MetaDataType :=
  [opcode 'A' "start" 0, opcode 'M' "cache" 1, opcode 'M' "cache" 1, opcode 'P' "run" 10,
   opcode 'A' "end" 0]

/-- Metadata `S(start)0; A(start)0; P(run)5; A(end)0; S(end)0` (scenario S2). -/
def preemptWorkload : List MetaDataType :=
  [opcode 'S' "start" 0, opcode 'A' "start" 0, opcode 'P' "run" 5, opcode 'A' "end" 0,
   opcode 'S' "end" 0]

/-- Metadata `A(start)0; S(end)0; A(end)0`. -/
def simulatorEndInside : List MetaDataType :=
  [opcode 'A' "start" 0, opcode 'S' "end" 0, opcode 'A' "end" 0]

/-- Metadata `A(start)0; P(run)100000; A(end)0`. -/
def longJob : List MetaDataType :=
  [opcode 'A' "start" 0, opcode 'P' "run" 100000, opcode 'A' "end" 0]

/-- The first process `readInput` builds from the opcodes (the empty process
when it builds none). -/
def firstProcess (opcodes : List MetaDataType) : Process :=
  ((readInput opcodes).head?).getD newProcess

/-- A process in state `state` with nothing queued. -/
def processInState (state processNum : Int) : Process :=
  { newProcess with control := { state := state, processNum := processNum } }

/-- A table of three processes of which only the one at index 1 is not in `EXIT`. -/
def onlyMiddleLeft : List Process :=
  [processInState EXIT 1, processInState READY 2, processInState EXIT 3]

/-- A process whose current opcode is a fresh `P(run)5`. -/
def freshRun : Process :=
  { newProcess with control := { state := RUNNING, processNum := 1 }
                    current := opcode 'P' "run" 5 }

/-- A state of `runProcess` with `cacheCount = 2`, the current opcode used up
and `P(run)10; A(end)0` queued. -/
def cachedTwice : RunProcessState :=
  RunProcessState.enter
    { newProcess with control := { state := RUNNING, processNum := 1 }
                      cacheCount := 2
                      metaData := [opcode 'P' "run" 10, opcode 'A' "end" 0]
                      timeRemaining := 10 }
    Shared.init

/-! ## Definitions for the scheduler scenarios -/

/-- The lines one call of `run` appends for an opcode of code `P` on which it
executes at least one cycle: the start line unless the opcode had started, then
the end line when the opcode is finished and the interrupt line otherwise. -/
def processorLines (n : Int) (started finished : Bool) : List LogLine :=
  (if started then [] else [LogLine.startProcessing n]) ++
    [if finished then LogLine.endProcessing n else LogLine.interruptProcessing n]

/-- Metadata `S(start)0; A(start)0; P(run)c; A(end)0; S(end)0` (scenario S1). -/
def singleRun (c : Int) : List MetaDataType :=
  [opcode 'S' "start" 0, opcode 'A' "start" 0, opcode 'P' "run" c, opcode 'A' "end" 0,
   opcode 'S' "end" 0]

/-- Metadata `S(start)0; A(start)0; P(run)c; A(end)0` (scenario S2). -/
def singleRunOpen (c : Int) : List MetaDataType :=
  [opcode 'S' "start" 0, opcode 'A' "start" 0, opcode 'P' "run" c, opcode 'A' "end" 0]

/-- Metadata `A(start)0; P(run)c; A(end)0`, one process of the round robin
scenario. -/
def roundRobinJob (c : Int) : List MetaDataType :=
  [opcode 'A' "start" 0, opcode 'P' "run" c, opcode 'A' "end" 0]

/-- Process `n` as `readInput` leaves it: state `NEW`, the opcodes queued and
their cycles summed. -/
def loadedProcess (n : Int) (queue : List MetaDataType) (total : Int) : Process :=
  { newProcess with
    control := { state := NEW, processNum := n }, metaData := queue, timeRemaining := total }

/-- Process `n` between two turns of its only `P(run)`: `r` cycles are left, the
opcode has started and `A(end)0` is queued. -/
def preemptedProcess (n r : Int) : Process :=
  { control := { state := RUNNING, processNum := n }
    cacheCount := 0
    metaData := [opcode 'A' "end" 0]
    current := { code := 'P', descriptor := "run", cycles := r, started := true }
    timeRemaining := r
    completed := false
    runningThreads := 0 }

/-- Process `n` after its `A(end)0`. -/
def exitedProcess (n : Int) (completed : Bool) : Process :=
  { control := { state := EXIT, processNum := n }
    cacheCount := 0
    metaData := []
    current := opcode 'A' "end" 0
    timeRemaining := 0
    completed := completed
    runningThreads := 0 }

/-! ## The end of `main` (`Sim04.cpp`, lines 263-287) -/

/-- Lines 269-283: the scan of the drain loop.  It reports the processes that
have finished and sets `finished` to false when it reports one.  The result is
`(program, output, finished)`. -/
def drainScan : List Process → List LogLine → Bool → List Process × List LogLine × Bool
  | [], out, finished => ([], out, finished)
  | p :: rest, out, finished =>
    if p.completed = false ∧ p.control.state = EXIT ∧ p.runningThreads = 0 then
      let r := drainScan rest (out ++ [LogLine.osCompleted p.control.processNum]) false
      ({ p with completed := true } :: r.1, r.2.1, r.2.2)
    else
      let r := drainScan rest out finished
      (p :: r.1, r.2.1, r.2.2)

/-- Lines 265-284: the drain loop, at most `fuel` passes.  The count
`threadCount` is only lowered by the workers, which are outside the state, so
with I/O threads still counted the loop of the embedding does not end. -/
def drainLoop : Nat → Bool → List Process → Shared → Option (List Process × Shared)
  | 0, finished, program, sh => if finished then some (program, sh) else none
  | fuel + 1, finished, program, sh =>
    if finished then some (program, sh)
    else
      let r := drainScan program sh.output (decide (sh.threadCount = 0))
      drainLoop fuel r.2.2 r.1 { sh with output := r.2.1 }

/-- The log of `int main( int argc, char* argv[] )` (lines 228-287) for a
configuration and the opcodes of the metadata file: the scheduler loop, the
drain loop and the last line.  The local `finished` is read at line 265 before
it is assigned; the argument `finished` is the value it holds there. -/
def main (fuel : Nat) (finished : Bool) (config : ConfigType)
    (opcodes : List MetaDataType) : Option (List LogLine) :=
  match mainLoop config fuel (MainState.init (readInput opcodes)) with
  | none => none
  | some st =>
    match drainLoop fuel finished st.program st.sh with
    | none => none
    | some r => some (r.2.output ++ [LogLine.simulatorEnding])

/-- The three lines that follow a preemption of process `n`: the interrupt line
and the `preparing` and `starting` lines of its next turn. -/
def interruptBlock (n : Int) : List LogLine :=
  [LogLine.interruptProcessing n, LogLine.osPreparing n, LogLine.osStarting n]

/-- The log of the scheduler loop for one process with one `P(run)`: the opcode
is preempted `interrupts` times, and `extraTurn` tells whether the turn that
ends the opcode uses up its quantum, so that `A(end)` takes a turn of its own. -/
def singleRunLog (interrupts : Nat) (extraTurn : Bool) : List LogLine :=
  [LogLine.simulatorStarting, LogLine.osPreparing 1, LogLine.osStarting 1,
   LogLine.startProcessing 1] ++
  (List.replicate interrupts (interruptBlock 1)).flatten ++
  [LogLine.endProcessing 1] ++
  (if extraTurn then [LogLine.osPreparing 1, LogLine.osStarting 1] else []) ++
  [LogLine.osCompleted 1]

/-- Every interrupt line of process `n` is directly followed by the lines
`OS: preparing process n` and `OS: starting process n`. -/
def interruptsFollowed (n : Int) : List LogLine → Bool
  | [] => true
  | l :: rest =>
    (if l = LogLine.interruptProcessing n then
      decide (rest.take 2 = [LogLine.osPreparing n, LogLine.osStarting n])
     else true) && interruptsFollowed n rest

/-- What claim C14 says about the log of the scheduler loop for one `P(run)` of
`c` cycles under quantum `q`: one start line, `ceil(c/q) - 1` interrupt lines,
each directly followed by a `preparing` and a `starting` line, one end line,
no interrupt line after it, and `floor(c/q) + 1` `starting` lines. -/
def PreemptionLog (q c : Int) (log : List LogLine) : Prop :=
  log.count (LogLine.startProcessing 1) = 1 ∧
  log.count (LogLine.interruptProcessing 1) = ((c + q - 1) / q - 1).toNat ∧
  interruptsFollowed 1 log = true ∧
  log.count (LogLine.endProcessing 1) = 1 ∧
  (∃ pre post, log = pre ++ LogLine.endProcessing 1 :: post ∧
    LogLine.interruptProcessing 1 ∉ post) ∧
  log.count (LogLine.osStarting 1) = (c / q + 1).toNat

/-- The scheduler loop stopped after at most `n` passes (lines 231-261): the
state after the first `n` scheduling decisions. -/
def mainTurns (config : ConfigType) (fuel : Nat) : Nat → MainState → Option MainState
  | 0, st => some st
  | n + 1, st =>
    if checkCompleted st.program then some st
    else
      match mainBody fuel config st with
      | none => none
      | some st1 => mainTurns config fuel n st1

/-- Metadata of `P` processes `A(start)0; P(run)c; A(end)0`. -/
def roundRobinWorkload (P : Nat) (c : Int) : List MetaDataType :=
  (List.replicate P (roundRobinJob c)).flatten

/-- Process `i + 1` of the round robin scenario (`k` quanta of work, quantum
`q`) after `t` of its turns. -/
def jobAfter (q : Int) (k i t : Nat) : Process :=
  if t = 0 then loadedProcess (i + 1) (roundRobinJob (k * q)) (k * q)
  else preemptedProcess (i + 1) (((k : Int) - t) * q)

/-- The table of the round robin scenario after `a` full rounds and `b` more
turns: the processes at the indices below `b` have had `a + 1` turns, the
others `a`. -/
def jobTable (q : Int) (k P a b : Nat) : List Process :=
  (List.range P).map fun i => jobAfter q k i (a + if i < b then 1 else 0)

/-- The value of `processIndex` after `a` full rounds and `b` more turns. -/
def jobIndex (P a b : Nat) : Int :=
  if b = 0 then (if a = 0 then -1 else (P : Int) - 1) else (b : Int) - 1

/-- The decisions of `a` full rounds over `P` processes followed by `b` more
turns: `0, 1, …, P - 1` repeated `a` times, then `0, …, b - 1`. -/
def roundRobinOrder (P a b : Nat) : List Int :=
  ((List.replicate a (List.range P)).flatten ++ List.range b).map Int.ofNat

/-- The state of the scheduler loop in the round robin scenario after `a` full
rounds and `b` more turns. -/
def JobState (config : ConfigType) (k P a b : Nat) (st : MainState) : Prop :=
  st.program = jobTable config.quantum k P a b ∧
  st.processIndex = jobIndex P a b ∧
  st.schedule = roundRobinOrder P a b ∧
  st.sh.cyclesDone = (a * P + b) * config.quantum.toNat

/-! ## Definitions for the address progression -/

/-- The address of a line `memory allocated at 0x<address>`. -/
def allocatedAddress : LogLine → Option Nat
  | LogLine.memoryAllocated _ address => some address
  | _ => none

/-- The addresses of the lines `memory allocated at` of a log, in order. -/
def allocatedAddresses (log : List LogLine) : List Nat :=
  log.filterMap allocatedAddress

/-- The first address is 0 and every later address is the one before it plus
`blockSize`, or 0. -/
def AddressProgression (blockSize : Int) (addresses : List Nat) : Prop :=
  (∀ a ∈ addresses.head?, a = 0) ∧
  List.Chain' (fun (previous next : Nat) => (next : Int) = (previous : Int) + blockSize ∨ next = 0)
    addresses

/-- The invariant of the globals behind the address progression: the addresses
logged so far progress as claimed and `memoryLocation` is the last of them, or
still `(unsigned int) -1` when there is none. -/
def AddressInv (blockSize : Int) (sh : Shared) : Prop :=
  AddressProgression blockSize (allocatedAddresses sh.output) ∧
  sh.memoryLocation = ((allocatedAddresses sh.output).getLast?).getD 4294967295 ∧
  sh.memoryLocation < 4294967296

/-- Metadata `A(start)0; M(allocate)1; M(allocate)2; M(allocate)1; A(end)0`. -/
def allocateThrice : List MetaDataType :=
  [opcode 'A' "start" 0, opcode 'M' "allocate" 1, opcode 'M' "allocate" 2,
   opcode 'M' "allocate" 1, opcode 'A' "end" 0]

/-- A configuration with 300 kB of memory in blocks of 100 kB. -/
def smallMemoryConfig (quantum schedulingAlg : Int) : ConfigType :=
  { exampleConfig quantum schedulingAlg with systemMemory := 300 }

/-! ## Definitions for the grouping of the tokens into processes -/

/-- The token `A(end)` that closes a process (line 543). -/
def isAppEnd (mdtmp : MetaDataType) : Prop :=
  mdtmp.descriptor = "end" ∧ mdtmp.code = 'A'

instance (mdtmp : MetaDataType) : Decidable (isAppEnd mdtmp) := by
  unfold isAppEnd; exact inferInstance

/-- The opcode as it is stored in the queue: `started` is false (line 537). -/
def unstarted (mdtmp : MetaDataType) : MetaDataType :=
  { mdtmp with started := false }

/-- The groups of tokens the claim describes: each group runs up to and
includes an `A(end)`, and the tokens behind the last `A(end)` are in no group.
The argument `pending` holds the tokens of the group that is still open. -/
def tokenGroups : List MetaDataType → List MetaDataType → List (List MetaDataType)
  | _, [] => []
  | pending, mdtmp :: rest =>
    if isAppEnd mdtmp then (pending ++ [mdtmp]) :: tokenGroups [] rest
    else tokenGroups (pending ++ [mdtmp]) rest

/-- The tokens behind the last `A(end)`, which `readInput` enqueues into a
process that is never appended to the list. -/
def trailingTokens : List MetaDataType → List MetaDataType → List MetaDataType
  | pending, [] => pending
  | pending, mdtmp :: rest =>
    if isAppEnd mdtmp then trailingTokens [] rest
    else trailingTokens (pending ++ [mdtmp]) rest

/-- The process `readInput` appends for the group `tokens` when `index`
processes are in the list already. -/
def processOfGroup (index : Nat) (tokens : List MetaDataType) : Process :=
  loadedProcess ((index : Int) + 1) (tokens.map unstarted) (tokens.map fun m => m.cycles).sum

/-- The processes of the groups `groups`, numbered from `index + 1`. -/
def processesOfGroups : Nat → List (List MetaDataType) → List Process
  | _, [] => []
  | index, tokens :: rest => processOfGroup index tokens :: processesOfGroups (index + 1) rest

/-! ## Definitions for the termination of the scheduler loop -/

/-- The opcodes of a workload without I/O: the markers `S(start)`, `S(end)`,
`A(start)` and `A(end)` with 0 cycles, and `P(run)`, `M(allocate)` and
`M(cache)` with a number of cycles that is not negative. -/
def isBatchOpcode (runMeta : MetaDataType) : Prop :=
  ((runMeta.code = 'S' ∨ runMeta.code = 'A') ∧
    (runMeta.descriptor = "start" ∨ runMeta.descriptor = "end") ∧ runMeta.cycles = 0) ∨
  (runMeta.code = 'P' ∧ runMeta.descriptor = "run" ∧ 0 ≤ runMeta.cycles) ∨
  (runMeta.code = 'M' ∧ (runMeta.descriptor = "allocate" ∨ runMeta.descriptor = "cache") ∧
    0 ≤ runMeta.cycles)

instance (runMeta : MetaDataType) : Decidable (isBatchOpcode runMeta) := by
  unfold isBatchOpcode; exact inferInstance

/-- What one call of `run` on an opcode of code `P` or `M` changes: cycles of
the current opcode become cycles of the counter, and the cache count can only
grow. -/
def Advances (running running1 : Process) (cycle cycle1 : Int) : Prop :=
  running1.control = running.control ∧
  running1.metaData = running.metaData ∧
  running1.timeRemaining = running.timeRemaining ∧
  running1.completed = running.completed ∧
  running1.runningThreads = running.runningThreads ∧
  running.cacheCount ≤ running1.cacheCount ∧
  running1.current.code = running.current.code ∧
  running1.current.descriptor = running.current.descriptor ∧
  cycle1 - cycle = running.current.cycles - running1.current.cycles ∧
  cycle ≤ cycle1

/-- The invariant of a process of a workload without I/O between two passes of
the loop of `runProcess`: the queue holds opcodes of the workload, the current
opcode is used up or is one `run` executes cycle by cycle, and a process that
is not in `EXIT` has an opcode that sets `EXIT` in its queue. -/
def BatchProcess (running : Process) : Prop :=
  (∀ m ∈ running.metaData, isBatchOpcode m) ∧
  (running.current.cycles ≤ 0 ∨ isCpuOrMemory running.current) ∧
  0 ≤ running.cacheCount ∧
  (running.control.state ≠ EXIT → ∃ m ∈ running.metaData, isEndOpcode m)

/-- The passes the queued opcode can still cost: one for the dequeue and one
for each cycle, an opcode `P(run)0` counting for one cycle. -/
def queueWeight (runMeta : MetaDataType) : Nat :=
  (max 1 runMeta.cycles).toNat + 1

/-- The work a process has left: the cycles of the current opcode and the
weights of the queued ones. -/
def workLeft (running : Process) : Nat :=
  running.current.cycles.toNat + (running.metaData.map queueWeight).sum

/-- The measure of a process for the scheduler loop: nothing once in `EXIT`. -/
def processMeasure (running : Process) : Nat :=
  if running.control.state = EXIT then 0 else workLeft running

/-- The measure of the process table. -/
def tableMeasure (program : List Process) : Nat :=
  (program.map processMeasure).sum

/-- The invariant of the scheduler loop for a workload without I/O. -/
def BatchTable (st : MainState) : Prop :=
  (∀ p ∈ st.program, BatchProcess p ∧ p.timeRemaining < 100000) ∧
  -1 ≤ st.processIndex

/-- The invariant of the loop of `runProcess` for a workload without I/O. -/
def BatchLoop (st : RunProcessState) : Prop :=
  BatchProcess st.running ∧ st.dequeued = true ∧ 0 ≤ st.cyclesRun

/-! ## Definitions for the shortest-job branch -/

/-- The process at index `k` is the first one of least `timeRemaining` among
the processes of `program` that are not in `EXIT`, and that value is `least`,
below the initial `minTimeRemaining` of 100000. -/
def ShortestIn (program : List Process) (k : Nat) (least : Int) : Prop :=
  ∃ p, program[k]? = some p ∧ p.control.state ≠ EXIT ∧ p.timeRemaining = least ∧
    least < 100000 ∧
    (∀ (j : Nat) (q : Process), program[j]? = some q → q.control.state ≠ EXIT → j < k →
      least < q.timeRemaining) ∧
    (∀ (j : Nat) (q : Process), program[j]? = some q → q.control.state ≠ EXIT →
      least ≤ q.timeRemaining)

/-- The invariant of the scan of the shortest-job branch (lines 858-868) after
the processes `scanned`: either nothing was assigned and no scanned process
qualifies, or `retIndex` is the first scanned process of least `timeRemaining`
and `minTimeRemaining` is that value. -/
def SjfInv (scanned : List Process) (minTimeRemaining : Int) (retIndex : Option Int) : Prop :=
  (retIndex = none ∧ minTimeRemaining = 100000 ∧
    ∀ q ∈ scanned, ¬ (q.control.state ≠ EXIT ∧ q.timeRemaining < 100000)) ∨
  ∃ k : Nat, retIndex = some (k : Int) ∧ ShortestIn scanned k minTimeRemaining

/-- The condition under which the dequeue step of `runProcess` takes nothing
off the work of a process: no negative cache count, and every queued opcode
with descriptor `run` has at least one cycle. -/
def PositiveRuns (running : Process) : Prop :=
  0 ≤ running.cacheCount ∧ ∀ m ∈ running.metaData, m.descriptor = "run" → 1 ≤ m.cycles

instance (running : Process) : Decidable (PositiveRuns running) := by
  unfold PositiveRuns; exact inferInstance

/-- The invariant of the loop of `runProcess` behind the shortest-job claims:
`timeRemaining` has not gone above `bound` and the counter is not negative. -/
def ChargedLoop (bound : Int) (st : RunProcessState) : Prop :=
  PositiveRuns st.running ∧ st.running.timeRemaining ≤ bound ∧ 0 ≤ st.cyclesRun

/-- Metadata of scenario S5: a process of 20 cycles, then one of 5 cycles. -/
def shortestSecond : List MetaDataType :=
  [opcode 'A' "start" 0, opcode 'P' "run" 20, opcode 'A' "end" 0,
   opcode 'A' "start" 0, opcode 'P' "run" 5, opcode 'A' "end" 0]

/-- Metadata `A(start)0; M(run)-60; P(run)50; A(end)0; A(start)0; P(run)1; A(end)0`:
the first process has an opcode with descriptor `run` that is no `P(run)`. -/
def memoryRunFirst : List MetaDataType :=
  [opcode 'A' "start" 0, opcode 'M' "run" (-60), opcode 'P' "run" 50, opcode 'A' "end" 0,
   opcode 'A' "start" 0, opcode 'P' "run" 1, opcode 'A' "end" 0]

/-- What the scan of lines 248-260 does to one process: a process in `EXIT`
without threads that has not been reported is marked `completed`. -/
def markCompleted (p : Process) : Process :=
  if p.control.state = EXIT ∧ p.completed = false ∧ p.runningThreads = 0 then
    { p with completed := true } else p

/-- The state of the scheduler loop after a pass that selected index `k` under
the shortest-job policy: the condition on the `run` opcodes holds for the
table, and while the process at `k` is not in `EXIT` it is still the first one
of least `timeRemaining`. -/
def SelectedShortest (st : MainState) (k : Nat) : Prop :=
  (∀ p ∈ st.program, PositiveRuns p) ∧ st.processIndex = (k : Int) ∧
  ((∃ p, st.program[k]? = some p ∧ p.control.state ≠ EXIT) →
    ∃ least, ShortestIn st.program k least)

/-- Metadata of two processes without I/O: a cache operation before a `P(run)`,
and an allocation. -/
def batchWorkload : List MetaDataType :=
  [opcode 'S' "start" 0, opcode 'A' "start" 0, opcode 'M' "cache" 2, opcode 'P' "run" 7,
   opcode 'A' "end" 0, opcode 'A' "start" 0, opcode 'M' "allocate" 1, opcode 'P' "run" 0,
   opcode 'A' "end" 0, opcode 'S' "end" 0]

/-! ## The queue on its storage (`SimpleQueue.cpp`, lines 74-111)

The functions `SimpleQueue.enqueue` and `SimpleQueue.dequeue` above give the
queue as the list of its items.  Here are the two methods as the source has
them, on the cells of the list the class is derived from. -/

/-- Modelled from the spec: method `resize` of class `SimpleList`, whose header
is not among the sources.  The claim takes the list to store and resize
correctly: the list gets `newCapacity` cells, keeps the items that fit and
fills new cells with default items. -/
def SimpleList.resize {α : Type} [Inhabited α] (listData : List α) (newCapacity : Nat) :
    List α :=
  (listData ++ List.replicate (newCapacity - listData.length) default).take newCapacity

/-- The members of a `SimpleQueue`: the cells `listData` of the list it is
derived from (their number is the capacity) and `queueSize`. -/
structure SimpleQueue.State (α : Type) where
  listData : List α
  queueSize : Nat

/-- The constructor (lines 20-27): a list of `INITIAL_CAPACITY` cells, a
constant of the header that is not among the sources, and `queueSize = 0`. -/
def SimpleQueue.State.init {α : Type} [Inhabited α] (INITIAL_CAPACITY : Nat) :
    SimpleQueue.State α :=
  { listData := List.replicate INITIAL_CAPACITY default, queueSize := 0 }

/-- Method `getCapacity` of the list: the number of its cells. -/
def SimpleQueue.State.getCapacity {α : Type} (q : SimpleQueue.State α) : Nat :=
  q.listData.length

/-- Method `isEmpty` (lines 64-71). -/
def SimpleQueue.State.isEmpty {α : Type} (q : SimpleQueue.State α) : Bool :=
  q.queueSize == 0

/-- Method `enqueue` (lines 74-87): a full list is resized to
`getCapacity() * 1.25`, converted to an integer, then the item is stored in
cell `queueSize`.  A cell outside the list has no value. -/
def SimpleQueue.State.enqueue {α : Type} [Inhabited α] (q : SimpleQueue.State α)
    (enqueueData : α) : Option (SimpleQueue.State α) :=
  let listData1 :=
    if q.queueSize = q.getCapacity then SimpleList.resize q.listData (q.getCapacity * 5 / 4)
    else q.listData
  if q.queueSize < listData1.length then
    some { listData := listData1.set q.queueSize enqueueData, queueSize := q.queueSize + 1 }
  else none

/-- Lines 101-104: the loop of `dequeue` that moves the items one cell forward,
at most `fuel` passes. -/
def SimpleQueue.shiftLoop {α : Type} (queueSize : Nat) : Nat → Nat → List α → Option (List α)
  | 0, index, listData => if index < queueSize then none else some listData
  | fuel + 1, index, listData =>
    if index < queueSize then
      match listData[index + 1]? with
      | none => none
      | some item => SimpleQueue.shiftLoop queueSize fuel (index + 1) (listData.set index item)
    else some listData

/-- Method `dequeue` (lines 89-111).  The result is `(returned flag, output
argument, queue)`. -/
def SimpleQueue.State.dequeue {α : Type} (q : SimpleQueue.State α) (dequeueData : α) :
    Option (Bool × α × SimpleQueue.State α) :=
  if !q.isEmpty then
    match q.listData[0]? with
    | none => none
    | some item =>
      match SimpleQueue.shiftLoop (q.queueSize - 1) (q.queueSize - 1) 0 q.listData with
      | none => none
      | some listData1 =>
        some (true, item, { listData := listData1, queueSize := q.queueSize - 1 })
  else some (false, dequeueData, q)

/-- The items of the list enqueued one after the other. -/
def SimpleQueue.State.enqueueAll {α : Type} [Inhabited α] :
    SimpleQueue.State α → List α → Option (SimpleQueue.State α)
  | q, [] => some q
  | q, item :: rest =>
    match q.enqueue item with
    | none => none
    | some q1 => SimpleQueue.State.enqueueAll q1 rest

/-- A sequence of `n` calls of `dequeue` on the same output argument: the flags
and the values of the argument after each call, the argument after the last
call, and the queue. -/
def SimpleQueue.State.dequeueAll {α : Type} :
    Nat → SimpleQueue.State α → α → Option (List (Bool × α) × α × SimpleQueue.State α)
  | 0, q, dequeueData => some ([], dequeueData, q)
  | n + 1, q, dequeueData =>
    match q.dequeue dequeueData with
    | none => none
    | some (flag, data1, q1) =>
      match SimpleQueue.State.dequeueAll n q1 data1 with
      | none => none
      | some (results, data2, q2) => some ((flag, data1) :: results, data2, q2)

/-- The items a queue holds, the oldest first: the cells below `queueSize`. -/
def SimpleQueue.State.items {α : Type} (q : SimpleQueue.State α) : List α :=
  q.listData.take q.queueSize

/-- The invariant of the storage: the items fit, and the capacity is at least
4, from which on `getCapacity() * 1.25` is a larger integer. -/
def SimpleQueue.State.Valid {α : Type} (q : SimpleQueue.State α) : Prop :=
  q.queueSize ≤ q.listData.length ∧ 4 ≤ q.listData.length

/-! ## The parsing of a token (`Sim04.cpp`, lines 523-541 and 573-619) -/

/-- The character `in[index]` of a `std::string` with the characters `s`: the
characters, then the null character at `index = size`; an index behind that has
no value. -/
def charAt (s : List Char) (index : Nat) : Option Char :=
  if index < s.length then s[index]?
  else if index = s.length then some (Char.ofNat 0)
  else none

/-- The loops `while( in[index] != stop ) index++` of `parseData` and
`parseCycles`, at most `fuel` steps: the first index from `index` on that
holds `stop`. -/
def skipTo (s : List Char) (stop : Char) : Nat → Nat → Option Nat
  | 0, _ => none
  | fuel + 1, index =>
    match charAt s index with
    | none => none
    | some c => if c ≠ stop then skipTo s stop fuel (index + 1) else some index

/-- The loops `while( in[index] != stop ) { out.push_back( in[index] ); index++; }`
of `parseData` and `parseCycles`, at most `fuel` steps. -/
def collectTo (s : List Char) (stop : Char) : Nat → Nat → List Char → Option (List Char)
  | 0, _, _ => none
  | fuel + 1, index, out =>
    match charAt s index with
    | none => none
    | some c => if c ≠ stop then collectTo s stop fuel (index + 1) (out ++ [c]) else some out

/-- Function `string parseData( const string& in )`: the text between the first
`(` and the next `)`.  The loops are given `size + 2` steps, one more than the
indices that have a value. -/
def parseData (s : List Char) : Option (List Char) :=
  if s ≠ [] then
    match skipTo s '(' (s.length + 2) 0 with
    | none => none
    | some index => collectTo s ')' (s.length + 2) (index + 1) []
  else some []

/-- The value of a string of decimal digits read from the left. -/
def digitsValue (digits : List Char) : Int :=
  digits.foldl (fun value c => value * 10 + ((c.toNat : Int) - 48)) 0

/-- Function `atoi` of the C library on a string: white space is skipped, a
sign is read, then the decimal digits; what follows them is ignored.  A value
outside `int` is undefined and has no value here. -/
def atoi (s : List Char) : Option Int :=
  let s1 := s.dropWhile fun c => c = ' ' ∨ (9 ≤ c.toNat ∧ c.toNat ≤ 13)
  let negative := s1.head? = some '-'
  let s2 := if s1.head? = some '-' ∨ s1.head? = some '+' then s1.drop 1 else s1
  let value := digitsValue (s2.takeWhile fun c => c.isDigit)
  let result := if negative then -value else value
  if -2147483648 ≤ result ∧ result < 2147483648 then some result else none

/-- Function `int parseCycles( const string& in )`: `atoi` of the text between
the first `)` and the null character. -/
def parseCycles (s : List Char) : Option Int :=
  if s ≠ [] then
    match skipTo s ')' (s.length + 2) 0 with
    | none => none
    | some index =>
      match collectTo s (Char.ofNat 0) (s.length + 2) (index + 1) [] with
      | none => none
      | some cycleStr => atoi cycleStr
  else atoi []

/-- Line 528: `buffer.compare(" ") > 0`, the comparison of the buffer with the
string of one space. -/
def isToken (buffer : List Char) : Bool :=
  match buffer with
  | [] => false
  | c :: rest => decide (' ' < c) || (c == ' ' && !rest.isEmpty)

/-- Lines 530-538: the opcode built from the buffer, a leading space removed. -/
def tokenOpcode (buffer : List Char) : Option MetaDataType :=
  let buffer1 := if buffer.head? = some ' ' then buffer.drop 1 else buffer
  match charAt buffer1 0, parseData buffer1, parseCycles buffer1 with
  | some code, some descriptor, some cycles =>
    some { code := code, descriptor := String.mk descriptor, cycles := cycles, started := false }
  | _, _, _ => none

/-- The characters of a token `<code>(<descriptor>)<cycles>`. -/
def tokenChars (code : Char) (descriptor cycles : List Char) : List Char :=
  code :: '(' :: descriptor ++ ')' :: cycles

/-! ## Definitions for the lines `OS: process N completed` -/

/-- The process number a line of the log is about; the first and the last
line of the log are about none. -/
def lineProcess : LogLine → Option Int
  | LogLine.simulatorStarting => none
  | LogLine.simulatorEnding => none
  | LogLine.osPreparing n => some n
  | LogLine.osStarting n => some n
  | LogLine.osCompleted n => some n
  | LogLine.startProcessing n => some n
  | LogLine.endProcessing n => some n
  | LogLine.interruptProcessing n => some n
  | LogLine.allocatingMemory n => some n
  | LogLine.memoryAllocated n _ => some n
  | LogLine.interruptAllocation n => some n
  | LogLine.startCaching n => some n
  | LogLine.endCaching n => some n
  | LogLine.interruptCaching n => some n

/-- A process without I/O opcodes, current or queued. -/
def NoIO (running : Process) : Prop :=
  (running.current.code ≠ 'I' ∧ running.current.code ≠ 'O') ∧
  ∀ m ∈ running.metaData, m.code ≠ 'I' ∧ m.code ≠ 'O'

/-- The stream `out1` is `out` followed by lines of `run` that are all about
process `n`. -/
def LinesOf (n : Int) (out out1 : List LogLine) : Prop :=
  ∃ added, out1 = out ++ added ∧
    ∀ l ∈ added, isRunnerLine l = true ∧ lineProcess l = some n

/-- The log has the line `OS: process n completed` once, and no line about
process `n` behind it. -/
def CompletedOnce (n : Int) (log : List LogLine) : Prop :=
  ∃ pre post, log = pre ++ LogLine.osCompleted n :: post ∧
    LogLine.osCompleted n ∉ pre ∧ ∀ l ∈ post, lineProcess l ≠ some n

/-- The invariant of the scheduler loop behind the `completed` lines, for a
table without I/O whose process at index `i` has the number `i + 1`: no thread
is counted, a process that is not in `EXIT` is not marked `completed` and has
no `completed` line, and a process in `EXIT` is marked and has its line. -/
def CompletedInv (st : MainState) : Prop :=
  st.sh.threadCount = 0 ∧
  ∀ (i : Nat) (p : Process), st.program[i]? = some p →
    NoIO p ∧ p.control.processNum = (i : Int) + 1 ∧ p.runningThreads = 0 ∧
    (p.control.state ≠ EXIT →
      p.completed = false ∧ st.sh.output.count (LogLine.osCompleted ((i : Int) + 1)) = 0) ∧
    (p.control.state = EXIT →
      p.completed = true ∧ CompletedOnce ((i : Int) + 1) st.sh.output)

/-- An opcode on which `run` makes no progress: it has cycles, its code is none
of `P`, `M`, `I` and `O`, and it neither sets `EXIT` nor has the descriptor
`run`. -/
def isIdleOpcode (runMeta : MetaDataType) : Prop :=
  0 < runMeta.cycles ∧ runMeta.code ≠ 'P' ∧ runMeta.code ≠ 'M' ∧ runMeta.code ≠ 'I' ∧
  runMeta.code ≠ 'O' ∧ ¬ isEndOpcode runMeta ∧ runMeta.descriptor ≠ "run"

/-- A process that cannot get past an opcode: it is not in `EXIT`, and its
current opcode is such an opcode, or is used up, sets no `EXIT` and is followed
by such an opcode at the head of the queue. -/
def IdleProcess (running : Process) : Prop :=
  running.control.state ≠ EXIT ∧
  (isIdleOpcode running.current ∨
    (running.current.cycles ≤ 0 ∧ ¬ isEndOpcode running.current ∧
      ∃ m rest, running.metaData = m :: rest ∧ isIdleOpcode m))

/-- Metadata `A(start)1; A(end)0`: a marker with a cycle. -/
def markerWithCycle : List MetaDataType :=
  [opcode 'A' "start" 1, opcode 'A' "end" 0]

/-! ## `timePassed` (`SimulatorFunctions.cpp`, lines 80-101) -/

/-- The two fields of `struct timeval`. -/
structure Timeval where
  tv_sec : Int
  tv_usec : Int
deriving DecidableEq

/-- Function `int timePassed( struct timeval refTime )`, with the time that
`gettimeofday` stores into `currentTime` as a second argument.  The two
differences are converted to the `int` locals `seconds` and `microsec`;
overflow of the `int` arithmetic is taken to wrap. -/
def timePassed (refTime currentTime : Timeval) : Int :=
  let seconds := toInt32 (currentTime.tv_sec - refTime.tv_sec)
  let microsec := toInt32 (currentTime.tv_usec - refTime.tv_usec)
  let microsec1 := if microsec < 0 then toInt32 (microsec + 1000000) else microsec
  let seconds1 := if microsec < 0 then toInt32 (seconds - 1) else seconds
  if seconds1 > 0 then toInt32 (microsec1 + toInt32 (seconds1 * 1000000)) else microsec1

/-- The time `usec` microseconds after second `sec`. -/
def timevalOf (sec usec : Int) : Timeval := { tv_sec := sec, tv_usec := usec }

/-! ## The slot scan of `ioThread` (`Sim04.cpp`, lines 888-895, 942, 1001-1008, 1034) -/

/-- Lines 888-895 and 1001-1008: the loop
`for( semNum = 0; semNum < count; semNum++ )` from `semNum` on, at most `fuel`
passes; the first entry found `false` is set and the loop is left.  An entry
outside the bitmap has no value. -/
def slotScanLoop (count : Int) : Nat → Nat → List Bool → Option (Nat × List Bool)
  | 0, semNum, used => if (semNum : Int) < count then none else some (semNum, used)
  | fuel + 1, semNum, used =>
    if (semNum : Int) < count then
      match used[semNum]? with
      | none => none
      | some b =>
        if b = false then some (semNum, used.set semNum true)
        else slotScanLoop count fuel (semNum + 1) used
    else some (semNum, used)

/-- The slot scan of a worker over the bitmap `used` of a class of `count`
devices: the recorded `semNum` and the bitmap after the scan.  The loop makes
at most `count` passes. -/
def slotScan (count : Int) (used : List Bool) : Option (Nat × List Bool) :=
  slotScanLoop count count.toNat 0 used

/-- Lines 942 and 1034: `hdUsed[semNum] = false` and `printerUsed[semNum] = false`. -/
def slotClear (used : List Bool) (semNum : Nat) : Option (List Bool) :=
  if semNum < used.length then some (used.set semNum false) else none

/-! ## Definitions for the lines of one call of `run` -/

/-- The interrupt line of an opcode of process `n`: `interrupt processing
action`, `interrupt memory allocation` or `interrupt memory caching`. -/
def isInterruptLine (runMeta : MetaDataType) (n : Int) (l : LogLine) : Bool :=
  if runMeta.code = 'P' then decide (l = LogLine.interruptProcessing n)
  else if runMeta.code = 'M' ∧ runMeta.descriptor = "allocate" then
    decide (l = LogLine.interruptAllocation n)
  else if runMeta.code = 'M' ∧ runMeta.descriptor = "cache" then
    decide (l = LogLine.interruptCaching n)
  else false

/-- The state of the loop of `runProcess` after `n` passes, or when the loop
has ended before. -/
def runProcessPasses (cfg : ConfigType) : Nat → RunProcessState → Option RunProcessState
  | 0, st => some st
  | n + 1, st =>
    if runProcessCond cfg st then
      let st1 := fetch st
      if st1.dequeued then
        match run st1.running st1.sh cfg st1.cyclesRun with
        | none => none
        | some (p, sh, c) =>
          runProcessPasses cfg n { st1 with running := p, sh := sh, cyclesRun := c }
      else runProcessPasses cfg n st1
    else some st

/-- A process whose current opcode is `runMeta`, in state `NEW`. -/
def processAt (runMeta : MetaDataType) : Process :=
  { newProcess with control := { state := NEW, processNum := 1 }, current := runMeta }

/-- The state the opcodes `S(start)`, `A(start)`, `S(end)` and `A(end)` set. -/
def markerState (runMeta : MetaDataType) : Int :=
  if runMeta.descriptor = "start" then (if runMeta.code = 'S' then READY else RUNNING)
  else EXIT

/-! ## Definitions for the calls of `getSchedule` by the scheduler loop -/

/-- The index the scheduler loop passes to `getSchedule` is `-1` or an index
of the table. -/
def IndexInv (st : MainState) : Prop :=
  -1 ≤ st.processIndex ∧ st.processIndex < st.program.length

/-! ## The lines of the workers and the text of the log
(`Sim04.cpp`, lines 63-64, 716-722 and 900-1030) -/

/-- A line appended to the stream `output` by a worker, without its time stamp:
`n` is the process number and `semNum` the slot written into the line. -/
inductive IoLine where
  /-- Line `Process n start hard drive input on HDD semNum` -/
  | startHardDriveInput (n : Int) (semNum : Int)
  /-- Line `Process n end hard drive input on HDD semNum` -/
  | endHardDriveInput (n : Int) (semNum : Int)
  /-- Line `Process n start hard drive output on HDD semNum` -/
  | startHardDriveOutput (n : Int) (semNum : Int)
  /-- Line `Process n end hard drive output on HDD semNum` -/
  | endHardDriveOutput (n : Int) (semNum : Int)
  /-- Line `Process n start keyboard input` -/
  | startKeyboardInput (n : Int)
  /-- Line `Process n end keyboard input` -/
  | endKeyboardInput (n : Int)
  /-- Line `Process n start monitor output` -/
  | startMonitorOutput (n : Int)
  /-- Line `Process n end monitor output` -/
  | endMonitorOutput (n : Int)
  /-- Line `Process n start printer output on PRNTR semNum` -/
  | startPrinterOutput (n : Int) (semNum : Int)
  /-- Line `Process n end printer output on PRNTR semNum` -/
  | endPrinterOutput (n : Int) (semNum : Int)
deriving DecidableEq

/-- The digits of `x` to base 16, in lower case. -/
def hexDigits (x : Nat) : String := String.mk (Nat.toDigits 16 x)

/-- What `output << x` writes for an `int`: with the flag `hex` set on the
stream the value converted to `unsigned int` in base 16, and the decimal
numeral otherwise. -/
def showInt (hex : Bool) (x : Int) : String :=
  if hex then hexDigits (toUInt32 x) else toString x

/-- What `hex << "0x" << setw(8) << setfill('0') << memoryLocation` writes
(line 720): eight digits to base 16, filled with zeros on the left. -/
def showAddress (address : Nat) : String :=
  "0x" ++ String.mk (List.replicate (8 - (Nat.toDigits 16 address).length) '0')
    ++ hexDigits address

/-- The text of a line of the scheduler thread behind its time stamp, on a
stream whose flag `hex` has the given value when the line is written. -/
def LogLine.text (hex : Bool) : LogLine → String
  | LogLine.simulatorStarting => "Simulator program starting"
  | LogLine.simulatorEnding => "Simulator program ending"
  | LogLine.osPreparing n => "OS: preparing process " ++ showInt hex n
  | LogLine.osStarting n => "OS: starting process " ++ showInt hex n
  | LogLine.osCompleted n => "OS: process " ++ showInt hex n ++ " completed"
  | LogLine.startProcessing n => "Process " ++ showInt hex n ++ " start processing action"
  | LogLine.endProcessing n => "Process " ++ showInt hex n ++ " end processing action"
  | LogLine.interruptProcessing n =>
    "Process " ++ showInt hex n ++ " interrupt processing action"
  | LogLine.allocatingMemory n => "Process " ++ showInt hex n ++ " allocating memory"
  | LogLine.memoryAllocated n address =>
    "Process " ++ showInt hex n ++ " memory allocated at " ++ showAddress address
  | LogLine.interruptAllocation n =>
    "Process " ++ showInt hex n ++ " interrupt memory allocation"
  | LogLine.startCaching n => "Process " ++ showInt hex n ++ " start memory caching"
  | LogLine.endCaching n => "Process " ++ showInt hex n ++ " end memory caching"
  | LogLine.interruptCaching n => "Process " ++ showInt hex n ++ " interrupt memory caching"

/-- The text of a line of a worker behind its time stamp. -/
def IoLine.text (hex : Bool) : IoLine → String
  | IoLine.startHardDriveInput n semNum =>
    "Process " ++ showInt hex n ++ " start hard drive input on HDD " ++ showInt hex semNum
  | IoLine.endHardDriveInput n semNum =>
    "Process " ++ showInt hex n ++ " end hard drive input on HDD " ++ showInt hex semNum
  | IoLine.startHardDriveOutput n semNum =>
    "Process " ++ showInt hex n ++ " start hard drive output on HDD " ++ showInt hex semNum
  | IoLine.endHardDriveOutput n semNum =>
    "Process " ++ showInt hex n ++ " end hard drive output on HDD " ++ showInt hex semNum
  | IoLine.startKeyboardInput n => "Process " ++ showInt hex n ++ " start keyboard input"
  | IoLine.endKeyboardInput n => "Process " ++ showInt hex n ++ " end keyboard input"
  | IoLine.startMonitorOutput n => "Process " ++ showInt hex n ++ " start monitor output"
  | IoLine.endMonitorOutput n => "Process " ++ showInt hex n ++ " end monitor output"
  | IoLine.startPrinterOutput n semNum =>
    "Process " ++ showInt hex n ++ " start printer output on PRNTR " ++ showInt hex semNum
  | IoLine.endPrinterOutput n semNum =>
    "Process " ++ showInt hex n ++ " end printer output on PRNTR " ++ showInt hex semNum

/-- The text of a line of the stream, of the scheduler thread or of a worker. -/
def lineText (hex : Bool) : LogLine ⊕ IoLine → String
  | Sum.inl l => l.text hex
  | Sum.inr l => l.text hex

/-- The line `memory allocated at` inserts the manipulator `hex` into the
stream (line 720); no line takes it back. -/
def setsHex : LogLine ⊕ IoLine → Bool
  | Sum.inl (LogLine.memoryAllocated _ _) => true
  | _ => false

/-- The texts of the lines of the stream in the order they are written, from
the value of the flag `hex` on. -/
def renderStream : Bool → List (LogLine ⊕ IoLine) → List String
  | _, [] => []
  | hex, l :: rest => lineText hex l :: renderStream (hex || setsHex l) rest

/-- The texts of a log of the scheduler thread; the stream starts in base 10. -/
def renderLog (log : List LogLine) : List String :=
  renderStream false (log.map Sum.inl)

/-- The process number a line is written with. -/
def streamProcess : LogLine ⊕ IoLine → Option Int
  | Sum.inl l => lineProcess l
  | Sum.inr (IoLine.startHardDriveInput n _) => some n
  | Sum.inr (IoLine.endHardDriveInput n _) => some n
  | Sum.inr (IoLine.startHardDriveOutput n _) => some n
  | Sum.inr (IoLine.endHardDriveOutput n _) => some n
  | Sum.inr (IoLine.startKeyboardInput n) => some n
  | Sum.inr (IoLine.endKeyboardInput n) => some n
  | Sum.inr (IoLine.startMonitorOutput n) => some n
  | Sum.inr (IoLine.endMonitorOutput n) => some n
  | Sum.inr (IoLine.startPrinterOutput n _) => some n
  | Sum.inr (IoLine.endPrinterOutput n _) => some n

/-- Metadata of ten processes: `S(start)0; A(start)0; M(allocate)1; A(end)0`,
nine times `A(start)0; A(end)0`, and `S(end)0`. -/
def tenProcesses : List MetaDataType :=
  [opcode 'S' "start" 0, opcode 'A' "start" 0, opcode 'M' "allocate" 1, opcode 'A' "end" 0] ++
    (List.replicate 9 [opcode 'A' "start" 0, opcode 'A' "end" 0]).flatten ++
    [opcode 'S' "end" 0]

/-! ## The device semaphores and the workers
(`Sim04.cpp`, lines 51-58, 205-220, 770-782 and 874-1037)

The threads of the simulator take steps in any order.  A step of a worker is
one access to the semaphores, the bitmaps, the stream or the counters; a
`sem_wait` on a semaphore of value 0 is no step (the thread stays where it
is).  The scheduler thread touches the device semaphores and the bitmaps
nowhere after lines 205-220; what it does to the workers is to create one for
an I/O opcode and to wait for the flag `threadCreated` (lines 770-782).  The
lines of the scheduler thread and the counter `runningThreads` of the process
that created a worker are not part of this state. -/

/-- The device classes, one for each branch of `ioThread`. -/
inductive Device where
  | hardDrive
  | keyboard
  | monitor
  | printer
deriving DecidableEq

/-- The branch of `ioThread` that the descriptor selects, in the order of the
comparisons at lines 885, 946, 969 and 992. -/
def deviceOf (runMeta : MetaDataType) : Option Device :=
  if runMeta.descriptor = "hard drive" then some Device.hardDrive
  else if runMeta.descriptor = "keyboard" then some Device.keyboard
  else if runMeta.descriptor = "monitor" then some Device.monitor
  else if runMeta.descriptor = "printer" then some Device.printer
  else none

/-- The number of devices of a class: the value its semaphore is initialised
with (lines 205-219). -/
def deviceCount (cfg : ConfigType) : Device → Int
  | Device.hardDrive => cfg.hdCount
  | Device.keyboard => 1
  | Device.monitor => 1
  | Device.printer => cfg.printerCount

/-- The classes with a bitmap: hard drives (`hdUsed`) and printers
(`printerUsed`). -/
def hasSlots : Device → Bool
  | Device.hardDrive => true
  | Device.printer => true
  | _ => false

/-- The place of a worker in `ioThread`: the step it takes next. -/
inductive WorkerPc where
  /-- Before `sem_wait` on the semaphore of the device -/
  | entry
  /-- The semaphore is taken; before `semNum = 0` -/
  | acquired
  /-- Before the test `semNum < count` and the read of the bitmap entry -/
  | scanTest
  /-- Before the write of `true` into the bitmap entry -/
  | scanMark
  /-- Before `sem_wait( &writeOut )` for the start line -/
  | scanned
  /-- Before the start line is written -/
  | startLocked
  /-- Before `sem_post( &writeOut )` behind the start line -/
  | startWritten
  /-- Before `*created = true` -/
  | startReleased
  /-- In the wait for the duration of the operation; before
  `sem_wait( &writeOut )` for the end line -/
  | busy
  /-- Before the end line is written -/
  | endLocked
  /-- Before `sem_post( &writeOut )` behind the end line -/
  | endWritten
  /-- Before the bitmap entry is cleared -/
  | endReleased
  /-- Before `sem_post` on the semaphore of the device -/
  | slotCleared
  /-- Before `threadCount--` -/
  | released
  /-- After `pthread_exit` -/
  | exited
deriving DecidableEq

/-- A worker: the copies of the opcode and of the process number it received
in its `ThreadArg`, its place, its local `semNum` and the flag `*created`. -/
structure Worker where
  runMeta : MetaDataType
  processNum : Int
  pc : WorkerPc
  semNum : Nat
  created : Bool
deriving DecidableEq

/-- The globals the workers share (lines 51-58) and the workers in the order
of their creation: `workers[i]` is the thread `io_thr[i]`. -/
structure IoState where
  monitors : Nat
  hardDrives : Nat
  printers : Nat
  keyboards : Nat
  writeOut : Nat
  hdUsed : List Bool
  printerUsed : List Bool
  threadCount : Int
  workers : List Worker
  output : List IoLine
deriving DecidableEq

/-- Lines 205-220: the semaphores and the bitmaps as `main` initialises them.
With a negative count `new bool[...]` ends the program before any thread
exists. -/
def deviceInit (cfg : ConfigType) : Option IoState :=
  if 0 ≤ cfg.hdCount ∧ 0 ≤ cfg.printerCount then
    some { monitors := 1
           hardDrives := cfg.hdCount.toNat
           printers := cfg.printerCount.toNat
           keyboards := 1
           writeOut := 1
           hdUsed := List.replicate cfg.hdCount.toNat false
           printerUsed := List.replicate cfg.printerCount.toNat false
           threadCount := 0
           workers := []
           output := [] }
  else none

/-- The value of the semaphore of a device class. -/
def IoState.semaphore (st : IoState) : Device → Nat
  | Device.hardDrive => st.hardDrives
  | Device.keyboard => st.keyboards
  | Device.monitor => st.monitors
  | Device.printer => st.printers

/-- The state with the semaphore of a device class at `value`. -/
def IoState.setSemaphore (st : IoState) (d : Device) (value : Nat) : IoState :=
  match d with
  | Device.hardDrive => { st with hardDrives := value }
  | Device.keyboard => { st with keyboards := value }
  | Device.monitor => { st with monitors := value }
  | Device.printer => { st with printers := value }

/-- The bitmap of a device class (none for the keyboard and the monitor). -/
def IoState.used (st : IoState) : Device → List Bool
  | Device.hardDrive => st.hdUsed
  | Device.printer => st.printerUsed
  | _ => []

/-- The state with the bitmap of a device class replaced. -/
def IoState.setUsed (st : IoState) (d : Device) (used : List Bool) : IoState :=
  match d with
  | Device.hardDrive => { st with hdUsed := used }
  | Device.printer => { st with printerUsed := used }
  | _ => st

/-- The state with worker `i` replaced. -/
def IoState.setWorker (st : IoState) (i : Nat) (w : Worker) : IoState :=
  { st with workers := st.workers.set i w }

/-- The start line of a worker on device `d`.  The hard drive branch writes a
line for the codes `I` and `O` only (lines 900 and 921). -/
def startLine (d : Device) (w : Worker) : Option IoLine :=
  match d with
  | Device.hardDrive =>
    if w.runMeta.code = 'I' then some (IoLine.startHardDriveInput w.processNum w.semNum)
    else if w.runMeta.code = 'O' then some (IoLine.startHardDriveOutput w.processNum w.semNum)
    else none
  | Device.keyboard => some (IoLine.startKeyboardInput w.processNum)
  | Device.monitor => some (IoLine.startMonitorOutput w.processNum)
  | Device.printer => some (IoLine.startPrinterOutput w.processNum w.semNum)

/-- The end line of a worker on device `d`. -/
def endLine (d : Device) (w : Worker) : Option IoLine :=
  match d with
  | Device.hardDrive =>
    if w.runMeta.code = 'I' then some (IoLine.endHardDriveInput w.processNum w.semNum)
    else if w.runMeta.code = 'O' then some (IoLine.endHardDriveOutput w.processNum w.semNum)
    else none
  | Device.keyboard => some (IoLine.endKeyboardInput w.processNum)
  | Device.monitor => some (IoLine.endMonitorOutput w.processNum)
  | Device.printer => some (IoLine.endPrinterOutput w.processNum w.semNum)

/-- One step of worker `i` (`ioThread`, lines 874-1037).  There is no step for
a worker that has ended or that waits on a semaphore of value 0; an access
outside a bitmap has no value either. -/
def workerStep (cfg : ConfigType) (st : IoState) (i : Nat) : Option IoState :=
  match st.workers[i]? with
  | none => none
  | some w =>
    match w.pc, deviceOf w.runMeta with
    | WorkerPc.entry, none => some (st.setWorker i { w with pc := WorkerPc.released })
    | WorkerPc.entry, some d =>
      if 0 < st.semaphore d then
        some ((st.setSemaphore d (st.semaphore d - 1)).setWorker i
          { w with pc := WorkerPc.acquired })
      else none
    | WorkerPc.acquired, some d =>
      if hasSlots d then some (st.setWorker i { w with pc := WorkerPc.scanTest, semNum := 0 })
      else some (st.setWorker i { w with pc := WorkerPc.scanned })
    | WorkerPc.scanTest, some d =>
      if (w.semNum : Int) < deviceCount cfg d then
        match (st.used d)[w.semNum]? with
        | none => none
        | some b =>
          if b = false then some (st.setWorker i { w with pc := WorkerPc.scanMark })
          else some (st.setWorker i { w with semNum := w.semNum + 1 })
      else some (st.setWorker i { w with pc := WorkerPc.scanned })
    | WorkerPc.scanMark, some d =>
      if w.semNum < (st.used d).length then
        some ((st.setUsed d ((st.used d).set w.semNum true)).setWorker i
          { w with pc := WorkerPc.scanned })
      else none
    | WorkerPc.scanned, some d =>
      match startLine d w with
      | none => some (st.setWorker i { w with pc := WorkerPc.endReleased })
      | some _ =>
        if 0 < st.writeOut then
          some ({ st with writeOut := st.writeOut - 1 }.setWorker i
            { w with pc := WorkerPc.startLocked })
        else none
    | WorkerPc.startLocked, some d =>
      match startLine d w with
      | none => none
      | some l =>
        some ({ st with output := st.output ++ [l] }.setWorker i
          { w with pc := WorkerPc.startWritten })
    | WorkerPc.startWritten, some _ =>
      some ({ st with writeOut := st.writeOut + 1 }.setWorker i
        { w with pc := WorkerPc.startReleased })
    | WorkerPc.startReleased, some _ =>
      some (st.setWorker i { w with pc := WorkerPc.busy, created := true })
    | WorkerPc.busy, some _ =>
      if 0 < st.writeOut then
        some ({ st with writeOut := st.writeOut - 1 }.setWorker i
          { w with pc := WorkerPc.endLocked })
      else none
    | WorkerPc.endLocked, some d =>
      match endLine d w with
      | none => none
      | some l =>
        some ({ st with output := st.output ++ [l] }.setWorker i
          { w with pc := WorkerPc.endWritten })
    | WorkerPc.endWritten, some _ =>
      some ({ st with writeOut := st.writeOut + 1 }.setWorker i
        { w with pc := WorkerPc.endReleased })
    | WorkerPc.endReleased, some d =>
      if hasSlots d then
        match slotClear (st.used d) w.semNum with
        | none => none
        | some used =>
          some ((st.setUsed d used).setWorker i { w with pc := WorkerPc.slotCleared })
      else some (st.setWorker i { w with pc := WorkerPc.slotCleared })
    | WorkerPc.slotCleared, some d =>
      some ((st.setSemaphore d (st.semaphore d + 1)).setWorker i
        { w with pc := WorkerPc.released })
    | WorkerPc.released, _ =>
      some ({ st with threadCount := st.threadCount - 1 }.setWorker i
        { w with pc := WorkerPc.exited })
    | _, _ => none

/-- Lines 770-782 of `run`: for an opcode of code `I` or `O` the thread is
counted and created at the next index of `io_thr`.  The scheduler thread gets
here only when it has left the wait `while( !threadCreated )` for the workers
it created before. -/
def spawnWorker (st : IoState) (runMeta : MetaDataType) (processNum : Int) :
    Option IoState :=
  if (runMeta.code = 'I' ∨ runMeta.code = 'O') ∧ (st.workers.length : Int) < MAX_THREADS ∧
      st.workers.all (fun w => w.created) = true then
    some { st with
      threadCount := st.threadCount + 1
      workers := st.workers ++
        [{ runMeta := runMeta, processNum := processNum, pc := WorkerPc.entry, semNum := 0,
           created := false }] }
  else none

/-- A step of one thread: the scheduler thread creates a worker, or worker `i`
takes its next step. -/
inductive ThreadStep where
  | create (runMeta : MetaDataType) (processNum : Int)
  | worker (i : Nat)
deriving DecidableEq

/-- The state after one step of a thread. -/
def threadStep (cfg : ConfigType) (st : IoState) : ThreadStep → Option IoState
  | ThreadStep.create runMeta processNum => spawnWorker st runMeta processNum
  | ThreadStep.worker i => workerStep cfg st i

/-- An interleaving of the threads is the list of their steps in the order
they are taken; the state after it. -/
def interleave (cfg : ConfigType) : List ThreadStep → IoState → Option IoState
  | [], st => some st
  | s :: rest, st =>
    match threadStep cfg st s with
    | none => none
    | some st1 => interleave cfg rest st1

/-- The state after an interleaving that starts when `main` has initialised
the semaphores. -/
def deviceRun (cfg : ConfigType) (steps : List ThreadStep) : Option IoState :=
  (deviceInit cfg).bind (interleave cfg steps)

/-- The device class of a start line. -/
def IoLine.startOf : IoLine → Option Device
  | IoLine.startHardDriveInput _ _ => some Device.hardDrive
  | IoLine.startHardDriveOutput _ _ => some Device.hardDrive
  | IoLine.startKeyboardInput _ => some Device.keyboard
  | IoLine.startMonitorOutput _ => some Device.monitor
  | IoLine.startPrinterOutput _ _ => some Device.printer
  | _ => none

/-- The device class of an end line. -/
def IoLine.endOf : IoLine → Option Device
  | IoLine.endHardDriveInput _ _ => some Device.hardDrive
  | IoLine.endHardDriveOutput _ _ => some Device.hardDrive
  | IoLine.endKeyboardInput _ => some Device.keyboard
  | IoLine.endMonitorOutput _ => some Device.monitor
  | IoLine.endPrinterOutput _ _ => some Device.printer
  | _ => none

/-- The number of workers of class `d` that have written their start line and
not yet their end line: the start lines of the class in the log less its end
lines. -/
def inFlight (d : Device) (log : List IoLine) : Int :=
  (log.countP (fun l => decide (l.startOf = some d)) : Int)
    - (log.countP (fun l => decide (l.endOf = some d)) : Int)

/-- The places at which a worker holds the semaphore of its device. -/
def WorkerPc.holds : WorkerPc → Bool
  | WorkerPc.entry => false
  | WorkerPc.released => false
  | WorkerPc.exited => false
  | _ => true

/-- The places between the start line and the end line. -/
def WorkerPc.started : WorkerPc → Bool
  | WorkerPc.startWritten => true
  | WorkerPc.startReleased => true
  | WorkerPc.busy => true
  | WorkerPc.endLocked => true
  | _ => false

/-- Whether the worker holds the semaphore of class `d`, as 0 or 1. -/
def holdsDevice (d : Device) (w : Worker) : Int :=
  if deviceOf w.runMeta = some d ∧ w.pc.holds = true then 1 else 0

/-- Whether the worker is between its start line and its end line on class
`d`, as 0 or 1. -/
def runsDevice (d : Device) (w : Worker) : Int :=
  if deviceOf w.runMeta = some d ∧ w.pc.started = true then 1 else 0

/-- The invariant of the interleavings: for every class the value of the
semaphore and the workers that hold it add up to the number of devices, and
the start lines without end line are those of the workers between the two. -/
def DeviceInv (cfg : ConfigType) (st : IoState) : Prop :=
  ∀ d : Device,
    (st.semaphore d : Int) + (st.workers.map (holdsDevice d)).sum = deviceCount cfg d ∧
    inFlight d st.output = (st.workers.map (runsDevice d)).sum

/-- Scenario S3: two workers for `I(hard drive)2` with one hard drive.  The
second is created when the first has set its flag, and takes the semaphore
when the first has released it. -/
def hardDriveContention : List ThreadStep :=
  [ThreadStep.create (opcode 'I' "hard drive" 2) 1] ++ List.replicate 8 (ThreadStep.worker 0) ++
  [ThreadStep.create (opcode 'I' "hard drive" 2) 2] ++ List.replicate 5 (ThreadStep.worker 0) ++
  List.replicate 8 (ThreadStep.worker 1) ++ [ThreadStep.worker 0] ++
  List.replicate 6 (ThreadStep.worker 1)
/-! ## `readInput` and `main` for any content of the unassigned fields
(`Sim04.cpp`, lines 508 and 556)

`new Process` default-initialises the object: the queue and the string
`current.descriptor` are constructed empty, every other field holds what the
memory held.  `readInput` assigns `timeRemaining` at once and `processNum`,
`completed`, `cacheCount` and `runningThreads` before the process is appended;
`control.state` and the members `code`, `cycles` and `started` of `current` are
read by `runProcess` and by the scheduler loop without having been assigned. -/

/-- The content of the fields of a `new Process` that `readInput` does not
assign. -/
structure Unassigned where
  state : Int
  code : Char
  cycles : Int
  started : Bool
deriving DecidableEq

/-- The process with the unassigned fields holding `garbage`. -/
def withUnassigned (garbage : Unassigned) (p : Process) : Process :=
  { p with
    control := { p.control with state := garbage.state }
    current := { code := garbage.code, descriptor := "", cycles := garbage.cycles,
                 started := garbage.started } }

/-- The object `new Process` whose unassigned fields hold `garbage`. -/
def newProcessWith (garbage : Unassigned) : Process :=
  withUnassigned garbage newProcess

/-- Lines 538-558 as in `readInputLoop`, where the object created at line 556
for the process behind the `k` processes of the list has the unassigned fields
`fresh k`. -/
def readInputLoopWith (fresh : Nat → Unassigned) :
    List MetaDataType → Process → List Process → List Process
  | [], _, processList => processList
  | mdtmp :: rest, ptmp, processList =>
    let ptmp1 := { ptmp with
      metaData := SimpleQueue.enqueue ptmp.metaData { mdtmp with started := false }
      timeRemaining := ptmp.timeRemaining + mdtmp.cycles }
    if mdtmp.descriptor = "end" ∧ mdtmp.code = 'A' then
      readInputLoopWith fresh rest (newProcessWith (fresh (processList.length + 1)))
        (processList ++ [{ ptmp1 with
          control := { ptmp1.control with processNum := processList.length + 1 }
          completed := false, cacheCount := 0, runningThreads := 0 }])
    else readInputLoopWith fresh rest ptmp1 processList

/-- The process list `readInput` builds from the opcodes of a metadata file
when the object of the process at index `k` is created with the unassigned
fields `fresh k`. -/
def readInputWith (fresh : Nat → Unassigned) (opcodes : List MetaDataType) : List Process :=
  readInputLoopWith fresh opcodes (newProcessWith (fresh 0)) []

/-- The log of `main` as in `main`, on the process list of `readInputWith`. -/
def mainWith (fresh : Nat → Unassigned) (fuel : Nat) (finished : Bool) (config : ConfigType)
    (opcodes : List MetaDataType) : Option (List LogLine) :=
  match mainLoop config fuel (MainState.init (readInputWith fresh opcodes)) with
  | none => none
  | some st =>
    match drainLoop fuel finished st.program st.sh with
    | none => none
    | some r => some (r.2.output ++ [LogLine.simulatorEnding])

/-- The table `program` with the unassigned fields of the process at index
`start + k` holding `fresh (start + k)`. -/
def withUnassignedFrom (fresh : Nat → Unassigned) : Nat → List Process → List Process
  | _, [] => []
  | start, p :: rest =>
    withUnassigned (fresh start) p :: withUnassignedFrom fresh (start + 1) rest

/-- Zero-filled memory: state `NEW` and an opcode without cycles. -/
def zeroFilled : Unassigned :=
  { state := 0, code := Char.ofNat 0, cycles := 0, started := false }

/-- Memory that holds 1 where `current.cycles` comes to lie and zeros
elsewhere: the current opcode has a cycle left and a code that is none of `P`,
`M`, `I` and `O`. -/
def cycleLeft : Unassigned :=
  { state := 0, code := Char.ofNat 0, cycles := 1, started := false }

/-- Memory that holds 4 where `control.state` comes to lie and zeros elsewhere:
the state is `EXIT`. -/
def stateExit : Unassigned :=
  { state := 4, code := Char.ofNat 0, cycles := 0, started := false }

/-- Memory that holds other values than zero in every unassigned field, with a
state that is not `EXIT` and no cycles in the current opcode. -/
def staleMemory : Unassigned :=
  { state := 7, code := 'x', cycles := -3, started := true }

/-- The content of the unassigned fields under which a process is loaded the
way the zero-filled one is, as far as the lines `completed` go: the state is
not `EXIT` and the code is not one of I/O. -/
def NotExitNorDevice (garbage : Unassigned) : Prop :=
  garbage.state ≠ EXIT ∧ garbage.code ≠ 'I' ∧ garbage.code ≠ 'O'

instance (garbage : Unassigned) : Decidable (NotExitNorDevice garbage) := by
  unfold NotExitNorDevice; exact inferInstance

/-! ## Definitions for the termination of the scheduler loop under round robin -/

/-- An opcode that a process gets past: it is not I/O, with the descriptor
`run` (for which the dequeue leaves one cycle at least) its code is `P`, and
with cycles above 0 it is one that `run` executes cycle by cycle. -/
def isPassableOpcode (runMeta : MetaDataType) : Prop :=
  (runMeta.descriptor = "run" → runMeta.code = 'P') ∧
  (0 < runMeta.cycles →
    runMeta.code = 'P' ∨ (runMeta.code = 'M' ∧ runMeta.descriptor = "allocate")
      ∨ (runMeta.code = 'M' ∧ runMeta.descriptor = "cache")) ∧
  runMeta.code ≠ 'I' ∧ runMeta.code ≠ 'O'

instance (runMeta : MetaDataType) : Decidable (isPassableOpcode runMeta) := by
  unfold isPassableOpcode; exact inferInstance

/-- The invariant of a process whose opcodes it gets past, between two passes
of the loop of `runProcess`. -/
def PassableProcess (running : Process) : Prop :=
  (∀ m ∈ running.metaData, isPassableOpcode m) ∧
  (running.current.cycles ≤ 0 ∨ isCpuOrMemory running.current) ∧
  0 ≤ running.cacheCount ∧
  (running.control.state ≠ EXIT → ∃ m ∈ running.metaData, isEndOpcode m)

/-- The invariant of the loop of `runProcess` for such a process. -/
def PassableLoop (st : RunProcessState) : Prop :=
  PassableProcess st.running ∧ st.dequeued = true ∧ 0 ≤ st.cyclesRun

/-- The invariant of the scheduler loop for a table of such processes. -/
def PassableTable (st : MainState) : Prop :=
  (∀ p ∈ st.program, PassableProcess p) ∧ -1 ≤ st.processIndex

/-- Metadata of two processes with cycle counts below 0 and a process of
100000 cycles. -/
def negativeAndLong : List MetaDataType :=
  [opcode 'A' "start" 0, opcode 'P' "run" (-5), opcode 'M' "allocate" (-1), opcode 'A' "end" 0,
   opcode 'A' "start" (-2), opcode 'P' "run" 100000, opcode 'A' "end" 0]

/-- Metadata of two processes with cycle counts below 0. -/
def negativeCycles : List MetaDataType :=
  [opcode 'A' "start" 0, opcode 'P' "run" (-5), opcode 'M' "allocate" (-1), opcode 'A' "end" 0,
   opcode 'A' "start" (-2), opcode 'P' "run" 4, opcode 'A' "end" 0]
/-! ## Lemmas

### Round robin selection -/

theorem stateAt_of_lt (program : List Process) (i : Int) (h0 : 0 ≤ i)
    (h1 : i < program.length) : ∃ s, stateAt program i = some s := by
  have hlt : i.toNat < program.length := by omega
  refine ⟨(program[i.toNat]).control.state, ?_⟩
  simp [stateAt, h0, List.getElem?_eq_getElem hlt]

theorem tmod_eq_emod_of_nonneg (a : Int) (n : Nat) (ha : 0 ≤ a) :
    Int.tmod a n = a % n := by
  rw [Int.tmod_eq_emod ha (by exact_mod_cast Nat.zero_le n)]

theorem rrLoop_first (program : List Process) (hP : 0 < program.length) :
    ∀ (k fuel : Nat) (i : Int), 0 ≤ i → i < program.length → k ≤ fuel →
      (∀ j : Nat, j < k → stateAt program ((i + j) % program.length) = some EXIT) →
      (∃ s, stateAt program ((i + k) % program.length) = some s ∧ s ≠ EXIT) →
      rrLoop program fuel i = some ((i + k) % program.length) := by
  intro k
  induction k with
  | zero =>
    intro fuel i h0 h1 _ _ hk
    obtain ⟨s, hs, hne⟩ := hk
    have hi : (i + (0 : Nat)) % (program.length : Int) = i := by
      simp [Int.emod_eq_of_lt h0 h1]
    rw [hi] at hs ⊢
    cases fuel <;> simp [rrLoop, hs, hne]
  | succ k ih =>
    intro fuel i h0 h1 hfuel hall hk
    obtain ⟨fuel, rfl⟩ : ∃ f, fuel = f + 1 := ⟨fuel - 1, by omega⟩
    have hi : stateAt program i = some EXIT := by
      have := hall 0 (by omega)
      simpa [Int.emod_eq_of_lt h0 h1] using this
    have hPpos : (0 : Int) < program.length := by exact_mod_cast hP
    have hmod : Int.tmod (i + 1) program.length = (i + 1) % (program.length : Int) :=
      tmod_eq_emod_of_nonneg _ _ (by omega)
    have hshift : ∀ j : Nat, ((i + 1) % (program.length : Int) + j) % (program.length : Int)
        = (i + ((j + 1 : Nat) : Int)) % (program.length : Int) := by
      intro j
      rw [Int.emod_add_emod]
      congr 1
      push_cast
      ring
    have h0' : 0 ≤ (i + 1) % (program.length : Int) := Int.emod_nonneg _ (by omega)
    have h1' : (i + 1) % (program.length : Int) < program.length := Int.emod_lt_of_pos _ hPpos
    have := ih fuel ((i + 1) % (program.length : Int)) h0' h1' (by omega)
      (by intro j hj; rw [hshift]; exact hall (j + 1) (by omega))
      (by rw [hshift]; exact hk)
    rw [hshift] at this
    simp [rrLoop, hi, hmod, this]

theorem getSchedule_rr_spec (program : List Process) (prev : Int) (fuel : Nat)
    (hP : 1 ≤ program.length) (hex : ∃ p ∈ program, p.control.state ≠ EXIT)
    (hlo : -1 ≤ prev)
    (hfuel : program.length ≤ fuel) :
    ∃ k : Nat, 1 ≤ k ∧ k ≤ program.length ∧
      getSchedule fuel program RR prev = some ((prev + k) % program.length) ∧
      (∃ s, stateAt program ((prev + k) % program.length) = some s ∧ s ≠ EXIT) ∧
      ∀ j : Nat, 1 ≤ j → j < k →
        stateAt program ((prev + j) % program.length) = some EXIT := by
  classical
  have hPpos : (0 : Int) < program.length := by exact_mod_cast hP
  set P : Int := (program.length : Int) with hPdef
  set i : Int := (prev + 1) % P with hi
  have h0 : 0 ≤ i := Int.emod_nonneg _ (by omega)
  have h1 : i < P := Int.emod_lt_of_pos _ hPpos
  have hshift : ∀ j : Nat, (i + j) % P = (prev + ((j + 1 : Nat) : Int)) % P := by
    intro j
    rw [hi, Int.emod_add_emod]
    congr 1
    push_cast
    ring
  -- some offset from `i` reaches a process that is not in EXIT
  have hsome : ∃ k : Nat, k < program.length ∧
      ∃ s, stateAt program ((i + k) % P) = some s ∧ s ≠ EXIT := by
    obtain ⟨p, hp, hne⟩ := hex
    obtain ⟨m, hm, hpm⟩ := List.getElem_of_mem hp
    refine ⟨(((m : Int) - i) % P).toNat, ?_, p.control.state, ?_, hne⟩
    · have := Int.emod_lt_of_pos ((m : Int) - i) hPpos
      have := Int.emod_nonneg ((m : Int) - i) (show P ≠ 0 by omega)
      omega
    · have hnn := Int.emod_nonneg ((m : Int) - i) (show P ≠ 0 by omega)
      have hidx : (i + (((m : Int) - i) % P).toNat) % P = m := by
        rw [Int.toNat_of_nonneg hnn, Int.add_emod_emod]
        have : i + ((m : Int) - i) = m := by ring
        rw [this]
        exact Int.emod_eq_of_lt (by omega) (by omega)
      rw [hidx]
      simp [stateAt, List.getElem?_eq_getElem hm, hpm]
  let Q : Nat → Prop := fun k => ∃ s, stateAt program ((i + k) % P) = some s ∧ s ≠ EXIT
  have hQ : ∃ k, Q k := by
    obtain ⟨k, _, hk⟩ := hsome
    exact ⟨k, hk⟩
  have hmin : ∀ j, j < Nat.find hQ → stateAt program ((i + j) % P) = some EXIT := by
    intro j hj
    have hnot := Nat.find_min hQ hj
    have hr0 : 0 ≤ (i + j) % P := Int.emod_nonneg _ (by omega)
    have hr1 : (i + j) % P < P := Int.emod_lt_of_pos _ hPpos
    obtain ⟨s, hs⟩ := stateAt_of_lt program _ hr0 hr1
    by_cases hse : s = EXIT
    · rw [hs, hse]
    · exact absurd ⟨s, hs, hse⟩ hnot
  have hle : Nat.find hQ < program.length := by
    obtain ⟨k, hk, hk'⟩ := hsome
    exact lt_of_le_of_lt (Nat.find_min' hQ hk') hk
  have hspec := Nat.find_spec hQ
  refine ⟨Nat.find hQ + 1, by omega, by omega, ?_, ?_, ?_⟩
  · have hlen : program.length ≠ 0 := by omega
    have htm : Int.tmod (prev + 1) program.length = i :=
      tmod_eq_emod_of_nonneg _ _ (by omega)
    have := rrLoop_first program (by omega) (Nat.find hQ) fuel i h0 h1 (by omega) hmin hspec
    rw [hshift] at this
    simp [getSchedule, hlen, htm, this]
  · rw [← hshift]
    exact hspec
  · intro j hj1 hj2
    obtain ⟨j, rfl⟩ : ∃ j', j = j' + 1 := ⟨j - 1, by omega⟩
    rw [← hshift]
    exact hmin j (by omega)

/-! ### The allocator -/

theorem AllocateMemory_cases (totMem blockSize lastLoc : Int)
    (hlo : -2147483648 ≤ lastLoc + 2 * blockSize) (hhi : lastLoc + 2 * blockSize < 2147483648) :
    (lastLoc < 0 → AllocateMemory totMem blockSize lastLoc = 0) ∧
    (0 ≤ lastLoc → lastLoc + 2 * blockSize < totMem →
      (AllocateMemory totMem blockSize lastLoc : Int) = (lastLoc + blockSize) % 4294967296 ∧
      (0 ≤ lastLoc + blockSize → lastLoc + blockSize < 4294967296 →
        (AllocateMemory totMem blockSize lastLoc : Int) = lastLoc + blockSize)) ∧
    (0 ≤ lastLoc → ¬ lastLoc + 2 * blockSize < totMem →
      AllocateMemory totMem blockSize lastLoc = 0) := by
  have hcond : toInt32 (lastLoc + toInt32 (blockSize * 2)) = lastLoc + 2 * blockSize := by
    unfold toInt32
    omega
  refine ⟨?_, ?_, ?_⟩
  · intro h
    simp [AllocateMemory, h]
  · intro h0 hlt
    have hnot : ¬ lastLoc < 0 := by omega
    have hval : (AllocateMemory totMem blockSize lastLoc : Int)
        = (lastLoc + blockSize) % 4294967296 := by
      simp only [AllocateMemory, hnot, hcond, hlt, if_true, if_false, toUInt32]
      omega
    refine ⟨hval, ?_⟩
    intro h1 h2
    rw [hval]
    omega
  · intro h0 hge
    have hnot : ¬ lastLoc < 0 := by omega
    simp [AllocateMemory, hnot, hcond, hge]

/-! ### One opcode of code `P` or `M` over its turns -/

theorem runBody_cpuOrMemory (cfg : ConfigType) (st : RunState)
    (hkind : isCpuOrMemory st.running.current) :
    ∃ st1 added, runBody cfg st = some st1 ∧
      st1.running.current = { st.running.current with
        started := true, cycles := st.running.current.cycles - 1 } ∧
      st1.running.control = st.running.control ∧
      st1.cycle = st.cycle + 1 ∧
      st1.threadCreated = st.threadCreated ∧
      st1.sh.output = st.sh.output ++ added ∧
      added.countP (isStartLine st.running.current st.running.control.processNum)
        = (if st.running.current.started then 0 else 1) ∧
      added.countP (isCompletionLine st.running.current st.running.control.processNum)
        = (if st.running.current.cycles - 1 = 0 then 1 else 0) := by
  rcases hkind with hP | ⟨hM, hd⟩ | ⟨hM, hd⟩
  · refine ⟨{ processorStep cfg st with cycle := (processorStep cfg st).cycle + 1 },
      (if st.running.current.started then [] else
        [LogLine.startProcessing st.running.control.processNum]) ++
        (if st.running.current.cycles - 1 = 0 then
          [LogLine.endProcessing st.running.control.processNum]
        else if st.cycle = cfg.quantum - 1 then
          [LogLine.interruptProcessing st.running.control.processNum] else []),
      by simp only [runBody, hP, if_true], rfl, rfl, rfl, rfl, ?_, ?_, ?_⟩
    · cases hs : st.running.current.started <;>
        by_cases h0 : st.running.current.cycles - 1 = 0 <;>
        by_cases hq : st.cycle = cfg.quantum - 1 <;>
        simp [processorStep, hs, h0, hq]
    · cases hs : st.running.current.started <;>
        by_cases h0 : st.running.current.cycles - 1 = 0 <;>
        by_cases hq : st.cycle = cfg.quantum - 1 <;>
        simp [isStartLine, hP, List.countP_cons, h0, hq]
    · cases hs : st.running.current.started <;>
        by_cases h0 : st.running.current.cycles - 1 = 0 <;>
        by_cases hq : st.cycle = cfg.quantum - 1 <;>
        simp [isCompletionLine, hP, List.countP_cons, h0, hq]
  · have hP : st.running.current.code ≠ 'P' := by rw [hM]; decide
    have hc : st.running.current.descriptor ≠ "cache" := by rw [hd]; decide
    have hc1 : (allocateStep cfg st).running.current.descriptor ≠ "cache" := hc
    refine ⟨{ allocateStep cfg st with cycle := (allocateStep cfg st).cycle + 1 },
      (if st.running.current.started then [] else
        [LogLine.allocatingMemory st.running.control.processNum]) ++
        (if st.running.current.cycles - 1 = 0 then
          [LogLine.memoryAllocated st.running.control.processNum
            (AllocateMemory (toInt32 cfg.systemMemory) cfg.blockSize
              (toInt32 st.sh.memoryLocation))]
        else if st.cycle = cfg.quantum - 1 then
          [LogLine.interruptAllocation st.running.control.processNum] else []),
      by simp only [runBody]; rw [if_neg hP, if_pos hM, if_pos hd, if_neg hc1], rfl, rfl, rfl, rfl, ?_, ?_, ?_⟩
    · cases hs : st.running.current.started <;>
        by_cases h0 : st.running.current.cycles - 1 = 0 <;>
        by_cases hq : st.cycle = cfg.quantum - 1 <;>
        simp [allocateStep, hs, h0, hq]
    · cases hs : st.running.current.started <;>
        by_cases h0 : st.running.current.cycles - 1 = 0 <;>
        by_cases hq : st.cycle = cfg.quantum - 1 <;>
        simp [isStartLine, hP, hM, hd, List.countP_cons, h0, hq]
    · cases hs : st.running.current.started <;>
        by_cases h0 : st.running.current.cycles - 1 = 0 <;>
        by_cases hq : st.cycle = cfg.quantum - 1 <;>
        simp [isCompletionLine, hP, hM, hd, List.countP_cons, h0, hq]
  · have hP : st.running.current.code ≠ 'P' := by rw [hM]; decide
    have ha : st.running.current.descriptor ≠ "allocate" := by rw [hd]; decide
    refine ⟨{ cacheStep cfg st with cycle := (cacheStep cfg st).cycle + 1 },
      (if st.running.current.started then [] else
        [LogLine.startCaching st.running.control.processNum]) ++
        (if st.running.current.cycles - 1 = 0 then
          [LogLine.endCaching st.running.control.processNum]
        else if st.cycle = cfg.quantum - 1 then
          [LogLine.interruptCaching st.running.control.processNum] else []),
      by simp only [runBody]; rw [if_neg hP, if_pos hM, if_neg ha, if_pos hd], rfl, rfl, rfl, rfl, ?_, ?_, ?_⟩
    · cases hs : st.running.current.started <;>
        by_cases h0 : st.running.current.cycles - 1 = 0 <;>
        by_cases hq : st.cycle = cfg.quantum - 1 <;>
        simp [cacheStep, hs, h0, hq]
    · cases hs : st.running.current.started <;>
        by_cases h0 : st.running.current.cycles - 1 = 0 <;>
        by_cases hq : st.cycle = cfg.quantum - 1 <;>
        simp [isStartLine, hP, hM, hd, ha, List.countP_cons, h0, hq]
    · cases hs : st.running.current.started <;>
        by_cases h0 : st.running.current.cycles - 1 = 0 <;>
        by_cases hq : st.cycle = cfg.quantum - 1 <;>
        simp [isCompletionLine, hP, hM, hd, ha, List.countP_cons, h0, hq]

theorem runCond_false_of_fuel (cfg : ConfigType) (st : RunState)
    (h : (cfg.quantum - st.cycle).toNat = 0) : runCond cfg st = false := by
  have : ¬ st.cycle < cfg.quantum := by omega
  simp [runCond, this]

theorem runLoop_cpuOrMemory (cfg : ConfigType) :
    ∀ (fuel : Nat) (st : RunState), isCpuOrMemory st.running.current →
      st.threadCreated = false → 0 ≤ st.running.current.cycles →
      (cfg.quantum - st.cycle).toNat ≤ fuel →
      ∃ st1 added, runLoop cfg fuel st = some st1 ∧
        st1.sh.output = st.sh.output ++ added ∧
        st1.running.current.code = st.running.current.code ∧
        st1.running.current.descriptor = st.running.current.descriptor ∧
        st1.running.control = st.running.control ∧
        0 ≤ st1.running.current.cycles ∧
        (runCond cfg st = false → st1 = st ∧ added = []) ∧
        (runCond cfg st = true →
          st1.running.current.started = true ∧
          st1.running.current.cycles < st.running.current.cycles ∧
          added.countP (isStartLine st.running.current st.running.control.processNum)
            = (if st.running.current.started then 0 else 1) ∧
          added.countP (isCompletionLine st.running.current st.running.control.processNum)
            = (if st1.running.current.cycles = 0 then 1 else 0)) := by
  intro fuel
  induction fuel with
  | zero =>
    intro st _ _ hc hfuel
    have hcond := runCond_false_of_fuel cfg st (by omega)
    exact ⟨st, [], by simp [runLoop, hcond], by simp, rfl, rfl, rfl, hc,
      fun _ => ⟨rfl, rfl⟩, fun h => by simp [hcond] at h⟩
  | succ fuel ih =>
    intro st hkind htc hc hfuel
    by_cases hcond : runCond cfg st = true
    · obtain ⟨st1, added1, hbody, hcur, hctl, hcyc, htc1, hout1, hstart1, hcompl1⟩ :=
        runBody_cpuOrMemory cfg st hkind
      have hpos : 0 < st.running.current.cycles := by
        simp [runCond] at hcond
        exact hcond.1.1
      have hkind1 : isCpuOrMemory st1.running.current := by
        rw [hcur]; exact hkind
      have hc1 : 0 ≤ st1.running.current.cycles := by
        rw [hcur]; show 0 ≤ st.running.current.cycles - 1; omega
      obtain ⟨st2, added2, hloop, hout2, hcode2, hdesc2, hctl2, hc2, hstop, hgo⟩ :=
        ih st1 hkind1 (by rw [htc1, htc]) hc1 (by rw [hcyc]; omega)
      have hs1 : st1.running.current.started = true := by rw [hcur]
      have hcy1 : st1.running.current.cycles = st.running.current.cycles - 1 := by rw [hcur]
      have hfs : isStartLine st1.running.current st1.running.control.processNum
          = isStartLine st.running.current st.running.control.processNum := by
        rw [hcur, hctl]; rfl
      have hfc : isCompletionLine st1.running.current st1.running.control.processNum
          = isCompletionLine st.running.current st.running.control.processNum := by
        rw [hcur, hctl]; rfl
      refine ⟨st2, added1 ++ added2, by simp [runLoop, hcond, hbody, hloop],
        by rw [hout2, hout1, List.append_assoc], ?_, ?_, by rw [hctl2, hctl], hc2,
        fun h => by simp [hcond] at h, fun _ => ?_⟩
      · rw [hcode2, hcur]
      · rw [hdesc2, hcur]
      · by_cases hcond1 : runCond cfg st1 = true
        · obtain ⟨hst, hlt, hcs, hcc⟩ := hgo hcond1
          have hpos1 : 0 < st1.running.current.cycles := by
            simp [runCond] at hcond1
            exact hcond1.1.1
          have hne : ¬ st.running.current.cycles - 1 = 0 := by omega
          refine ⟨hst, by omega, ?_, ?_⟩
          · rw [List.countP_append, hstart1, ← hfs, hcs, hs1]; simp
          · rw [List.countP_append, hcompl1, ← hfc, hcc, if_neg hne]; simp
        · have hcond1' : runCond cfg st1 = false := by simpa using hcond1
          obtain ⟨hst, hadd⟩ := hstop hcond1'
          subst hst
          subst hadd
          refine ⟨hs1, by omega, by simpa using hstart1, ?_⟩
          rw [List.append_nil, hcompl1, hcy1]
    · have hcond' : runCond cfg st = false := by simpa using hcond
      exact ⟨st, [], by simp [runLoop, hcond'], by simp, rfl, rfl, rfl, hc,
        fun _ => ⟨rfl, rfl⟩, fun h => by simp [hcond'] at h⟩

theorem runLifecycle_cpuOrMemory (control : PCB) (runMeta : MetaDataType)
    (hkind : isCpuOrMemory runMeta) : runLifecycle control runMeta = control := by
  have hS : runMeta.code ≠ 'S' := by
    rcases hkind with h | ⟨h, _⟩ | ⟨h, _⟩ <;> rw [h] <;> decide
  have hA : runMeta.code ≠ 'A' := by
    rcases hkind with h | ⟨h, _⟩ | ⟨h, _⟩ <;> rw [h] <;> decide
  simp [runLifecycle, hS, hA]

theorem run_cpuOrMemory (cfg : ConfigType) (running : Process) (sh : Shared) (cycle : Int)
    (hkind : isCpuOrMemory running.current) (hc : 0 ≤ running.current.cycles) :
    ∃ running1 sh1 cycle1 added, run running sh cfg cycle = some (running1, sh1, cycle1) ∧
      sh1.output = sh.output ++ added ∧
      running1.current.code = running.current.code ∧
      running1.current.descriptor = running.current.descriptor ∧
      running1.control = running.control ∧
      0 ≤ running1.current.cycles ∧
      (¬ (0 < running.current.cycles ∧ cycle < cfg.quantum) →
        running1.current = running.current ∧ added = []) ∧
      (0 < running.current.cycles ∧ cycle < cfg.quantum →
        running1.current.started = true ∧
        running1.current.cycles < running.current.cycles ∧
        added.countP (isStartLine running.current running.control.processNum)
          = (if running.current.started then 0 else 1) ∧
        added.countP (isCompletionLine running.current running.control.processNum)
          = (if running1.current.cycles = 0 then 1 else 0)) := by
  have hlife := runLifecycle_cpuOrMemory running.control running.current hkind
  obtain ⟨st1, added, hloop, hout, hcode, hdesc, hctl, hc1, hstop, hgo⟩ :=
    runLoop_cpuOrMemory cfg (cfg.quantum - cycle).toNat
      { running := { running with control := runLifecycle running.control running.current }
        sh := { sh with executed := sh.executed ++ [running.current] }
        cycle := cycle, threadCreated := false }
      hkind rfl hc (le_refl _)
  refine ⟨st1.running, st1.sh, st1.cycle, added, by simp only [run, hloop], hout, hcode, hdesc,
    by rw [hctl]; exact hlife, hc1, ?_, ?_⟩
  · intro hn
    have hcond : runCond cfg
        { running := { running with control := runLifecycle running.control running.current }
          sh := { sh with executed := sh.executed ++ [running.current] }
          cycle := cycle, threadCreated := false } = false := by
      simp only [runCond]
      by_cases h1 : 0 < running.current.cycles
      · have h2 : ¬ cycle < cfg.quantum := fun h => hn ⟨h1, h⟩
        simp [h1, h2]
      · simp [h1]
    obtain ⟨hst, hadd⟩ := hstop hcond
    exact ⟨by rw [hst], hadd⟩
  · intro hy
    have hcond : runCond cfg
        { running := { running with control := runLifecycle running.control running.current }
          sh := { sh with executed := sh.executed ++ [running.current] }
          cycle := cycle, threadCreated := false } = true := by
      simp [runCond, hy.1, hy.2]
    have := hgo hcond
    simp only [hlife] at this
    exact this

theorem runTurns_cpuOrMemory (cfg : ConfigType) :
    ∀ (turns : List (Int × Shared)) (running : Process),
      isCpuOrMemory running.current → 0 ≤ running.current.cycles →
      (∀ t ∈ turns, t.1 < cfg.quantum) →
      ∃ running1 lines, runTurns cfg turns running = some (running1, lines) ∧
        0 ≤ running1.current.cycles ∧
        running1.current.cycles ≤ running.current.cycles ∧
        (running.current.cycles ≤ turns.length → running1.current.cycles = 0) ∧
        lines.countP (isStartLine running.current running.control.processNum)
          = (if turns ≠ [] ∧ 0 < running.current.cycles ∧ running.current.started = false
              then 1 else 0) ∧
        lines.countP (isCompletionLine running.current running.control.processNum)
          = (if 0 < running.current.cycles ∧ running1.current.cycles = 0 then 1 else 0) := by
  intro turns
  induction turns with
  | nil =>
    intro running _ hc _
    refine ⟨running, [], rfl, hc, le_refl _, ?_, by simp, ?_⟩
    · intro h
      simp at h
      omega
    · have : ¬ (0 < running.current.cycles ∧ running.current.cycles = 0) := by omega
      simp [this]
  | cons t rest ih =>
    intro running hkind hc hturns
    obtain ⟨cycle, sh⟩ := t
    have hcy : cycle < cfg.quantum := hturns (cycle, sh) (by simp)
    obtain ⟨running1, sh1, cycle1, added, hrun, hout, hcode, hdesc, hctl, hc1, hstop, hgo⟩ :=
      run_cpuOrMemory cfg running sh cycle hkind hc
    have hkind1 : isCpuOrMemory running1.current := by
      unfold isCpuOrMemory at hkind ⊢
      rw [hcode, hdesc]; exact hkind
    obtain ⟨running2, lines, hrest, hc2, hle2, hfin2, hs2, hcm2⟩ :=
      ih running1 hkind1 hc1 (fun t ht => hturns t (by simp [ht]))
    have hfs : isStartLine running1.current running1.control.processNum
        = isStartLine running.current running.control.processNum := by
      funext l; simp only [isStartLine, hcode, hdesc, hctl]
    have hfc : isCompletionLine running1.current running1.control.processNum
        = isCompletionLine running.current running.control.processNum := by
      funext l; simp only [isCompletionLine, hcode, hdesc, hctl]
    have hdrop : sh1.output.drop sh.output.length = added := by
      rw [hout]; simp
    rw [hfs] at hs2
    rw [hfc] at hcm2
    by_cases hpos : 0 < running.current.cycles
    · obtain ⟨hst, hlt, hcs, hcc⟩ := hgo ⟨hpos, hcy⟩
      refine ⟨running2, added ++ lines, by simp [runTurns, hrun, hrest, hdrop], hc2,
        by omega, ?_, ?_, ?_⟩
      · intro hlen
        apply hfin2
        simp at hlen
        omega
      · rw [List.countP_append, hcs, hs2, hst]
        cases running.current.started <;> simp [hpos]
      · rw [List.countP_append, hcc, hcm2]
        by_cases h10 : running1.current.cycles = 0
        · have h20 : running2.current.cycles = 0 := by omega
          have : ¬ 0 < running1.current.cycles := by omega
          simp [h10, h20, hpos, this]
        · have : 0 < running1.current.cycles := by omega
          simp [h10, hpos, this]
    · obtain ⟨hsame, hadd⟩ := hstop (fun h => hpos h.1)
      have h0 : running.current.cycles = 0 := by omega
      have h10 : running1.current.cycles = 0 := by rw [hsame]; exact h0
      have h20 : running2.current.cycles = 0 := by omega
      refine ⟨running2, added ++ lines, by simp [runTurns, hrun, hrest, hdrop], hc2,
        by omega, fun _ => h20, ?_, ?_⟩
      · rw [List.countP_append, hs2, hadd]
        simp [h0, h10]
      · rw [List.countP_append, hcm2, hadd]
        simp [h0, h10]

/-! ### The fuel of the loop of `run` -/

theorem runBody_cycle (cfg : ConfigType) (st st1 : RunState)
    (h : runBody cfg st = some st1) :
    st1.threadCreated = true ∨
      (st1.cycle = st.cycle + 1 ∧ st1.threadCreated = st.threadCreated) := by
  simp only [runBody] at h
  split_ifs at h with hP hM ha hc hc hIO
  · cases h; exact Or.inr ⟨rfl, rfl⟩
  · cases h; exact Or.inr ⟨rfl, rfl⟩
  · cases h; exact Or.inr ⟨rfl, rfl⟩
  · cases h; exact Or.inr ⟨rfl, rfl⟩
  · cases h; exact Or.inr ⟨rfl, rfl⟩
  · simp only [ioStep] at h
    split_ifs at h
    · cases h; exact Or.inl rfl
    · cases h
  · cases h; exact Or.inr ⟨rfl, rfl⟩

theorem runLoop_succ_fuel (cfg : ConfigType) :
    ∀ (fuel : Nat) (st : RunState),
      (cfg.quantum - st.cycle).toNat ≤ fuel ∨ st.threadCreated = true →
      runLoop cfg (fuel + 1) st = runLoop cfg fuel st := by
  intro fuel
  induction fuel with
  | zero =>
    intro st h
    have hcond : runCond cfg st = false := by
      rcases h with h | h
      · exact runCond_false_of_fuel cfg st (by omega)
      · simp [runCond, h]
    simp [runLoop, hcond]
  | succ fuel ih =>
    intro st h
    by_cases hcond : runCond cfg st = true
    · have htc : st.threadCreated = false := by
        simp [runCond] at hcond
        exact hcond.2
      have hfuel : (cfg.quantum - st.cycle).toNat ≤ fuel + 1 := by
        rcases h with h | h
        · exact h
        · rw [htc] at h; cases h
      cases hb : runBody cfg st with
      | none => simp [runLoop, hcond, hb]
      | some st1 =>
        have hstep : runLoop cfg (fuel + 1) st1 = runLoop cfg fuel st1 := by
          apply ih
          rcases runBody_cycle cfg st st1 hb with h1 | ⟨h1, _⟩
          · exact Or.inr h1
          · left
            have : st.cycle < cfg.quantum := by
              simp [runCond] at hcond
              exact hcond.1.2
            rw [h1]
            omega
        rw [runLoop, if_pos hcond, hb]
        simp only
        rw [hstep]
        conv_rhs => rw [runLoop, if_pos hcond, hb]
    · have hcond' : runCond cfg st = false := by simpa using hcond
      simp [runLoop, hcond']

/-- The loop of `run` gives the same result with any larger amount of fuel:
the bound `cfg.quantum - cycle` used by `run` leaves no pass out. -/
theorem runLoop_fuel_exact (cfg : ConfigType) (st : RunState) (extra : Nat) :
    runLoop cfg ((cfg.quantum - st.cycle).toNat + extra) st
      = runLoop cfg (cfg.quantum - st.cycle).toNat st := by
  induction extra with
  | zero => rfl
  | succ extra ih =>
    rw [← ih, ← Nat.add_assoc]
    exact runLoop_succ_fuel cfg _ st (Or.inl (by omega))

/-! ### What `run` and `runProcess` leave unchanged -/

theorem OutputExtends.refl (out : List LogLine) : OutputExtends out out :=
  ⟨[], by simp, by simp⟩

theorem OutputExtends.trans {a b c : List LogLine} (h1 : OutputExtends a b)
    (h2 : OutputExtends b c) : OutputExtends a c := by
  obtain ⟨x, rfl, hx⟩ := h1
  obtain ⟨y, rfl, hy⟩ := h2
  refine ⟨x ++ y, by simp, ?_⟩
  intro l hl
  rcases List.mem_append.mp hl with h | h
  · exact hx l h
  · exact hy l h

theorem processorStep_frame (cfg : ConfigType) (st : RunState) :
    (processorStep cfg st).running.control = st.running.control ∧
    (processorStep cfg st).sh.executed = st.sh.executed ∧
    OutputExtends st.sh.output (processorStep cfg st).sh.output := by
  refine ⟨rfl, rfl, ?_⟩
  simp only [processorStep, OutputExtends]
  cases hs : st.running.current.started <;>
    by_cases h0 : st.running.current.cycles - 1 = 0 <;>
    by_cases hq : st.cycle = cfg.quantum - 1 <;>
    simp [h0, hq, isRunnerLine]

theorem allocateStep_frame (cfg : ConfigType) (st : RunState) :
    (allocateStep cfg st).running.control = st.running.control ∧
    (allocateStep cfg st).sh.executed = st.sh.executed ∧
    OutputExtends st.sh.output (allocateStep cfg st).sh.output := by
  refine ⟨rfl, rfl, ?_⟩
  simp only [allocateStep, OutputExtends]
  cases hs : st.running.current.started <;>
    by_cases h0 : st.running.current.cycles - 1 = 0 <;>
    by_cases hq : st.cycle = cfg.quantum - 1 <;>
    simp [h0, hq, isRunnerLine]

theorem cacheStep_frame (cfg : ConfigType) (st : RunState) :
    (cacheStep cfg st).running.control = st.running.control ∧
    (cacheStep cfg st).sh.executed = st.sh.executed ∧
    OutputExtends st.sh.output (cacheStep cfg st).sh.output := by
  refine ⟨rfl, rfl, ?_⟩
  simp only [cacheStep, OutputExtends]
  cases hs : st.running.current.started <;>
    by_cases h0 : st.running.current.cycles - 1 = 0 <;>
    by_cases hq : st.cycle = cfg.quantum - 1 <;>
    simp [h0, hq, isRunnerLine]

theorem runBody_frame (cfg : ConfigType) (st st1 : RunState)
    (h : runBody cfg st = some st1) :
    st1.running.control = st.running.control ∧
    st1.sh.executed = st.sh.executed ∧
    OutputExtends st.sh.output st1.sh.output := by
  simp only [runBody] at h
  split_ifs at h with hP hM ha hc hc hIO
  · cases h
    exact processorStep_frame cfg st
  · cases h
    obtain ⟨a1, a2, a3⟩ := allocateStep_frame cfg st
    obtain ⟨c1, c2, c3⟩ := cacheStep_frame cfg (allocateStep cfg st)
    exact ⟨c1.trans a1, c2.trans a2, a3.trans c3⟩
  · cases h
    exact allocateStep_frame cfg st
  · cases h
    exact cacheStep_frame cfg st
  · cases h
    exact ⟨rfl, rfl, OutputExtends.refl _⟩
  · simp only [ioStep] at h
    split_ifs at h
    · cases h
      exact ⟨rfl, rfl, OutputExtends.refl _⟩
    · cases h
  · cases h
    exact ⟨rfl, rfl, OutputExtends.refl _⟩

theorem runLoop_frame (cfg : ConfigType) :
    ∀ (fuel : Nat) (st st1 : RunState), runLoop cfg fuel st = some st1 →
      st1.running.control = st.running.control ∧
      st1.sh.executed = st.sh.executed ∧
      OutputExtends st.sh.output st1.sh.output := by
  intro fuel
  induction fuel with
  | zero =>
    intro st st1 h
    simp only [runLoop] at h
    split_ifs at h
    cases h
    exact ⟨rfl, rfl, OutputExtends.refl _⟩
  | succ fuel ih =>
    intro st st1 h
    simp only [runLoop] at h
    split_ifs at h
    · cases hb : runBody cfg st with
      | none => simp [hb] at h
      | some st2 =>
        simp only [hb] at h
        obtain ⟨b1, b2, b3⟩ := runBody_frame cfg st st2 hb
        obtain ⟨l1, l2, l3⟩ := ih st2 st1 h
        exact ⟨l1.trans b1, l2.trans b2, b3.trans l3⟩
    · cases h
      exact ⟨rfl, rfl, OutputExtends.refl _⟩

theorem run_frame (cfg : ConfigType) (running running1 : Process) (sh sh1 : Shared)
    (cycle cycle1 : Int) (h : run running sh cfg cycle = some (running1, sh1, cycle1)) :
    running1.control = runLifecycle running.control running.current ∧
    sh1.executed = sh.executed ++ [running.current] ∧
    OutputExtends sh.output sh1.output := by
  simp only [run] at h
  split at h
  · cases h
  · rename_i st hloop
    cases h
    exact runLoop_frame cfg _ _ _ hloop

theorem fetch_frame (st : RunProcessState) :
    (fetch st).running.control = st.running.control ∧ (fetch st).sh = st.sh ∧
    (fetch st).cyclesRun = st.cyclesRun := by
  simp only [fetch]
  split_ifs <;> exact ⟨rfl, rfl, rfl⟩

theorem runLifecycle_processNum (control : PCB) (runMeta : MetaDataType) :
    (runLifecycle control runMeta).processNum = control.processNum := by
  simp only [runLifecycle]
  split_ifs <;> rfl

theorem runLifecycle_exit (control : PCB) (runMeta : MetaDataType)
    (h : control.state ≠ EXIT) :
    (runLifecycle control runMeta).state = EXIT ↔ isEndOpcode runMeta := by
  simp only [runLifecycle, isEndOpcode]
  split_ifs with hS hs he hA hs he <;> simp_all [READY, RUNNING, EXIT]

theorem runProcessLoop_invariant (cfg : ConfigType) (I : Process → Shared → Prop)
    (hfetch : ∀ st : RunProcessState, I st.running st.sh → I (fetch st).running (fetch st).sh)
    (hrun : ∀ (running : Process) (sh : Shared) (cycle : Int) (running1 : Process)
      (sh1 : Shared) (cycle1 : Int), running.control.state ≠ EXIT → I running sh →
      run running sh cfg cycle = some (running1, sh1, cycle1) → I running1 sh1) :
    ∀ (fuel : Nat) (st st1 : RunProcessState), runProcessLoop cfg fuel st = some st1 →
      I st.running st.sh → I st1.running st1.sh := by
  intro fuel
  induction fuel with
  | zero =>
    intro st st1 h hI
    simp only [runProcessLoop] at h
    split_ifs at h
    cases h
    exact hI
  | succ fuel ih =>
    intro st st1 h hI
    simp only [runProcessLoop] at h
    split_ifs at h with hcond hdeq
    · have hstate : (fetch st).running.control.state ≠ EXIT := by
        rw [(fetch_frame st).1]
        simp [runProcessCond] at hcond
        exact hcond.2
      cases hr : run (fetch st).running (fetch st).sh cfg (fetch st).cyclesRun with
      | none => simp [hr] at h
      | some r =>
        obtain ⟨p, sh, c⟩ := r
        simp only [hr] at h
        exact ih _ st1 h (hrun _ _ _ _ _ _ hstate (hfetch st hI) hr)
    · exact ih _ st1 h (hfetch st hI)
    · cases h
      exact hI

/-- Once a process is in EXIT a call of `runProcess` changes nothing but `timeRemaining`. -/
theorem runProcessLoop_of_exit (cfg : ConfigType) (fuel : Nat) (st : RunProcessState)
    (h : st.running.control.state = EXIT) : runProcessLoop cfg fuel st = some st := by
  have hcond : runProcessCond cfg st = false := by simp [runProcessCond, h]
  cases fuel <;> simp [runProcessLoop, hcond]

theorem runProcess_exitIffEnd (cfg : ConfigType) (fuel : Nat) (running running1 : Process)
    (sh sh1 : Shared) (h : runProcess fuel running sh cfg = some (running1, sh1))
    (hI : ExitIffEnd running sh) : ExitIffEnd running1 sh1 := by
  simp only [runProcess] at h
  split at h
  · cases h
  · rename_i st hloop
    cases h
    have := runProcessLoop_invariant cfg ExitIffEnd
      (fun st hI => by
        unfold ExitIffEnd at hI ⊢
        rw [(fetch_frame st).1, (fetch_frame st).2.1]
        exact hI)
      (fun running sh cycle running1 sh1 cycle1 hne hI hr => by
        obtain ⟨hctl, hexec, _⟩ := run_frame cfg running running1 sh sh1 cycle cycle1 hr
        unfold ExitIffEnd at hI ⊢
        rw [hctl, hexec, runLifecycle_exit _ _ hne]
        constructor
        · intro hend
          exact ⟨running.current, by simp, hend⟩
        · rintro ⟨op, hop, hend⟩
          rcases List.mem_append.mp hop with hmem | hmem
          · exact absurd (hI.mpr ⟨op, hmem, hend⟩) hne
          · simp at hmem
            rw [← hmem]
            exact hend)
      fuel _ st hloop hI
    exact this

theorem runProcessTimes_exitIffEnd (cfg : ConfigType) (fuel : Nat) :
    ∀ (n : Nat) (running running1 : Process) (sh sh1 : Shared),
      runProcessTimes fuel cfg n running sh = some (running1, sh1) →
      ExitIffEnd running sh → ExitIffEnd running1 sh1 := by
  intro n
  induction n with
  | zero =>
    intro running running1 sh sh1 h hI
    simp only [runProcessTimes] at h
    cases h
    exact hI
  | succ n ih =>
    intro running running1 sh sh1 h hI
    simp only [runProcessTimes] at h
    cases hr : runProcess fuel running sh cfg with
    | none => simp [hr] at h
    | some r =>
      obtain ⟨p, s⟩ := r
      simp only [hr] at h
      exact ih p running1 s sh1 h (runProcess_exitIffEnd cfg fuel running p sh s hr hI)

theorem runProcess_frame (cfg : ConfigType) (fuel : Nat) (running running1 : Process)
    (sh sh1 : Shared) (h : runProcess fuel running sh cfg = some (running1, sh1)) :
    running1.control.processNum = running.control.processNum ∧
    OutputExtends sh.output sh1.output := by
  simp only [runProcess] at h
  split at h
  · cases h
  · rename_i st hloop
    cases h
    exact runProcessLoop_invariant cfg
      (fun p s => p.control.processNum = running.control.processNum ∧
        OutputExtends sh.output s.output)
      (fun st hI => by
        show (fetch st).running.control.processNum = _ ∧ OutputExtends _ (fetch st).sh.output
        rw [(fetch_frame st).1, (fetch_frame st).2.1]
        exact hI)
      (fun p s cycle p1 s1 cycle1 _ hI hr => by
        obtain ⟨hctl, _, hout⟩ := run_frame cfg p p1 s s1 cycle cycle1 hr
        show p1.control.processNum = _ ∧ OutputExtends _ s1.output
        exact ⟨by rw [hctl, runLifecycle_processNum]; exact hI.1, hI.2.trans hout⟩)
      fuel _ st hloop ⟨rfl, OutputExtends.refl _⟩

theorem filterMap_preparingOf_runner (added : List LogLine)
    (h : ∀ l ∈ added, isRunnerLine l = true) : added.filterMap preparingOf = [] := by
  rw [List.filterMap_eq_nil_iff]
  intro l hl
  have := h l hl
  cases l <;> simp_all [isRunnerLine, preparingOf]

theorem filterMap_startingOf_runner (added : List LogLine)
    (h : ∀ l ∈ added, isRunnerLine l = true) : added.filterMap startingOf = [] := by
  rw [List.filterMap_eq_nil_iff]
  intro l hl
  have := h l hl
  cases l <;> simp_all [isRunnerLine, startingOf]

theorem completionScan_frame : ∀ (program : List Process) (out : List LogLine),
    (completionScan program out).1.map (fun p => p.control) = program.map (fun p => p.control) ∧
    ∃ added, (completionScan program out).2 = out ++ added ∧
      added.filterMap preparingOf = [] ∧ added.filterMap startingOf = [] := by
  intro program
  induction program with
  | nil => intro out; exact ⟨rfl, [], by simp [completionScan], rfl, rfl⟩
  | cons p rest ih =>
    intro out
    simp only [completionScan]
    split_ifs with hc
    · obtain ⟨h1, added, h2, h3, h4⟩ := ih (out ++ [LogLine.osCompleted p.control.processNum])
      refine ⟨by simp [h1], LogLine.osCompleted p.control.processNum :: added, ?_, ?_, ?_⟩
      · simp [h2]
      · simp [List.filterMap_cons, preparingOf, h3]
      · simp [List.filterMap_cons, startingOf, h4]
    · obtain ⟨h1, added, h2, h3, h4⟩ := ih out
      exact ⟨by simp [h1], added, h2, h3, h4⟩

theorem checkCompleted_foldl (program : List Process) (b : Bool) :
    program.foldl (fun completed p => completed && decide (p.control.state = EXIT)) b
      = (b && program.all fun p => decide (p.control.state = EXIT)) := by
  induction program generalizing b with
  | nil => simp
  | cons p rest ih => simp [List.foldl_cons, ih, Bool.and_assoc]

theorem checkCompleted_iff (program : List Process) :
    checkCompleted program = true ↔ ∀ p ∈ program, p.control.state = EXIT := by
  simp [checkCompleted, checkCompleted_foldl]

/-! ### The invariant of the scheduler loop -/

theorem completionScan_getElem? (program : List Process) (out : List LogLine) (i : Nat) :
    ((completionScan program out).1[i]?).map (fun p => p.control)
      = (program[i]?).map (fun p => p.control) := by
  have h := (completionScan_frame program out).1
  have := congrArg (fun l => l[i]?) h
  simpa [List.getElem?_map] using this

theorem option_map_control {a b : Option Process}
    (h : a.map (fun p => p.control) = b.map (fun p => p.control)) :
    a.map (fun p => p.control.processNum) = b.map (fun p => p.control.processNum) ∧
    a.map (fun p => p.control.state) = b.map (fun p => p.control.state) := by
  cases a <;> cases b <;> simp_all

theorem mainBody_inv (program0 : List Process) (fuel : Nat) (config : ConfigType)
    (st st1 : MainState) (h : mainBody fuel config st = some st1)
    (hI : SchedulerInv program0 st) : SchedulerInv program0 st1 := by
  obtain ⟨hnum, hprep, hstart, hstate⟩ := hI
  simp only [mainBody] at h
  split at h
  · cases h
  · rename_i idx hsched
    split_ifs at h with hidx
    split at h
    · cases h
    · rename_i p hp
      split at h
      · cases h
      · rename_i p1 sh2 hrun
        cases h
        obtain ⟨hpn, added, hadd, hrunner⟩ := runProcess_frame config fuel p p1 _ sh2 hrun
        obtain ⟨_, addedC, haddC, hC1, hC2⟩ :=
          completionScan_frame (st.program.set idx.toNat p1) sh2.output
        have hscan := completionScan_getElem? (st.program.set idx.toNat p1) sh2.output
        have hat : processNumAt program0 idx = some p.control.processNum := by
          simp only [processNumAt, hidx, if_true]
          rw [← hnum idx.toNat, hp]
          rfl
        have hctl : ∀ i : Nat, i ≠ idx.toNat →
            ((completionScan (st.program.set idx.toNat p1) sh2.output).1[i]?).map
              (fun p => p.control) = (st.program[i]?).map (fun p => p.control) := by
          intro i hi
          rw [hscan, List.getElem?_set_ne (Ne.symm hi)]
        have hlt : idx.toNat < st.program.length := by
          rcases List.getElem?_eq_some_iff.mp hp with ⟨hlt, _⟩
          exact hlt
        refine ⟨?_, ?_, ?_, ?_⟩
        · intro i
          by_cases hi : i = idx.toNat
          · subst hi
            have := (option_map_control (hscan idx.toNat)).1
            rw [List.getElem?_set_self hlt] at this
            rw [← hnum idx.toNat, hp]
            simpa [hpn] using this
          · rw [← hnum i]
            exact (option_map_control (hctl i hi)).1
        · show (List.filterMap preparingOf (completionScan _ _).2).map some = _
          rw [haddC, hadd]
          simp [List.filterMap_append, filterMap_preparingOf_runner added hrunner, hC1,
            preparingOf, hprep, hat, List.filterMap_cons]
        · show (List.filterMap startingOf (completionScan _ _).2).map some = _
          rw [haddC, hadd]
          simp [List.filterMap_append, filterMap_startingOf_runner added hrunner, hC2,
            startingOf, hstart, hat, List.filterMap_cons]
        · intro i
          by_cases hi : i = idx.toNat
          · left
            subst hi
            simp [Int.toNat_of_nonneg hidx]
          · rcases hstate i with hmem | heq
            · left
              exact List.mem_append_left _ hmem
            · right
              rw [← heq]
              exact (option_map_control (hctl i hi)).2

theorem mainLoop_inv (program0 : List Process) (config : ConfigType) :
    ∀ (fuel : Nat) (st st1 : MainState), mainLoop config fuel st = some st1 →
      SchedulerInv program0 st →
      SchedulerInv program0 st1 ∧ checkCompleted st1.program = true := by
  intro fuel
  induction fuel with
  | zero =>
    intro st st1 h hI
    simp only [mainLoop] at h
    split_ifs at h with hc
    cases h
    exact ⟨hI, hc⟩
  | succ fuel ih =>
    intro st st1 h hI
    simp only [mainLoop] at h
    split_ifs at h with hc
    · cases h
      exact ⟨hI, hc⟩
    · cases hb : mainBody fuel config st with
      | none => simp [hb] at h
      | some st2 =>
        simp only [hb] at h
        exact ih st2 st1 h (mainBody_inv program0 fuel config st st2 hb hI)

theorem schedulerInv_init (program : List Process) :
    SchedulerInv program (MainState.init program) := by
  refine ⟨fun _ => rfl, ?_, ?_, fun _ => Or.inr rfl⟩ <;>
    simp [MainState.init, Shared.init, preparingOf, startingOf, List.filterMap_cons]

/-! ## The claims -/

/-- C1 (the code departs from the claim).  The claim bounds the cycles of one
call of `runProcess` by the quantum.  With quantum 5 and the metadata
`A(start)0; P(run)4; I(keyboard)1; P(run)4; A(end)0` one call executes
`runMeta->cycles--` seven times: the I/O opcode sets the counter back from 4
to 2. -/
theorem runProcess_io_resets_counter :
    (runProcess 10 (firstProcess ioBetweenRuns) Shared.init (exampleConfig 5 RR)).map
      (fun r => r.2.cyclesDone) = some 7 := by
  decide

/-- C2.  Round robin: for a table of `P ≥ 1` processes, one of them not in
`EXIT`, and a previous index in `[-1, P-1]`, `getSchedule` returns (with `P`
steps of fuel or more) the first index of the cyclic order
`(prev+1) mod P, (prev+2) mod P, ...` whose process is not in `EXIT`. -/
theorem getSchedule_rr_first_non_exit (program : List Process) (prev : Int) (fuel : Nat)
    (hP : 1 ≤ program.length) (hex : ∃ p ∈ program, p.control.state ≠ EXIT)
    (hlo : -1 ≤ prev) (_hhi : prev ≤ (program.length : Int) - 1)
    (hfuel : program.length ≤ fuel) :
    ∃ k : Nat, 1 ≤ k ∧ k ≤ program.length ∧
      getSchedule fuel program RR prev = some ((prev + k) % program.length) ∧
      (∃ s, stateAt program ((prev + k) % program.length) = some s ∧ s ≠ EXIT) ∧
      ∀ j : Nat, 1 ≤ j → j < k →
        stateAt program ((prev + j) % program.length) = some EXIT :=
  getSchedule_rr_spec program prev fuel hP hex hlo hfuel

/-- C2, at the table `[EXIT, READY, EXIT]` with previous index 1: the scan
passes the indices 2 and 0 and returns 1. -/
theorem getSchedule_rr_first_non_exit_witness :
    getSchedule 3 onlyMiddleLeft RR 1 = some 1 ∧
    ∃ k : Nat, 1 ≤ k ∧ k ≤ onlyMiddleLeft.length ∧
      getSchedule 3 onlyMiddleLeft RR 1 = some ((1 + k) % onlyMiddleLeft.length) ∧
      (∃ s, stateAt onlyMiddleLeft ((1 + k) % onlyMiddleLeft.length) = some s ∧ s ≠ EXIT) ∧
      ∀ j : Nat, 1 ≤ j → j < k →
        stateAt onlyMiddleLeft ((1 + j) % onlyMiddleLeft.length) = some EXIT :=
  ⟨by decide,
   getSchedule_rr_first_non_exit onlyMiddleLeft 1 3 (by decide)
     ⟨processInState READY 2, by decide, by decide⟩ (by decide) (by decide) (by decide)⟩

/-- C3 (the code departs from the claim).  The claim lets the shortest-job
branch return the least `timeRemaining` whatever the values are.  For the one
process loaded from `A(start)0; P(run)100000; A(end)0` (state `NEW`,
`timeRemaining = 100000`) the test `timeRemaining < minTimeRemaining` against
the initial 100000 fails, `retIndex` is never assigned, and no index is
returned, for `SJF` and for `SRTF`. -/
theorem getSchedule_sjf_unassigned :
    (readInput longJob).map (fun p => (p.control.state, p.timeRemaining)) = [(NEW, 100000)] ∧
    getSchedule 1 (readInput longJob) SJF (-1) = none ∧
    getSchedule 1 (readInput longJob) SRTF (-1) = none := by
  decide

/-- C4, as stated, fails for a negative block size: with `lastLoc = 0`,
`blockSize = -5` and `totMem = 0` the second case applies and the `unsigned int`
returned is 4294967291, not -5. -/
theorem AllocateMemory_negative_block :
    (0 : Int) ≤ 0 ∧ (0 : Int) + 2 * (-5) < 0 ∧
    AllocateMemory 0 (-5) 0 = 4294967291 ∧
    (AllocateMemory 0 (-5) 0 : Int) ≠ 0 + (-5) := by
  decide

/-- C4, amended.  When `lastLoc + 2*blockSize` does not overflow,
`AllocateMemory` returns 0 for `lastLoc < 0`; for `lastLoc ≥ 0` and
`lastLoc + 2*blockSize < totMem` it returns `lastLoc + blockSize` reduced modulo
`2^32` (the conversion to the `unsigned int` return type), which is
`lastLoc + blockSize` itself when that sum is not negative; and it returns 0
otherwise. -/
theorem AllocateMemory_result (totMem blockSize lastLoc : Int)
    (hlo : -2147483648 ≤ lastLoc + 2 * blockSize) (hhi : lastLoc + 2 * blockSize < 2147483648) :
    (lastLoc < 0 → AllocateMemory totMem blockSize lastLoc = 0) ∧
    (0 ≤ lastLoc → lastLoc + 2 * blockSize < totMem →
      (AllocateMemory totMem blockSize lastLoc : Int) = (lastLoc + blockSize) % 4294967296 ∧
      (0 ≤ lastLoc + blockSize → lastLoc + blockSize < 4294967296 →
        (AllocateMemory totMem blockSize lastLoc : Int) = lastLoc + blockSize)) ∧
    (0 ≤ lastLoc → ¬ lastLoc + 2 * blockSize < totMem →
      AllocateMemory totMem blockSize lastLoc = 0) :=
  AllocateMemory_cases totMem blockSize lastLoc hlo hhi

/-- C4, amended, at 1000 kB of memory, blocks of 100 kB and last location 700:
`700 + 200 < 1000`, so the next location is 800. -/
theorem AllocateMemory_result_witness :
    ((-2147483648 : Int) ≤ 700 + 2 * 100 ∧ (700 : Int) + 2 * 100 < 2147483648) ∧
    AllocateMemory 1000 100 700 = 800 ∧
    ((700 : Int) < 0 → AllocateMemory 1000 100 700 = 0) ∧
    ((0 : Int) ≤ 700 → (700 : Int) + 2 * 100 < 1000 →
      (AllocateMemory 1000 100 700 : Int) = (700 + 100) % 4294967296 ∧
      ((0 : Int) ≤ 700 + 100 → (700 : Int) + 100 < 4294967296 →
        (AllocateMemory 1000 100 700 : Int) = 700 + 100)) ∧
    ((0 : Int) ≤ 700 → ¬ (700 : Int) + 2 * 100 < 1000 → AllocateMemory 1000 100 700 = 0) :=
  ⟨by decide, by decide, AllocateMemory_result 1000 100 700 (by decide) (by decide)⟩

/-- C5.  When `runProcess` dequeues a `P(run)` opcode of `c ≥ 1` cycles for a
process with cache count `k ≥ 0`, the current opcode gets `max(1, c - 2k)`
cycles, which lies between 1 and `c`, and `timeRemaining` goes down by exactly
`c - max(1, c - 2k)`.  In scenario S6 (`M(cache)1` twice, then `P(run)10`, run
with quantum 2) the first turn completes both cache operations and the next
dequeue gives the `P(run)` 6 cycles. -/
theorem fetch_run_discount (st : RunProcessState) (c : Int) (started : Bool)
    (rest : List MetaDataType)
    (hk : 0 ≤ st.running.cacheCount)
    (hq : st.running.metaData
      = { code := 'P', descriptor := "run", cycles := c, started := started } :: rest)
    (hc : 1 ≤ c)
    (hfetch : st.running.current.cycles ≤ 0 ∨ st.running.current.code = 'I'
      ∨ st.running.current.code = 'O') :
    ((fetch st).dequeued = true ∧
     (fetch st).running.metaData = rest ∧
     (fetch st).running.current
       = { code := 'P', descriptor := "run",
           cycles := max 1 (c - 2 * st.running.cacheCount), started := started } ∧
     (fetch st).running.timeRemaining
       = st.running.timeRemaining - (c - max 1 (c - 2 * st.running.cacheCount)) ∧
     1 ≤ (fetch st).running.current.cycles ∧ (fetch st).running.current.cycles ≤ c) ∧
    (runProcess 10 (firstProcess cacheWorkload) Shared.init (exampleConfig 2 RR)).map
      (fun r => (r.1.cacheCount, (fetch (RunProcessState.enter r.1 r.2)).running.current))
      = some (2, { code := 'P', descriptor := "run", cycles := 6, started := false }) := by
  refine ⟨?_, by decide⟩
  have hmax : 1 ≤ max 1 (c - 2 * st.running.cacheCount) := le_max_left _ _
  have hle : max 1 (c - 2 * st.running.cacheCount) ≤ c := max_le hc (by omega)
  simp [fetch, hfetch, hq, SimpleQueue.dequeue, hle]

/-- C5, at cache count 2 and `P(run)10` at the head of the queue: 6 cycles,
and `timeRemaining` goes from 10 to 6. -/
theorem fetch_run_discount_witness :
    (fetch cachedTwice).running.current.cycles = 6 ∧
    (fetch cachedTwice).running.timeRemaining = 6 ∧
    ((fetch cachedTwice).dequeued = true ∧
     (fetch cachedTwice).running.metaData = [opcode 'A' "end" 0] ∧
     (fetch cachedTwice).running.current
       = { code := 'P', descriptor := "run",
           cycles := max 1 (10 - 2 * cachedTwice.running.cacheCount), started := false } ∧
     (fetch cachedTwice).running.timeRemaining
       = cachedTwice.running.timeRemaining
          - (10 - max 1 (10 - 2 * cachedTwice.running.cacheCount)) ∧
     1 ≤ (fetch cachedTwice).running.current.cycles ∧
     (fetch cachedTwice).running.current.cycles ≤ 10) :=
  ⟨by decide, by decide,
   (fetch_run_discount cachedTwice 10 false [opcode 'A' "end" 0] (by decide) rfl (by decide)
     (Or.inl (by decide))).1⟩

/-- C6.  An opcode of code `P` (so `P/run`), `M/allocate` or `M/cache` that is
fresh (`started = false`) and has at least one cycle is run over any number of
turns, each entered with a counter in `[0, quantum)` and with the globals as
that turn finds them.  The calls all return; when the opcode is finished
(its cycles are 0, which is the case after at most as many turns as it has
cycles) its start line and its completion line have each been appended exactly
once; before that the start line has been appended at most once and the
completion line not at all. -/
theorem start_and_completion_line_once (cfg : ConfigType) (running : Process)
    (turns : List (Int × Shared))
    (hkind : isCpuOrMemory running.current)
    (hfresh : running.current.started = false)
    (hc : 1 ≤ running.current.cycles)
    (hturns : ∀ t ∈ turns, 0 ≤ t.1 ∧ t.1 < cfg.quantum) :
    ∃ running1 lines, runTurns cfg turns running = some (running1, lines) ∧
      (running.current.cycles ≤ turns.length → running1.current.cycles = 0) ∧
      (running1.current.cycles = 0 →
        lines.countP (isStartLine running.current running.control.processNum) = 1 ∧
        lines.countP (isCompletionLine running.current running.control.processNum) = 1) ∧
      (running1.current.cycles ≠ 0 →
        lines.countP (isStartLine running.current running.control.processNum) ≤ 1 ∧
        lines.countP (isCompletionLine running.current running.control.processNum) = 0) := by
  obtain ⟨running1, lines, hrun, h0, hle, hfin, hs, hcm⟩ :=
    runTurns_cpuOrMemory cfg turns running hkind (by omega) (fun t ht => (hturns t ht).2)
  have hpos : 0 < running.current.cycles := by omega
  refine ⟨running1, lines, hrun, hfin, ?_, ?_⟩
  · intro hz
    have hne : turns ≠ [] := by
      rintro rfl
      simp only [runTurns] at hrun
      cases hrun
      omega
    rw [hs, hcm]
    simp [hne, hpos, hfresh, hz]
  · intro hnz
    rw [hs, hcm]
    constructor
    · split_ifs <;> omega
    · simp [hnz]

/-- C6, for `P(run)5` with quantum 3 and two turns entered with counter 0: the
first turn is interrupted after 3 cycles, the second finishes the opcode, and
the lines are start, interrupt, end.  The scheduler loop on scenario S2 writes
the same three lines between its own. -/
theorem start_and_completion_line_once_witness :
    runTurns (exampleConfig 3 RR) [(0, Shared.init), (0, Shared.init)] freshRun
      = some ({ freshRun with current := { freshRun.current with cycles := 0, started := true } },
          [LogLine.startProcessing 1, LogLine.interruptProcessing 1, LogLine.endProcessing 1]) ∧
    (mainLoop (exampleConfig 3 RR) 20 (MainState.init (readInput preemptWorkload))).map
        (fun st => st.sh.output)
      = some [LogLine.simulatorStarting, LogLine.osPreparing 1, LogLine.osStarting 1,
          LogLine.startProcessing 1, LogLine.interruptProcessing 1, LogLine.osPreparing 1,
          LogLine.osStarting 1, LogLine.endProcessing 1, LogLine.osCompleted 1] ∧
    ∃ running1 lines,
      runTurns (exampleConfig 3 RR) [(0, Shared.init), (0, Shared.init)] freshRun
        = some (running1, lines) ∧
      (freshRun.current.cycles ≤ [(0, Shared.init), (0, Shared.init)].length →
        running1.current.cycles = 0) ∧
      (running1.current.cycles = 0 →
        lines.countP (isStartLine freshRun.current freshRun.control.processNum) = 1 ∧
        lines.countP (isCompletionLine freshRun.current freshRun.control.processNum) = 1) ∧
      (running1.current.cycles ≠ 0 →
        lines.countP (isStartLine freshRun.current freshRun.control.processNum) ≤ 1 ∧
        lines.countP (isCompletionLine freshRun.current freshRun.control.processNum) = 0) :=
  ⟨by decide, by decide,
   start_and_completion_line_once (exampleConfig 3 RR) freshRun
     [(0, Shared.init), (0, Shared.init)] (Or.inl rfl) rfl (by decide) (by decide)⟩

/-- C7, as stated, fails when an `S(end)` is part of the process: for the
process loaded from `A(start)0; S(end)0; A(end)0` one call of `runProcess`
executes `A(start)` and `S(end)` and leaves the state `EXIT`, and no opcode
`A(end)` has been executed.  It also fails for a process whose state is `EXIT`
before the first call: nothing is executed. -/
theorem exit_without_application_end :
    (runProcessTimes 10 (exampleConfig 10 RR) 1 (firstProcess simulatorEndInside)
        Shared.init).map
      (fun r => (r.1.control.state, r.2.executed.map fun op => (op.code, op.descriptor)))
      = some (EXIT, [('A', "start"), ('S', "end")]) ∧
    (∃ r, runProcessTimes 10 (exampleConfig 10 RR) 1 (firstProcess simulatorEndInside)
        Shared.init = some r ∧
      ¬ (r.1.control.state = EXIT ↔
          ∃ op ∈ r.2.executed, op.code = 'A' ∧ op.descriptor = "end")) ∧
    (runProcessTimes 10 (exampleConfig 10 RR) 1 (processInState EXIT 1) Shared.init).map
      (fun r => (r.1.control.state, r.2.executed)) = some (EXIT, []) := by
  refine ⟨by decide, ?_, by decide⟩
  have hs : (runProcessTimes 10 (exampleConfig 10 RR) 1 (firstProcess simulatorEndInside)
      Shared.init).isSome = true := by decide
  obtain ⟨r, hr⟩ := Option.isSome_iff_exists.mp hs
  refine ⟨r, hr, ?_⟩
  have hv : (runProcessTimes 10 (exampleConfig 10 RR) 1 (firstProcess simulatorEndInside)
        Shared.init).map
      (fun r => (r.1.control.state, r.2.executed.map fun op => (op.code, op.descriptor)))
      = some (EXIT, [('A', "start"), ('S', "end")]) := by decide
  rw [hr] at hv
  simp only [Option.map_some', Option.some.injEq, Prod.mk.injEq] at hv
  obtain ⟨hstate, hexec⟩ := hv
  intro hiff
  obtain ⟨op, hop, hcode, hdesc⟩ := hiff.mp hstate
  have hmem : (op.code, op.descriptor) ∈ r.2.executed.map fun op => (op.code, op.descriptor) :=
    List.mem_map.mpr ⟨op, hop, rfl⟩
  rw [hexec, hcode, hdesc] at hmem
  revert hmem
  decide

/-- C7, amended.  For a process that does not start in `EXIT`, after any number
of calls of `runProcess` the state is `EXIT` if and only if an opcode with
descriptor `end` and code `A` or `S` has been dequeued and executed for it. -/
theorem exit_iff_end_opcode_executed (cfg : ConfigType) (fuel n : Nat)
    (running running1 : Process) (sh sh1 : Shared)
    (hstart : running.control.state ≠ EXIT) (hnone : sh.executed = [])
    (h : runProcessTimes fuel cfg n running sh = some (running1, sh1)) :
    running1.control.state = EXIT ↔
      ∃ op ∈ sh1.executed, (op.code = 'S' ∨ op.code = 'A') ∧ op.descriptor = "end" := by
  have hinit : ExitIffEnd running sh := by
    unfold ExitIffEnd
    rw [hnone]
    simp [hstart]
  exact runProcessTimes_exitIffEnd cfg fuel n running running1 sh sh1 h hinit

/-- C7, amended, for the process loaded from
`S(start)0; A(start)0; P(run)5; A(end)0; S(end)0` and two calls with quantum 3:
the second call executes `A(end)` and the state is `EXIT`. -/
theorem exit_iff_end_opcode_executed_witness :
    ∃ running1 sh1,
      (firstProcess preemptWorkload).control.state ≠ EXIT ∧
      Shared.init.executed = [] ∧
      runProcessTimes 10 (exampleConfig 3 RR) 2 (firstProcess preemptWorkload) Shared.init
        = some (running1, sh1) ∧
      running1.control.state = EXIT ∧
      (running1.control.state = EXIT ↔
        ∃ op ∈ sh1.executed, (op.code = 'S' ∨ op.code = 'A') ∧ op.descriptor = "end") := by
  have hs : (runProcessTimes 10 (exampleConfig 3 RR) 2 (firstProcess preemptWorkload)
      Shared.init).isSome = true := by decide
  obtain ⟨⟨running1, sh1⟩, hr⟩ := Option.isSome_iff_exists.mp hs
  have hv : (runProcessTimes 10 (exampleConfig 3 RR) 2 (firstProcess preemptWorkload)
      Shared.init).map (fun r => r.1.control.state) = some EXIT := by decide
  rw [hr] at hv
  exact ⟨running1, sh1, by decide, rfl, hr, by simpa using hv,
    exit_iff_end_opcode_executed (exampleConfig 3 RR) 10 2 (firstProcess preemptWorkload)
      running1 Shared.init sh1 (by decide) rfl hr⟩

/-- C8 (the code departs from the claim).  For the process loaded from
`A(start)0; I(keyboard)5; A(end)0`, `timeRemaining` is 5 at first, the sum of
the queued cycles.  One call of `runProcess` with quantum 10 dispatches the I/O
opcode, which sets the counter to 5 + 1, and executes `A(end)`: the queue is
empty and the current opcode has no cycles left, so the claim gives 0, and
`timeRemaining` is -1. -/
theorem timeRemaining_after_io_dispatch :
    (firstProcess keyboardOnly).timeRemaining = 5 ∧
    (runProcess 10 (firstProcess keyboardOnly) Shared.init (exampleConfig 10 RR)).map
      (fun r => (r.1.timeRemaining, r.1.current.cycles, r.1.metaData, r.1.control.state))
      = some (-1, 0, [], EXIT) := by
  decide

/-- C9 (the code departs from the claim).  For the process loaded from
`A(start)0; O(monitor)1; A(end)0`, whose cycle counts are not negative, one call
of `runProcess` with quantum 10 leaves `timeRemaining = -1`. -/
theorem timeRemaining_negative_after_io :
    (∀ op ∈ monitorOnly, 0 ≤ op.cycles) ∧
    (runProcess 10 (firstProcess monitorOnly) Shared.init (exampleConfig 10 RR)).map
      (fun r => r.1.timeRemaining) = some (-1) := by
  decide

/-- C10, as stated, fails for a process that needs two quanta: with quantum 3
and the metadata `S(start)0; A(start)0; P(run)5; A(end)0; S(end)0` the scheduler
loop selects process 1 twice and the log has two lines
`OS: preparing process 1`. -/
theorem preparing_line_twice :
    (mainLoop (exampleConfig 3 RR) 20 (MainState.init (readInput preemptWorkload))).map
      (fun st => (st.schedule, st.sh.output.count (LogLine.osPreparing 1)))
      = some ([0, 0], 2) := by
  decide

/-- C10, amended.  When the scheduler loop ends, the lines
`OS: preparing process N` of the log are, in order, one for each scheduling
decision, naming the process selected by it, and they match the lines
`OS: starting process N` one for one; every process that was not in `EXIT` at
the start has been selected and has at least one such line (one for each of
its turns, so a process that needs several quanta has several). -/
theorem preparing_line_per_turn (config : ConfigType) (fuel : Nat) (program : List Process)
    (st1 : MainState)
    (h : mainLoop config fuel (MainState.init program) = some st1) :
    (st1.sh.output.filterMap preparingOf).map some
      = st1.schedule.map (processNumAt program) ∧
    st1.sh.output.filterMap preparingOf = st1.sh.output.filterMap startingOf ∧
    ∀ (i : Nat) (p : Process), program[i]? = some p → p.control.state ≠ EXIT →
      (i : Int) ∈ st1.schedule ∧
      1 ≤ st1.sh.output.count (LogLine.osPreparing p.control.processNum) := by
  obtain ⟨⟨_, hprep, hstart, hstate⟩, hdone⟩ :=
    mainLoop_inv program config fuel (MainState.init program) st1 h (schedulerInv_init program)
  refine ⟨hprep, ?_, ?_⟩
  · have hsome : Function.Injective (some : Int → Option Int) := Option.some_injective _
    exact hsome.list_map (hprep.trans hstart.symm)
  · intro i p hp hne
    have hmem : (i : Int) ∈ st1.schedule := by
      rcases hstate i with hm | heq
      · exact hm
      · exfalso
        rw [hp] at heq
        cases hq : st1.program[i]? with
        | none => simp [hq] at heq
        | some q =>
          rw [hq] at heq
          simp only [Option.map_some', Option.some.injEq] at heq
          have hqmem : q ∈ st1.program := List.getElem?_mem hq
          have := (checkCompleted_iff st1.program).mp hdone q hqmem
          exact hne (heq ▸ this)
    refine ⟨hmem, ?_⟩
    have hat : processNumAt program (i : Int) = some p.control.processNum := by
      simp [processNumAt, hp]
    have h1 : some p.control.processNum ∈ st1.schedule.map (processNumAt program) :=
      List.mem_map.mpr ⟨(i : Int), hmem, hat⟩
    rw [← hprep] at h1
    obtain ⟨n, hn, hnp⟩ := List.mem_map.mp h1
    obtain ⟨l, hl, hln⟩ := List.mem_filterMap.mp hn
    have hline : l = LogLine.osPreparing p.control.processNum := by
      cases l <;> simp_all [preparingOf]
    rw [hline] at hl
    exact List.count_pos_iff.mpr hl

/-- C10, amended, for scenario S2 (`P(run)5` with quantum 3): the loop ends
after two decisions for index 0 and the log has two lines
`OS: preparing process 1`. -/
theorem preparing_line_per_turn_witness :
    ∃ st1, mainLoop (exampleConfig 3 RR) 20 (MainState.init (readInput preemptWorkload))
        = some st1 ∧
      ((st1.sh.output.filterMap preparingOf).map some
        = st1.schedule.map (processNumAt (readInput preemptWorkload)) ∧
      st1.sh.output.filterMap preparingOf = st1.sh.output.filterMap startingOf ∧
      ∀ (i : Nat) (p : Process), (readInput preemptWorkload)[i]? = some p →
        p.control.state ≠ EXIT →
        (i : Int) ∈ st1.schedule ∧
        1 ≤ st1.sh.output.count (LogLine.osPreparing p.control.processNum)) := by
  have hs : (mainLoop (exampleConfig 3 RR) 20
      (MainState.init (readInput preemptWorkload))).isSome = true := by decide
  obtain ⟨st1, hr⟩ := Option.isSome_iff_exists.mp hs
  exact ⟨st1, hr, preparing_line_per_turn (exampleConfig 3 RR) 20 (readInput preemptWorkload)
    st1 hr⟩

/-! ### More fuel gives the same result -/

theorem rrLoop_mono (program : List Process) :
    ∀ (fuel : Nat) (index r : Int), rrLoop program fuel index = some r →
      rrLoop program (fuel + 1) index = some r := by
  intro fuel
  induction fuel with
  | zero =>
    intro index r h
    simp only [rrLoop] at h ⊢
    cases hs : stateAt program index with
    | none => simp [hs] at h
    | some s =>
      simp only [hs] at h ⊢
      split_ifs at h ⊢ with he
      exact h
  | succ fuel ih =>
    intro index r h
    rw [rrLoop] at h ⊢
    cases hs : stateAt program index with
    | none => simp [hs] at h
    | some s =>
      simp only [hs] at h ⊢
      split_ifs at h ⊢ with he
      · exact ih _ _ h
      · exact h

theorem rrLoop_mono_add (program : List Process) (fuel extra : Nat) (index r : Int)
    (h : rrLoop program fuel index = some r) :
    rrLoop program (fuel + extra) index = some r := by
  induction extra with
  | zero => exact h
  | succ extra ih => exact rrLoop_mono program _ _ _ ih

theorem getSchedule_mono (fuel extra : Nat) (program : List Process)
    (algorithmID prevIndex r : Int)
    (h : getSchedule fuel program algorithmID prevIndex = some r) :
    getSchedule (fuel + extra) program algorithmID prevIndex = some r := by
  simp only [getSchedule] at h ⊢
  split_ifs at h ⊢ with hrr hlen
  · exact rrLoop_mono_add program fuel extra _ _ h
  · exact h

theorem runProcessLoop_mono (cfg : ConfigType) :
    ∀ (fuel : Nat) (st r : RunProcessState), runProcessLoop cfg fuel st = some r →
      runProcessLoop cfg (fuel + 1) st = some r := by
  intro fuel
  induction fuel with
  | zero =>
    intro st r h
    simp only [runProcessLoop] at h
    split_ifs at h with hc
    cases h
    simp [runProcessLoop, hc]
  | succ fuel ih =>
    intro st r h
    rw [runProcessLoop] at h ⊢
    dsimp only at h ⊢
    split_ifs at h ⊢ with hc hd
    · cases hr : run (fetch st).running (fetch st).sh cfg (fetch st).cyclesRun with
      | none => simp [hr] at h
      | some v =>
        obtain ⟨p, sh, c⟩ := v
        simp only [hr] at h ⊢
        exact ih _ _ h
    · exact ih _ _ h
    · exact h

theorem runProcessLoop_mono_add (cfg : ConfigType) (fuel extra : Nat)
    (st r : RunProcessState) (h : runProcessLoop cfg fuel st = some r) :
    runProcessLoop cfg (fuel + extra) st = some r := by
  induction extra with
  | zero => exact h
  | succ extra ih => exact runProcessLoop_mono cfg _ _ _ ih

theorem runProcess_mono (fuel extra : Nat) (running : Process) (sh : Shared)
    (cfg : ConfigType) (r : Process × Shared)
    (h : runProcess fuel running sh cfg = some r) :
    runProcess (fuel + extra) running sh cfg = some r := by
  simp only [runProcess] at h ⊢
  cases hl : runProcessLoop cfg fuel (RunProcessState.enter running sh) with
  | none => simp [hl] at h
  | some st =>
    rw [runProcessLoop_mono_add cfg fuel extra _ st hl]
    simpa [hl] using h

theorem mainBody_mono (fuel extra : Nat) (config : ConfigType) (st r : MainState)
    (h : mainBody fuel config st = some r) :
    mainBody (fuel + extra) config st = some r := by
  simp only [mainBody] at h ⊢
  cases hg : getSchedule fuel st.program config.schedulingAlg st.processIndex with
  | none => simp [hg] at h
  | some idx =>
    rw [getSchedule_mono fuel extra _ _ _ idx hg]
    simp only [hg] at h ⊢
    split_ifs at h ⊢ with hidx
    cases hp : st.program[idx.toNat]? with
    | none => simp [hp] at h
    | some p =>
      simp only [hp] at h ⊢
      cases hr : runProcess fuel p
          { st.sh with output := st.sh.output ++
            [LogLine.osPreparing p.control.processNum,
             LogLine.osStarting p.control.processNum] } config with
      | none => simp [hr] at h
      | some v =>
        rw [runProcess_mono fuel extra _ _ _ v hr]
        simpa [hr] using h

theorem mainLoop_mono (config : ConfigType) :
    ∀ (fuel : Nat) (st r : MainState), mainLoop config fuel st = some r →
      ∀ extra : Nat, mainLoop config (fuel + extra) st = some r := by
  intro fuel
  induction fuel with
  | zero =>
    intro st r h extra
    simp only [mainLoop] at h
    split_ifs at h with hc
    cases h
    cases extra <;> simp [mainLoop, hc]
  | succ fuel ih =>
    intro st r h extra
    have hfe : fuel + 1 + extra = (fuel + extra) + 1 := by omega
    rw [hfe]
    rw [mainLoop] at h ⊢
    split_ifs at h ⊢ with hc
    · exact h
    · cases hb : mainBody fuel config st with
      | none => simp [hb] at h
      | some st1 =>
        rw [mainBody_mono fuel extra config st st1 hb]
        simp only [hb] at h ⊢
        exact ih st1 r h extra

/-! ### Exact results of `run` -/

theorem runLoop_of_not_cond (cfg : ConfigType) (fuel : Nat) (st : RunState)
    (h : runCond cfg st = false) : runLoop cfg fuel st = some st := by
  cases fuel <;> simp [runLoop, h]

theorem run_no_cycles (running : Process) (sh : Shared) (cfg : ConfigType) (cycle : Int)
    (h : running.current.cycles ≤ 0) :
    run running sh cfg cycle
      = some ({ running with control := runLifecycle running.control running.current },
              { sh with executed := sh.executed ++ [running.current] }, cycle) := by
  have hcond : runCond cfg
      { running := { running with control := runLifecycle running.control running.current }
        sh := { sh with executed := sh.executed ++ [running.current] }
        cycle := cycle, threadCreated := false } = false := by
    have : ¬ 0 < running.current.cycles := by omega
    simp [runCond, this]
  simp only [run, runLoop_of_not_cond cfg _ _ hcond]

theorem runLoop_processor (cfg : ConfigType) :
    ∀ (m fuel : Nat) (st : RunState), st.running.current.code = 'P' →
      st.threadCreated = false →
      (m : Int) ≤ st.running.current.cycles → st.cycle + m ≤ cfg.quantum →
      ((m : Int) = st.running.current.cycles ∨ st.cycle + m = cfg.quantum) →
      m ≤ fuel →
      runLoop cfg fuel st = some
        { running := { st.running with
            current := { st.running.current with
              cycles := st.running.current.cycles - m
              started := st.running.current.started || decide (0 < m) } }
          sh := { st.sh with
            output := st.sh.output ++
              (if m = 0 then [] else
                processorLines st.running.control.processNum st.running.current.started
                  (decide ((m : Int) = st.running.current.cycles)))
            cyclesDone := st.sh.cyclesDone + m }
          cycle := st.cycle + m
          threadCreated := false } := by
  intro m
  induction m with
  | zero =>
    intro fuel st hP htc hc hq hend _
    have hcond : runCond cfg st = false := by
      simp only [runCond]
      rcases hend with h | h
      · have : ¬ 0 < st.running.current.cycles := by simp at h; omega
        simp [this]
      · have : ¬ st.cycle < cfg.quantum := by simp at h; omega
        simp [this]
    rw [runLoop_of_not_cond cfg fuel st hcond]
    cases st with
    | mk running sh cycle tc =>
      simp at htc
      subst htc
      simp
  | succ m ih =>
    intro fuel st hP htc hc hq hend hfuel
    obtain ⟨fuel, rfl⟩ : ∃ f, fuel = f + 1 := ⟨fuel - 1, by omega⟩
    have hcond : runCond cfg st = true := by
      have h1 : 0 < st.running.current.cycles := by push_cast at hc; omega
      have h2 : st.cycle < cfg.quantum := by push_cast at hq; omega
      simp [runCond, h1, h2, htc]
    have hbody : runBody cfg st
        = some { processorStep cfg st with cycle := (processorStep cfg st).cycle + 1 } := by
      simp only [runBody, hP, if_true]
    rw [runLoop, if_pos hcond, hbody]
    dsimp only
    have hst1P : ({ processorStep cfg st with cycle := (processorStep cfg st).cycle + 1 }
        : RunState).running.current.code = 'P' := hP
    have hst1tc : ({ processorStep cfg st with cycle := (processorStep cfg st).cycle + 1 }
        : RunState).threadCreated = false := htc
    by_cases h1 : st.running.current.cycles - 1 = 0
    · -- the opcode finishes with this cycle
      have hm : m = 0 := by push_cast at hc; omega
      subst hm
      refine (ih fuel { processorStep cfg st with cycle := (processorStep cfg st).cycle + 1 }
        hst1P hst1tc (by simp [processorStep]; omega)
        (by simp [processorStep]; push_cast at hq; omega)
        (Or.inl (by simp [processorStep]; omega)) (by omega)).trans ?_
      have hc1 : st.running.current.cycles = 1 := by omega
      cases hs : st.running.current.started <;>
        simp [processorStep, processorLines, h1, hs, hc1]
    · by_cases h2 : st.cycle = cfg.quantum - 1
      · -- the quantum ends with this cycle
        have hm : m = 0 := by push_cast at hq; omega
        subst hm
        refine (ih fuel { processorStep cfg st with cycle := (processorStep cfg st).cycle + 1 }
          hst1P hst1tc (by simp [processorStep]; omega)
          (by simp [processorStep]; omega)
          (Or.inr (by simp [processorStep]; omega)) (by omega)).trans ?_
        have hne : ¬ (1 : Int) = st.running.current.cycles := by omega
        cases hs : st.running.current.started <;>
          simp [processorStep, processorLines, h1, h2, hs, hne]
      · have hm : 0 < m := by
          rcases hend with h | h
          · push_cast at h; omega
          · push_cast at h; omega
        refine (ih fuel { processorStep cfg st with cycle := (processorStep cfg st).cycle + 1 }
          hst1P hst1tc
          (by simp [processorStep]; push_cast at hc; omega)
          (by simp [processorStep]; push_cast at hq; omega)
          (by
            rcases hend with h | h
            · left; simp [processorStep]; push_cast at h; omega
            · right; simp [processorStep]; push_cast at h; omega)
          (by omega)).trans ?_
        have hm0 : m ≠ 0 := by omega
        have hiff : ((m : Int) = st.running.current.cycles - 1)
            ↔ ((m : Int) + 1 = st.running.current.cycles) := by omega
        cases hs : st.running.current.started <;>
          simp [processorStep, processorLines, h1, h2, hs, hm0, hm, hiff, add_assoc,
            add_comm, sub_sub] <;> omega

theorem run_processor (running : Process) (sh : Shared) (cfg : ConfigType) (cycle : Int)
    (m : Nat) (hP : running.current.code = 'P') (hm : 1 ≤ m)
    (hmc : (m : Int) ≤ running.current.cycles) (hmq : cycle + m ≤ cfg.quantum)
    (hend : (m : Int) = running.current.cycles ∨ cycle + m = cfg.quantum) :
    run running sh cfg cycle = some
      ({ running with
          current := { running.current with
            cycles := running.current.cycles - m, started := true } },
       { sh with
          output := sh.output ++
            processorLines running.control.processNum running.current.started
              (decide ((m : Int) = running.current.cycles))
          executed := sh.executed ++ [running.current]
          cyclesDone := sh.cyclesDone + m },
       cycle + m) := by
  have hlife := runLifecycle_cpuOrMemory running.control running.current (Or.inl hP)
  have hloop := runLoop_processor cfg m (cfg.quantum - cycle).toNat
    { running := { running with control := runLifecycle running.control running.current }
      sh := { sh with executed := sh.executed ++ [running.current] }
      cycle := cycle, threadCreated := false }
    hP rfl hmc hmq hend (by omega)
  have hm0 : m ≠ 0 := by omega
  have hmpos : 0 < m := by omega
  simp only [run, hloop]
  simp [hlife, hm0, hmpos]

/-- One pass of the loop of `runProcess` that calls `run`. -/
theorem runProcessLoop_pass (cfg : ConfigType) (fuel : Nat) (st : RunProcessState)
    (p : Process) (sh : Shared) (c : Int)
    (hcond : runProcessCond cfg st = true) (hdeq : (fetch st).dequeued = true)
    (hrun : run (fetch st).running (fetch st).sh cfg (fetch st).cyclesRun = some (p, sh, c)) :
    runProcessLoop cfg (fuel + 1) st
      = runProcessLoop cfg fuel { running := p, sh := sh, dequeued := true, cyclesRun := c } := by
  rw [runProcessLoop, if_pos hcond]
  dsimp only
  rw [if_pos hdeq, hrun, hdeq]

theorem runProcessLoop_done (cfg : ConfigType) (fuel : Nat) (st : RunProcessState)
    (hcond : runProcessCond cfg st = false) : runProcessLoop cfg fuel st = some st := by
  cases fuel <;> simp [runProcessLoop, hcond]

/-- A pass that dequeues an opcode without cycles whose descriptor is not `run`. -/
theorem runProcessLoop_pass_marker (cfg : ConfigType) (fuel : Nat) (st : RunProcessState)
    (op : MetaDataType) (rest : List MetaDataType)
    (hcond : runProcessCond cfg st = true)
    (hcur : st.running.current.cycles ≤ 0)
    (hq : st.running.metaData = op :: rest)
    (hdesc : op.descriptor ≠ "run") (hcyc : op.cycles ≤ 0) :
    runProcessLoop cfg (fuel + 1) st
      = runProcessLoop cfg fuel
          { running := { st.running with
              metaData := rest, current := op
              control := runLifecycle st.running.control op }
            sh := { st.sh with executed := st.sh.executed ++ [op] }
            dequeued := true, cyclesRun := st.cyclesRun } := by
  have hf : fetch st = { st with
      running := { st.running with metaData := rest, current := op }, dequeued := true } := by
    simp [fetch, hcur, hq, SimpleQueue.dequeue, hdesc]
  apply runProcessLoop_pass cfg fuel st _ _ _ hcond (by rw [hf])
  rw [hf]
  exact run_no_cycles _ _ _ _ hcyc

/-- A pass that dequeues a `P(run)` opcode for a process without completed cache
operations and executes `m` of its cycles. -/
theorem runProcessLoop_pass_fetch_run (cfg : ConfigType) (fuel : Nat) (st : RunProcessState)
    (c : Int) (rest : List MetaDataType) (m : Nat)
    (hcond : runProcessCond cfg st = true)
    (hcur : st.running.current.cycles ≤ 0)
    (hq : st.running.metaData = opcode 'P' "run" c :: rest)
    (hk : st.running.cacheCount = 0)
    (hm : 1 ≤ m) (hmc : (m : Int) ≤ c) (hmq : st.cyclesRun + m ≤ cfg.quantum)
    (hend : (m : Int) = c ∨ st.cyclesRun + m = cfg.quantum) :
    runProcessLoop cfg (fuel + 1) st
      = runProcessLoop cfg fuel
          { running := { st.running with
              metaData := rest
              current := { code := 'P', descriptor := "run", cycles := c - m, started := true } }
            sh := { st.sh with
              output := st.sh.output ++
                processorLines st.running.control.processNum false (decide ((m : Int) = c))
              executed := st.sh.executed ++ [opcode 'P' "run" c]
              cyclesDone := st.sh.cyclesDone + m }
            dequeued := true, cyclesRun := st.cyclesRun + m } := by
  have hc1 : 1 ≤ c := by omega
  have hf : fetch st = { st with
      running := { st.running with metaData := rest, current := opcode 'P' "run" c },
      dequeued := true } := by
    simp [fetch, hcur, hq, SimpleQueue.dequeue, opcode, hk, hc1]
  apply runProcessLoop_pass cfg fuel st _ _ _ hcond (by rw [hf])
  rw [hf]
  exact run_processor _ _ cfg _ m rfl hm hmc hmq hend

/-- A pass that goes on with a current opcode of code `P` and executes `m` of
its cycles. -/
theorem runProcessLoop_pass_continue (cfg : ConfigType) (fuel : Nat) (st : RunProcessState)
    (m : Nat)
    (hcond : runProcessCond cfg st = true) (hdeq : st.dequeued = true)
    (hP : st.running.current.code = 'P')
    (hm : 1 ≤ m) (hmc : (m : Int) ≤ st.running.current.cycles)
    (hmq : st.cyclesRun + m ≤ cfg.quantum)
    (hend : (m : Int) = st.running.current.cycles ∨ st.cyclesRun + m = cfg.quantum) :
    runProcessLoop cfg (fuel + 1) st
      = runProcessLoop cfg fuel
          { running := { st.running with
              current := { st.running.current with
                cycles := st.running.current.cycles - m, started := true } }
            sh := { st.sh with
              output := st.sh.output ++
                processorLines st.running.control.processNum st.running.current.started
                  (decide ((m : Int) = st.running.current.cycles))
              executed := st.sh.executed ++ [st.running.current]
              cyclesDone := st.sh.cyclesDone + m }
            dequeued := true, cyclesRun := st.cyclesRun + m } := by
  have hpos : ¬ st.running.current.cycles ≤ 0 := by omega
  have hI : st.running.current.code ≠ 'I' := by rw [hP]; decide
  have hO : st.running.current.code ≠ 'O' := by rw [hP]; decide
  have hf : fetch st = st := by
    simp [fetch, hpos, hI, hO]
  apply runProcessLoop_pass cfg fuel st _ _ _ hcond (by rw [hf]; exact hdeq)
  rw [hf]
  exact run_processor _ _ cfg _ m hP hm hmc hmq hend

/-! ### Turns of a process with one `P(run)` -/

theorem runProcess_ge (f fuel : Nat) (running : Process) (sh : Shared) (cfg : ConfigType)
    (r : Process × Shared) (h : runProcess f running sh cfg = some r) (hle : f ≤ fuel) :
    runProcess fuel running sh cfg = some r := by
  obtain ⟨extra, rfl⟩ : ∃ e, fuel = f + e := ⟨fuel - f, by omega⟩
  exact runProcess_mono f extra running sh cfg r h

/-- The first turn of `S(start)0; A(start)0; P(run)c; A(end)0` when `c` is below
the quantum: the process runs to `EXIT`. -/
theorem runProcess_singleRun_short (cfg : ConfigType) (n c : Int) (sh : Shared) (fuel : Nat)
    (hc : 1 ≤ c) (hq : c < cfg.quantum) (hfuel : 5 ≤ fuel) :
    ∃ sh1, runProcess fuel (loadedProcess n (singleRunOpen c) c) sh cfg
        = some (exitedProcess n false, sh1) ∧
      sh1.output = sh.output ++ [LogLine.startProcessing n, LogLine.endProcessing n] ∧
      sh1.cyclesDone = sh.cyclesDone + c.toNat ∧
      sh1.threadCount = sh.threadCount := by
  have hcn : (c.toNat : Int) = c := Int.toNat_of_nonneg (by omega)
  have h5 : ∃ sh1, runProcess 5 (loadedProcess n (singleRunOpen c) c) sh cfg
        = some (exitedProcess n false, sh1) ∧
      sh1.output = sh.output ++ [LogLine.startProcessing n, LogLine.endProcessing n] ∧
      sh1.cyclesDone = sh.cyclesDone + c.toNat ∧
      sh1.threadCount = sh.threadCount := by
    simp only [runProcess]
    rw [runProcessLoop_pass_marker cfg 4 _ (opcode 'S' "start" 0)
      [opcode 'A' "start" 0, opcode 'P' "run" c, opcode 'A' "end" 0]
      (by simp [runProcessCond, RunProcessState.enter, loadedProcess, NEW, EXIT]; omega)
      (by simp [RunProcessState.enter, loadedProcess, newProcess])
      rfl (by decide) (by decide)]
    rw [runProcessLoop_pass_marker cfg 3 _ (opcode 'A' "start" 0)
      [opcode 'P' "run" c, opcode 'A' "end" 0]
      (by simp [runProcessCond, RunProcessState.enter, loadedProcess, runLifecycle, opcode,
            READY, EXIT]; omega)
      (Int.le_refl 0) rfl (by decide) (by decide)]
    rw [runProcessLoop_pass_fetch_run cfg 2 _ c [opcode 'A' "end" 0] c.toNat
      (by simp [runProcessCond, RunProcessState.enter, loadedProcess, runLifecycle, opcode,
            RUNNING, EXIT]; omega)
      (Int.le_refl 0) rfl rfl (by omega) (by omega)
      (by simp [RunProcessState.enter]; omega) (Or.inl hcn)]
    rw [runProcessLoop_pass_marker cfg 1 _ (opcode 'A' "end" 0) []
      (by simp [runProcessCond, RunProcessState.enter, loadedProcess, runLifecycle, opcode,
            RUNNING, EXIT]; omega)
      (by show c - (c.toNat : Int) ≤ 0; omega) rfl (by decide) (by decide)]
    rw [runProcessLoop_done cfg 1 _ (by simp [runProcessCond, runLifecycle, opcode])]
    simp only [Option.some.injEq, Prod.mk.injEq]
    refine ⟨_, ⟨?_, rfl⟩, ?_, ?_, rfl⟩
    · simp [exitedProcess, loadedProcess, newProcess, runLifecycle, opcode,
        RunProcessState.enter, hcn]
    · simp [processorLines, RunProcessState.enter, loadedProcess, hcn, runLifecycle, opcode]
    · simp [RunProcessState.enter]
  obtain ⟨sh1, h, ho, hd, ht⟩ := h5
  exact ⟨sh1, runProcess_ge 5 fuel _ _ _ _ h hfuel, ho, hd, ht⟩


/-- The first turn of `S(start)0; A(start)0; P(run)c; A(end)0` when `c` is not
below the quantum: a full quantum of cycles, and the process stays `RUNNING`. -/
theorem runProcess_singleRun_long (cfg : ConfigType) (n c : Int) (sh : Shared) (fuel : Nat)
    (hq1 : 1 ≤ cfg.quantum) (hq : cfg.quantum ≤ c) (hfuel : 5 ≤ fuel) :
    ∃ sh1, runProcess fuel (loadedProcess n (singleRunOpen c) c) sh cfg
        = some (preemptedProcess n (c - cfg.quantum), sh1) ∧
      sh1.output = sh.output ++ [LogLine.startProcessing n,
        if c = cfg.quantum then LogLine.endProcessing n else LogLine.interruptProcessing n] ∧
      sh1.cyclesDone = sh.cyclesDone + cfg.quantum.toNat ∧
      sh1.threadCount = sh.threadCount := by
  have hqn : (cfg.quantum.toNat : Int) = cfg.quantum := Int.toNat_of_nonneg (by omega)
  have h5 : ∃ sh1, runProcess 5 (loadedProcess n (singleRunOpen c) c) sh cfg
        = some (preemptedProcess n (c - cfg.quantum), sh1) ∧
      sh1.output = sh.output ++ [LogLine.startProcessing n,
        if c = cfg.quantum then LogLine.endProcessing n else LogLine.interruptProcessing n] ∧
      sh1.cyclesDone = sh.cyclesDone + cfg.quantum.toNat ∧
      sh1.threadCount = sh.threadCount := by
    simp only [runProcess]
    rw [runProcessLoop_pass_marker cfg 4 _ (opcode 'S' "start" 0)
      [opcode 'A' "start" 0, opcode 'P' "run" c, opcode 'A' "end" 0]
      (by simp [runProcessCond, RunProcessState.enter, loadedProcess, NEW, EXIT]; omega)
      (by simp [RunProcessState.enter, loadedProcess, newProcess])
      rfl (by decide) (by decide)]
    rw [runProcessLoop_pass_marker cfg 3 _ (opcode 'A' "start" 0)
      [opcode 'P' "run" c, opcode 'A' "end" 0]
      (by simp [runProcessCond, RunProcessState.enter, loadedProcess, runLifecycle, opcode,
            READY, EXIT]; omega)
      (Int.le_refl 0) rfl (by decide) (by decide)]
    rw [runProcessLoop_pass_fetch_run cfg 2 _ c [opcode 'A' "end" 0] cfg.quantum.toNat
      (by simp [runProcessCond, RunProcessState.enter, loadedProcess, runLifecycle, opcode,
            RUNNING, EXIT]; omega)
      (Int.le_refl 0) rfl rfl (by omega) (by omega)
      (by simp [RunProcessState.enter]; omega)
      (Or.inr (by simp [RunProcessState.enter]; omega))]
    rw [runProcessLoop_done cfg 2 _
      (by simp [runProcessCond, RunProcessState.enter])]
    simp only [Option.some.injEq, Prod.mk.injEq]
    refine ⟨_, ⟨?_, rfl⟩, ?_, ?_, rfl⟩
    · simp [preemptedProcess, loadedProcess, newProcess, runLifecycle, opcode,
        RunProcessState.enter, hqn, RUNNING]
    · by_cases hcq : c = cfg.quantum
      · simp [processorLines, RunProcessState.enter, loadedProcess, hqn, runLifecycle, opcode,
          hcq]
      · have hne : ¬ cfg.quantum = c := fun h => hcq h.symm
        simp [processorLines, RunProcessState.enter, loadedProcess, hqn, runLifecycle, opcode,
          hcq, hne]
    · simp [RunProcessState.enter]
  obtain ⟨sh1, h, ho, hd, ht⟩ := h5
  exact ⟨sh1, runProcess_ge 5 fuel _ _ _ _ h hfuel, ho, hd, ht⟩

/-- The first turn of `A(start)0; P(run)c; A(end)0` when `c` is not below the
quantum. -/
theorem runProcess_job_long (cfg : ConfigType) (n c : Int) (sh : Shared) (fuel : Nat)
    (hq1 : 1 ≤ cfg.quantum) (hq : cfg.quantum ≤ c) (hfuel : 5 ≤ fuel) :
    ∃ sh1, runProcess fuel (loadedProcess n (roundRobinJob c) c) sh cfg
        = some (preemptedProcess n (c - cfg.quantum), sh1) ∧
      sh1.output = sh.output ++ [LogLine.startProcessing n,
        if c = cfg.quantum then LogLine.endProcessing n else LogLine.interruptProcessing n] ∧
      sh1.cyclesDone = sh.cyclesDone + cfg.quantum.toNat ∧
      sh1.threadCount = sh.threadCount := by
  have hqn : (cfg.quantum.toNat : Int) = cfg.quantum := Int.toNat_of_nonneg (by omega)
  have h5 : ∃ sh1, runProcess 5 (loadedProcess n (roundRobinJob c) c) sh cfg
        = some (preemptedProcess n (c - cfg.quantum), sh1) ∧
      sh1.output = sh.output ++ [LogLine.startProcessing n,
        if c = cfg.quantum then LogLine.endProcessing n else LogLine.interruptProcessing n] ∧
      sh1.cyclesDone = sh.cyclesDone + cfg.quantum.toNat ∧
      sh1.threadCount = sh.threadCount := by
    simp only [runProcess]
    rw [runProcessLoop_pass_marker cfg 4 _ (opcode 'A' "start" 0)
      [opcode 'P' "run" c, opcode 'A' "end" 0]
      (by simp [runProcessCond, RunProcessState.enter, loadedProcess, NEW, EXIT]; omega)
      (by simp [RunProcessState.enter, loadedProcess, newProcess])
      rfl (by decide) (by decide)]
    rw [runProcessLoop_pass_fetch_run cfg 3 _ c [opcode 'A' "end" 0] cfg.quantum.toNat
      (by simp [runProcessCond, RunProcessState.enter, loadedProcess, runLifecycle, opcode,
            RUNNING, EXIT]; omega)
      (Int.le_refl 0) rfl rfl (by omega) (by omega)
      (by simp [RunProcessState.enter]; omega)
      (Or.inr (by simp [RunProcessState.enter]; omega))]
    rw [runProcessLoop_done cfg 3 _
      (by simp [runProcessCond, RunProcessState.enter])]
    simp only [Option.some.injEq, Prod.mk.injEq]
    refine ⟨_, ⟨?_, rfl⟩, ?_, ?_, rfl⟩
    · simp [preemptedProcess, loadedProcess, newProcess, runLifecycle, opcode,
        RunProcessState.enter, hqn, RUNNING]
    · by_cases hcq : c = cfg.quantum
      · simp [processorLines, RunProcessState.enter, loadedProcess, hqn, runLifecycle, opcode,
          hcq]
      · have hne : ¬ cfg.quantum = c := fun h => hcq h.symm
        simp [processorLines, RunProcessState.enter, loadedProcess, hqn, runLifecycle, opcode,
          hcq, hne]
    · simp [RunProcessState.enter]
  obtain ⟨sh1, h, ho, hd, ht⟩ := h5
  exact ⟨sh1, runProcess_ge 5 fuel _ _ _ _ h hfuel, ho, hd, ht⟩

/-- A later turn when the cycles left are not below the quantum. -/
theorem runProcess_preempted_long (cfg : ConfigType) (n r : Int) (sh : Shared) (fuel : Nat)
    (hq1 : 1 ≤ cfg.quantum) (hq : cfg.quantum ≤ r) (hfuel : 5 ≤ fuel) :
    ∃ sh1, runProcess fuel (preemptedProcess n r) sh cfg
        = some (preemptedProcess n (r - cfg.quantum), sh1) ∧
      sh1.output = sh.output ++
        [if r = cfg.quantum then LogLine.endProcessing n else LogLine.interruptProcessing n] ∧
      sh1.cyclesDone = sh.cyclesDone + cfg.quantum.toNat ∧
      sh1.threadCount = sh.threadCount := by
  have hqn : (cfg.quantum.toNat : Int) = cfg.quantum := Int.toNat_of_nonneg (by omega)
  have h5 : ∃ sh1, runProcess 5 (preemptedProcess n r) sh cfg
        = some (preemptedProcess n (r - cfg.quantum), sh1) ∧
      sh1.output = sh.output ++
        [if r = cfg.quantum then LogLine.endProcessing n else LogLine.interruptProcessing n] ∧
      sh1.cyclesDone = sh.cyclesDone + cfg.quantum.toNat ∧
      sh1.threadCount = sh.threadCount := by
    simp only [runProcess]
    rw [runProcessLoop_pass_continue cfg 4 _ cfg.quantum.toNat
      (by simp [runProcessCond, RunProcessState.enter, preemptedProcess, RUNNING, EXIT]; omega)
      rfl rfl (by omega) (by simp [RunProcessState.enter, preemptedProcess]; omega)
      (by simp [RunProcessState.enter]; omega)
      (Or.inr (by simp [RunProcessState.enter]; omega))]
    rw [runProcessLoop_done cfg 4 _
      (by simp [runProcessCond, RunProcessState.enter])]
    simp only [Option.some.injEq, Prod.mk.injEq]
    refine ⟨_, ⟨?_, rfl⟩, ?_, ?_, rfl⟩
    · simp [preemptedProcess, RunProcessState.enter, hqn]
    · by_cases hcq : r = cfg.quantum
      · simp [processorLines, RunProcessState.enter, preemptedProcess, hqn, hcq]
      · have hne : ¬ cfg.quantum = r := fun h => hcq h.symm
        simp [processorLines, RunProcessState.enter, preemptedProcess, hqn, hcq, hne]
    · simp [RunProcessState.enter]
  obtain ⟨sh1, h, ho, hd, ht⟩ := h5
  exact ⟨sh1, runProcess_ge 5 fuel _ _ _ _ h hfuel, ho, hd, ht⟩

/-- A later turn when the cycles left are below the quantum: the opcode ends and
`A(end)0` is executed. -/
theorem runProcess_preempted_short (cfg : ConfigType) (n r : Int) (sh : Shared) (fuel : Nat)
    (hr : 1 ≤ r) (hq : r < cfg.quantum) (hfuel : 5 ≤ fuel) :
    ∃ sh1, runProcess fuel (preemptedProcess n r) sh cfg
        = some (exitedProcess n false, sh1) ∧
      sh1.output = sh.output ++ [LogLine.endProcessing n] ∧
      sh1.cyclesDone = sh.cyclesDone + r.toNat ∧
      sh1.threadCount = sh.threadCount := by
  have hrn : (r.toNat : Int) = r := Int.toNat_of_nonneg (by omega)
  have h5 : ∃ sh1, runProcess 5 (preemptedProcess n r) sh cfg
        = some (exitedProcess n false, sh1) ∧
      sh1.output = sh.output ++ [LogLine.endProcessing n] ∧
      sh1.cyclesDone = sh.cyclesDone + r.toNat ∧
      sh1.threadCount = sh.threadCount := by
    simp only [runProcess]
    rw [runProcessLoop_pass_continue cfg 4 _ r.toNat
      (by simp [runProcessCond, RunProcessState.enter, preemptedProcess, RUNNING, EXIT]; omega)
      rfl rfl (by omega) (by simp [RunProcessState.enter, preemptedProcess]; omega)
      (by simp [RunProcessState.enter]; omega)
      (Or.inl (by simp [RunProcessState.enter, preemptedProcess]; omega))]
    rw [runProcessLoop_pass_marker cfg 3 _ (opcode 'A' "end" 0) []
      (by simp [runProcessCond, RunProcessState.enter, preemptedProcess, RUNNING, EXIT]; omega)
      (by simp [RunProcessState.enter, preemptedProcess]) rfl (by decide) (by decide)]
    rw [runProcessLoop_done cfg 3 _ (by simp [runProcessCond, runLifecycle, opcode])]
    simp only [Option.some.injEq, Prod.mk.injEq]
    refine ⟨_, ⟨?_, rfl⟩, ?_, ?_, rfl⟩
    · simp [exitedProcess, preemptedProcess, runLifecycle, opcode, RunProcessState.enter, hrn]
    · simp [processorLines, RunProcessState.enter, preemptedProcess, hrn]
    · simp [RunProcessState.enter]
  obtain ⟨sh1, h, ho, hd, ht⟩ := h5
  exact ⟨sh1, runProcess_ge 5 fuel _ _ _ _ h hfuel, ho, hd, ht⟩

/-- A later turn when no cycles are left: only `A(end)0` is executed. -/
theorem runProcess_preempted_zero (cfg : ConfigType) (n : Int) (sh : Shared) (fuel : Nat)
    (hq1 : 1 ≤ cfg.quantum) (hfuel : 5 ≤ fuel) :
    ∃ sh1, runProcess fuel (preemptedProcess n 0) sh cfg
        = some (exitedProcess n false, sh1) ∧
      sh1.output = sh.output ∧ sh1.cyclesDone = sh.cyclesDone ∧
      sh1.threadCount = sh.threadCount := by
  have h5 : ∃ sh1, runProcess 5 (preemptedProcess n 0) sh cfg
        = some (exitedProcess n false, sh1) ∧
      sh1.output = sh.output ∧ sh1.cyclesDone = sh.cyclesDone ∧
      sh1.threadCount = sh.threadCount := by
    simp only [runProcess]
    rw [runProcessLoop_pass_marker cfg 4 _ (opcode 'A' "end" 0) []
      (by simp [runProcessCond, RunProcessState.enter, preemptedProcess, RUNNING, EXIT]; omega)
      (Int.le_refl 0) rfl (by decide) (by decide)]
    rw [runProcessLoop_done cfg 4 _ (by simp [runProcessCond, runLifecycle, opcode])]
    simp only [Option.some.injEq, Prod.mk.injEq]
    refine ⟨_, ⟨?_, rfl⟩, ?_, ?_, rfl⟩
    · simp [exitedProcess, preemptedProcess, runLifecycle, opcode, RunProcessState.enter]
    · simp [RunProcessState.enter]
    · simp [RunProcessState.enter]
  obtain ⟨sh1, h, ho, hd, ht⟩ := h5
  exact ⟨sh1, runProcess_ge 5 fuel _ _ _ _ h hfuel, ho, hd, ht⟩

/-! ### The scheduler loop on a table of one process -/

theorem mainLoop_step (config : ConfigType) (fuel : Nat) (st st1 : MainState)
    (hc : checkCompleted st.program = false) (hb : mainBody fuel config st = some st1) :
    mainLoop config (fuel + 1) st = mainLoop config fuel st1 := by
  rw [mainLoop]
  simp [hc, hb]

theorem mainLoop_of_completed (config : ConfigType) (fuel : Nat) (st : MainState)
    (hc : checkCompleted st.program = true) : mainLoop config fuel st = some st := by
  cases fuel <;> simp [mainLoop, hc]

theorem rrLoop_of_not_exit (program : List Process) (fuel : Nat) (index s : Int)
    (hs : stateAt program index = some s) (hne : s ≠ EXIT) :
    rrLoop program fuel index = some index := by
  cases fuel <;> simp [rrLoop, hs, hne]

theorem getSchedule_single (fuel : Nat) (p : Process) (prev : Int)
    (hprev : prev = -1 ∨ prev = 0) (hs : p.control.state ≠ EXIT) :
    getSchedule fuel [p] RR prev = some 0 := by
  have hidx : Int.tmod (prev + 1) ((([p] : List Process).length : Nat) : Int) = 0 := by
    rcases hprev with h | h <;> subst h <;> simp [Int.tmod]
  simp only [getSchedule, if_true]
  rw [if_neg (by simp), hidx]
  exact rrLoop_of_not_exit [p] fuel 0 p.control.state (by simp [stateAt]) hs

/-- One pass of the scheduler loop on a table of one process under round robin. -/
theorem mainBody_single (fuel : Nat) (config : ConfigType) (st : MainState)
    (p p1 : Process) (sh2 : Shared)
    (hrr : config.schedulingAlg = RR) (hprog : st.program = [p])
    (hprev : st.processIndex = -1 ∨ st.processIndex = 0) (hs : p.control.state ≠ EXIT)
    (hrun : runProcess fuel p
      { st.sh with output := st.sh.output ++
          [LogLine.osPreparing p.control.processNum, LogLine.osStarting p.control.processNum] }
      config = some (p1, sh2)) :
    mainBody fuel config st = some
      { program := (completionScan [p1] sh2.output).1
        sh := { sh2 with output := (completionScan [p1] sh2.output).2 }
        processIndex := 0
        schedule := st.schedule ++ [0] } := by
  simp only [mainBody, hrr, hprog, getSchedule_single fuel p _ hprev hs]
  simp [hrun]

theorem completionScan_exited (n : Int) (out : List LogLine) :
    completionScan [exitedProcess n false] out
      = ([exitedProcess n true], out ++ [LogLine.osCompleted n]) := by
  simp [completionScan, exitedProcess]

theorem completionScan_preempted (n r : Int) (out : List LogLine) :
    completionScan [preemptedProcess n r] out = ([preemptedProcess n r], out) := by
  simp [completionScan, preemptedProcess, RUNNING, EXIT]

theorem checkCompleted_exited (n : Int) (b : Bool) :
    checkCompleted [exitedProcess n b] = true := by
  simp [checkCompleted, exitedProcess]

theorem checkCompleted_preempted (n r : Int) :
    checkCompleted [preemptedProcess n r] = false := by
  simp [checkCompleted, preemptedProcess, RUNNING, EXIT]

theorem checkCompleted_loaded (n total : Int) (queue : List MetaDataType) :
    checkCompleted [loadedProcess n queue total] = false := by
  simp [checkCompleted, loadedProcess, NEW, EXIT]

theorem readInput_singleRunOpen (c : Int) :
    readInput (singleRunOpen c) = [loadedProcess 1 (singleRunOpen c) c] := by
  simp [readInput, singleRunOpen, readInputLoop, opcode, SimpleQueue.enqueue, loadedProcess,
    newProcess]

theorem readInput_singleRun (c : Int) :
    readInput (singleRun c) = [loadedProcess 1 (singleRunOpen c) c] := by
  simp [readInput, singleRun, singleRunOpen, readInputLoop, opcode, SimpleQueue.enqueue,
    loadedProcess, newProcess]

/-! ### The drain loop -/

theorem drainScan_of_completed : ∀ (program : List Process) (out : List LogLine)
    (finished : Bool), (∀ p ∈ program, p.completed = true) →
    drainScan program out finished = (program, out, finished) := by
  intro program
  induction program with
  | nil => intro out finished _; rfl
  | cons p rest ih =>
    intro out finished h
    have hp : p.completed = true := h p (by simp)
    simp [drainScan, hp, ih out finished (fun q hq => h q (by simp [hq]))]

theorem drainLoop_of_completed (fuel : Nat) (finished : Bool) (program : List Process)
    (sh : Shared) (hfuel : 1 ≤ fuel) (ht : sh.threadCount = 0)
    (h : ∀ p ∈ program, p.completed = true) :
    drainLoop fuel finished program sh = some (program, sh) := by
  obtain ⟨fuel, rfl⟩ : ∃ f, fuel = f + 1 := ⟨fuel - 1, by omega⟩
  cases finished with
  | true => simp [drainLoop]
  | false =>
    have hd : decide (sh.threadCount = 0) = true := by simp [ht]
    rw [drainLoop]
    simp only [drainScan_of_completed program sh.output _ h, hd]
    cases fuel <;> simp [drainLoop]

/-- Scenario S1 for any cycle count below the quantum. -/
theorem main_singleRun_short (config : ConfigType) (c : Int) (fuel : Nat) (finished : Bool)
    (hrr : config.schedulingAlg = RR) (hc : 1 ≤ c) (hq : c < config.quantum)
    (hfuel : 6 ≤ fuel) :
    main fuel finished config (singleRun c) = some
      [LogLine.simulatorStarting, LogLine.osPreparing 1, LogLine.osStarting 1,
       LogLine.startProcessing 1, LogLine.endProcessing 1, LogLine.osCompleted 1,
       LogLine.simulatorEnding] := by
  obtain ⟨fuel, rfl⟩ : ∃ f, fuel = f + 1 := ⟨fuel - 1, by omega⟩
  obtain ⟨sh1, hrun, hout, _, hthr⟩ := runProcess_singleRun_short config 1 c
    { (MainState.init [loadedProcess 1 (singleRunOpen c) c]).sh with
      output := (MainState.init [loadedProcess 1 (singleRunOpen c) c]).sh.output ++
        [LogLine.osPreparing 1, LogLine.osStarting 1] }
    fuel hc hq (by omega)
  have hbody := mainBody_single fuel config (MainState.init [loadedProcess 1 (singleRunOpen c) c])
    (loadedProcess 1 (singleRunOpen c) c) (exitedProcess 1 false) sh1 hrr rfl (Or.inl rfl)
    (by simp [loadedProcess, NEW, EXIT]) hrun
  rw [completionScan_exited] at hbody
  simp only [main, readInput_singleRun]
  rw [mainLoop_step config fuel _ _ (checkCompleted_loaded _ _ _) hbody,
    mainLoop_of_completed config fuel _ (checkCompleted_exited 1 true)]
  dsimp only
  rw [drainLoop_of_completed (fuel + 1) finished _ _ (by omega)
    (by simpa [MainState.init, Shared.init] using hthr)
    (by simp [exitedProcess])]
  simp [hout, MainState.init, Shared.init]

theorem getSchedule_single_any (fuel : Nat) (p : Process) (alg prev : Int)
    (halg : alg = RR ∨ p.timeRemaining < 100000)
    (hprev : prev = -1 ∨ prev = 0) (hs : p.control.state ≠ EXIT) :
    getSchedule fuel [p] alg prev = some 0 := by
  by_cases hrr : alg = RR
  · rw [hrr]; exact getSchedule_single fuel p prev hprev hs
  · have ht : p.timeRemaining < 100000 := by
      rcases halg with h | h
      · exact absurd h hrr
      · exact h
    simp [getSchedule, hrr, sjfLoop, hs, ht]

/-- One pass of the scheduler loop on a table of one process. -/
theorem mainBody_single_any (fuel : Nat) (config : ConfigType) (st : MainState)
    (p p1 : Process) (sh2 : Shared)
    (halg : config.schedulingAlg = RR ∨ p.timeRemaining < 100000) (hprog : st.program = [p])
    (hprev : st.processIndex = -1 ∨ st.processIndex = 0) (hs : p.control.state ≠ EXIT)
    (hrun : runProcess fuel p
      { st.sh with output := st.sh.output ++
          [LogLine.osPreparing p.control.processNum, LogLine.osStarting p.control.processNum] }
      config = some (p1, sh2)) :
    mainBody fuel config st = some
      { program := (completionScan [p1] sh2.output).1
        sh := { sh2 with output := (completionScan [p1] sh2.output).2 }
        processIndex := 0
        schedule := st.schedule ++ [0] } := by
  simp only [mainBody, hprog, getSchedule_single_any fuel p _ _ halg hprev hs]
  simp [hrun]

/-- The scheduler loop from a process that has been preempted, with `r` cycles
left, `j` more preemptions to come. -/
theorem mainLoop_preempted (config : ConfigType) (hq1 : 1 ≤ config.quantum) :
    ∀ (j : Nat) (r : Int) (sh : Shared) (s : List Int) (fuel : Nat),
      (config.schedulingAlg = RR ∨ r < 100000) →
      (j : Int) * config.quantum < r → r ≤ ((j : Int) + 1) * config.quantum →
      j + 7 ≤ fuel →
      ∃ st1, mainLoop config fuel
          { program := [preemptedProcess 1 r], sh := sh, processIndex := 0, schedule := s }
          = some st1 ∧
        st1.program = [exitedProcess 1 true] ∧
        st1.sh.output = sh.output ++ [LogLine.osPreparing 1, LogLine.osStarting 1] ++
          (List.replicate j (interruptBlock 1)).flatten ++ [LogLine.endProcessing 1] ++
          (if r = ((j : Int) + 1) * config.quantum then
            [LogLine.osPreparing 1, LogLine.osStarting 1] else []) ++
          [LogLine.osCompleted 1] ∧
        st1.schedule = s ++ List.replicate
          (j + 1 + (if r = ((j : Int) + 1) * config.quantum then 1 else 0)) 0 ∧
        st1.sh.cyclesDone = sh.cyclesDone + r.toNat ∧
        st1.sh.threadCount = sh.threadCount := by
  intro j
  induction j with
  | zero =>
    intro r sh s fuel halg hlo hhi hfuel
    simp only [Nat.cast_zero, zero_mul, zero_add, one_mul] at hlo hhi ⊢
    obtain ⟨fuel, rfl⟩ : ∃ f, fuel = f + 1 := ⟨fuel - 1, by omega⟩
    by_cases hrq : r = config.quantum
    · -- the opcode ends with the quantum; `A(end)` takes one more turn
      obtain ⟨sh1, hrun, hout, hcd, hthr⟩ := runProcess_preempted_long config 1 r
        { sh with output := sh.output ++ [LogLine.osPreparing 1, LogLine.osStarting 1] }
        fuel hq1 (by omega) (by omega)
      have hbody := mainBody_single_any fuel config
        { program := [preemptedProcess 1 r], sh := sh, processIndex := 0, schedule := s }
        (preemptedProcess 1 r) _ sh1 halg rfl (Or.inr rfl)
        (by simp [preemptedProcess, RUNNING, EXIT]) hrun
      rw [completionScan_preempted] at hbody
      rw [mainLoop_step config fuel _ _ (checkCompleted_preempted 1 r) hbody]
      obtain ⟨fuel, rfl⟩ : ∃ f, fuel = f + 1 := ⟨fuel - 1, by omega⟩
      have hr0 : r - config.quantum = 0 := by omega
      rw [hr0]
      obtain ⟨sh2, hrun2, hout2, hcd2, hthr2⟩ := runProcess_preempted_zero config 1
        { sh1 with output := sh1.output ++ [LogLine.osPreparing 1, LogLine.osStarting 1] }
        fuel hq1 (by omega)
      have hbody2 := mainBody_single_any fuel config
        { program := [preemptedProcess 1 0], sh := sh1, processIndex := 0,
          schedule := s ++ [0] }
        (preemptedProcess 1 0) _ sh2 (Or.inr (by simp [preemptedProcess])) rfl (Or.inr rfl)
        (by simp [preemptedProcess, RUNNING, EXIT]) hrun2
      rw [completionScan_exited] at hbody2
      rw [mainLoop_step config fuel _ _ (checkCompleted_preempted 1 0) hbody2,
        mainLoop_of_completed config fuel _ (checkCompleted_exited 1 true)]
      refine ⟨_, rfl, rfl, ?_, ?_, ?_, ?_⟩
      · simp [hout2, hout, hrq]
      · simp [hrq]
      · simp [hcd2, hcd, hrq]
      · simp [hthr2, hthr]
    · -- the opcode ends before the quantum does
      obtain ⟨sh1, hrun, hout, hcd, hthr⟩ := runProcess_preempted_short config 1 r
        { sh with output := sh.output ++ [LogLine.osPreparing 1, LogLine.osStarting 1] }
        fuel (by omega) (by omega) (by omega)
      have hbody := mainBody_single_any fuel config
        { program := [preemptedProcess 1 r], sh := sh, processIndex := 0, schedule := s }
        (preemptedProcess 1 r) _ sh1 halg rfl (Or.inr rfl)
        (by simp [preemptedProcess, RUNNING, EXIT]) hrun
      rw [completionScan_exited] at hbody
      rw [mainLoop_step config fuel _ _ (checkCompleted_preempted 1 r) hbody,
        mainLoop_of_completed config fuel _ (checkCompleted_exited 1 true)]
      refine ⟨_, rfl, rfl, ?_, ?_, ?_, ?_⟩
      · simp [hout, hrq]
      · simp [hrq]
      · simp [hcd]
      · simp [hthr]
  | succ j ih =>
    intro r sh s fuel halg hlo hhi hfuel
    obtain ⟨fuel, rfl⟩ : ∃ f, fuel = f + 1 := ⟨fuel - 1, by omega⟩
    have hjq : ((j : Int) + 1) * config.quantum = j * config.quantum + config.quantum := by ring
    have hjq2 : (((j + 1 : Nat) : Int) + 1) * config.quantum
        = j * config.quantum + config.quantum + config.quantum := by push_cast; ring
    have hj0 : 0 ≤ (j : Int) * config.quantum :=
      mul_nonneg (by exact_mod_cast Nat.zero_le j) (by omega)
    push_cast at hlo
    rw [hjq] at hlo
    rw [hjq2] at hhi
    have hrq : config.quantum < r := by omega
    obtain ⟨sh1, hrun, hout, hcd, hthr⟩ := runProcess_preempted_long config 1 r
      { sh with output := sh.output ++ [LogLine.osPreparing 1, LogLine.osStarting 1] }
      fuel hq1 (by omega) (by omega)
    have hbody := mainBody_single_any fuel config
      { program := [preemptedProcess 1 r], sh := sh, processIndex := 0, schedule := s }
      (preemptedProcess 1 r) _ sh1 halg rfl (Or.inr rfl)
      (by simp [preemptedProcess, RUNNING, EXIT]) hrun
    rw [completionScan_preempted] at hbody
    rw [mainLoop_step config fuel _ _ (checkCompleted_preempted 1 r) hbody]
    obtain ⟨st1, hloop, hprog, ho, hs, hc, ht⟩ := ih (r - config.quantum) sh1 (s ++ [0]) fuel
      (by rcases halg with h | h
          · exact Or.inl h
          · exact Or.inr (by omega))
      (by omega) (by rw [hjq]; omega) (by omega)
    have hne : r ≠ config.quantum := by omega
    have hiff : (r - config.quantum = ((j : Int) + 1) * config.quantum)
        ↔ (r = (((j + 1 : Nat) : Int) + 1) * config.quantum) := by
      rw [hjq, hjq2]; omega
    have hqn : (config.quantum.toNat : Int) = config.quantum := Int.toNat_of_nonneg (by omega)
    refine ⟨st1, hloop, hprog, ?_, ?_, ?_, ?_⟩
    · rw [ho, hout]
      simp only [hiff, if_neg hne, List.replicate_succ, List.flatten_cons, interruptBlock]
      simp
    · rw [hs]
      simp only [hiff]
      rw [List.append_assoc]
      congr 1
      have hcnt : j + 1 + 1 + (if r = (((j + 1 : Nat) : Int) + 1) * config.quantum then 1 else 0)
          = (j + 1 + (if r = (((j + 1 : Nat) : Int) + 1) * config.quantum then 1 else 0)) + 1 := by
        omega
      rw [hcnt, List.replicate_succ]
      rfl
    · have hcd1 : sh1.cyclesDone = sh.cyclesDone + config.quantum.toNat := hcd
      rw [hc, hcd1]
      omega
    · rw [ht, hthr]

/-- The scheduler loop on `S(start)0; A(start)0; P(run)c; A(end)0` when `c` lies
in `(j*q, (j+1)*q]`: the opcode is preempted `j` times. -/
theorem mainLoop_singleRunOpen (config : ConfigType) (c : Int) (j fuel : Nat)
    (hq1 : 1 ≤ config.quantum) (halg : config.schedulingAlg = RR ∨ c < 100000)
    (hlo : (j : Int) * config.quantum < c) (hhi : c ≤ ((j : Int) + 1) * config.quantum)
    (hfuel : j + 8 ≤ fuel) :
    ∃ st1, mainLoop config fuel (MainState.init (readInput (singleRunOpen c))) = some st1 ∧
      st1.program = [exitedProcess 1 true] ∧
      st1.sh.output = singleRunLog j (decide (c = ((j : Int) + 1) * config.quantum)) ∧
      st1.schedule = List.replicate
        (j + 1 + (if c = ((j : Int) + 1) * config.quantum then 1 else 0)) 0 ∧
      st1.sh.cyclesDone = c.toNat ∧
      st1.sh.threadCount = 0 := by
  have hj0 : 0 ≤ (j : Int) * config.quantum :=
    mul_nonneg (by exact_mod_cast Nat.zero_le j) (by omega)
  have hc1 : 1 ≤ c := by omega
  obtain ⟨fuel, rfl⟩ : ∃ f, fuel = f + 1 := ⟨fuel - 1, by omega⟩
  rw [readInput_singleRunOpen]
  by_cases hcq : c < config.quantum
  · -- one turn
    have hj : j = 0 := by
      by_contra hne
      have h1 : (1 : Int) ≤ j := by exact_mod_cast Nat.one_le_iff_ne_zero.mpr hne
      have : config.quantum ≤ (j : Int) * config.quantum := by
        calc config.quantum = 1 * config.quantum := by ring
          _ ≤ (j : Int) * config.quantum := mul_le_mul_of_nonneg_right h1 (by omega)
      omega
    subst hj
    simp only [Nat.cast_zero, zero_mul, zero_add, one_mul] at hlo hhi ⊢
    obtain ⟨sh1, hrun, hout, hcd, hthr⟩ := runProcess_singleRun_short config 1 c
      { (MainState.init [loadedProcess 1 (singleRunOpen c) c]).sh with
        output := (MainState.init [loadedProcess 1 (singleRunOpen c) c]).sh.output ++
          [LogLine.osPreparing 1, LogLine.osStarting 1] }
      fuel hc1 hcq (by omega)
    have hbody := mainBody_single_any fuel config
      (MainState.init [loadedProcess 1 (singleRunOpen c) c])
      (loadedProcess 1 (singleRunOpen c) c) (exitedProcess 1 false) sh1
      (by simpa [loadedProcess] using halg) rfl (Or.inl rfl)
      (by simp [loadedProcess, NEW, EXIT]) hrun
    rw [completionScan_exited] at hbody
    rw [mainLoop_step config fuel _ _ (checkCompleted_loaded _ _ _) hbody,
      mainLoop_of_completed config fuel _ (checkCompleted_exited 1 true)]
    have hne : c ≠ config.quantum := by omega
    refine ⟨_, rfl, rfl, ?_, ?_, ?_, ?_⟩
    · simp [hout, MainState.init, Shared.init, singleRunLog, hne]
    · simp [MainState.init, hne]
    · simp [hcd, MainState.init, Shared.init]
    · simp [hthr, MainState.init, Shared.init]
  · -- the first turn uses up the quantum
    obtain ⟨sh1, hrun, hout, hcd, hthr⟩ := runProcess_singleRun_long config 1 c
      { (MainState.init [loadedProcess 1 (singleRunOpen c) c]).sh with
        output := (MainState.init [loadedProcess 1 (singleRunOpen c) c]).sh.output ++
          [LogLine.osPreparing 1, LogLine.osStarting 1] }
      fuel hq1 (by omega) (by omega)
    have hbody := mainBody_single_any fuel config
      (MainState.init [loadedProcess 1 (singleRunOpen c) c])
      (loadedProcess 1 (singleRunOpen c) c) _ sh1
      (by simpa [loadedProcess] using halg) rfl (Or.inl rfl)
      (by simp [loadedProcess, NEW, EXIT]) hrun
    rw [completionScan_preempted] at hbody
    rw [mainLoop_step config fuel _ _ (checkCompleted_loaded _ _ _) hbody]
    have hqn : (config.quantum.toNat : Int) = config.quantum := Int.toNat_of_nonneg (by omega)
    by_cases hceq : c = config.quantum
    · -- the opcode ends with the first quantum
      have hj : j = 0 := by
        by_contra hne
        have h1 : (1 : Int) ≤ j := by exact_mod_cast Nat.one_le_iff_ne_zero.mpr hne
        have : config.quantum ≤ (j : Int) * config.quantum := by
          calc config.quantum = 1 * config.quantum := by ring
            _ ≤ (j : Int) * config.quantum := mul_le_mul_of_nonneg_right h1 (by omega)
        omega
      subst hj
      simp only [Nat.cast_zero, zero_mul, zero_add, one_mul] at hlo hhi ⊢
      obtain ⟨fuel, rfl⟩ : ∃ f, fuel = f + 1 := ⟨fuel - 1, by omega⟩
      have hr0 : c - config.quantum = 0 := by omega
      rw [hr0]
      obtain ⟨sh2, hrun2, hout2, hcd2, hthr2⟩ := runProcess_preempted_zero config 1
        { sh1 with output := sh1.output ++ [LogLine.osPreparing 1, LogLine.osStarting 1] }
        fuel hq1 (by omega)
      have hbody2 := mainBody_single_any fuel config
        { program := [preemptedProcess 1 0], sh := sh1, processIndex := 0,
          schedule := (MainState.init [loadedProcess 1 (singleRunOpen c) c]).schedule ++ [0] }
        (preemptedProcess 1 0) _ sh2 (Or.inr (by simp [preemptedProcess])) rfl (Or.inr rfl)
        (by simp [preemptedProcess, RUNNING, EXIT]) hrun2
      rw [completionScan_exited] at hbody2
      rw [mainLoop_step config fuel _ _ (checkCompleted_preempted 1 0) hbody2,
        mainLoop_of_completed config fuel _ (checkCompleted_exited 1 true)]
      refine ⟨_, rfl, rfl, ?_, ?_, ?_, ?_⟩
      · simp [hout2, hout, MainState.init, Shared.init, singleRunLog, hceq]
      · simp [MainState.init, hceq]
      · simp [hcd2, hcd, MainState.init, Shared.init, hceq]
      · simp [hthr2, hthr, MainState.init, Shared.init]
    · -- the opcode is preempted
      have hgt : config.quantum < c := by omega
      obtain ⟨j, rfl⟩ : ∃ j', j = j' + 1 := by
        refine ⟨j - 1, ?_⟩
        have : j ≠ 0 := by
          rintro rfl
          simp at hhi
          omega
        omega
      have hjq : (((j + 1 : Nat) : Int)) * config.quantum
          = j * config.quantum + config.quantum := by push_cast; ring
      have hjq2 : (((j + 1 : Nat) : Int) + 1) * config.quantum
          = j * config.quantum + config.quantum + config.quantum := by push_cast; ring
      have hjq1 : ((j : Int) + 1) * config.quantum = j * config.quantum + config.quantum := by
        ring
      rw [hjq] at hlo
      rw [hjq2] at hhi
      obtain ⟨st1, hloop, hprog, ho, hs, hc, ht⟩ := mainLoop_preempted config hq1 j
        (c - config.quantum) sh1
        ((MainState.init [loadedProcess 1 (singleRunOpen c) c]).schedule ++ [0]) fuel
        (by rcases halg with h | h
            · exact Or.inl h
            · exact Or.inr (by omega))
        (by omega) (by rw [hjq1]; omega) (by omega)
      have hiff : (c - config.quantum = ((j : Int) + 1) * config.quantum)
          ↔ (c = (((j + 1 : Nat) : Int) + 1) * config.quantum) := by
        rw [hjq1, hjq2]; omega
      refine ⟨st1, hloop, hprog, ?_, ?_, ?_, ?_⟩
      · rw [ho, hout]
        simp only [hiff, if_neg hceq, singleRunLog, List.replicate_succ, List.flatten_cons,
          interruptBlock, MainState.init, Shared.init]
        simp
      · rw [hs]
        simp only [hiff, MainState.init]
        have hcnt : j + 1 + 1 +
            (if c = (((j + 1 : Nat) : Int) + 1) * config.quantum then 1 else 0)
            = (j + 1 + (if c = (((j + 1 : Nat) : Int) + 1) * config.quantum then 1 else 0))
              + 1 := by omega
        rw [hcnt, List.replicate_succ]
        rfl
      · have hcd1 : sh1.cyclesDone = config.quantum.toNat := by
          simpa [MainState.init, Shared.init] using hcd
        rw [hc, hcd1]
        omega
      · rw [ht, hthr]
        rfl

/-! ### The closed form of the log and what claim C14 counts -/

theorem count_flatten_replicate_block (j : Nat) (l : LogLine) (block : List LogLine) :
    ((List.replicate j block).flatten).count l = j * block.count l := by
  induction j with
  | zero => simp
  | succ j ih =>
    rw [List.replicate_succ, List.flatten_cons, List.count_append, ih]
    ring

theorem interruptsFollowed_blocks (j : Nat) (rest : List LogLine)
    (hrest : interruptsFollowed 1 rest = true) :
    interruptsFollowed 1 ((List.replicate j (interruptBlock 1)).flatten ++ rest) = true := by
  induction j with
  | zero => simpa using hrest
  | succ j ih =>
    rw [List.replicate_succ, List.flatten_cons]
    simp only [interruptBlock] at ih ⊢
    simp [interruptsFollowed, ih]

theorem singleRunLog_counts (j : Nat) (e : Bool) :
    (singleRunLog j e).count (LogLine.startProcessing 1) = 1 ∧
    (singleRunLog j e).count (LogLine.interruptProcessing 1) = j ∧
    interruptsFollowed 1 (singleRunLog j e) = true ∧
    (singleRunLog j e).count (LogLine.endProcessing 1) = 1 ∧
    (∃ pre post, singleRunLog j e = pre ++ LogLine.endProcessing 1 :: post ∧
      LogLine.interruptProcessing 1 ∉ post) ∧
    (singleRunLog j e).count (LogLine.osStarting 1) = j + 1 + (if e then 1 else 0) := by
  refine ⟨?_, ?_, ?_, ?_, ?_, ?_⟩
  · cases e <;>
      simp [singleRunLog, List.count_append, count_flatten_replicate_block, interruptBlock,
        List.count_cons]
  · cases e <;>
      simp [singleRunLog, List.count_append, count_flatten_replicate_block, interruptBlock,
        List.count_cons]
  · have hrest : ∀ rest, interruptsFollowed 1 rest = true →
        interruptsFollowed 1 ([LogLine.simulatorStarting, LogLine.osPreparing 1,
          LogLine.osStarting 1, LogLine.startProcessing 1] ++ rest) = true := by
      intro rest h
      simp [interruptsFollowed, h]
    simp only [singleRunLog, List.append_assoc]
    apply hrest
    apply interruptsFollowed_blocks
    cases e <;> simp [interruptsFollowed]
  · cases e <;>
      simp [singleRunLog, List.count_append, count_flatten_replicate_block, interruptBlock,
        List.count_cons]
  · refine ⟨[LogLine.simulatorStarting, LogLine.osPreparing 1, LogLine.osStarting 1,
        LogLine.startProcessing 1] ++ (List.replicate j (interruptBlock 1)).flatten,
      (if e then [LogLine.osPreparing 1, LogLine.osStarting 1] else []) ++
        [LogLine.osCompleted 1], ?_, ?_⟩
    · simp [singleRunLog]
    · cases e <;> simp
  · cases e <;>
      simp [singleRunLog, List.count_append, count_flatten_replicate_block, interruptBlock,
        List.count_cons]

theorem ediv_eq_of_bounds (a q d : Int) (hq : 0 < q) (h1 : d * q ≤ a) (h2 : a < (d + 1) * q) :
    a / q = d := by
  apply le_antisymm
  · have := (Int.ediv_lt_iff_lt_mul hq).mpr h2
    omega
  · exact (Int.le_ediv_iff_mul_le hq).mpr h1

/-- The number of preemptions `j` of a `P(run)` of `c` cycles, in terms of the
quotients of claim C14. -/
theorem preemptions_bounds (q c : Int) (hq : 1 ≤ q) (hc : 1 ≤ c) :
    ∃ j : Nat, (j : Int) * q < c ∧ c ≤ ((j : Int) + 1) * q ∧
      ((c + q - 1) / q - 1).toNat = j ∧
      (c / q + 1).toNat = j + 1 + (if c = ((j : Int) + 1) * q then 1 else 0) := by
  have hq0 : 0 < q := by omega
  have hd0 : 0 ≤ (c - 1) / q := Int.ediv_nonneg (by omega) (by omega)
  have h1 : (c - 1) / q * q ≤ c - 1 := Int.ediv_mul_le _ (by omega)
  have h2 : c - 1 < ((c - 1) / q + 1) * q := Int.lt_ediv_add_one_mul_self _ hq0
  refine ⟨((c - 1) / q).toNat, ?_, ?_, ?_, ?_⟩
  · rw [Int.toNat_of_nonneg hd0]; omega
  · rw [Int.toNat_of_nonneg hd0]; omega
  · have : (c + q - 1) / q = (c - 1) / q + 1 := by
      apply ediv_eq_of_bounds _ _ _ hq0
      · have : ((c - 1) / q + 1) * q = (c - 1) / q * q + q := by ring
        omega
      · have : ((c - 1) / q + 1 + 1) * q = ((c - 1) / q + 1) * q + q := by ring
        omega
    rw [this]
    omega
  · rw [Int.toNat_of_nonneg hd0]
    have hexp : ((c - 1) / q + 1) * q = (c - 1) / q * q + q := by ring
    by_cases he : c = ((c - 1) / q + 1) * q
    · have : c / q = (c - 1) / q + 1 := by
        apply ediv_eq_of_bounds _ _ _ hq0
        · omega
        · have : ((c - 1) / q + 1 + 1) * q = ((c - 1) / q + 1) * q + q := by ring
          omega
      rw [this, if_pos he]
      omega
    · have : c / q = (c - 1) / q := by
        apply ediv_eq_of_bounds _ _ _ hq0
        · omega
        · omega
      rw [this, if_neg he]
      omega

theorem mainLoop_unique (config : ConfigType) (f1 f2 : Nat) (st a b : MainState)
    (h1 : mainLoop config f1 st = some a) (h2 : mainLoop config f2 st = some b) : a = b := by
  have e1 := mainLoop_mono config f1 st a h1 f2
  have e2 := mainLoop_mono config f2 st b h2 f1
  rw [Nat.add_comm] at e2
  rw [e1] at e2
  exact Option.some.inj e2

theorem mainLoop_none_of_getSchedule (config : ConfigType) (fuel : Nat) (st : MainState)
    (hc : checkCompleted st.program = false)
    (hg : ∀ f, getSchedule f st.program config.schedulingAlg st.processIndex = none) :
    mainLoop config fuel st = none := by
  cases fuel with
  | zero => simp [mainLoop, hc]
  | succ fuel => simp [mainLoop, hc, mainBody, hg fuel]

/-- The log of the scheduler loop for one process with one `P(run)` of `c` cycles. -/
theorem mainLoop_singleRunOpen_log (config : ConfigType) (c : Int)
    (hq : 1 ≤ config.quantum) (hc : 1 ≤ c) :
    (∀ (fuel : Nat) (st1 : MainState),
      mainLoop config fuel (MainState.init (readInput (singleRunOpen c))) = some st1 →
      PreemptionLog config.quantum c st1.sh.output) ∧
    ((config.schedulingAlg = RR ∨ c < 100000) →
      ∀ fuel : Nat, ((c - 1) / config.quantum).toNat + 8 ≤ fuel →
        ∃ st1, mainLoop config fuel (MainState.init (readInput (singleRunOpen c))) = some st1) := by
  obtain ⟨j, hlo, hhi, hceil, hfloor⟩ := preemptions_bounds config.quantum c hq hc
  have hj : ((c - 1) / config.quantum).toNat = j := by
    have hq0 : 0 < config.quantum := by omega
    have : (c - 1) / config.quantum = j := by
      apply ediv_eq_of_bounds _ _ _ hq0
      · omega
      · omega
    rw [this]
    simp
  constructor
  · intro fuel st1 h
    by_cases halg : config.schedulingAlg = RR ∨ c < 100000
    · obtain ⟨st2, h2, _, hout, _, _, _⟩ :=
        mainLoop_singleRunOpen config c j (j + 8) hq halg hlo hhi (le_refl _)
      have heq := mainLoop_unique config _ _ _ _ _ h h2
      subst heq
      obtain ⟨c1, c2, c3, c4, c5, c6⟩ :=
        singleRunLog_counts j (decide (c = ((j : Int) + 1) * config.quantum))
      rw [hout]
      refine ⟨c1, by rw [c2, hceil], c3, c4, c5, ?_⟩
      rw [c6, hfloor]
      simp
    · exfalso
      push_neg at halg
      have hnone := mainLoop_none_of_getSchedule config fuel
        (MainState.init (readInput (singleRunOpen c)))
        (by rw [readInput_singleRunOpen]; exact checkCompleted_loaded _ _ _)
        (by
          intro f
          have hnot : ¬ c < 100000 := by omega
          rw [readInput_singleRunOpen]
          simp [getSchedule, halg.1, MainState.init, sjfLoop, loadedProcess, hnot])
      rw [hnone] at h
      cases h
  · intro halg fuel hfuel
    obtain ⟨st1, h1, _⟩ := mainLoop_singleRunOpen config c j fuel hq halg hlo hhi (by omega)
    exact ⟨st1, h1⟩

/-! ### The round robin scenario -/

theorem readInputLoop_jobs (c : Int) : ∀ (P : Nat) (acc : List Process),
    readInputLoop (roundRobinWorkload P c) newProcess acc
      = acc ++ (List.range P).map
          (fun (i : Nat) => loadedProcess ((acc.length : Int) + (i : Int) + 1) (roundRobinJob c) c) := by
  intro P
  induction P with
  | zero => intro acc; simp [roundRobinWorkload, readInputLoop]
  | succ P ih =>
    intro acc
    have hstep : readInputLoop (roundRobinWorkload (P + 1) c) newProcess acc
        = readInputLoop (roundRobinWorkload P c) newProcess
            (acc ++ [loadedProcess ((acc.length : Int) + 1) (roundRobinJob c) c]) := by
      simp [roundRobinWorkload, List.replicate_succ, roundRobinJob, readInputLoop, opcode,
        SimpleQueue.enqueue, loadedProcess, newProcess]
    rw [hstep, ih, List.range_succ_eq_map, List.map_cons, List.map_map]
    simp only [List.append_assoc, List.singleton_append, List.length_append,
      List.length_singleton]
    congr 1
    congr 1
    simp only [List.map_inj_left, List.mem_range, Function.comp, Nat.succ_eq_add_one,
      Nat.cast_add, Nat.cast_one]
    intro a _
    congr 1
    ring

theorem readInput_jobs (P : Nat) (c : Int) :
    readInput (roundRobinWorkload P c)
      = (List.range P).map (fun (i : Nat) => loadedProcess ((i : Int) + 1) (roundRobinJob c) c) := by
  rw [readInput, readInputLoop_jobs]
  simp

theorem jobTable_zero (q : Int) (k P : Nat) :
    jobTable q k P 0 0 = readInput (roundRobinWorkload P (k * q)) := by
  rw [readInput_jobs]
  simp [jobTable, jobAfter]

theorem jobTable_length (q : Int) (k P a b : Nat) : (jobTable q k P a b).length = P := by
  simp [jobTable]

theorem jobTable_getElem? (q : Int) (k P a b i : Nat) (hi : i < P) :
    (jobTable q k P a b)[i]? = some (jobAfter q k i (a + if i < b then 1 else 0)) := by
  simp [jobTable, List.getElem?_map, List.getElem?_range hi]

theorem jobTable_round (q : Int) (k P a : Nat) :
    jobTable q k P a P = jobTable q k P (a + 1) 0 := by
  simp only [jobTable]
  apply List.map_congr_left
  intro i hi
  have : i < P := List.mem_range.mp hi
  simp [this]

theorem jobTable_set (q : Int) (k P a b : Nat) (hb : b < P) :
    (jobTable q k P a b).set b (jobAfter q k b (a + 1)) = jobTable q k P a (b + 1) := by
  apply List.ext_getElem?
  intro i
  by_cases hi : i < P
  · rw [jobTable_getElem? q k P a (b + 1) i hi]
    by_cases hib : i = b
    · subst hib
      rw [List.getElem?_set_self (by rw [jobTable_length]; exact hi)]
      simp
    · rw [List.getElem?_set_ne (Ne.symm hib), jobTable_getElem? q k P a b i hi]
      have : (i < b) ↔ (i < b + 1) := by omega
      simp [this]
  · have h1 : (jobTable q k P a (b + 1))[i]? = none := by
      apply List.getElem?_eq_none; rw [jobTable_length]; omega
    have h2 : ((jobTable q k P a b).set b (jobAfter q k b (a + 1)))[i]? = none := by
      apply List.getElem?_eq_none; rw [List.length_set, jobTable_length]; omega
    rw [h1, h2]

theorem jobAfter_state (q : Int) (k i t : Nat) : (jobAfter q k i t).control.state ≠ EXIT := by
  unfold jobAfter
  split_ifs <;> simp [loadedProcess, preemptedProcess, NEW, RUNNING, EXIT]

theorem jobAfter_processNum (q : Int) (k i t : Nat) :
    (jobAfter q k i t).control.processNum = (i : Int) + 1 := by
  unfold jobAfter
  split_ifs <;> simp [loadedProcess, preemptedProcess]

theorem completionScan_of_no_exit : ∀ (program : List Process) (out : List LogLine),
    (∀ p ∈ program, p.control.state ≠ EXIT) → completionScan program out = (program, out) := by
  intro program
  induction program with
  | nil => intro out _; rfl
  | cons p rest ih =>
    intro out h
    have hp : p.control.state ≠ EXIT := h p (by simp)
    simp [completionScan, hp, ih out (fun q hq => h q (by simp [hq]))]

theorem checkCompleted_jobTable (q : Int) (k P a b : Nat) (hP : 1 ≤ P) :
    checkCompleted (jobTable q k P a b) = false := by
  cases hc : checkCompleted (jobTable q k P a b) with
  | false => rfl
  | true =>
    exfalso
    have h := (checkCompleted_iff _).mp hc
    have h0 := jobTable_getElem? q k P a b 0 (by omega)
    exact jobAfter_state q k 0 _ (h _ (List.getElem?_mem h0))

/-- A turn of a process of the round robin scenario that has work left: a full
quantum of cycles. -/
theorem runProcess_jobAfter (cfg : ConfigType) (k i t : Nat) (sh : Shared) (fuel : Nat)
    (hq1 : 1 ≤ cfg.quantum) (ht : t < k) (hfuel : 5 ≤ fuel) :
    ∃ sh1, runProcess fuel (jobAfter cfg.quantum k i t) sh cfg
        = some (jobAfter cfg.quantum k i (t + 1), sh1) ∧
      sh1.cyclesDone = sh.cyclesDone + cfg.quantum.toNat := by
  have hkt : (1 : Int) ≤ (k : Int) - t := by
    have : (t : Int) < k := by exact_mod_cast ht
    omega
  have hmul : cfg.quantum ≤ ((k : Int) - t) * cfg.quantum := by
    calc cfg.quantum = 1 * cfg.quantum := by ring
      _ ≤ ((k : Int) - t) * cfg.quantum := mul_le_mul_of_nonneg_right hkt (by omega)
  have hnext : (jobAfter cfg.quantum k i (t + 1))
      = preemptedProcess (i + 1) (((k : Int) - t) * cfg.quantum - cfg.quantum) := by
    simp only [jobAfter, Nat.add_one_ne_zero, if_false]
    congr 1
    push_cast
    ring
  rw [hnext]
  by_cases ht0 : t = 0
  · subst ht0
    simp only [jobAfter, if_true, Nat.cast_zero, sub_zero] at hmul ⊢
    obtain ⟨sh1, h, _, hc, _⟩ := runProcess_job_long cfg (i + 1) (k * cfg.quantum) sh fuel
      hq1 hmul hfuel
    exact ⟨sh1, h, hc⟩
  · simp only [jobAfter, if_neg ht0]
    obtain ⟨sh1, h, _, hc, _⟩ := runProcess_preempted_long cfg (i + 1)
      (((k : Int) - t) * cfg.quantum) sh fuel hq1 hmul hfuel
    exact ⟨sh1, h, hc⟩

theorem mainTurns_of_completed (config : ConfigType) (fuel n : Nat) (st : MainState)
    (hc : checkCompleted st.program = true) : mainTurns config fuel n st = some st := by
  cases n <;> simp [mainTurns, hc]

theorem mainTurns_add (config : ConfigType) (fuel : Nat) : ∀ (m n : Nat) (st : MainState),
    mainTurns config fuel (m + n) st
      = (mainTurns config fuel m st).bind (mainTurns config fuel n) := by
  intro m
  induction m with
  | zero => intro n st; simp [mainTurns]
  | succ m ih =>
    intro n st
    have h : m + 1 + n = (m + n) + 1 := by omega
    rw [h, mainTurns, mainTurns]
    by_cases hc : checkCompleted st.program = true
    · simp [hc, mainTurns_of_completed config fuel n st hc]
    · simp only [hc, if_false]
      cases hb : mainBody fuel config st with
      | none => simp
      | some st1 => simp [ih n st1]

theorem mainTurns_one (config : ConfigType) (fuel : Nat) (st st1 : MainState)
    (hc : checkCompleted st.program = false) (hb : mainBody fuel config st = some st1) :
    mainTurns config fuel 1 st = some st1 := by
  simp [mainTurns, hc, hb]

theorem jobIndex_next (P a b : Nat) (hb : b < P) :
    Int.tmod (jobIndex P a b + 1) (P : Int) = (b : Int) := by
  unfold jobIndex
  split_ifs with h0 ha
  · subst h0; simp
  · subst h0; simp [Int.tmod_self]
  · have h1 : (b : Int) - 1 + 1 = b := by ring
    rw [h1]
    exact Int.tmod_eq_of_lt (by omega) (by exact_mod_cast hb)

theorem jobState_round (config : ConfigType) (k P a : Nat) (st : MainState) (hP : 1 ≤ P)
    (h : JobState config k P a P st) : JobState config k P (a + 1) 0 st := by
  obtain ⟨h1, h2, h3, h4⟩ := h
  refine ⟨by rw [h1, jobTable_round], ?_, ?_, ?_⟩
  · rw [h2]
    have : P ≠ 0 := by omega
    simp [jobIndex, this]
  · rw [h3]
    simp [roundRobinOrder, List.replicate_succ', List.flatten_append]
  · rw [h4]; ring

theorem jobState_init (config : ConfigType) (k P : Nat) :
    JobState config k P 0 0
      (MainState.init (readInput (roundRobinWorkload P (k * config.quantum)))) := by
  refine ⟨(jobTable_zero _ _ _).symm, ?_, ?_, ?_⟩ <;>
    simp [MainState.init, jobIndex, roundRobinOrder, Shared.init]

/-- One pass of the scheduler loop in the round robin scenario. -/
theorem mainBody_jobState (config : ConfigType) (k P a b fuel : Nat) (st : MainState)
    (hrr : config.schedulingAlg = RR) (hq1 : 1 ≤ config.quantum)
    (ha : a < k) (hb : b < P) (hfuel : 5 ≤ fuel)
    (h : JobState config k P a b st) :
    ∃ st1, mainBody fuel config st = some st1 ∧ JobState config k P a (b + 1) st1 := by
  obtain ⟨h1, h2, h3, h4⟩ := h
  have hlen : st.program.length = P := by rw [h1, jobTable_length]
  have hget : st.program[b]? = some (jobAfter config.quantum k b a) := by
    rw [h1, jobTable_getElem? _ _ _ _ _ _ hb]; simp
  have hsched : getSchedule fuel st.program config.schedulingAlg st.processIndex
      = some (b : Int) := by
    simp only [getSchedule, hrr, if_true]
    rw [if_neg (by omega), hlen, h2, jobIndex_next P a b hb]
    exact rrLoop_of_not_exit _ fuel b (jobAfter config.quantum k b a).control.state
      (by simp [stateAt, hget]) (jobAfter_state config.quantum k b a)
  obtain ⟨sh1, hrun, hcd⟩ := runProcess_jobAfter config k b a
    { st.sh with output := st.sh.output ++
        [LogLine.osPreparing (jobAfter config.quantum k b a).control.processNum,
         LogLine.osStarting (jobAfter config.quantum k b a).control.processNum] }
    fuel hq1 ha hfuel
  have hset : st.program.set b (jobAfter config.quantum k b (a + 1))
      = jobTable config.quantum k P a (b + 1) := by
    rw [h1]; exact jobTable_set _ k P a b hb
  have hscan : completionScan (jobTable config.quantum k P a (b + 1)) sh1.output
      = (jobTable config.quantum k P a (b + 1), sh1.output) := by
    apply completionScan_of_no_exit
    intro p hp
    simp only [jobTable, List.mem_map] at hp
    obtain ⟨i, _, rfl⟩ := hp
    exact jobAfter_state _ _ _ _
  refine ⟨{ program := jobTable config.quantum k P a (b + 1)
            sh := { sh1 with output := sh1.output }
            processIndex := (b : Int)
            schedule := st.schedule ++ [(b : Int)] }, ?_, ?_⟩
  · simp only [mainBody, hsched]
    simp only [Int.toNat_ofNat, hget, hrun, hset, hscan]
    simp
  · refine ⟨rfl, ?_, ?_, ?_⟩
    · simp [jobIndex]
    · simp only [h3, roundRobinOrder, List.range_succ, List.map_append]
      simp
    · show sh1.cyclesDone = _
      rw [hcd]
      show st.sh.cyclesDone + _ = _
      rw [h4]; ring

theorem mainTurns_jobState_round (config : ConfigType) (k P a fuel : Nat) (st : MainState)
    (hrr : config.schedulingAlg = RR) (hq1 : 1 ≤ config.quantum)
    (hP : 1 ≤ P) (ha : a < k) (hfuel : 5 ≤ fuel)
    (h : JobState config k P a 0 st) :
    ∀ b, b ≤ P → ∃ st1, mainTurns config fuel b st = some st1 ∧ JobState config k P a b st1 := by
  intro b
  induction b with
  | zero => intro _; exact ⟨st, rfl, h⟩
  | succ b ih =>
    intro hb
    obtain ⟨st1, ht, hs⟩ := ih (by omega)
    obtain ⟨st2, hbody, hs2⟩ := mainBody_jobState config k P a b fuel st1 hrr hq1 ha
      (by omega) hfuel hs
    refine ⟨st2, ?_, hs2⟩
    rw [mainTurns_add, ht]
    simp only [Option.bind]
    exact mainTurns_one config fuel st1 st2
      (by rw [hs.1]; exact checkCompleted_jobTable _ _ _ _ _ hP) hbody

theorem mainTurns_jobState_rounds (config : ConfigType) (k P fuel : Nat)
    (hrr : config.schedulingAlg = RR) (hq1 : 1 ≤ config.quantum)
    (hP : 1 ≤ P) (hfuel : 5 ≤ fuel) :
    ∀ a, a ≤ k → ∃ st1,
      mainTurns config fuel (a * P)
        (MainState.init (readInput (roundRobinWorkload P (k * config.quantum)))) = some st1 ∧
      JobState config k P a 0 st1 := by
  intro a
  induction a with
  | zero => intro _; exact ⟨_, by simp [mainTurns], jobState_init config k P⟩
  | succ a ih =>
    intro ha
    obtain ⟨st1, ht, hs⟩ := ih (by omega)
    obtain ⟨st2, ht2, hs2⟩ := mainTurns_jobState_round config k P a fuel st1 hrr hq1 hP
      (by omega) hfuel hs P (Nat.le_refl P)
    refine ⟨st2, ?_, jobState_round config k P a st2 hP hs2⟩
    have : (a + 1) * P = a * P + P := by ring
    rw [this, mainTurns_add, ht]
    exact ht2

/-- The round robin scenario: the state after `a` full rounds and `b` more
turns, for every prefix of the first `k * P` decisions. -/
theorem mainTurns_roundRobin (config : ConfigType) (k P a b fuel : Nat)
    (hrr : config.schedulingAlg = RR) (hq1 : 1 ≤ config.quantum)
    (hP : 1 ≤ P) (ha : a < k) (hb : b ≤ P) (hfuel : 5 ≤ fuel) :
    ∃ st1,
      mainTurns config fuel (a * P + b)
        (MainState.init (readInput (roundRobinWorkload P (k * config.quantum)))) = some st1 ∧
      st1.schedule = roundRobinOrder P a b ∧
      st1.sh.cyclesDone = (a * P + b) * config.quantum.toNat := by
  obtain ⟨st1, ht, hs⟩ := mainTurns_jobState_rounds config k P fuel hrr hq1 hP hfuel a
    (by omega)
  obtain ⟨st2, ht2, hs2⟩ := mainTurns_jobState_round config k P a fuel st1 hrr hq1 hP ha
    hfuel hs b hb
  refine ⟨st2, ?_, hs2.2.2.1, hs2.2.2.2⟩
  rw [mainTurns_add, ht]
  exact ht2

theorem getSchedule_of_not_rr (fuel : Nat) (program : List Process) (algorithmID prevIndex : Int)
    (h : algorithmID ≠ RR) :
    getSchedule fuel program algorithmID prevIndex = sjfLoop program 0 100000 none := by
  simp [getSchedule, h]

/-! ### The address progression -/

theorem AllocateMemory_next (totMem blockSize : Int) (m : Nat)
    (hlo : 0 ≤ blockSize) (hhi : blockSize < 2147483648) (hm : m < 4294967296) :
    (AllocateMemory totMem blockSize (toInt32 m) = 0 ∨
      (AllocateMemory totMem blockSize (toInt32 m) : Int) = m + blockSize) ∧
    AllocateMemory totMem blockSize (toInt32 m) < 4294967296 ∧
    (m = 4294967295 → AllocateMemory totMem blockSize (toInt32 m) = 0) := by
  unfold AllocateMemory toUInt32
  have h32 : toInt32 (m : Int) = if m < 2147483648 then (m : Int) else (m : Int) - 4294967296 := by
    unfold toInt32
    split_ifs <;> omega
  rw [h32]
  split_ifs <;> refine ⟨?_, ?_, ?_⟩ <;> omega

theorem addressInv_of_append (blockSize : Int) (sh sh1 : Shared) (added : List LogLine)
    (hout : sh1.output = sh.output ++ added)
    (hno : added.filterMap allocatedAddress = [])
    (hloc : sh1.memoryLocation = sh.memoryLocation)
    (h : AddressInv blockSize sh) : AddressInv blockSize sh1 := by
  unfold AddressInv allocatedAddresses at *
  rw [hout, List.filterMap_append, hno, List.append_nil, hloc]
  exact h

theorem addressInv_of_allocated (blockSize totMem : Int) (sh sh1 : Shared)
    (added : List LogLine) (n : Int)
    (hlo : 0 ≤ blockSize) (hhi : blockSize < 2147483648)
    (hout : sh1.output = sh.output ++ added ++ [LogLine.memoryAllocated n sh1.memoryLocation])
    (hno : added.filterMap allocatedAddress = [])
    (hloc : sh1.memoryLocation = AllocateMemory totMem blockSize (toInt32 sh.memoryLocation))
    (h : AddressInv blockSize sh) : AddressInv blockSize sh1 := by
  obtain ⟨⟨hhead, hchain⟩, hlast, hlt⟩ := h
  obtain ⟨hnext, hlt1, hfirst⟩ := AllocateMemory_next totMem blockSize sh.memoryLocation
    hlo hhi hlt
  rw [← hloc] at hnext hlt1 hfirst
  have haddr : allocatedAddresses sh1.output
      = allocatedAddresses sh.output ++ [sh1.memoryLocation] := by
    unfold allocatedAddresses
    rw [hout, List.filterMap_append, List.filterMap_append, hno]
    simp [allocatedAddress]
  refine ⟨⟨?_, ?_⟩, ?_, hlt1⟩
  · rw [haddr]
    cases hl : allocatedAddresses sh.output with
    | nil =>
      rw [hl] at hlast
      simp only [List.getLast?_nil, Option.getD_none] at hlast
      simpa using hfirst hlast
    | cons a rest =>
      rw [hl] at hhead
      simpa using hhead
  · rw [haddr, List.chain'_append]
    refine ⟨hchain, List.chain'_singleton _, ?_⟩
    intro x hx y hy
    simp only [List.head?_cons, Option.mem_def, Option.some.injEq] at hy
    subst hy
    rw [Option.mem_def] at hx
    rw [hx] at hlast
    simp only [Option.getD_some] at hlast
    rw [← hlast]
    rcases hnext with h0 | h1
    · exact Or.inr h0
    · exact Or.inl h1
  · rw [haddr]
    simp

theorem processorStep_addressInv (cfg : ConfigType) (st : RunState)
    (h : AddressInv cfg.blockSize st.sh) : AddressInv cfg.blockSize (processorStep cfg st).sh := by
  have hex : ∃ added, (processorStep cfg st).sh.output = st.sh.output ++ added ∧
      added.filterMap allocatedAddress = [] := by
    simp only [processorStep]
    split_ifs
    all_goals first
      | exact ⟨[], (List.append_nil _).symm, rfl⟩
      | exact ⟨_, rfl, rfl⟩
      | exact ⟨_, List.append_assoc _ _ _, rfl⟩
  obtain ⟨added, hout, hno⟩ := hex
  exact addressInv_of_append _ _ _ added hout hno rfl h

theorem cacheStep_addressInv (cfg : ConfigType) (st : RunState)
    (h : AddressInv cfg.blockSize st.sh) : AddressInv cfg.blockSize (cacheStep cfg st).sh := by
  have hex : ∃ added, (cacheStep cfg st).sh.output = st.sh.output ++ added ∧
      added.filterMap allocatedAddress = [] := by
    simp only [cacheStep]
    split_ifs
    all_goals first
      | exact ⟨[], (List.append_nil _).symm, rfl⟩
      | exact ⟨_, rfl, rfl⟩
      | exact ⟨_, List.append_assoc _ _ _, rfl⟩
  obtain ⟨added, hout, hno⟩ := hex
  exact addressInv_of_append _ _ _ added hout hno rfl h

theorem allocateStep_addressInv (cfg : ConfigType) (st : RunState)
    (hlo : 0 ≤ cfg.blockSize) (hhi : cfg.blockSize < 2147483648)
    (h : AddressInv cfg.blockSize st.sh) : AddressInv cfg.blockSize (allocateStep cfg st).sh := by
  by_cases hc : st.running.current.cycles - 1 = 0
  · have hex : ∃ added, (allocateStep cfg st).sh.output = st.sh.output ++ added ++
          [LogLine.memoryAllocated st.running.control.processNum
            (allocateStep cfg st).sh.memoryLocation] ∧
        added.filterMap allocatedAddress = [] := by
      simp only [allocateStep, hc, if_true]
      split_ifs
      · exact ⟨_, rfl, rfl⟩
      · exact ⟨[], by simp, rfl⟩
    obtain ⟨added, hout, hno⟩ := hex
    exact addressInv_of_allocated _ (toInt32 cfg.systemMemory) _ _ added _ hlo hhi hout hno
      (by simp [allocateStep, hc]) h
  · have hex : ∃ added, (allocateStep cfg st).sh.output = st.sh.output ++ added ∧
        added.filterMap allocatedAddress = [] := by
      simp only [allocateStep, hc, if_false]
      split_ifs
      all_goals first
        | exact ⟨[], (List.append_nil _).symm, rfl⟩
        | exact ⟨_, rfl, rfl⟩
        | exact ⟨_, List.append_assoc _ _ _, rfl⟩
    obtain ⟨added, hout, hno⟩ := hex
    exact addressInv_of_append _ _ _ added hout hno (by simp [allocateStep, hc]) h

theorem runBody_addressInv (cfg : ConfigType) (st st1 : RunState)
    (hlo : 0 ≤ cfg.blockSize) (hhi : cfg.blockSize < 2147483648)
    (hb : runBody cfg st = some st1)
    (h : AddressInv cfg.blockSize st.sh) : AddressInv cfg.blockSize st1.sh := by
  simp only [runBody] at hb
  split_ifs at hb with hP hM ha hc hc hIO
  · cases hb; exact processorStep_addressInv cfg st h
  · cases hb; exact cacheStep_addressInv cfg _ (allocateStep_addressInv cfg st hlo hhi h)
  · cases hb; exact allocateStep_addressInv cfg st hlo hhi h
  · cases hb; exact cacheStep_addressInv cfg st h
  · cases hb; exact h
  · simp only [ioStep] at hb
    split_ifs at hb
    · cases hb; exact h
    · cases hb
  · cases hb; exact h

theorem runLoop_addressInv (cfg : ConfigType)
    (hlo : 0 ≤ cfg.blockSize) (hhi : cfg.blockSize < 2147483648) :
    ∀ (fuel : Nat) (st st1 : RunState), runLoop cfg fuel st = some st1 →
      AddressInv cfg.blockSize st.sh → AddressInv cfg.blockSize st1.sh := by
  intro fuel
  induction fuel with
  | zero =>
    intro st st1 h hI
    simp only [runLoop] at h
    split_ifs at h
    cases h
    exact hI
  | succ fuel ih =>
    intro st st1 h hI
    simp only [runLoop] at h
    split_ifs at h with hcond
    · cases hb : runBody cfg st with
      | none => simp [hb] at h
      | some st2 =>
        simp only [hb] at h
        exact ih st2 st1 h (runBody_addressInv cfg st st2 hlo hhi hb hI)
    · cases h
      exact hI

theorem run_addressInv (cfg : ConfigType) (running running1 : Process) (sh sh1 : Shared)
    (cycle cycle1 : Int) (hlo : 0 ≤ cfg.blockSize) (hhi : cfg.blockSize < 2147483648)
    (h : run running sh cfg cycle = some (running1, sh1, cycle1))
    (hI : AddressInv cfg.blockSize sh) : AddressInv cfg.blockSize sh1 := by
  simp only [run] at h
  split at h
  · cases h
  · rename_i st hloop
    cases h
    exact runLoop_addressInv cfg hlo hhi _ _ _ hloop hI

theorem runProcess_addressInv (cfg : ConfigType) (fuel : Nat) (running running1 : Process)
    (sh sh1 : Shared) (hlo : 0 ≤ cfg.blockSize) (hhi : cfg.blockSize < 2147483648)
    (h : runProcess fuel running sh cfg = some (running1, sh1))
    (hI : AddressInv cfg.blockSize sh) : AddressInv cfg.blockSize sh1 := by
  simp only [runProcess] at h
  split at h
  · cases h
  · rename_i st hloop
    cases h
    exact runProcessLoop_invariant cfg (fun _ s => AddressInv cfg.blockSize s)
      (fun s hs => by rw [(fetch_frame s).2.1]; exact hs)
      (fun _ _ _ _ _ _ _ hs hr => run_addressInv cfg _ _ _ _ _ _ hlo hhi hr hs)
      fuel _ st hloop hI

theorem completionScan_output : ∀ (program : List Process) (out : List LogLine),
    ∃ added, (completionScan program out).2 = out ++ added ∧
      ∀ l ∈ added, ∃ n, l = LogLine.osCompleted n := by
  intro program
  induction program with
  | nil => intro out; exact ⟨[], by simp [completionScan], by simp⟩
  | cons p rest ih =>
    intro out
    simp only [completionScan]
    split_ifs
    · obtain ⟨added, h1, h2⟩ := ih (out ++ [LogLine.osCompleted p.control.processNum])
      refine ⟨LogLine.osCompleted p.control.processNum :: added, by simp [h1], ?_⟩
      intro l hl
      rcases List.mem_cons.mp hl with h | h
      · exact ⟨_, h⟩
      · exact h2 l h
    · exact ih out

theorem mainBody_addressInv (fuel : Nat) (config : ConfigType) (st st1 : MainState)
    (hlo : 0 ≤ config.blockSize) (hhi : config.blockSize < 2147483648)
    (h : mainBody fuel config st = some st1)
    (hI : AddressInv config.blockSize st.sh) : AddressInv config.blockSize st1.sh := by
  simp only [mainBody] at h
  split at h
  · cases h
  · split_ifs at h
    split at h
    · cases h
    · rename_i p hp
      split at h
      · cases h
      · rename_i p1 sh2 hrun
        cases h
        have h1 := runProcess_addressInv config fuel p p1 _ sh2 hlo hhi hrun
          (addressInv_of_append _ st.sh _ _ rfl (by simp [allocatedAddress]) rfl hI)
        obtain ⟨added, hadd, hlines⟩ := completionScan_output
          (st.program.set _ p1) sh2.output
        refine addressInv_of_append _ sh2 _ added hadd ?_ rfl h1
        rw [List.filterMap_eq_nil_iff]
        intro l hl
        obtain ⟨n, rfl⟩ := hlines l hl
        rfl

theorem addressInv_init (blockSize : Int) (program : List Process) :
    AddressInv blockSize (MainState.init program).sh := by
  simp [AddressInv, AddressProgression, allocatedAddresses, MainState.init, Shared.init,
    allocatedAddress]

theorem mainTurns_addressInv (config : ConfigType) (fuel : Nat)
    (hlo : 0 ≤ config.blockSize) (hhi : config.blockSize < 2147483648) :
    ∀ (n : Nat) (st st1 : MainState), mainTurns config fuel n st = some st1 →
      AddressInv config.blockSize st.sh → AddressInv config.blockSize st1.sh := by
  intro n
  induction n with
  | zero => intro st st1 h hI; simp only [mainTurns] at h; cases h; exact hI
  | succ n ih =>
    intro st st1 h hI
    simp only [mainTurns] at h
    split_ifs at h
    · cases h; exact hI
    · cases hb : mainBody fuel config st with
      | none => simp [hb] at h
      | some st2 =>
        simp only [hb] at h
        exact ih st2 st1 h (mainBody_addressInv fuel config st st2 hlo hhi hb hI)

theorem mainLoop_addressInv (config : ConfigType)
    (hlo : 0 ≤ config.blockSize) (hhi : config.blockSize < 2147483648) :
    ∀ (fuel : Nat) (st st1 : MainState), mainLoop config fuel st = some st1 →
      AddressInv config.blockSize st.sh → AddressInv config.blockSize st1.sh := by
  intro fuel
  induction fuel with
  | zero => intro st st1 h hI; simp only [mainLoop] at h; split_ifs at h; cases h; exact hI
  | succ fuel ih =>
    intro st st1 h hI
    simp only [mainLoop] at h
    split_ifs at h
    · cases h; exact hI
    · cases hb : mainBody fuel config st with
      | none => simp [hb] at h
      | some st2 =>
        simp only [hb] at h
        exact ih st2 st1 h (mainBody_addressInv fuel config st st2 hlo hhi hb hI)

/-! ### The grouping of the tokens into processes -/

theorem readInputLoop_groups : ∀ (opcodes pending : List MetaDataType) (acc : List Process),
    readInputLoop opcodes
        { newProcess with
          metaData := pending.map unstarted
          timeRemaining := (pending.map fun m => m.cycles).sum } acc
      = acc ++ processesOfGroups acc.length (tokenGroups pending opcodes) := by
  intro opcodes
  induction opcodes with
  | nil => intro pending acc; simp [readInputLoop, tokenGroups, processesOfGroups]
  | cons m rest ih =>
    intro pending acc
    simp only [readInputLoop, tokenGroups]
    by_cases hend : isAppEnd m
    · have hend2 : m.descriptor = "end" ∧ m.code = 'A' := hend
      rw [if_pos hend2, if_pos hend]
      have hnew : newProcess = { newProcess with
          metaData := ([] : List MetaDataType).map unstarted
          timeRemaining := (([] : List MetaDataType).map fun m => m.cycles).sum } := by
        simp [newProcess]
      rw [hnew, ih [] _]
      simp only [List.length_append, List.length_singleton, processesOfGroups,
        List.append_assoc, List.singleton_append]
      congr 1
      congr 1
      simp [processOfGroup, loadedProcess, SimpleQueue.enqueue, unstarted, newProcess]
    · have hend2 : ¬ (m.descriptor = "end" ∧ m.code = 'A') := hend
      rw [if_neg hend2, if_neg hend]
      have := ih (pending ++ [m]) acc
      simp only [List.map_append, List.map_cons, List.map_nil, List.sum_append, List.sum_cons,
        List.sum_nil, add_zero] at this
      simpa [SimpleQueue.enqueue, unstarted] using this

theorem readInput_groups (opcodes : List MetaDataType) :
    readInput opcodes = processesOfGroups 0 (tokenGroups [] opcodes) := by
  have h := readInputLoop_groups opcodes [] []
  simpa [readInput, newProcess] using h

theorem processesOfGroups_length : ∀ (groups : List (List MetaDataType)) (index : Nat),
    (processesOfGroups index groups).length = groups.length := by
  intro groups
  induction groups with
  | nil => intro index; rfl
  | cons g rest ih => intro index; simp [processesOfGroups, ih]

theorem processesOfGroups_getElem? : ∀ (groups : List (List MetaDataType)) (index i : Nat),
    (processesOfGroups index groups)[i]? = (groups[i]?).map (processOfGroup (index + i)) := by
  intro groups
  induction groups with
  | nil => intro index i; simp [processesOfGroups]
  | cons g rest ih =>
    intro index i
    cases i with
    | zero => simp [processesOfGroups]
    | succ i =>
      simp only [processesOfGroups, List.getElem?_cons_succ, ih]
      have : index + 1 + i = index + (i + 1) := by omega
      rw [this]

theorem tokenGroups_length : ∀ (opcodes pending : List MetaDataType),
    (tokenGroups pending opcodes).length = opcodes.countP (fun m => decide (isAppEnd m)) := by
  intro opcodes
  induction opcodes with
  | nil => intro pending; rfl
  | cons m rest ih =>
    intro pending
    simp only [tokenGroups]
    by_cases hend : isAppEnd m
    · simp [hend, ih]
    · simp [hend, ih]

/-- Every group ends with its `A(end)` and has no other. -/
theorem tokenGroups_mem : ∀ (opcodes pending : List MetaDataType),
    (∀ m ∈ pending, ¬ isAppEnd m) →
    ∀ g ∈ tokenGroups pending opcodes,
      ∃ front last, g = front ++ [last] ∧ isAppEnd last ∧ ∀ m ∈ front, ¬ isAppEnd m := by
  intro opcodes
  induction opcodes with
  | nil => intro pending _ g hg; simp [tokenGroups] at hg
  | cons m rest ih =>
    intro pending hp g hg
    simp only [tokenGroups] at hg
    by_cases hend : isAppEnd m
    · rw [if_pos hend] at hg
      rcases List.mem_cons.mp hg with h | h
      · exact ⟨pending, m, h, hend, hp⟩
      · exact ih [] (by simp) g h
    · rw [if_neg hend] at hg
      refine ih (pending ++ [m]) ?_ g hg
      intro x hx
      rcases List.mem_append.mp hx with h | h
      · exact hp x h
      · simp only [List.mem_singleton] at h
        subst h
        exact hend

/-- The groups, in order, followed by the trailing tokens are the tokens read. -/
theorem tokenGroups_flatten : ∀ (opcodes pending : List MetaDataType),
    (tokenGroups pending opcodes).flatten ++ trailingTokens pending opcodes
      = pending ++ opcodes := by
  intro opcodes
  induction opcodes with
  | nil => intro pending; simp [tokenGroups, trailingTokens]
  | cons m rest ih =>
    intro pending
    simp only [tokenGroups, trailingTokens]
    by_cases hend : isAppEnd m
    · rw [if_pos hend, if_pos hend, List.flatten_cons, List.append_assoc, ih []]
      simp
    · rw [if_neg hend, if_neg hend, ih (pending ++ [m])]
      simp

theorem trailingTokens_mem : ∀ (opcodes pending : List MetaDataType),
    (∀ m ∈ pending, ¬ isAppEnd m) → ∀ m ∈ trailingTokens pending opcodes, ¬ isAppEnd m := by
  intro opcodes
  induction opcodes with
  | nil => intro pending hp m hm; exact hp m hm
  | cons x rest ih =>
    intro pending hp m hm
    simp only [trailingTokens] at hm
    by_cases hend : isAppEnd x
    · rw [if_pos hend] at hm
      exact ih [] (by simp) m hm
    · rw [if_neg hend] at hm
      refine ih (pending ++ [x]) ?_ m hm
      intro y hy
      rcases List.mem_append.mp hy with h | h
      · exact hp y h
      · simp only [List.mem_singleton] at h
        subst h
        exact hend

theorem processesOfGroups_metaData : ∀ (groups : List (List MetaDataType)) (index : Nat),
    ((processesOfGroups index groups).map fun p => p.metaData).flatten
      = groups.flatten.map unstarted := by
  intro groups
  induction groups with
  | nil => intro index; rfl
  | cons g rest ih =>
    intro index
    simp [processesOfGroups, ih, processOfGroup, loadedProcess]

/-! ### One call of `run` on an opcode of code `P` or `M` -/

theorem runBody_work (cfg : ConfigType) (st : RunState)
    (hkind : isCpuOrMemory st.running.current) :
    ∃ st1, runBody cfg st = some st1 ∧ st1.threadCreated = st.threadCreated ∧
      Advances st.running st1.running st.cycle st1.cycle ∧
      st1.cycle = st.cycle + 1 := by
  have hMP : ¬ ('M' = 'P') := by decide
  have hca : ¬ ("cache" = "allocate") := by decide
  rcases hkind with hP | ⟨hM, hd⟩ | ⟨hM, hd⟩
  · refine ⟨{ processorStep cfg st with cycle := (processorStep cfg st).cycle + 1 },
      by simp only [runBody, hP, if_true], rfl, ?_, rfl⟩
    simp [Advances, processorStep]
  · have hP : st.running.current.code ≠ 'P' := by rw [hM]; decide
    have hc : ¬ (allocateStep cfg st).running.current.descriptor = "cache" := by
      simp only [allocateStep, hd]; decide
    refine ⟨{ allocateStep cfg st with cycle := (allocateStep cfg st).cycle + 1 },
      by simp only [runBody, hM, hMP, if_false, hd, if_true, hc], rfl, ?_, rfl⟩
    simp [Advances, allocateStep]
  · have hP : st.running.current.code ≠ 'P' := by rw [hM]; decide
    have ha : ¬ st.running.current.descriptor = "allocate" := by rw [hd]; decide
    refine ⟨{ cacheStep cfg st with cycle := (cacheStep cfg st).cycle + 1 },
      by simp only [runBody, hM, hMP, if_false, hd, hca, if_true], rfl, ?_, rfl⟩
    simp only [Advances, cacheStep, true_and, sub_sub_cancel, add_sub_cancel_left, and_true]
    refine ⟨?_, by omega⟩
    split_ifs <;> omega

theorem advances_refl (running : Process) (cycle : Int) :
    Advances running running cycle cycle := by
  simp [Advances]

theorem advances_trans {a b c : Process} {x y z : Int} (h1 : Advances a b x y)
    (h2 : Advances b c y z) : Advances a c x z := by
  obtain ⟨a1, a2, a3, a4, a5, a6, a7, a8, a9, a10⟩ := h1
  obtain ⟨b1, b2, b3, b4, b5, b6, b7, b8, b9, b10⟩ := h2
  refine ⟨b1.trans a1, b2.trans a2, b3.trans a3, b4.trans a4, b5.trans a5, le_trans a6 b6,
    b7.trans a7, b8.trans a8, by omega, by omega⟩

theorem isCpuOrMemory_congr (a b : MetaDataType) (hc : b.code = a.code)
    (hd : b.descriptor = a.descriptor) (h : isCpuOrMemory a) : isCpuOrMemory b := by
  unfold isCpuOrMemory at *
  rw [hc, hd]
  exact h

theorem runLoop_work (cfg : ConfigType) :
    ∀ (fuel : Nat) (st : RunState), isCpuOrMemory st.running.current →
      st.threadCreated = false → (cfg.quantum - st.cycle).toNat ≤ fuel →
      ∃ st1, runLoop cfg fuel st = some st1 ∧
        Advances st.running st1.running st.cycle st1.cycle ∧
        (st1.running.current.cycles ≤ 0 ∨ cfg.quantum ≤ st1.cycle) ∧
        (0 < st.running.current.cycles → st.cycle < cfg.quantum →
          st.cycle < st1.cycle ∧ 0 ≤ st1.running.current.cycles) := by
  intro fuel
  induction fuel with
  | zero =>
    intro st hkind hthr hfuel
    have hq : cfg.quantum ≤ st.cycle := by omega
    have hcond : runCond cfg st = false := runCond_false_of_fuel cfg st (by omega)
    refine ⟨st, by simp [runLoop, hcond], advances_refl _ _, Or.inr hq, ?_⟩
    intro _ h; omega
  | succ fuel ih =>
    intro st hkind hthr hfuel
    by_cases hcond : runCond cfg st = true
    · obtain ⟨st1, hb, hthr1, hadv, hcyc⟩ := runBody_work cfg st hkind
      have hc0 : 0 < st.running.current.cycles ∧ st.cycle < cfg.quantum := by
        simp only [runCond, Bool.and_eq_true, decide_eq_true_eq] at hcond
        exact hcond.1
      have hkind1 : isCpuOrMemory st1.running.current :=
        isCpuOrMemory_congr _ _ hadv.2.2.2.2.2.2.1 hadv.2.2.2.2.2.2.2.1 hkind
      obtain ⟨st2, hloop, hadv2, hexit, hprog⟩ := ih st1 hkind1 (by rw [hthr1, hthr])
        (by rw [hcyc]; omega)
      refine ⟨st2, by simp only [runLoop, hcond, if_true, hb, hloop], advances_trans hadv hadv2, hexit, ?_⟩
      intro _ _
      have h9 := hadv.2.2.2.2.2.2.2.2.1
      have h10 := hadv2.2.2.2.2.2.2.2.2.2
      have h9b := hadv2.2.2.2.2.2.2.2.2.1
      refine ⟨by omega, ?_⟩
      rcases hexit with h | h
      · by_cases hc1 : 0 < st1.running.current.cycles
        · by_cases hq1 : st1.cycle < cfg.quantum
          · exact (hprog hc1 hq1).2
          · have : runCond cfg st1 = false := by simp [runCond, hq1]
            have h2 : runLoop cfg fuel st1 = some st1 := runLoop_of_not_cond cfg fuel st1 this
            rw [h2] at hloop
            cases hloop
            omega
        · have : runCond cfg st1 = false := by simp [runCond, hc1]
          have h2 : runLoop cfg fuel st1 = some st1 := runLoop_of_not_cond cfg fuel st1 this
          rw [h2] at hloop
          cases hloop
          omega
      · by_cases hc1 : 0 < st1.running.current.cycles
        · by_cases hq1 : st1.cycle < cfg.quantum
          · exact (hprog hc1 hq1).2
          · have : runCond cfg st1 = false := by simp [runCond, hq1]
            have h2 : runLoop cfg fuel st1 = some st1 := runLoop_of_not_cond cfg fuel st1 this
            rw [h2] at hloop
            cases hloop
            omega
        · have : runCond cfg st1 = false := by simp [runCond, hc1]
          have h2 : runLoop cfg fuel st1 = some st1 := runLoop_of_not_cond cfg fuel st1 this
          rw [h2] at hloop
          cases hloop
          omega
    · have hcond2 : runCond cfg st = false := by simpa using hcond
      refine ⟨st, runLoop_of_not_cond cfg _ st hcond2, advances_refl _ _, ?_, ?_⟩
      · simp only [runCond, hthr, Bool.not_false, Bool.and_true, Bool.and_eq_false_iff,
          decide_eq_false_iff_not] at hcond2
        rcases hcond2 with h | h
        · left; omega
        · right; omega
      · intro h1 h2
        exfalso
        simp [runCond, h1, h2, hthr] at hcond2

/-- One call of `run` on an opcode of code `P` or `M`: it returns, and it
executes cycles until the opcode is used up or the counter is at the quantum. -/
theorem run_work (cfg : ConfigType) (running : Process) (sh : Shared) (cycle : Int)
    (hkind : isCpuOrMemory running.current) :
    ∃ running1 sh1 cycle1, run running sh cfg cycle = some (running1, sh1, cycle1) ∧
      Advances running running1 cycle cycle1 ∧
      (running1.current.cycles ≤ 0 ∨ cfg.quantum ≤ cycle1) ∧
      (0 < running.current.cycles → cycle < cfg.quantum →
        cycle < cycle1 ∧ 0 ≤ running1.current.cycles) := by
  have hlife := runLifecycle_cpuOrMemory running.control running.current hkind
  obtain ⟨st1, hloop, hadv, hexit, hprog⟩ := runLoop_work cfg (cfg.quantum - cycle).toNat
    { running := { running with control := runLifecycle running.control running.current }
      sh := { sh with executed := sh.executed ++ [running.current] }
      cycle := cycle, threadCreated := false } hkind rfl (Nat.le_refl _)
  refine ⟨st1.running, st1.sh, st1.cycle, by simp only [run, hloop], ?_, hexit, hprog⟩
  obtain ⟨a1, a2, a3, a4, a5, a6, a7, a8, a9, a10⟩ := hadv
  exact ⟨by rw [a1]; exact hlife, a2, a3, a4, a5, a6, a7, a8, a9, a10⟩

/-! ### One pass of the loop of `runProcess` on a workload without I/O -/

theorem fetch_of_work (st : RunProcessState) (hcyc : 0 < st.running.current.cycles)
    (hkind : isCpuOrMemory st.running.current) : fetch st = st := by
  have hI : st.running.current.code ≠ 'I' := by
    rcases hkind with h | ⟨h, _⟩ | ⟨h, _⟩ <;> rw [h] <;> decide
  have hO : st.running.current.code ≠ 'O' := by
    rcases hkind with h | ⟨h, _⟩ | ⟨h, _⟩ <;> rw [h] <;> decide
  have hc : ¬ st.running.current.cycles ≤ 0 := by omega
  simp [fetch, hI, hO, hc]

theorem fetch_dequeue (st : RunProcessState) (h : MetaDataType) (rest : List MetaDataType)
    (hcyc : st.running.current.cycles ≤ 0) (hq : st.running.metaData = h :: rest) :
    fetch st = { st with
      running :=
        if h.descriptor = "run" then
          { st.running with
            metaData := rest
            timeRemaining := st.running.timeRemaining
              - (h.cycles - max 1 (h.cycles - 2 * st.running.cacheCount))
            current := { h with cycles := max 1 (h.cycles - 2 * st.running.cacheCount) } }
        else { st.running with metaData := rest, current := h }
      dequeued := true } := by
  simp only [fetch, hcyc, true_or, if_true, hq, SimpleQueue.dequeue]

theorem runProcessLoop_step_run (cfg : ConfigType) (fuel : Nat) (st : RunProcessState)
    (p : Process) (sh : Shared) (c : Int)
    (hcond : runProcessCond cfg st = true) (hdeq : (fetch st).dequeued = true)
    (hrun : run (fetch st).running (fetch st).sh cfg (fetch st).cyclesRun = some (p, sh, c)) :
    runProcessLoop cfg (fuel + 1) st
      = runProcessLoop cfg fuel { fetch st with running := p, sh := sh, cyclesRun := c } := by
  rw [runProcessLoop]
  simp only [hcond, if_true, hdeq, hrun]

theorem isEndOpcode_not_work (runMeta : MetaDataType)
    (h : runMeta.code = 'P' ∨ runMeta.code = 'M') : ¬ isEndOpcode runMeta := by
  intro he
  rcases he with ⟨hS | hA, _⟩ <;> rcases h with h | h <;> simp_all

theorem workLeft_eq (running : Process) :
    workLeft running
      = running.current.cycles.toNat + (running.metaData.map queueWeight).sum := rfl

/-- One pass of the loop of `runProcess` on a process of a workload without
I/O: the pass is defined, it keeps the invariant, the work left goes down and
`timeRemaining - cyclesRun` does not go up. -/
theorem runProcessLoop_batch_pass (cfg : ConfigType) (st : RunProcessState)
    (hI : BatchLoop st) (hcond : runProcessCond cfg st = true) :
    ∃ st2, (∀ fuel, runProcessLoop cfg (fuel + 1) st = runProcessLoop cfg fuel st2) ∧
      BatchLoop st2 ∧ workLeft st2.running < workLeft st.running ∧
      st2.running.timeRemaining - st2.cyclesRun ≤ st.running.timeRemaining - st.cyclesRun ∧
      st2.running.control.processNum = st.running.control.processNum ∧
      st2.running.completed = st.running.completed ∧
      st2.running.runningThreads = st.running.runningThreads := by
  obtain ⟨⟨hQ, hC, hK, hE⟩, hdeq, hc0⟩ := hI
  have hcond2 : st.cyclesRun < cfg.quantum ∧ st.running.control.state ≠ EXIT := by
    simpa [runProcessCond] using hcond
  obtain ⟨hlt, hstate⟩ := hcond2
  by_cases hcyc : 0 < st.running.current.cycles
  · -- the current opcode has cycles left
    have hkind : isCpuOrMemory st.running.current := by
      rcases hC with h | h
      · omega
      · exact h
    have hf := fetch_of_work st hcyc hkind
    obtain ⟨p1, sh1, c1, hrun, hadv, _, hprog⟩ := run_work cfg st.running st.sh st.cyclesRun hkind
    obtain ⟨hlt1, hnn⟩ := hprog hcyc hlt
    obtain ⟨a1, a2, a3, a4, a5, a6, a7, a8, a9, a10⟩ := hadv
    refine ⟨{ st with running := p1, sh := sh1, cyclesRun := c1 }, ?_, ⟨⟨?_, ?_, ?_, ?_⟩, hdeq, ?_⟩,
      ?_, ?_, ?_, a4, a5⟩
    · intro fuel
      have := runProcessLoop_step_run cfg fuel st p1 sh1 c1 hcond (by rw [hf]; exact hdeq)
        (by rw [hf]; exact hrun)
      rw [this, hf]
    · show ∀ m ∈ p1.metaData, isBatchOpcode m
      rw [a2]; exact hQ
    · exact Or.inr (isCpuOrMemory_congr _ _ a7 a8 hkind)
    · show 0 ≤ p1.cacheCount
      omega
    · show p1.control.state ≠ EXIT → ∃ m ∈ p1.metaData, isEndOpcode m
      rw [a1, a2]; exact hE
    · show 0 ≤ c1
      omega
    · show workLeft p1 < workLeft st.running
      rw [workLeft_eq, workLeft_eq, a2]
      have : p1.current.cycles.toNat < st.running.current.cycles.toNat := by omega
      omega
    · show p1.timeRemaining - c1 ≤ _
      rw [a3]; omega
    · show p1.control.processNum = _
      rw [a1]
  · -- the next opcode is taken from the queue
    have hcyc0 : st.running.current.cycles ≤ 0 := by omega
    obtain ⟨e, he, hend⟩ := hE hstate
    cases hq : st.running.metaData with
    | nil => rw [hq] at he; simp at he
    | cons h rest =>
      rw [hq] at he hQ
      have hf := fetch_dequeue st h rest hcyc0 hq
      have hQrest : ∀ m ∈ rest, isBatchOpcode m := fun m hm => hQ m (by simp [hm])
      have hh : isBatchOpcode h := hQ h (by simp)
      have hsum : workLeft st.running = queueWeight h + (rest.map queueWeight).sum := by
        rw [workLeft_eq, hq]
        have : st.running.current.cycles.toNat = 0 := by omega
        simp [this]
      by_cases hrun : h.descriptor = "run"
      · -- an opcode `P(run)`: the discount, then cycles
        have hP : h.code = 'P' ∧ 0 ≤ h.cycles := by
          rcases hh with ⟨_, hd, _⟩ | ⟨hc, _, hn⟩ | ⟨_, hd, _⟩
          · rcases hd with hd | hd <;> rw [hd] at hrun <;> exact absurd hrun (by decide)
          · exact ⟨hc, hn⟩
          · rcases hd with hd | hd <;> rw [hd] at hrun <;> exact absurd hrun (by decide)
        rw [if_pos hrun] at hf
        have hkind : isCpuOrMemory (fetch st).running.current := by
          rw [hf]; exact Or.inl hP.1
        obtain ⟨p1, sh1, c1, hrn, hadv, _, hprog⟩ :=
          run_work cfg (fetch st).running (fetch st).sh (fetch st).cyclesRun hkind
        have hu : (fetch st).running.current.cycles
            = max 1 (h.cycles - 2 * st.running.cacheCount) := by rw [hf]
        have hcr : (fetch st).cyclesRun = st.cyclesRun := by rw [hf]
        obtain ⟨hlt1, hnn⟩ := hprog (by rw [hu]; omega) (by rw [hcr]; exact hlt)
        obtain ⟨a1, a2, a3, a4, a5, a6, a7, a8, a9, a10⟩ := hadv
        rw [hu, hcr] at a9
        rw [hcr] at a10 hlt1
        have b1 : (fetch st).running.control = st.running.control := by rw [hf]
        have b2 : (fetch st).running.metaData = rest := by rw [hf]
        have b3 : (fetch st).running.timeRemaining = st.running.timeRemaining
            - (h.cycles - max 1 (h.cycles - 2 * st.running.cacheCount)) := by rw [hf]
        have b4 : (fetch st).running.completed = st.running.completed := by rw [hf]
        have b5 : (fetch st).running.runningThreads = st.running.runningThreads := by rw [hf]
        have b6 : (fetch st).running.cacheCount = st.running.cacheCount := by rw [hf]
        refine ⟨{ fetch st with running := p1, sh := sh1, cyclesRun := c1 }, ?_,
          ⟨⟨?_, ?_, ?_, ?_⟩, ?_, ?_⟩, ?_, ?_, ?_, ?_, ?_⟩
        · intro fuel
          exact runProcessLoop_step_run cfg fuel st p1 sh1 c1 hcond (by rw [hf]) hrn
        · show ∀ m ∈ p1.metaData, isBatchOpcode m
          rw [a2, b2]; exact hQrest
        · exact Or.inr (isCpuOrMemory_congr _ _ a7 a8 hkind)
        · show 0 ≤ p1.cacheCount
          omega
        · show p1.control.state ≠ EXIT → ∃ m ∈ p1.metaData, isEndOpcode m
          rw [a1, a2, b1, b2]
          intro _
          rcases List.mem_cons.mp he with h1 | h1
          · exact absurd (h1 ▸ hend) (isEndOpcode_not_work h (Or.inl hP.1))
          · exact ⟨e, h1, hend⟩
        · show (fetch st).dequeued = true
          rw [hf]
        · show 0 ≤ c1
          omega
        · show workLeft p1 < workLeft st.running
          rw [hsum, workLeft_eq, a2, b2]
          unfold queueWeight
          have hmax : max 1 (h.cycles - 2 * st.running.cacheCount) ≤ max 1 h.cycles := by
            omega
          omega
        · show p1.timeRemaining - c1 ≤ _
          rw [a3, b3]
          omega
        · show p1.control.processNum = _
          rw [a1, b1]
        · show p1.completed = _
          rw [a4, b4]
        · show p1.runningThreads = _
          rw [a5, b5]
      · rw [if_neg hrun] at hf
        have b1 : (fetch st).running.control = st.running.control := by rw [hf]
        have b2 : (fetch st).running.metaData = rest := by rw [hf]
        have b3 : (fetch st).running.timeRemaining = st.running.timeRemaining := by rw [hf]
        have b4 : (fetch st).running.completed = st.running.completed := by rw [hf]
        have b5 : (fetch st).running.runningThreads = st.running.runningThreads := by rw [hf]
        have b6 : (fetch st).running.cacheCount = st.running.cacheCount := by rw [hf]
        have b7 : (fetch st).running.current = h := by rw [hf]
        have hcr : (fetch st).cyclesRun = st.cyclesRun := by rw [hf]
        have hdq : (fetch st).dequeued = true := by rw [hf]
        by_cases hhc : 0 < h.cycles
        · -- an opcode `M(allocate)` or `M(cache)` with cycles
          have hM : h.code = 'M' ∧ (h.descriptor = "allocate" ∨ h.descriptor = "cache") := by
            rcases hh with ⟨_, _, hz⟩ | ⟨_, hd, _⟩ | ⟨hc, hd, _⟩
            · omega
            · exact absurd hd hrun
            · exact ⟨hc, hd⟩
          have hkind : isCpuOrMemory (fetch st).running.current := by
            rw [b7]
            rcases hM.2 with hd | hd
            · exact Or.inr (Or.inl ⟨hM.1, hd⟩)
            · exact Or.inr (Or.inr ⟨hM.1, hd⟩)
          obtain ⟨p1, sh1, c1, hrn, hadv, _, hprog⟩ :=
            run_work cfg (fetch st).running (fetch st).sh (fetch st).cyclesRun hkind
          obtain ⟨hlt1, hnn⟩ := hprog (by rw [b7]; exact hhc) (by rw [hcr]; exact hlt)
          obtain ⟨a1, a2, a3, a4, a5, a6, a7, a8, a9, a10⟩ := hadv
          rw [b7, hcr] at a9
          rw [hcr] at a10 hlt1
          refine ⟨{ fetch st with running := p1, sh := sh1, cyclesRun := c1 }, ?_,
            ⟨⟨?_, ?_, ?_, ?_⟩, hdq, ?_⟩, ?_, ?_, ?_, ?_, ?_⟩
          · intro fuel
            exact runProcessLoop_step_run cfg fuel st p1 sh1 c1 hcond hdq hrn
          · show ∀ m ∈ p1.metaData, isBatchOpcode m
            rw [a2, b2]; exact hQrest
          · exact Or.inr (isCpuOrMemory_congr _ _ a7 a8 hkind)
          · show 0 ≤ p1.cacheCount
            omega
          · show p1.control.state ≠ EXIT → ∃ m ∈ p1.metaData, isEndOpcode m
            rw [a1, a2, b1, b2]
            intro _
            rcases List.mem_cons.mp he with h1 | h1
            · exact absurd (h1 ▸ hend) (isEndOpcode_not_work h (Or.inr hM.1))
            · exact ⟨e, h1, hend⟩
          · show 0 ≤ c1
            omega
          · show workLeft p1 < workLeft st.running
            rw [hsum, workLeft_eq, a2, b2]
            unfold queueWeight
            omega
          · show p1.timeRemaining - c1 ≤ _
            rw [a3, b3]
            omega
          · show p1.control.processNum = _
            rw [a1, b1]
          · show p1.completed = _
            rw [a4, b4]
          · show p1.runningThreads = _
            rw [a5, b5]
        · -- a marker, or an opcode without cycles
          have hhc0 : h.cycles ≤ 0 := by omega
          have hrn := run_no_cycles (fetch st).running (fetch st).sh cfg (fetch st).cyclesRun
            (by rw [b7]; exact hhc0)
          refine ⟨{ fetch st with
              running := { (fetch st).running with
                control := runLifecycle (fetch st).running.control (fetch st).running.current }
              sh := { (fetch st).sh with
                executed := (fetch st).sh.executed ++ [(fetch st).running.current] }
              cyclesRun := (fetch st).cyclesRun }, ?_,
            ⟨⟨?_, ?_, ?_, ?_⟩, hdq, ?_⟩, ?_, ?_, ?_, ?_, ?_⟩
          · intro fuel
            exact runProcessLoop_step_run cfg fuel st _ _ _ hcond hdq hrn
          · show ∀ m ∈ (fetch st).running.metaData, isBatchOpcode m
            rw [b2]; exact hQrest
          · show (fetch st).running.current.cycles ≤ 0 ∨ _
            rw [b7]; exact Or.inl hhc0
          · show 0 ≤ (fetch st).running.cacheCount
            rw [b6]; exact hK
          · show (runLifecycle (fetch st).running.control (fetch st).running.current).state ≠ EXIT
                → ∃ m ∈ (fetch st).running.metaData, isEndOpcode m
            rw [b1, b2, b7]
            intro hne
            have hnot : ¬ isEndOpcode h := fun hx =>
              hne ((runLifecycle_exit st.running.control h hstate).mpr hx)
            rcases List.mem_cons.mp he with h1 | h1
            · exact absurd (h1 ▸ hend) hnot
            · exact ⟨e, h1, hend⟩
          · show 0 ≤ (fetch st).cyclesRun
            rw [hcr]; exact hc0
          · show workLeft { (fetch st).running with
                control := runLifecycle (fetch st).running.control (fetch st).running.current }
              < workLeft st.running
            rw [hsum, workLeft_eq]
            show (fetch st).running.current.cycles.toNat
              + ((fetch st).running.metaData.map queueWeight).sum < _
            rw [b7, b2]
            unfold queueWeight
            omega
          · show (fetch st).running.timeRemaining - (fetch st).cyclesRun ≤ _
            rw [b3, hcr]
          · show (runLifecycle (fetch st).running.control (fetch st).running.current).processNum
              = _
            rw [runLifecycle_processNum, b1]
          · exact b4
          · exact b5

/-! ### The scan of the shortest-job branch -/

theorem sjfLoop_inv : ∀ (rest scanned : List Process) (index minTimeRemaining : Int)
    (retIndex : Option Int), SjfInv scanned minTimeRemaining retIndex →
    index = (scanned.length : Int) →
    ∃ least, SjfInv (scanned ++ rest) least (sjfLoop rest index minTimeRemaining retIndex) := by
  intro rest
  induction rest with
  | nil =>
    intro scanned index m ret h _
    exact ⟨m, by simpa [sjfLoop] using h⟩
  | cons p rest ih =>
    intro scanned index m ret h hidx
    have happ : scanned ++ p :: rest = (scanned ++ [p]) ++ rest := by simp
    have hlen : index + 1 = ((scanned ++ [p]).length : Int) := by
      rw [hidx]; simp
    have hmle : m ≤ 100000 := by
      rcases h with ⟨_, hm, _⟩ | ⟨k, _, q, _, _, _, hlt, _⟩
      · omega
      · omega
    simp only [sjfLoop]
    rw [happ]
    by_cases hc : p.control.state ≠ EXIT ∧ p.timeRemaining < m
    · rw [if_pos hc]
      refine ih (scanned ++ [p]) (index + 1) p.timeRemaining (some index) ?_ hlen
      refine Or.inr ⟨scanned.length, by rw [hidx], p, by simp, hc.1, rfl, by omega, ?_, ?_⟩
      · intro j q hj hq hlt
        rw [List.getElem?_append_left hlt] at hj
        rcases h with ⟨_, hm, hno⟩ | ⟨k, _, r, _, _, _, _, _, hall⟩
        · have := hno q (List.getElem?_mem hj)
          have hq2 : ¬ q.timeRemaining < 100000 := fun hx => this ⟨hq, hx⟩
          omega
        · have := hall j q hj hq
          omega
      · intro j q hj hq
        by_cases hlt : j < scanned.length
        · rw [List.getElem?_append_left hlt] at hj
          rcases h with ⟨_, hm, hno⟩ | ⟨k, _, r, _, _, _, _, _, hall⟩
          · have := hno q (List.getElem?_mem hj)
            have hq2 : ¬ q.timeRemaining < 100000 := fun hx => this ⟨hq, hx⟩
            omega
          · have := hall j q hj hq
            omega
        · have hj0 : j = scanned.length := by
            by_contra hne
            have : (scanned ++ [p])[j]? = none := by
              apply List.getElem?_eq_none; simp; omega
            rw [this] at hj; cases hj
          subst hj0
          simp at hj
          subst hj
          exact Int.le_refl _
    · rw [if_neg hc]
      refine ih (scanned ++ [p]) (index + 1) m ret ?_ hlen
      rcases h with ⟨hr, hm, hno⟩ | ⟨k, hr, r, hk, hs, ht, hlt, hfirst, hall⟩
      · refine Or.inl ⟨hr, hm, ?_⟩
        intro q hq
        rcases List.mem_append.mp hq with h1 | h1
        · exact hno q h1
        · simp only [List.mem_singleton] at h1
          subst h1
          rw [hm] at hc
          exact hc
      · have hkl : k < scanned.length := by
          by_contra hne
          have : scanned[k]? = none := List.getElem?_eq_none (by omega)
          rw [this] at hk; cases hk
        refine Or.inr ⟨k, hr, r, by rw [List.getElem?_append_left hkl]; exact hk, hs, ht, hlt,
          ?_, ?_⟩
        · intro j q hj hq hjk
          rw [List.getElem?_append_left (by omega)] at hj
          exact hfirst j q hj hq hjk
        · intro j q hj hq
          by_cases hjl : j < scanned.length
          · rw [List.getElem?_append_left hjl] at hj
            exact hall j q hj hq
          · have hj0 : j = scanned.length := by
              by_contra hne
              have : (scanned ++ [p])[j]? = none := by
                apply List.getElem?_eq_none; simp; omega
              rw [this] at hj; cases hj
            subst hj0
            simp at hj
            subst hj
            by_contra hx
            exact hc ⟨hq, by omega⟩

theorem sjfLoop_spec (program : List Process) :
    ∃ least, SjfInv program least (sjfLoop program 0 100000 none) := by
  have h := sjfLoop_inv program [] 0 100000 none (Or.inl ⟨rfl, rfl, by simp⟩) (by simp)
  simpa using h

theorem shortestIn_unique (program : List Process) (k k1 : Nat) (least least1 : Int)
    (h : ShortestIn program k least) (h1 : ShortestIn program k1 least1) : k = k1 := by
  obtain ⟨p, hp, hs, ht, _, hfirst, hall⟩ := h
  obtain ⟨p1, hp1, hs1, ht1, _, hfirst1, hall1⟩ := h1
  by_contra hne
  rcases Nat.lt_or_gt_of_ne hne with hlt | hgt
  · have a := hfirst1 k p hp hs hlt
    have b := hall k1 p1 hp1 hs1
    omega
  · have a := hfirst k1 p1 hp1 hs1 hgt
    have b := hall1 k p hp hs
    omega

/-- The shortest-job branch returns the first process of least `timeRemaining`
among those not in `EXIT`, when that value is below 100000. -/
theorem sjfLoop_of_shortest (program : List Process) (k : Nat) (least : Int)
    (h : ShortestIn program k least) : sjfLoop program 0 100000 none = some (k : Int) := by
  obtain ⟨least1, hinv⟩ := sjfLoop_spec program
  rcases hinv with ⟨_, _, hno⟩ | ⟨k1, hr, hk1⟩
  · obtain ⟨p, hp, hs, ht, hlt, _, _⟩ := h
    exact absurd ⟨hs, by omega⟩ (hno p (List.getElem?_mem hp))
  · rw [hr, shortestIn_unique program k k1 least least1 h hk1]

theorem sjfLoop_some (program : List Process) (r : Int)
    (h : sjfLoop program 0 100000 none = some r) :
    ∃ (k : Nat) (least : Int), r = (k : Int) ∧ ShortestIn program k least := by
  obtain ⟨least1, hinv⟩ := sjfLoop_spec program
  rcases hinv with ⟨hr, _, _⟩ | ⟨k1, hr, hk1⟩
  · rw [h] at hr; cases hr
  · rw [h] at hr
    exact ⟨k1, least1, Option.some.inj hr, hk1⟩

theorem sjfLoop_isSome (program : List Process)
    (hex : ∃ p ∈ program, p.control.state ≠ EXIT ∧ p.timeRemaining < 100000) :
    ∃ (k : Nat) (least : Int), sjfLoop program 0 100000 none = some (k : Int) ∧
      ShortestIn program k least := by
  obtain ⟨least1, hinv⟩ := sjfLoop_spec program
  rcases hinv with ⟨_, _, hno⟩ | ⟨k1, hr, hk1⟩
  · obtain ⟨p, hp, hc⟩ := hex
    exact absurd hc (hno p hp)
  · exact ⟨k1, least1, hr, hk1⟩

/-! ### Termination of `runProcess` and of the scheduler loop without I/O -/

theorem queueWeight_le_sum : ∀ (l : List MetaDataType) (m : MetaDataType), m ∈ l →
    queueWeight m ≤ (l.map queueWeight).sum := by
  intro l
  induction l with
  | nil => intro m hm; simp at hm
  | cons x rest ih =>
    intro m hm
    rcases List.mem_cons.mp hm with h | h
    · subst h; simp
    · have := ih m h
      simp only [List.map_cons, List.sum_cons]
      omega

theorem workLeft_pos (running : Process) (h : BatchProcess running)
    (hs : running.control.state ≠ EXIT) : 0 < workLeft running := by
  obtain ⟨m, hm, _⟩ := h.2.2.2 hs
  have h1 := queueWeight_le_sum running.metaData m hm
  have h2 : 2 ≤ queueWeight m := by unfold queueWeight; omega
  rw [workLeft_eq]
  omega

/-- The loop of `runProcess` on a process of a workload without I/O returns
when the fuel covers the work left. -/
theorem runProcessLoop_batch (cfg : ConfigType) :
    ∀ (fuel : Nat) (st : RunProcessState), BatchLoop st → workLeft st.running ≤ fuel →
      ∃ st1, runProcessLoop cfg fuel st = some st1 ∧ BatchLoop st1 ∧
        workLeft st1.running ≤ workLeft st.running ∧
        (runProcessCond cfg st = true → workLeft st1.running < workLeft st.running) ∧
        st1.running.timeRemaining - st1.cyclesRun ≤ st.running.timeRemaining - st.cyclesRun ∧
        st1.running.control.processNum = st.running.control.processNum ∧
        st1.running.completed = st.running.completed ∧
        st1.running.runningThreads = st.running.runningThreads := by
  intro fuel
  induction fuel with
  | zero =>
    intro st hI hfuel
    have hcond : runProcessCond cfg st = false := by
      by_contra hc
      have hc2 : st.cyclesRun < cfg.quantum ∧ st.running.control.state ≠ EXIT := by
        simpa [runProcessCond] using hc
      have := workLeft_pos st.running hI.1 hc2.2
      omega
    exact ⟨st, by simp [runProcessLoop, hcond], hI, Nat.le_refl _, by simp [hcond],
      Int.le_refl _, rfl, rfl, rfl⟩
  | succ fuel ih =>
    intro st hI hfuel
    by_cases hcond : runProcessCond cfg st = true
    · obtain ⟨st2, hstep, hI2, hlt, htime, hnum, hcomp, hthr⟩ :=
        runProcessLoop_batch_pass cfg st hI hcond
      obtain ⟨st1, hloop, hI1, hle, _, htime1, hnum1, hcomp1, hthr1⟩ := ih st2 hI2 (by omega)
      exact ⟨st1, by rw [hstep fuel, hloop], hI1, by omega, fun _ => by omega, by omega,
        hnum1.trans hnum, hcomp1.trans hcomp, hthr1.trans hthr⟩
    · have hcond2 : runProcessCond cfg st = false := by simpa using hcond
      exact ⟨st, by simp [runProcessLoop, hcond2], hI, Nat.le_refl _, by simp [hcond2],
        Int.le_refl _, rfl, rfl, rfl⟩

theorem processMeasure_le (running : Process) : processMeasure running ≤ workLeft running := by
  unfold processMeasure
  split_ifs <;> omega

/-- One call of `runProcess` on a process of a workload without I/O that is not
in `EXIT`: the call returns, the measure of the process goes down and
`timeRemaining` does not go up. -/
theorem runProcess_batch (cfg : ConfigType) (fuel : Nat) (running : Process) (sh : Shared)
    (hq : 1 ≤ cfg.quantum) (hI : BatchProcess running) (hs : running.control.state ≠ EXIT)
    (hfuel : workLeft running ≤ fuel) :
    ∃ running1 sh1, runProcess fuel running sh cfg = some (running1, sh1) ∧
      BatchProcess running1 ∧ processMeasure running1 < processMeasure running ∧
      running1.timeRemaining ≤ running.timeRemaining ∧
      running1.control.processNum = running.control.processNum ∧
      running1.completed = running.completed ∧
      running1.runningThreads = running.runningThreads := by
  have hcond : runProcessCond cfg (RunProcessState.enter running sh) = true := by
    simp only [runProcessCond, RunProcessState.enter, Bool.and_eq_true, decide_eq_true_eq]
    exact ⟨by omega, hs⟩
  obtain ⟨st1, hloop, hI1, _, hlt, htime, hnum, hcomp, hthr⟩ :=
    runProcessLoop_batch cfg fuel (RunProcessState.enter running sh)
      ⟨hI, rfl, Int.le_refl 0⟩ hfuel
  have hlt1 := hlt hcond
  refine ⟨{ st1.running with timeRemaining := st1.running.timeRemaining - st1.cyclesRun },
    st1.sh, by simp only [runProcess, hloop], hI1.1, ?_, ?_, hnum, hcomp, hthr⟩
  · have h1 : processMeasure
        { st1.running with timeRemaining := st1.running.timeRemaining - st1.cyclesRun }
        ≤ workLeft st1.running := processMeasure_le st1.running
    have h2 : processMeasure running = workLeft running := by
      simp [processMeasure, hs]
    rw [h2]
    exact lt_of_le_of_lt h1 hlt1
  · have : (RunProcessState.enter running sh).cyclesRun = 0 := rfl
    show st1.running.timeRemaining - st1.cyclesRun ≤ running.timeRemaining
    have h3 : (RunProcessState.enter running sh).running.timeRemaining
        = running.timeRemaining := rfl
    omega

theorem completionScan_eq_map : ∀ (program : List Process) (out : List LogLine),
    (completionScan program out).1 = program.map (fun p =>
      if p.control.state = EXIT ∧ p.completed = false ∧ p.runningThreads = 0 then
        { p with completed := true } else p) := by
  intro program
  induction program with
  | nil => intro out; rfl
  | cons p rest ih =>
    intro out
    simp only [completionScan, List.map_cons]
    split_ifs
    · simp [ih]
    · simp [ih]

theorem tableMeasure_set_lt : ∀ (program : List Process) (k : Nat) (p p1 : Process),
    program[k]? = some p → processMeasure p1 < processMeasure p →
    tableMeasure (program.set k p1) < tableMeasure program := by
  intro program
  induction program with
  | nil => intro k p p1 h; simp at h
  | cons x rest ih =>
    intro k p p1 h hlt
    cases k with
    | zero =>
      simp only [List.getElem?_cons_zero, Option.some.injEq] at h
      subst h
      simp only [tableMeasure, List.set_cons_zero, List.map_cons, List.sum_cons]
      omega
    | succ k =>
      simp only [List.getElem?_cons_succ] at h
      have := ih k p p1 h hlt
      simp only [tableMeasure, List.set_cons_succ, List.map_cons, List.sum_cons] at this ⊢
      omega

theorem tableMeasure_completionScan (program : List Process) (out : List LogLine) :
    tableMeasure (completionScan program out).1 = tableMeasure program := by
  rw [completionScan_eq_map]
  unfold tableMeasure
  rw [List.map_map]
  congr 1
  apply List.map_congr_left
  intro p _
  simp only [Function.comp]
  split_ifs <;> rfl

theorem stateAt_some (program : List Process) (index s : Int)
    (h : stateAt program index = some s) :
    0 ≤ index ∧ ∃ p, program[index.toNat]? = some p ∧ p.control.state = s := by
  simp only [stateAt] at h
  split_ifs at h with h0
  refine ⟨h0, ?_⟩
  cases hp : program[index.toNat]? with
  | none => rw [hp] at h; cases h
  | some p =>
    rw [hp] at h
    exact ⟨p, rfl, by simpa using h⟩

/-- Both branches of `getSchedule` return the index of a process that is not in
`EXIT` when there is one with `timeRemaining` below 100000. -/
theorem getSchedule_batch (fuel : Nat) (program : List Process) (algorithmID prevIndex : Int)
    (hex : ∃ p ∈ program, p.control.state ≠ EXIT ∧ p.timeRemaining < 100000)
    (hlo : -1 ≤ prevIndex) (hfuel : program.length ≤ fuel) :
    ∃ (k : Nat) (p : Process),
      getSchedule fuel program algorithmID prevIndex = some (k : Int) ∧
      program[k]? = some p ∧ p.control.state ≠ EXIT := by
  by_cases hrr : algorithmID = RR
  · subst hrr
    obtain ⟨p0, hp0, hs0, _⟩ := hex
    have hP : 1 ≤ program.length := by
      cases program with
      | nil => simp at hp0
      | cons _ _ => simp
    obtain ⟨j, _, _, hg, ⟨s, hs, hne⟩, _⟩ :=
      getSchedule_rr_spec program prevIndex fuel hP ⟨p0, hp0, hs0⟩ hlo hfuel
    obtain ⟨h0, p, hp, hps⟩ := stateAt_some program _ s hs
    refine ⟨((prevIndex + j) % program.length).toNat, p, ?_, hp, by rw [hps]; exact hne⟩
    rw [hg, Int.toNat_of_nonneg h0]
  · rw [getSchedule_of_not_rr fuel program algorithmID prevIndex hrr]
    obtain ⟨k, least, hk, p, hp, hs, _⟩ := sjfLoop_isSome program hex
    exact ⟨k, p, hk, hp, hs⟩

theorem batchProcess_completed (p : Process) (b : Bool) (h : BatchProcess p) :
    BatchProcess { p with completed := b } := h

/-- One pass of the scheduler loop on a workload without I/O: with enough fuel
the pass is defined, it keeps the invariant and the measure of the table goes
down. -/
theorem mainBody_batch (config : ConfigType) (st : MainState)
    (hq : 1 ≤ config.quantum) (hI : BatchTable st)
    (hc : checkCompleted st.program = false) :
    ∃ fuel st1, mainBody fuel config st = some st1 ∧ BatchTable st1 ∧
      tableMeasure st1.program < tableMeasure st.program := by
  obtain ⟨hall, hlo⟩ := hI
  have hex : ∃ p ∈ st.program, p.control.state ≠ EXIT ∧ p.timeRemaining < 100000 := by
    by_contra hno
    have : checkCompleted st.program = true := by
      rw [checkCompleted_iff]
      intro p hp
      by_contra hne
      exact hno ⟨p, hp, hne, (hall p hp).2⟩
    rw [this] at hc; cases hc
  obtain ⟨k, p, hg0, hp, hs⟩ := getSchedule_batch st.program.length st.program
    config.schedulingAlg st.processIndex hex hlo (Nat.le_refl _)
  have hg := getSchedule_mono st.program.length (workLeft p) st.program config.schedulingAlg
    st.processIndex (k : Int) hg0
  have hmem : p ∈ st.program := List.getElem?_mem hp
  obtain ⟨p2, sh2, hrun, hI2, hmeas, htime, _, _, _⟩ := runProcess_batch config
    (st.program.length + workLeft p) p
    { st.sh with output := st.sh.output ++
        [LogLine.osPreparing p.control.processNum, LogLine.osStarting p.control.processNum] }
    hq (hall p hmem).1 hs (Nat.le_add_left _ _)
  refine ⟨st.program.length + workLeft p,
    { program := (completionScan (st.program.set k p2) sh2.output).1
      sh := { sh2 with output := (completionScan (st.program.set k p2) sh2.output).2 }
      processIndex := (k : Int)
      schedule := st.schedule ++ [(k : Int)] }, ?_, ⟨?_, ?_⟩, ?_⟩
  · simp only [mainBody, hg]
    simp only [Int.toNat_ofNat, hp, hrun]
    simp
  · intro q hq
    show BatchProcess q ∧ q.timeRemaining < 100000
    have hq2 : q ∈ (completionScan (st.program.set k p2) sh2.output).1 := hq
    rw [completionScan_eq_map] at hq2
    obtain ⟨r, hr, hrq⟩ := List.mem_map.mp hq2
    have hr2 : BatchProcess r ∧ r.timeRemaining < 100000 := by
      rcases List.mem_or_eq_of_mem_set hr with h | h
      · exact hall r h
      · subst h
        have := (hall p hmem).2
        exact ⟨hI2, by omega⟩
    rw [← hrq]
    split_ifs
    · exact hr2
    · exact hr2
  · show (-1 : Int) ≤ (k : Int)
    omega
  · show tableMeasure (completionScan (st.program.set k p2) sh2.output).1 < _
    rw [tableMeasure_completionScan]
    exact tableMeasure_set_lt st.program k p p2 hp hmeas

/-- The scheduler loop on a workload without I/O ends: with enough fuel it
returns a table in which every process is in `EXIT`. -/
theorem mainLoop_batch (config : ConfigType) (hq : 1 ≤ config.quantum) :
    ∀ (n : Nat) (st : MainState), BatchTable st → tableMeasure st.program ≤ n →
      ∃ fuel st1, mainLoop config fuel st = some st1 ∧
        checkCompleted st1.program = true := by
  intro n
  induction n with
  | zero =>
    intro st hI hn
    by_cases hc : checkCompleted st.program = true
    · exact ⟨0, st, mainLoop_of_completed config 0 st hc, hc⟩
    · have hc2 : checkCompleted st.program = false := by simpa using hc
      obtain ⟨_, st1, _, _, hlt⟩ := mainBody_batch config st hq hI hc2
      omega
  | succ n ih =>
    intro st hI hn
    by_cases hc : checkCompleted st.program = true
    · exact ⟨0, st, mainLoop_of_completed config 0 st hc, hc⟩
    · have hc2 : checkCompleted st.program = false := by simpa using hc
      obtain ⟨f1, st1, hb, hI1, hlt⟩ := mainBody_batch config st hq hI hc2
      obtain ⟨f2, st2, hl, hdone⟩ := ih st1 hI1 (by omega)
      refine ⟨(f1 + f2) + 1, st2, ?_, hdone⟩
      rw [mainLoop_step config (f1 + f2) st st1 hc2 (mainBody_mono f1 f2 config st st1 hb)]
      have := mainLoop_mono config f2 st1 st2 hl f1
      rw [Nat.add_comm] at this
      exact this

/-! ### `timeRemaining` over one turn -/

theorem runLoop_invariant (cfg : ConfigType) (I : RunState → Prop)
    (hstep : ∀ st st1 : RunState, I st → runCond cfg st = true → runBody cfg st = some st1 →
      I st1) :
    ∀ (fuel : Nat) (st st1 : RunState), runLoop cfg fuel st = some st1 → I st → I st1 := by
  intro fuel
  induction fuel with
  | zero =>
    intro st st1 h hI
    simp only [runLoop] at h
    split_ifs at h
    cases h
    exact hI
  | succ fuel ih =>
    intro st st1 h hI
    simp only [runLoop] at h
    split_ifs at h with hcond
    · cases hb : runBody cfg st with
      | none => simp [hb] at h
      | some st2 =>
        simp only [hb] at h
        exact ih st2 st1 h (hstep st st2 hI hcond hb)
    · cases h
      exact hI

theorem runBody_fields (cfg : ConfigType) (st st1 : RunState)
    (hcond : runCond cfg st = true) (h : runBody cfg st = some st1) :
    st1.running.metaData = st.running.metaData ∧
    st1.running.timeRemaining = st.running.timeRemaining ∧
    st.running.cacheCount ≤ st1.running.cacheCount ∧
    (0 ≤ st.cycle → 0 ≤ st1.cycle) := by
  have hc0 : 0 < st.running.current.cycles := by
    simp only [runCond, Bool.and_eq_true, decide_eq_true_eq] at hcond
    exact hcond.1.1
  simp only [runBody] at h
  split_ifs at h with hP hM ha hc hc hIO
  · cases h; exact ⟨rfl, rfl, le_refl _, fun h => by simp [processorStep]; omega⟩
  · cases h
    refine ⟨rfl, rfl, ?_, fun h => by simp [cacheStep, allocateStep]; omega⟩
    simp only [cacheStep, allocateStep]
    split_ifs <;> omega
  · cases h; exact ⟨rfl, rfl, le_refl _, fun h => by simp [allocateStep]; omega⟩
  · cases h
    refine ⟨rfl, rfl, ?_, fun h => by simp [cacheStep]; omega⟩
    simp only [cacheStep]
    split_ifs <;> omega
  · cases h; exact ⟨rfl, rfl, le_refl _, fun h => by simp; omega⟩
  · simp only [ioStep] at h
    split_ifs at h
    · cases h
      exact ⟨rfl, rfl, le_refl _, fun _ => by simp; omega⟩
    · cases h
  · cases h; exact ⟨rfl, rfl, le_refl _, fun h => by simp; omega⟩

/-- What a call of `run` leaves as it is, whatever the opcode: the queue and
`timeRemaining`; the cache count does not go down and the counter stays
non-negative. -/
theorem run_fields (cfg : ConfigType) (running running1 : Process) (sh sh1 : Shared)
    (cycle cycle1 : Int) (h : run running sh cfg cycle = some (running1, sh1, cycle1)) :
    running1.metaData = running.metaData ∧
    running1.timeRemaining = running.timeRemaining ∧
    running.cacheCount ≤ running1.cacheCount ∧
    (0 ≤ cycle → 0 ≤ cycle1) := by
  simp only [run] at h
  split at h
  · cases h
  · rename_i st hloop
    cases h
    exact runLoop_invariant cfg
      (fun s => s.running.metaData = running.metaData ∧
        s.running.timeRemaining = running.timeRemaining ∧
        running.cacheCount ≤ s.running.cacheCount ∧ (0 ≤ cycle → 0 ≤ s.cycle))
      (fun s s1 hs hcond hb => by
        obtain ⟨b1, b2, b3, b4⟩ := runBody_fields cfg s s1 hcond hb
        exact ⟨b1.trans hs.1, b2.trans hs.2.1, le_trans hs.2.2.1 b3,
          fun h0 => b4 (hs.2.2.2 h0)⟩)
      _ _ st hloop ⟨rfl, rfl, le_refl _, fun h0 => h0⟩

/-- Once the dequeue has failed the loop of `runProcess` has no way out. -/
theorem runProcessLoop_stuck (cfg : ConfigType) :
    ∀ (fuel : Nat) (st : RunProcessState), st.dequeued = false → st.running.metaData = [] →
      runProcessCond cfg st = true → runProcessLoop cfg fuel st = none := by
  intro fuel
  induction fuel with
  | zero => intro st _ _ hc; simp [runProcessLoop, hc]
  | succ fuel ih =>
    intro st hd hq hc
    have hf : (fetch st).dequeued = false ∧ (fetch st).running.metaData = [] ∧
        runProcessCond cfg (fetch st) = true := by
      have hfr := fetch_frame st
      refine ⟨?_, ?_, ?_⟩
      · simp only [fetch, hq, SimpleQueue.dequeue]
        split_ifs <;> simp [hd]
      · simp only [fetch, hq, SimpleQueue.dequeue]
        split_ifs <;> simp [hq]
      · simp only [runProcessCond, hfr.1, hfr.2.2] at hc ⊢
        exact hc
    rw [runProcessLoop]
    simp only [hc, if_true, hf.1]
    exact ih (fetch st) hf.1 hf.2.1 hf.2.2

theorem fetch_charged (bound : Int) (st : RunProcessState) (h : ChargedLoop bound st)
    (hd : (fetch st).dequeued = true) : ChargedLoop bound (fetch st) := by
  obtain ⟨⟨hK, hQ⟩, ht, hc⟩ := h
  by_cases hcond : st.running.current.cycles ≤ 0 ∨ st.running.current.code = 'I'
      ∨ st.running.current.code = 'O'
  · cases hq : st.running.metaData with
    | nil =>
      have : (fetch st).dequeued = false := by
        simp only [fetch, hq, SimpleQueue.dequeue]
        split_ifs <;> simp_all
      rw [this] at hd; cases hd
    | cons x rest =>
      rw [hq] at hQ
      have hf : fetch st = { st with
          running :=
            if x.descriptor = "run" then
              { st.running with
                metaData := rest
                timeRemaining := st.running.timeRemaining
                  - (x.cycles - max 1 (x.cycles - 2 * st.running.cacheCount))
                current := { x with cycles := max 1 (x.cycles - 2 * st.running.cacheCount) } }
            else { st.running with metaData := rest, current := x }
          dequeued := true } := by
        simp only [fetch, hcond, if_true, hq, SimpleQueue.dequeue]
      rw [hf]
      by_cases hrun : x.descriptor = "run"
      · have h1 := hQ x (by simp) hrun
        simp only [if_pos hrun]
        refine ⟨⟨hK, fun m hm => hQ m (by simp [hm])⟩, ?_, hc⟩
        show st.running.timeRemaining - (x.cycles - max 1 (x.cycles - 2 * st.running.cacheCount))
          ≤ bound
        omega
      · simp only [if_neg hrun]
        exact ⟨⟨hK, fun m hm => hQ m (by simp [hm])⟩, ht, hc⟩
  · have hf : fetch st = st := by simp [fetch, hcond]
    rw [hf]
    exact ⟨⟨hK, hQ⟩, ht, hc⟩

theorem runProcessLoop_charged (cfg : ConfigType) (bound : Int) :
    ∀ (fuel : Nat) (st st1 : RunProcessState), runProcessLoop cfg fuel st = some st1 →
      ChargedLoop bound st → st.dequeued = true → ChargedLoop bound st1 := by
  intro fuel
  induction fuel with
  | zero =>
    intro st st1 h hI _
    simp only [runProcessLoop] at h
    split_ifs at h
    cases h
    exact hI
  | succ fuel ih =>
    intro st st1 h hI hd0
    rw [runProcessLoop] at h
    dsimp only at h
    split_ifs at h with hcond hdeq
    · have hI1 := fetch_charged bound st hI hdeq
      cases hr : run (fetch st).running (fetch st).sh cfg (fetch st).cyclesRun with
      | none => simp [hr] at h
      | some r =>
        obtain ⟨p, sh, c⟩ := r
        simp only [hr] at h
        obtain ⟨f1, f2, f3, f4⟩ := run_fields cfg _ _ _ _ _ _ hr
        refine ih _ st1 h ⟨⟨?_, ?_⟩, ?_, ?_⟩ hdeq
        · show 0 ≤ p.cacheCount
          have := hI1.1.1
          omega
        · show ∀ m ∈ p.metaData, m.descriptor = "run" → 1 ≤ m.cycles
          rw [f1]; exact hI1.1.2
        · show p.timeRemaining ≤ bound
          rw [f2]; exact hI1.2.1
        · exact f4 hI1.2.2
    · exfalso
      have hfr := fetch_frame st
      have hdf : (fetch st).dequeued = false := by simpa using hdeq
      have hq : (fetch st).running.metaData = [] := by
        by_cases hc : st.running.current.cycles ≤ 0 ∨ st.running.current.code = 'I'
            ∨ st.running.current.code = 'O'
        · cases hm : st.running.metaData with
          | nil =>
            simp only [fetch, hc, if_true, hm, SimpleQueue.dequeue]
            split_ifs <;> rfl
          | cons x rest =>
            have : (fetch st).dequeued = true := by
              simp only [fetch, hc, if_true, hm, SimpleQueue.dequeue]
            rw [this] at hdf; cases hdf
        · have hf : fetch st = st := by simp [fetch, hc]
          rw [hf, hd0] at hdf; cases hdf
      have hcf : runProcessCond cfg (fetch st) = true := by
        simp only [runProcessCond, hfr.1, hfr.2.2] at hcond ⊢
        exact hcond
      rw [runProcessLoop_stuck cfg fuel (fetch st) hdf hq hcf] at h
      cases h
    · cases h
      exact hI

/-- One call of `runProcess` under the condition on the `run` opcodes:
`timeRemaining` does not go up, and the condition still holds. -/
theorem runProcess_charged (cfg : ConfigType) (fuel : Nat) (running running1 : Process)
    (sh sh1 : Shared) (h : runProcess fuel running sh cfg = some (running1, sh1))
    (hI : PositiveRuns running) :
    PositiveRuns running1 ∧ running1.timeRemaining ≤ running.timeRemaining := by
  simp only [runProcess] at h
  split at h
  · cases h
  · rename_i st hloop
    cases h
    obtain ⟨hP, ht, hc⟩ := runProcessLoop_charged cfg running.timeRemaining fuel _ st hloop
      ⟨hI, le_refl _, Int.le_refl 0⟩ rfl
    refine ⟨hP, ?_⟩
    show st.running.timeRemaining - st.cyclesRun ≤ running.timeRemaining
    omega

/-! ### The shortest-job policy keeps the selected process -/

theorem completionScan_markCompleted (program : List Process) (out : List LogLine) :
    (completionScan program out).1 = program.map markCompleted :=
  completionScan_eq_map program out

theorem markCompleted_fields (p : Process) :
    (markCompleted p).control = p.control ∧
    (markCompleted p).timeRemaining = p.timeRemaining ∧
    (markCompleted p).metaData = p.metaData ∧
    (markCompleted p).cacheCount = p.cacheCount := by
  unfold markCompleted
  split_ifs <;> exact ⟨rfl, rfl, rfl, rfl⟩

/-- The shape of one pass of the scheduler loop under the shortest-job policy. -/
theorem mainBody_sjf (config : ConfigType) (fuel : Nat) (st st1 : MainState)
    (halg : config.schedulingAlg ≠ RR) (hb : mainBody fuel config st = some st1) :
    ∃ (k : Nat) (least : Int) (p p1 : Process) (sh sh1 : Shared),
      ShortestIn st.program k least ∧ st.program[k]? = some p ∧
      runProcess fuel p sh config = some (p1, sh1) ∧
      st1.program = (st.program.set k p1).map markCompleted ∧
      st1.processIndex = (k : Int) ∧ st1.schedule = st.schedule ++ [(k : Int)] := by
  simp only [mainBody, getSchedule_of_not_rr fuel _ _ _ halg] at hb
  cases hg : sjfLoop st.program 0 100000 none with
  | none => simp [hg] at hb
  | some r =>
    obtain ⟨k, least, hr, hk⟩ := sjfLoop_some st.program r hg
    subst hr
    simp only [hg, Int.toNat_ofNat] at hb
    have h0 : (0 : Int) ≤ (k : Int) := by omega
    simp only [h0, if_true] at hb
    cases hp : st.program[k]? with
    | none => simp [hp] at hb
    | some p =>
      simp only [hp] at hb
      split at hb
      · cases hb
      · rename_i p1 sh1 hrun
        cases hb
        exact ⟨k, least, p, p1, _, sh1, hk, hp, hrun, completionScan_markCompleted _ _, rfl, rfl⟩

theorem getElem?_set_map_markCompleted (program : List Process) (k j : Nat) (p1 q : Process)
    (h : ((program.set k p1).map markCompleted)[j]? = some q) :
    (j = k ∧ q = markCompleted p1) ∨ (j ≠ k ∧ ∃ r, program[j]? = some r ∧ q = markCompleted r) := by
  rw [List.getElem?_map] at h
  by_cases hjk : j = k
  · subst hjk
    cases hs : (program.set j p1)[j]? with
    | none => rw [hs] at h; cases h
    | some r =>
      have hlt : j < program.length := by
        by_contra hne
        have : (program.set j p1)[j]? = none :=
          List.getElem?_eq_none (by rw [List.length_set]; omega)
        rw [this] at hs; cases hs
      rw [List.getElem?_set_self hlt] at hs
      cases hs
      rw [List.getElem?_set_self hlt] at h
      exact Or.inl ⟨rfl, by simpa using h.symm⟩
  · rw [List.getElem?_set_ne (Ne.symm hjk)] at h
    cases hr : program[j]? with
    | none => rw [hr] at h; cases h
    | some r =>
      rw [hr] at h
      exact Or.inr ⟨hjk, r, rfl, by simpa using h.symm⟩

/-- After a pass under the shortest-job policy the state is `SelectedShortest`. -/
theorem mainBody_selected (config : ConfigType) (fuel : Nat) (st st1 : MainState)
    (halg : config.schedulingAlg ≠ RR) (hI : ∀ p ∈ st.program, PositiveRuns p)
    (hb : mainBody fuel config st = some st1) :
    ∃ k : Nat, SelectedShortest st1 k ∧ st1.schedule = st.schedule ++ [(k : Int)] ∧
      (∃ least, ShortestIn st.program k least) ∧
      ∀ (j : Nat) (q : Process), st1.program[j]? = some q → q.control.state ≠ EXIT →
        ∃ r, st.program[j]? = some r ∧ r.control.state ≠ EXIT := by
  obtain ⟨k, least, p, p1, sh, sh1, hk, hp, hrun, hprog, hidx, hsched⟩ :=
    mainBody_sjf config fuel st st1 halg hb
  obtain ⟨hP1, ht1⟩ := runProcess_charged config fuel p p1 sh sh1 hrun
    (hI p (List.getElem?_mem hp))
  obtain ⟨p0, hp0, hs0, hl0, hlt0, hfirst, hall⟩ := hk
  rw [hp] at hp0
  cases hp0
  have hklt : k < st.program.length := by
    by_contra hne
    have : st.program[k]? = none := List.getElem?_eq_none (by omega)
    rw [this] at hp; cases hp
  have hk1 : st1.program[k]? = some (markCompleted p1) := by
    rw [hprog, List.getElem?_map, List.getElem?_set_self hklt]
    rfl
  refine ⟨k, ⟨?_, hidx, ?_⟩, hsched, ⟨least, p, hp, hs0, hl0, hlt0, hfirst, hall⟩, ?_⟩
  · intro q hq
    rw [hprog] at hq
    obtain ⟨r, hr, hrq⟩ := List.mem_map.mp hq
    have hr2 : PositiveRuns r := by
      rcases List.mem_or_eq_of_mem_set hr with h | h
      · exact hI r h
      · rw [h]; exact hP1
    rw [← hrq]
    obtain ⟨_, _, m3, m4⟩ := markCompleted_fields r
    exact ⟨by rw [m4]; exact hr2.1, by rw [m3]; exact hr2.2⟩
  · rintro ⟨q, hq, hqs⟩
    rw [hk1] at hq
    cases hq
    obtain ⟨m1, m2, _, _⟩ := markCompleted_fields p1
    refine ⟨p1.timeRemaining, markCompleted p1, hk1, hqs, m2, by omega, ?_, ?_⟩
    · intro j q hj hqne hjk
      rw [hprog] at hj
      rcases getElem?_set_map_markCompleted st.program k j p1 q hj with ⟨h, _⟩ | ⟨_, r, hr, hqr⟩
      · omega
      · obtain ⟨n1, n2, _, _⟩ := markCompleted_fields r
        rw [hqr, n2]
        have := hfirst j r hr (by rw [hqr, n1] at hqne; exact hqne) hjk
        omega
    · intro j q hj hqne
      rw [hprog] at hj
      rcases getElem?_set_map_markCompleted st.program k j p1 q hj with ⟨_, h⟩ | ⟨_, r, hr, hqr⟩
      · rw [h, m2]
      · obtain ⟨n1, n2, _, _⟩ := markCompleted_fields r
        rw [hqr, n2]
        have := hall j r hr (by rw [hqr, n1] at hqne; exact hqne)
        omega
  · intro j q hj hqne
    rw [hprog] at hj
    rcases getElem?_set_map_markCompleted st.program k j p1 q hj with ⟨h, _⟩ | ⟨_, r, hr, hqr⟩
    · subst h
      exact ⟨p, hp, hs0⟩
    · obtain ⟨n1, _, _, _⟩ := markCompleted_fields r
      exact ⟨r, hr, by rw [hqr, n1] at hqne; exact hqne⟩

/-- A selected process that is not in `EXIT` is selected by the next pass. -/
theorem mainBody_of_selected (config : ConfigType) (fuel : Nat) (st st1 : MainState) (k : Nat)
    (halg : config.schedulingAlg ≠ RR) (hsel : SelectedShortest st k)
    (hne : ∃ p, st.program[k]? = some p ∧ p.control.state ≠ EXIT)
    (hb : mainBody fuel config st = some st1) :
    SelectedShortest st1 k ∧ st1.schedule = st.schedule ++ [(k : Int)] := by
  obtain ⟨k1, hsel1, hsched, ⟨least1, hk1⟩, _⟩ :=
    mainBody_selected config fuel st st1 halg hsel.1 hb
  obtain ⟨least, hk⟩ := hsel.2.2 hne
  have := shortestIn_unique st.program k k1 least least1 hk hk1
  subst this
  exact ⟨hsel1, hsched⟩

theorem mainTurns_not_exit (config : ConfigType) (fuel : Nat)
    (halg : config.schedulingAlg ≠ RR) :
    ∀ (n : Nat) (st st1 : MainState), (∀ p ∈ st.program, PositiveRuns p) →
      mainTurns config fuel n st = some st1 →
      ∀ (j : Nat) (q : Process), st1.program[j]? = some q → q.control.state ≠ EXIT →
        ∃ r, st.program[j]? = some r ∧ r.control.state ≠ EXIT := by
  intro n
  induction n with
  | zero =>
    intro st st1 _ h j q hj hq
    simp only [mainTurns] at h
    cases h
    exact ⟨q, hj, hq⟩
  | succ n ih =>
    intro st st1 hI h j q hj hq
    simp only [mainTurns] at h
    split_ifs at h
    · cases h
      exact ⟨q, hj, hq⟩
    · cases hb : mainBody fuel config st with
      | none => simp [hb] at h
      | some st2 =>
        simp only [hb] at h
        obtain ⟨k, hsel, _, _, hback⟩ := mainBody_selected config fuel st st2 halg hI hb
        obtain ⟨r, hr, hrs⟩ := ih st2 st1 hsel.1 h j q hj hq
        exact hback j r hr hrs

/-- While the selected process is not in `EXIT` every pass selects it again. -/
theorem mainTurns_selected (config : ConfigType) (fuel : Nat) (k : Nat)
    (halg : config.schedulingAlg ≠ RR) :
    ∀ (n : Nat) (st st1 : MainState), SelectedShortest st k →
      mainTurns config fuel n st = some st1 →
      (∃ p, st1.program[k]? = some p ∧ p.control.state ≠ EXIT) →
      SelectedShortest st1 k ∧ st1.schedule = st.schedule ++ List.replicate n (k : Int) := by
  intro n
  induction n with
  | zero =>
    intro st st1 hsel h _
    simp only [mainTurns] at h
    cases h
    exact ⟨hsel, by simp⟩
  | succ n ih =>
    intro st st1 hsel h hne
    have hne0 : ∃ p, st.program[k]? = some p ∧ p.control.state ≠ EXIT := by
      obtain ⟨p, hp, hps⟩ := hne
      exact mainTurns_not_exit config fuel halg (n + 1) st st1 hsel.1 h k p hp hps
    simp only [mainTurns] at h
    split_ifs at h with hc
    · cases h
      exfalso
      obtain ⟨p, hp, hps⟩ := hne0
      exact hps ((checkCompleted_iff st.program).mp hc p (List.getElem?_mem hp))
    · cases hb : mainBody fuel config st with
      | none => simp [hb] at h
      | some st2 =>
        simp only [hb] at h
        obtain ⟨hsel2, hsched2⟩ := mainBody_of_selected config fuel st st2 k halg hsel hne0 hb
        obtain ⟨hsel1, hsched1⟩ := ih st2 st1 hsel2 h hne
        refine ⟨hsel1, ?_⟩
        rw [hsched1, hsched2, List.replicate_succ]
        simp

theorem mem_processesOfGroups : ∀ (groups : List (List MetaDataType)) (index : Nat)
    (p : Process), p ∈ processesOfGroups index groups →
    ∃ (i : Nat) (g : List MetaDataType), g ∈ groups ∧ p = processOfGroup i g := by
  intro groups
  induction groups with
  | nil => intro index p hp; simp [processesOfGroups] at hp
  | cons g rest ih =>
    intro index p hp
    simp only [processesOfGroups, List.mem_cons] at hp
    rcases hp with h | h
    · exact ⟨index, g, by simp, h⟩
    · obtain ⟨i, g1, hg1, hp1⟩ := ih (index + 1) p h
      exact ⟨i, g1, by simp [hg1], hp1⟩

/-- Every process `readInput` builds from opcodes of a workload without I/O
satisfies the invariant of the scheduler loop. -/
theorem batchProcess_readInput (opcodes : List MetaDataType)
    (hb : ∀ m ∈ opcodes, isBatchOpcode m) :
    ∀ p ∈ readInput opcodes, BatchProcess p := by
  intro p hp
  rw [readInput_groups] at hp
  obtain ⟨i, g, hg, rfl⟩ := mem_processesOfGroups _ _ p hp
  obtain ⟨front, last, hgl, hend, _⟩ := tokenGroups_mem opcodes [] (by simp) g hg
  have hsub : ∀ m ∈ g, m ∈ opcodes := by
    intro m hm
    have h1 := tokenGroups_flatten opcodes []
    simp only [List.nil_append] at h1
    rw [← h1]
    exact List.mem_append_left _ (List.mem_flatten.mpr ⟨g, hg, hm⟩)
  refine ⟨?_, Or.inl (by simp [processOfGroup, loadedProcess, newProcess]),
    by simp [processOfGroup, loadedProcess, newProcess], ?_⟩
  · intro m hm
    simp only [processOfGroup, loadedProcess, List.mem_map] at hm
    obtain ⟨m0, hm0, rfl⟩ := hm
    exact hb m0 (hsub m0 hm0)
  · intro _
    refine ⟨unstarted last, ?_, ?_⟩
    · simp only [processOfGroup, loadedProcess, List.mem_map]
      exact ⟨last, by rw [hgl]; simp, rfl⟩
    · exact ⟨Or.inr hend.2, hend.1⟩

theorem batchTable_readInput (opcodes : List MetaDataType)
    (hb : ∀ m ∈ opcodes, isBatchOpcode m)
    (ht : ∀ p ∈ readInput opcodes, p.timeRemaining < 100000) :
    BatchTable (MainState.init (readInput opcodes)) :=
  ⟨fun p hp => ⟨batchProcess_readInput opcodes hb p hp, ht p hp⟩, by simp [MainState.init]⟩

/-- The scheduler loop on a workload without I/O: a fuel from which on it
returns, with every process in `EXIT`. -/
theorem mainLoop_batch_readInput (config : ConfigType) (opcodes : List MetaDataType)
    (hq : 1 ≤ config.quantum) (hb : ∀ m ∈ opcodes, isBatchOpcode m)
    (ht : ∀ p ∈ readInput opcodes, p.timeRemaining < 100000) :
    ∃ (fuel : Nat) (st1 : MainState),
      (∀ extra : Nat,
        mainLoop config (fuel + extra) (MainState.init (readInput opcodes)) = some st1) ∧
      ∀ p ∈ st1.program, p.control.state = EXIT := by
  obtain ⟨fuel, st1, hl, hdone⟩ := mainLoop_batch config hq _
    (MainState.init (readInput opcodes)) (batchTable_readInput opcodes hb ht) (Nat.le_refl _)
  exact ⟨fuel, st1, fun extra => mainLoop_mono config fuel _ st1 hl extra,
    (checkCompleted_iff st1.program).mp hdone⟩

/-! ### The queue on its storage -/

theorem take_set_succ {α : Type} : ∀ (l : List α) (n : Nat) (x : α), n < l.length →
    (l.set n x).take (n + 1) = l.take n ++ [x] := by
  intro l
  induction l with
  | nil => intro n x h; simp at h
  | cons a rest ih =>
    intro n x h
    cases n with
    | zero => simp
    | succ n =>
      simp only [List.length_cons, Nat.add_lt_add_iff_right] at h
      simp [ih n x h]

theorem take_succ_cons_drop {α : Type} (l : List α) (n : Nat) (h : 0 < l.length) :
    l.take (n + 1) = l[0] :: (l.drop 1).take n := by
  cases l with
  | nil => simp at h
  | cons a rest => simp

theorem SimpleList.resize_length {α : Type} [Inhabited α] (l : List α) (n : Nat)
    (h : l.length ≤ n) : (SimpleList.resize l n).length = n := by
  simp [SimpleList.resize]
  omega

theorem SimpleList.resize_take {α : Type} [Inhabited α] (l : List α) (n : Nat)
    (h : l.length ≤ n) : (SimpleList.resize l n).take l.length = l := by
  simp [SimpleList.resize, List.take_take, Nat.min_eq_left h]

/-- Method `enqueue` on a valid storage stores the item behind the last one. -/
theorem SimpleQueue.State.enqueue_items {α : Type} [Inhabited α] (q : SimpleQueue.State α)
    (x : α) (h : q.Valid) :
    ∃ q1, q.enqueue x = some q1 ∧ q1.Valid ∧ q1.items = SimpleQueue.enqueue q.items x := by
  obtain ⟨hle, hcap⟩ := h
  by_cases hfull : q.queueSize = q.listData.length
  · have hgrow : q.listData.length + 1 ≤ q.listData.length * 5 / 4 := by omega
    have hlen := SimpleList.resize_length q.listData (q.listData.length * 5 / 4) (by omega)
    have htake := SimpleList.resize_take q.listData (q.listData.length * 5 / 4) (by omega)
    refine ⟨{ listData := (SimpleList.resize q.listData (q.listData.length * 5 / 4)).set
                q.queueSize x
              queueSize := q.queueSize + 1 }, ?_, ⟨?_, ?_⟩, ?_⟩
    · simp only [SimpleQueue.State.enqueue, SimpleQueue.State.getCapacity, hfull, if_true, hlen]
      rw [if_pos (by omega)]
    · show q.queueSize + 1 ≤ _
      rw [List.length_set, hlen]; omega
    · show 4 ≤ _
      rw [List.length_set, hlen]; omega
    · show (List.set _ _ _).take (q.queueSize + 1) = _
      rw [take_set_succ _ _ _ (by rw [hlen]; omega)]
      simp only [SimpleQueue.State.items, SimpleQueue.enqueue, hfull, htake, List.take_length]
  · have hlt : q.queueSize < q.listData.length := by omega
    refine ⟨{ listData := q.listData.set q.queueSize x, queueSize := q.queueSize + 1 }, ?_,
      ⟨?_, ?_⟩, ?_⟩
    · simp only [SimpleQueue.State.enqueue, SimpleQueue.State.getCapacity, hfull, if_false]
      rw [if_pos hlt]
    · show q.queueSize + 1 ≤ _
      rw [List.length_set]; omega
    · show 4 ≤ _
      rw [List.length_set]; exact hcap
    · show (List.set _ _ _).take (q.queueSize + 1) = _
      rw [take_set_succ _ _ _ hlt]
      rfl

/-- The loop of `dequeue`: the cells from `index` up to `queueSize` get the item
of the next cell, the other cells keep theirs. -/
theorem SimpleQueue.shiftLoop_spec {α : Type} (queueSize : Nat) :
    ∀ (fuel index : Nat) (l : List α), queueSize - index ≤ fuel → queueSize < l.length →
      ∃ r, SimpleQueue.shiftLoop queueSize fuel index l = some r ∧ r.length = l.length ∧
        ∀ j : Nat, r[j]? = if index ≤ j ∧ j < queueSize then l[j + 1]? else l[j]? := by
  intro fuel
  induction fuel with
  | zero =>
    intro index l hfuel hlen
    have : ¬ index < queueSize := by omega
    refine ⟨l, by simp [SimpleQueue.shiftLoop, this], rfl, ?_⟩
    intro j
    have : ¬ (index ≤ j ∧ j < queueSize) := by omega
    simp [this]
  | succ fuel ih =>
    intro index l hfuel hlen
    by_cases hlt : index < queueSize
    · have hb : index + 1 < l.length := by omega
      have hget : l[index + 1]? = some l[index + 1] := List.getElem?_eq_getElem hb
      obtain ⟨r, hr, hrl, hrj⟩ := ih (index + 1) (l.set index l[index + 1])
        (by omega) (by rw [List.length_set]; exact hlen)
      refine ⟨r, ?_, by rw [hrl, List.length_set], ?_⟩
      · rw [SimpleQueue.shiftLoop]
        simp only [hlt, if_true, hget, hr]
      · intro j
        rw [hrj j]
        by_cases hj : index + 1 ≤ j ∧ j < queueSize
        · have h2 : index ≤ j ∧ j < queueSize := ⟨by omega, hj.2⟩
          rw [if_pos hj, if_pos h2, List.getElem?_set_ne (by omega)]
        · rw [if_neg hj]
          by_cases hji : j = index
          · subst hji
            rw [if_pos ⟨Nat.le_refl _, hlt⟩, List.getElem?_set_self (by omega), hget]
          · have h2 : ¬ (index ≤ j ∧ j < queueSize) := by omega
            rw [if_neg h2, List.getElem?_set_ne (by omega)]
    · refine ⟨l, by simp [SimpleQueue.shiftLoop, hlt], rfl, ?_⟩
      intro j
      have : ¬ (index ≤ j ∧ j < queueSize) := by omega
      simp [this]

/-- Method `dequeue` on a valid storage that holds an item: the head is copied
out and the other items move one cell forward. -/
theorem SimpleQueue.State.dequeue_items {α : Type} (q : SimpleQueue.State α) (d : α)
    (h : q.Valid) (hne : q.queueSize ≠ 0) :
    ∃ x q1, q.dequeue d = some (true, x, q1) ∧ q1.Valid ∧
      SimpleQueue.dequeue q.items d = (true, x, q1.items) := by
  obtain ⟨hle, hcap⟩ := h
  have h0 : 0 < q.listData.length := by omega
  have hget : q.listData[0]? = some q.listData[0] := List.getElem?_eq_getElem h0
  obtain ⟨r, hr, hrl, hrj⟩ := SimpleQueue.shiftLoop_spec (q.queueSize - 1) (q.queueSize - 1) 0
    q.listData (by omega) (by omega)
  refine ⟨q.listData[0], { listData := r, queueSize := q.queueSize - 1 }, ?_, ⟨?_, ?_⟩, ?_⟩
  · have he : q.isEmpty = false := by simp [SimpleQueue.State.isEmpty, hne]
    simp only [SimpleQueue.State.dequeue, he, Bool.not_false, if_true, hget, hr]
  · show q.queueSize - 1 ≤ r.length
    omega
  · show 4 ≤ r.length
    omega
  · have hitems : q.items = q.listData[0] :: (q.listData.drop 1).take (q.queueSize - 1) := by
      unfold SimpleQueue.State.items
      obtain ⟨n, hn⟩ : ∃ n, q.queueSize = n + 1 := ⟨q.queueSize - 1, by omega⟩
      rw [hn]
      exact take_succ_cons_drop q.listData n h0
    rw [hitems]
    simp only [SimpleQueue.dequeue, Prod.mk.injEq, true_and]
    show _ = r.take (q.queueSize - 1)
    apply List.ext_getElem?
    intro j
    rw [List.getElem?_take, List.getElem?_take, List.getElem?_drop, hrj j]
    by_cases hj : j < q.queueSize - 1
    · simp [hj, Nat.add_comm]
    · simp [hj]

/-- Method `dequeue` on an empty queue changes nothing and yields false. -/
theorem SimpleQueue.State.dequeue_empty {α : Type} (q : SimpleQueue.State α) (d : α)
    (h : q.queueSize = 0) : q.dequeue d = some (false, d, q) := by
  simp [SimpleQueue.State.dequeue, SimpleQueue.State.isEmpty, h]

theorem SimpleQueue.State.enqueueAll_items {α : Type} [Inhabited α] :
    ∀ (xs : List α) (q : SimpleQueue.State α), q.Valid →
      ∃ q1, q.enqueueAll xs = some q1 ∧ q1.Valid ∧ q1.items = q.items ++ xs := by
  intro xs
  induction xs with
  | nil => intro q h; exact ⟨q, rfl, h, by simp⟩
  | cons x rest ih =>
    intro q h
    obtain ⟨q1, he, hv, hi⟩ := q.enqueue_items x h
    obtain ⟨q2, he2, hv2, hi2⟩ := ih q1 hv
    refine ⟨q2, by simp only [SimpleQueue.State.enqueueAll, he, he2], hv2, ?_⟩
    rw [hi2, hi]
    simp [SimpleQueue.enqueue]

theorem SimpleQueue.State.items_length {α : Type} (q : SimpleQueue.State α) (h : q.Valid) :
    q.items.length = q.queueSize := by
  simp [SimpleQueue.State.items, Nat.min_eq_left h.1]

theorem SimpleQueue.State.dequeueAll_items {α : Type} :
    ∀ (xs : List α) (q : SimpleQueue.State α) (d : α), q.Valid → q.items = xs →
      ∃ dlast q1, SimpleQueue.State.dequeueAll xs.length q d
          = some (xs.map (fun x => (true, x)), dlast, q1) ∧
        q1.Valid ∧ q1.queueSize = 0 ∧ dlast = (xs.getLast?).getD d := by
  intro xs
  induction xs with
  | nil =>
    intro q d hv hi
    have hz : q.queueSize = 0 := by
      rw [← q.items_length hv, hi]; rfl
    exact ⟨d, q, rfl, hv, hz, rfl⟩
  | cons x rest ih =>
    intro q d hv hi
    have hne : q.queueSize ≠ 0 := by
      rw [← q.items_length hv, hi]; simp
    obtain ⟨y, q1, hd, hv1, hspec⟩ := q.dequeue_items d hv hne
    rw [hi] at hspec
    simp only [SimpleQueue.dequeue, Prod.mk.injEq, true_and] at hspec
    obtain ⟨hxy, hrest⟩ := hspec
    subst hxy
    obtain ⟨dlast, q2, hall, hv2, hz, hlast⟩ := ih q1 x hv1 hrest.symm
    refine ⟨dlast, q2, ?_, hv2, hz, ?_⟩
    · simp only [List.length_cons, SimpleQueue.State.dequeueAll, hd, hall, List.map_cons]
    · rw [hlast]
      cases rest with
      | nil => simp
      | cons a t =>
        rw [List.getLast?_cons_cons, List.getLast?_eq_getLast (a :: t) (List.cons_ne_nil a t)]
        rfl

/-! ### The parsing of a token -/

theorem charAt_append_left (a b : List Char) (i : Nat) (h : i < a.length) :
    charAt (a ++ b) i = a[i]? := by
  have h2 : i < (a ++ b).length := by rw [List.length_append]; omega
  simp only [charAt, h2, if_true]
  exact List.getElem?_append_left h

theorem charAt_append_right (a b : List Char) (j : Nat) :
    charAt (a ++ b) (a.length + j) = charAt b j := by
  simp only [charAt, List.length_append, Nat.add_lt_add_iff_left, Nat.add_left_cancel_iff]
  split_ifs
  · rw [List.getElem?_append_right (by omega)]
    congr 1
    omega
  · rfl
  · rfl

theorem charAt_zero_cons (c : Char) (rest : List Char) : charAt (c :: rest) 0 = some c := by
  simp [charAt]

theorem skipTo_append (pre post : List Char) (stop : Char) (hpre : ∀ c ∈ pre, c ≠ stop) :
    ∀ (fuel index : Nat), index ≤ pre.length → pre.length - index < fuel →
      skipTo (pre ++ stop :: post) stop fuel index = some pre.length := by
  intro fuel
  induction fuel with
  | zero => intro index _ h; omega
  | succ fuel ih =>
    intro index hle hfuel
    rw [skipTo]
    by_cases hlt : index < pre.length
    · rw [charAt_append_left _ _ _ hlt, List.getElem?_eq_getElem hlt]
      have hne : pre[index] ≠ stop := hpre _ (List.getElem_mem hlt)
      simp only [hne, ne_eq, not_false_eq_true, if_true]
      exact ih (index + 1) (by omega) (by omega)
    · have heq : index = pre.length := by omega
      subst heq
      have := charAt_append_right pre (stop :: post) 0
      rw [Nat.add_zero] at this
      rw [this, charAt_zero_cons]
      simp

theorem collectTo_append (pre mid rest : List Char) (stop : Char)
    (hmid : ∀ c ∈ mid, c ≠ stop) (hstop : charAt rest 0 = some stop) :
    ∀ (fuel k : Nat), k ≤ mid.length → mid.length - k < fuel →
      collectTo (pre ++ (mid ++ rest)) stop fuel (pre.length + k) (mid.take k) = some mid := by
  intro fuel
  induction fuel with
  | zero => intro k _ h; omega
  | succ fuel ih =>
    intro k hle hfuel
    rw [collectTo, charAt_append_right]
    by_cases hlt : k < mid.length
    · rw [charAt_append_left _ _ _ hlt, List.getElem?_eq_getElem hlt]
      have hne : mid[k] ≠ stop := hmid _ (List.getElem_mem hlt)
      simp only [hne, ne_eq, not_false_eq_true, if_true]
      have htake : mid.take k ++ [mid[k]] = mid.take (k + 1) := by
        rw [List.take_succ, List.getElem?_eq_getElem hlt]
        rfl
      rw [htake]
      exact ih (k + 1) (by omega) (by omega)
    · have heq : k = mid.length := by omega
      subst heq
      have := charAt_append_right mid rest 0
      rw [Nat.add_zero] at this
      rw [this, hstop]
      simp

theorem digitsValue_append (digits : List Char) (c : Char) :
    digitsValue (digits ++ [c]) = digitsValue digits * 10 + ((c.toNat : Int) - 48) := by
  simp [digitsValue, List.foldl_append]

theorem isDigit_bounds (c : Char) (h : c.isDigit = true) : 48 ≤ c.toNat ∧ c.toNat ≤ 57 := by
  simp only [Char.isDigit, Bool.and_eq_true, decide_eq_true_eq] at h
  exact ⟨h.1, h.2⟩

theorem digitsValue_foldl_nonneg (digits : List Char) (h : ∀ c ∈ digits, c.isDigit = true) :
    ∀ value : Int, 0 ≤ value →
      0 ≤ digits.foldl (fun value c => value * 10 + ((c.toNat : Int) - 48)) value := by
  induction digits with
  | nil => intro value hv; exact hv
  | cons c rest ih =>
    intro value hv
    have hc := isDigit_bounds c (h c (by simp))
    simp only [List.foldl_cons]
    apply ih (fun x hx => h x (by simp [hx]))
    omega

/-- Function `atoi` on a string of decimal digits whose value fits an `int`. -/
theorem atoi_digits (digits : List Char) (h : ∀ c ∈ digits, c.isDigit = true)
    (hrange : digitsValue digits < 2147483648) : atoi digits = some (digitsValue digits) := by
  have hnn : 0 ≤ digitsValue digits := digitsValue_foldl_nonneg digits h 0 (Int.le_refl 0)
  have htake : digits.takeWhile (fun c => c.isDigit) = digits :=
    List.takeWhile_eq_self_iff.mpr h
  cases digits with
  | nil => simp [atoi, digitsValue]
  | cons c rest =>
    have hc := isDigit_bounds c (h c (by simp))
    have hsp : c ≠ ' ' := by
      intro hx; rw [hx] at hc; simp at hc
    have hws : ¬ (9 ≤ c.toNat ∧ c.toNat ≤ 13) := by omega
    have hminus : c ≠ '-' := by
      intro hx; rw [hx] at hc; simp at hc
    have hplus : c ≠ '+' := by
      intro hx; rw [hx] at hc; simp at hc
    have hdrop : (c :: rest).dropWhile (fun c => decide (c = ' ' ∨ (9 ≤ c.toNat ∧ c.toNat ≤ 13)))
        = c :: rest := by
      rw [List.dropWhile_cons_of_neg]
      simp [hsp, hws]
    simp only [atoi, hdrop, List.head?_cons, Option.some.injEq, hminus, hplus, or_self,
      if_false, htake, decide_False, Bool.false_eq_true]
    rw [if_pos ⟨by omega, hrange⟩]

/-- The opcode `readInput` builds from a token `<code>(<descriptor>)<cycles>`
whose code is a character above the space that is no parenthesis. -/
theorem tokenOpcode_tokenChars (code : Char) (descriptor digits : List Char)
    (hsp : ' ' < code) (hopen : code ≠ '(') (hclose : code ≠ ')')
    (hdesc : ∀ c ∈ descriptor, c ≠ '(' ∧ c ≠ ')')
    (hdigits : ∀ c ∈ digits, c.isDigit = true)
    (hrange : digitsValue digits < 2147483648) :
    isToken (tokenChars code descriptor digits) = true ∧
    parseData (tokenChars code descriptor digits) = some descriptor ∧
    parseCycles (tokenChars code descriptor digits) = some (digitsValue digits) ∧
    tokenOpcode (tokenChars code descriptor digits) = some
      { code := code, descriptor := String.mk descriptor, cycles := digitsValue digits,
        started := false } := by
  have hns : code ≠ ' ' := fun hx => by rw [hx] at hsp; exact absurd hsp (by decide)
  refine ⟨by simp [isToken, tokenChars, hsp], ?_⟩
  suffices hall : parseData (tokenChars code descriptor digits) = some descriptor ∧
      parseCycles (tokenChars code descriptor digits) = some (digitsValue digits) ∧
      charAt (tokenChars code descriptor digits) 0 = some code by
    have hhead : (tokenChars code descriptor digits).head? ≠ some ' ' := by
      simp [tokenChars, hns]
    refine ⟨hall.1, hall.2.1, ?_⟩
    simp only [tokenOpcode, hhead, if_false, hall.1, hall.2.1, hall.2.2]
  have hhead : (tokenChars code descriptor digits).head? ≠ some ' ' := by
    simp [tokenChars, hns]
  have hne : tokenChars code descriptor digits ≠ [] := by simp [tokenChars]
  have hlen : (tokenChars code descriptor digits).length
      = descriptor.length + digits.length + 3 := by
    simp [tokenChars]; omega
  -- the descriptor
  have hshape1 : tokenChars code descriptor digits
      = [code] ++ '(' :: (descriptor ++ ')' :: digits) := by simp [tokenChars]
  have hskip1 : skipTo (tokenChars code descriptor digits) '('
      ((tokenChars code descriptor digits).length + 2) 0 = some 1 := by
    have := skipTo_append [code] (descriptor ++ ')' :: digits) '('
      (by simpa using hopen) ((tokenChars code descriptor digits).length + 2) 0
      (by simp) (by simp)
    rw [← hshape1] at this
    simpa using this
  have hshape2 : tokenChars code descriptor digits
      = [code, '('] ++ (descriptor ++ ')' :: digits) := by simp [tokenChars]
  have hcollect1 : collectTo (tokenChars code descriptor digits) ')'
      ((tokenChars code descriptor digits).length + 2) (1 + 1) [] = some descriptor := by
    have := collectTo_append [code, '('] descriptor (')' :: digits) ')'
      (fun c hc => (hdesc c hc).2) (charAt_zero_cons _ _)
      ((tokenChars code descriptor digits).length + 2) 0 (by simp) (by rw [hlen]; omega)
    rw [← hshape2] at this
    simpa using this
  have hdata : parseData (tokenChars code descriptor digits) = some descriptor := by
    simp only [parseData, hne, ne_eq, not_false_eq_true, if_true, hskip1, hcollect1]
  -- the cycles
  have hshape3 : tokenChars code descriptor digits
      = (code :: '(' :: descriptor) ++ ')' :: digits := by simp [tokenChars]
  have hskip2 : skipTo (tokenChars code descriptor digits) ')'
      ((tokenChars code descriptor digits).length + 2) 0 = some (descriptor.length + 2) := by
    have := skipTo_append (code :: '(' :: descriptor) digits ')'
      (by
        intro c hc
        simp only [List.mem_cons] at hc
        rcases hc with h | h | h
        · rw [h]; exact hclose
        · rw [h]; decide
        · exact (hdesc c h).2)
      ((tokenChars code descriptor digits).length + 2) 0 (by simp)
      (by rw [hlen]; simp; omega)
    rw [← hshape3] at this
    simpa using this
  have hshape4 : tokenChars code descriptor digits
      = (code :: '(' :: descriptor ++ [')']) ++ (digits ++ []) := by simp [tokenChars]
  have hcollect2 : collectTo (tokenChars code descriptor digits) (Char.ofNat 0)
      ((tokenChars code descriptor digits).length + 2) (descriptor.length + 2 + 1) []
      = some digits := by
    have := collectTo_append (code :: '(' :: descriptor ++ [')']) digits [] (Char.ofNat 0)
      (by
        intro c hc hx
        have := isDigit_bounds c (hdigits c hc)
        rw [hx] at this
        simp at this)
      (by simp [charAt])
      ((tokenChars code descriptor digits).length + 2) 0 (by simp) (by rw [hlen]; omega)
    rw [← hshape4] at this
    simpa using this
  have hcycles : parseCycles (tokenChars code descriptor digits) = some (digitsValue digits) := by
    simp only [parseCycles, hne, ne_eq, not_false_eq_true, if_true, hskip2, hcollect2]
    exact atoi_digits digits hdigits hrange
  have hcode : charAt (tokenChars code descriptor digits) 0 = some code := by
    simp [tokenChars, charAt]
  exact ⟨hdata, hcycles, hcode⟩

theorem tokenOpcode_leading_space (buffer : List Char) (h : buffer.head? ≠ some ' ') :
    tokenOpcode (' ' :: buffer) = tokenOpcode buffer := by
  simp [tokenOpcode, h]

theorem range_map_mod_self (P b : Nat) (hb : b ≤ P) :
    (List.range b).map (fun m => m % P) = List.range b := by
  conv_rhs => rw [← List.map_id (List.range b)]
  apply List.map_congr_left
  intro m hm
  have : m < b := List.mem_range.mp hm
  simp only [id]
  exact Nat.mod_eq_of_lt (by omega)

theorem range_map_mod (P b : Nat) (hb : b ≤ P) : ∀ a : Nat,
    (List.range (a * P + b)).map (fun m => m % P)
      = (List.replicate a (List.range P)).flatten ++ List.range b := by
  intro a
  induction a with
  | zero => simp [range_map_mod_self P b hb]
  | succ a ih =>
    have h1 : (a + 1) * P + b = P + (a * P + b) := by ring
    rw [h1, List.range_add, List.map_append, List.map_map, range_map_mod_self P P (Nat.le_refl _),
      List.replicate_succ, List.flatten_cons, List.append_assoc, ← ih]
    congr 1
    apply List.map_congr_left
    intro m _
    simp

/-- The order of the round robin decisions: decision `m` is for index `m mod P`. -/
theorem roundRobinOrder_eq (P a b : Nat) (hb : b ≤ P) :
    roundRobinOrder P a b
      = (List.range (a * P + b)).map (fun m => ((m % P : Nat) : Int)) := by
  unfold roundRobinOrder
  rw [← range_map_mod P b hb a, List.map_map]
  rfl

/-- The round robin scenario after `n ≤ k·P` passes. -/
theorem mainTurns_roundRobin_prefix (config : ConfigType) (k P n fuel : Nat)
    (hrr : config.schedulingAlg = RR) (hq1 : 1 ≤ config.quantum)
    (hP : 1 ≤ P) (hk : 1 ≤ k) (hn : n ≤ k * P) (hfuel : 5 ≤ fuel) :
    ∃ st1,
      mainTurns config fuel n
        (MainState.init (readInput (roundRobinWorkload P (k * config.quantum)))) = some st1 ∧
      st1.schedule = (List.range n).map (fun m => ((m % P : Nat) : Int)) ∧
      st1.sh.cyclesDone = n * config.quantum.toNat := by
  by_cases hfull : n = k * P
  · obtain ⟨st1, h1, h2, h3⟩ := mainTurns_roundRobin config k P (k - 1) P fuel hrr hq1 hP
      (by omega) (Nat.le_refl _) hfuel
    have hn2 : (k - 1) * P + P = n := by
      rw [hfull]
      obtain ⟨j, rfl⟩ : ∃ j, k = j + 1 := ⟨k - 1, by omega⟩
      simp only [Nat.add_sub_cancel]
      ring
    rw [roundRobinOrder_eq P (k - 1) P (Nat.le_refl _)] at h2
    rw [hn2] at h1 h2 h3
    exact ⟨st1, h1, h2, h3⟩
  · have hlt : n < k * P := by omega
    have hb : n % P < P := Nat.mod_lt _ (by omega)
    have ha : n / P < k := Nat.div_lt_of_lt_mul (by rw [Nat.mul_comm]; exact hlt)
    obtain ⟨st1, h1, h2, h3⟩ := mainTurns_roundRobin config k P (n / P) (n % P) fuel hrr hq1 hP
      ha (by omega) hfuel
    have hn2 : n / P * P + n % P = n := by
      rw [Nat.mul_comm]; exact Nat.div_add_mod n P
    rw [roundRobinOrder_eq P (n / P) (n % P) (by omega)] at h2
    rw [hn2] at h1 h2 h3
    exact ⟨st1, h1, h2, h3⟩

/-! ### The lines of one turn are about its process -/

theorem LinesOf.rfl_lines (n : Int) (out : List LogLine) : LinesOf n out out :=
  ⟨[], by simp, by simp⟩

theorem LinesOf.trans_lines {n : Int} {a b c : List LogLine} (h1 : LinesOf n a b)
    (h2 : LinesOf n b c) : LinesOf n a c := by
  obtain ⟨x, rfl, hx⟩ := h1
  obtain ⟨y, rfl, hy⟩ := h2
  refine ⟨x ++ y, by simp, ?_⟩
  intro l hl
  rcases List.mem_append.mp hl with h | h
  · exact hx l h
  · exact hy l h

theorem processorStep_lines (cfg : ConfigType) (st : RunState) :
    LinesOf st.running.control.processNum st.sh.output (processorStep cfg st).sh.output := by
  simp only [processorStep, LinesOf]
  split_ifs
  all_goals first
    | exact ⟨[], (List.append_nil _).symm, by simp⟩
    | exact ⟨_, rfl, by simp [isRunnerLine, lineProcess]⟩
    | exact ⟨_, List.append_assoc _ _ _, by simp [isRunnerLine, lineProcess]⟩

theorem allocateStep_lines (cfg : ConfigType) (st : RunState) :
    LinesOf st.running.control.processNum st.sh.output (allocateStep cfg st).sh.output := by
  simp only [allocateStep, LinesOf]
  split_ifs
  all_goals first
    | exact ⟨[], (List.append_nil _).symm, by simp⟩
    | exact ⟨_, rfl, by simp [isRunnerLine, lineProcess]⟩
    | exact ⟨_, List.append_assoc _ _ _, by simp [isRunnerLine, lineProcess]⟩

theorem cacheStep_lines (cfg : ConfigType) (st : RunState) :
    LinesOf st.running.control.processNum st.sh.output (cacheStep cfg st).sh.output := by
  simp only [cacheStep, LinesOf]
  split_ifs
  all_goals first
    | exact ⟨[], (List.append_nil _).symm, by simp⟩
    | exact ⟨_, rfl, by simp [isRunnerLine, lineProcess]⟩
    | exact ⟨_, List.append_assoc _ _ _, by simp [isRunnerLine, lineProcess]⟩

theorem runBody_lines (cfg : ConfigType) (st st1 : RunState)
    (h : runBody cfg st = some st1) :
    LinesOf st.running.control.processNum st.sh.output st1.sh.output := by
  simp only [runBody] at h
  split_ifs at h with hP hM ha hc hc hIO
  · cases h; exact processorStep_lines cfg st
  · cases h
    have h1 := allocateStep_lines cfg st
    have h2 := cacheStep_lines cfg (allocateStep cfg st)
    exact h1.trans_lines h2
  · cases h; exact allocateStep_lines cfg st
  · cases h; exact cacheStep_lines cfg st
  · cases h; exact LinesOf.rfl_lines _ _
  · simp only [ioStep] at h
    split_ifs at h
    · cases h; exact LinesOf.rfl_lines _ _
    · cases h
  · cases h; exact LinesOf.rfl_lines _ _

theorem run_lines (cfg : ConfigType) (running running1 : Process) (sh sh1 : Shared)
    (cycle cycle1 : Int) (h : run running sh cfg cycle = some (running1, sh1, cycle1)) :
    LinesOf running.control.processNum sh.output sh1.output := by
  simp only [run] at h
  split at h
  · cases h
  · rename_i st hloop
    cases h
    have := runLoop_invariant cfg
      (fun s => s.running.control.processNum = running.control.processNum ∧
        LinesOf running.control.processNum sh.output s.sh.output)
      (fun s s1 hs _ hb => by
        have hctl := (runBody_frame cfg s s1 hb).1
        have hl := runBody_lines cfg s s1 hb
        rw [hs.1] at hl
        exact ⟨by rw [hctl]; exact hs.1, hs.2.trans_lines hl⟩)
      _ _ st hloop ⟨runLifecycle_processNum _ _, LinesOf.rfl_lines _ _⟩
    exact this.2

/-- The lines a call of `runProcess` appends are lines of `run` about its process. -/
theorem runProcess_lines (cfg : ConfigType) (fuel : Nat) (running running1 : Process)
    (sh sh1 : Shared) (h : runProcess fuel running sh cfg = some (running1, sh1)) :
    LinesOf running.control.processNum sh.output sh1.output := by
  simp only [runProcess] at h
  split at h
  · cases h
  · rename_i st hloop
    cases h
    have := runProcessLoop_invariant cfg
      (fun p s => p.control.processNum = running.control.processNum ∧
        LinesOf running.control.processNum sh.output s.output)
      (fun s hs => by
        obtain ⟨f1, f2, _⟩ := fetch_frame s
        rw [f1, f2]; exact hs)
      (fun p s c p1 s1 c1 _ hs hr => by
        have hfr := run_frame cfg p p1 s s1 c c1 hr
        have hl := run_lines cfg p p1 s s1 c c1 hr
        rw [hs.1] at hl
        exact ⟨by rw [hfr.1, runLifecycle_processNum]; exact hs.1, hs.2.trans_lines hl⟩)
      fuel _ st hloop ⟨rfl, LinesOf.rfl_lines _ _⟩
    exact this.2

/-! ### Without I/O no thread is counted -/

theorem runBody_noIO (cfg : ConfigType) (st st1 : RunState)
    (hI : st.running.current.code ≠ 'I') (hO : st.running.current.code ≠ 'O')
    (h : runBody cfg st = some st1) :
    st1.sh.threadCount = st.sh.threadCount ∧
    st1.running.runningThreads = st.running.runningThreads ∧
    st1.running.completed = st.running.completed ∧
    st1.running.current.code = st.running.current.code ∧
    st1.running.metaData = st.running.metaData := by
  simp only [runBody] at h
  split_ifs at h with hP hM ha hc hc hIO
  · cases h; exact ⟨rfl, rfl, rfl, rfl, rfl⟩
  · cases h; exact ⟨rfl, rfl, rfl, rfl, rfl⟩
  · cases h; exact ⟨rfl, rfl, rfl, rfl, rfl⟩
  · cases h; exact ⟨rfl, rfl, rfl, rfl, rfl⟩
  · cases h; exact ⟨rfl, rfl, rfl, rfl, rfl⟩
  · rcases hIO with h1 | h1
    · exact absurd h1 hI
    · exact absurd h1 hO
  · cases h; exact ⟨rfl, rfl, rfl, rfl, rfl⟩

theorem run_noIO (cfg : ConfigType) (running running1 : Process) (sh sh1 : Shared)
    (cycle cycle1 : Int) (hn : NoIO running)
    (h : run running sh cfg cycle = some (running1, sh1, cycle1)) :
    NoIO running1 ∧ sh1.threadCount = sh.threadCount ∧
    running1.runningThreads = running.runningThreads ∧
    running1.completed = running.completed := by
  simp only [run] at h
  split at h
  · cases h
  · rename_i st hloop
    cases h
    have := runLoop_invariant cfg
      (fun s => s.sh.threadCount = sh.threadCount ∧
        s.running.runningThreads = running.runningThreads ∧
        s.running.completed = running.completed ∧
        s.running.current.code = running.current.code ∧
        s.running.metaData = running.metaData)
      (fun s s1 hs _ hb => by
        obtain ⟨b1, b2, b3, b4, b5⟩ := runBody_noIO cfg s s1
          (by rw [hs.2.2.2.1]; exact hn.1.1) (by rw [hs.2.2.2.1]; exact hn.1.2) hb
        exact ⟨b1.trans hs.1, b2.trans hs.2.1, b3.trans hs.2.2.1, b4.trans hs.2.2.2.1,
          b5.trans hs.2.2.2.2⟩)
      _ _ st hloop ⟨rfl, rfl, rfl, rfl, rfl⟩
    obtain ⟨a1, a2, a3, a4, a5⟩ := this
    exact ⟨⟨by rw [a4]; exact hn.1, by rw [a5]; exact hn.2⟩, a1, a2, a3⟩

theorem fetch_queue (st : RunProcessState) :
    (∀ m ∈ (fetch st).running.metaData, m ∈ st.running.metaData) ∧
    ((fetch st).running.current.code = st.running.current.code ∨
      ∃ x ∈ st.running.metaData, (fetch st).running.current.code = x.code) ∧
    (fetch st).running.runningThreads = st.running.runningThreads ∧
    (fetch st).running.completed = st.running.completed := by
  by_cases hc : st.running.current.cycles ≤ 0 ∨ st.running.current.code = 'I'
      ∨ st.running.current.code = 'O'
  · cases hq : st.running.metaData with
    | nil =>
      by_cases hrun : st.running.current.descriptor = "run" <;>
        simp [fetch, hc, hq, SimpleQueue.dequeue, hrun]
    | cons x rest =>
      by_cases hrun : x.descriptor = "run" <;>
        simp [fetch, hc, hq, SimpleQueue.dequeue, hrun] <;> tauto
  · have hf : fetch st = st := by simp [fetch, hc]
    rw [hf]
    exact ⟨fun m hm => hm, Or.inl rfl, rfl, rfl⟩

theorem fetch_noIO (st : RunProcessState) (hn : NoIO st.running) :
    NoIO (fetch st).running ∧ (fetch st).running.runningThreads = st.running.runningThreads ∧
    (fetch st).running.completed = st.running.completed := by
  obtain ⟨h1, h2, h3, h4⟩ := fetch_queue st
  refine ⟨⟨?_, fun m hm => hn.2 m (h1 m hm)⟩, h3, h4⟩
  rcases h2 with h | ⟨x, hx, h⟩
  · rw [h]; exact hn.1
  · rw [h]; exact hn.2 x hx

/-- A call of `runProcess` on a process without I/O counts no thread and leaves
`completed` as it is. -/
theorem runProcess_noIO (cfg : ConfigType) (fuel : Nat) (running running1 : Process)
    (sh sh1 : Shared) (hn : NoIO running)
    (h : runProcess fuel running sh cfg = some (running1, sh1)) :
    NoIO running1 ∧ sh1.threadCount = sh.threadCount ∧
    running1.runningThreads = running.runningThreads ∧
    running1.completed = running.completed := by
  simp only [runProcess] at h
  split at h
  · cases h
  · rename_i st hloop
    cases h
    exact runProcessLoop_invariant cfg
      (fun p s => NoIO p ∧ s.threadCount = sh.threadCount ∧
        p.runningThreads = running.runningThreads ∧ p.completed = running.completed)
      (fun s hs => by
        obtain ⟨f1, f2, f3⟩ := fetch_noIO s hs.1
        rw [(fetch_frame s).2.1]
        exact ⟨f1, hs.2.1, f2.trans hs.2.2.1, f3.trans hs.2.2.2⟩)
      (fun p s c p1 s1 c1 _ hs hr => by
        obtain ⟨r1, r2, r3, r4⟩ := run_noIO cfg p p1 s s1 c c1 hs.1 hr
        exact ⟨r1, r2.trans hs.2.1, r3.trans hs.2.2.1, r4.trans hs.2.2.2⟩)
      fuel _ st hloop ⟨hn, rfl, rfl, rfl⟩

/-! ### The scan for finished processes after a turn -/

theorem markCompleted_of_not (p : Process)
    (h : ¬ (p.control.state = EXIT ∧ p.completed = false ∧ p.runningThreads = 0)) :
    markCompleted p = p := by
  simp [markCompleted, h]

theorem markCompleted_more (p : Process) :
    (markCompleted p).current = p.current ∧
    (markCompleted p).runningThreads = p.runningThreads := by
  unfold markCompleted
  split_ifs <;> exact ⟨rfl, rfl⟩

theorem completionScan_quiet : ∀ (program : List Process) (out : List LogLine),
    (∀ q ∈ program, ¬ (q.control.state = EXIT ∧ q.completed = false ∧ q.runningThreads = 0)) →
    (completionScan program out).2 = out := by
  intro program
  induction program with
  | nil => intro out _; rfl
  | cons x rest ih =>
    intro out h
    simp only [completionScan]
    rw [if_neg (h x (by simp))]
    exact ih out (fun q hq => h q (by simp [hq]))

/-- The scan after a turn of the process at index `k`, when no other process is
to be reported: it appends the `completed` line of that process if it is in
`EXIT`, has not been reported and has no thread. -/
theorem completionScan_set : ∀ (program : List Process) (k : Nat) (p1 : Process)
    (out : List LogLine), k < program.length →
    (∀ (j : Nat) (q : Process), program[j]? = some q → j ≠ k →
      ¬ (q.control.state = EXIT ∧ q.completed = false ∧ q.runningThreads = 0)) →
    (completionScan (program.set k p1) out).2
      = if p1.control.state = EXIT ∧ p1.completed = false ∧ p1.runningThreads = 0 then
          out ++ [LogLine.osCompleted p1.control.processNum]
        else out := by
  intro program
  induction program with
  | nil => intro k p1 out hk; simp at hk
  | cons x rest ih =>
    intro k p1 out hk h
    cases k with
    | zero =>
      have hrest : ∀ q ∈ rest,
          ¬ (q.control.state = EXIT ∧ q.completed = false ∧ q.runningThreads = 0) := by
        intro q hq
        obtain ⟨j, hj⟩ := List.getElem?_of_mem hq
        exact h (j + 1) q (by simpa using hj) (by omega)
      simp only [List.set_cons_zero, completionScan]
      split_ifs with hc
      · exact completionScan_quiet rest _ hrest
      · exact completionScan_quiet rest _ hrest
    | succ k =>
      have hx := h 0 x (by simp) (by omega)
      simp only [List.set_cons_succ, completionScan]
      rw [if_neg hx]
      exact ih k p1 out (by simpa using hk)
        (fun j q hj hjk => h (j + 1) q (by simpa using hj) (by omega))

theorem rrLoop_some (program : List Process) :
    ∀ (fuel : Nat) (index r : Int), rrLoop program fuel index = some r →
      ∃ s, stateAt program r = some s ∧ s ≠ EXIT := by
  intro fuel
  induction fuel with
  | zero =>
    intro index r h
    simp only [rrLoop] at h
    cases hs : stateAt program index with
    | none => simp [hs] at h
    | some s =>
      simp only [hs] at h
      split_ifs at h with he
      cases h
      exact ⟨s, hs, he⟩
  | succ fuel ih =>
    intro index r h
    simp only [rrLoop] at h
    cases hs : stateAt program index with
    | none => simp [hs] at h
    | some s =>
      simp only [hs] at h
      split_ifs at h with he
      · exact ih _ r h
      · cases h
        exact ⟨s, hs, he⟩

/-- Under either policy `getSchedule` returns the index of a process that is
not in `EXIT`. -/
theorem getSchedule_not_exit (fuel : Nat) (program : List Process) (algorithmID prevIndex r : Int)
    (h : getSchedule fuel program algorithmID prevIndex = some r) :
    ∃ (k : Nat) (p : Process), r = (k : Int) ∧ program[k]? = some p ∧
      p.control.state ≠ EXIT := by
  by_cases hrr : algorithmID = RR
  · simp only [getSchedule, hrr, if_true] at h
    split_ifs at h
    obtain ⟨s, hs, hne⟩ := rrLoop_some program fuel _ r h
    obtain ⟨h0, p, hp, hps⟩ := stateAt_some program r s hs
    exact ⟨r.toNat, p, (Int.toNat_of_nonneg h0).symm, hp, by rw [hps]; exact hne⟩
  · rw [getSchedule_of_not_rr fuel program algorithmID prevIndex hrr] at h
    obtain ⟨k, least, hk, p, hp, hs, _⟩ := sjfLoop_some program r h
    exact ⟨k, p, hk, hp, hs⟩

/-- The shape of one pass of the scheduler loop, under either policy. -/
theorem mainBody_shape (config : ConfigType) (fuel : Nat) (st st1 : MainState)
    (hb : mainBody fuel config st = some st1) :
    ∃ (k : Nat) (p p1 : Process) (sh2 : Shared),
      st.program[k]? = some p ∧ p.control.state ≠ EXIT ∧
      runProcess fuel p
        { st.sh with output := st.sh.output ++
            [LogLine.osPreparing p.control.processNum,
             LogLine.osStarting p.control.processNum] } config = some (p1, sh2) ∧
      st1.program = (st.program.set k p1).map markCompleted ∧
      st1.sh = { sh2 with output := (completionScan (st.program.set k p1) sh2.output).2 } ∧
      st1.processIndex = (k : Int) ∧ st1.schedule = st.schedule ++ [(k : Int)] := by
  simp only [mainBody] at hb
  cases hg : getSchedule fuel st.program config.schedulingAlg st.processIndex with
  | none => simp [hg] at hb
  | some r =>
    obtain ⟨k, p, hr, hp, hs⟩ := getSchedule_not_exit fuel _ _ _ r hg
    subst hr
    simp only [hg, Int.toNat_ofNat] at hb
    have h0 : (0 : Int) ≤ (k : Int) := by omega
    simp only [h0, if_true, hp] at hb
    split at hb
    · cases hb
    · rename_i p1 sh2 hrun
      cases hb
      exact ⟨k, p, p1, sh2, hp, hs, hrun, completionScan_markCompleted _ _, rfl, rfl, rfl⟩

/-- The log of one pass of the scheduler loop on a table without I/O: the lines
appended are about the selected process, and the `completed` line of that
process is the last of them when the process has reached `EXIT` and is not
among them otherwise. -/
theorem mainBody_log (config : ConfigType) (fuel : Nat) (st st1 : MainState)
    (hI : CompletedInv st) (hb : mainBody fuel config st = some st1) :
    ∃ (k : Nat) (p p1 : Process) (tail : List LogLine),
      st.program[k]? = some p ∧ p.control.state ≠ EXIT ∧
      st1.program = (st.program.set k p1).map markCompleted ∧
      NoIO p1 ∧ p1.control.processNum = (k : Int) + 1 ∧ p1.runningThreads = 0 ∧
      p1.completed = false ∧ st1.sh.threadCount = 0 ∧
      st1.sh.output = st.sh.output ++ tail ∧
      (∀ l ∈ tail, lineProcess l = some ((k : Int) + 1)) ∧
      (p1.control.state ≠ EXIT → LogLine.osCompleted ((k : Int) + 1) ∉ tail) ∧
      (p1.control.state = EXIT → ∃ front, tail = front ++ [LogLine.osCompleted ((k : Int) + 1)] ∧
        LogLine.osCompleted ((k : Int) + 1) ∉ front) := by
  obtain ⟨k, p, p1, sh2, hp, hs, hrun, hprog, hsh, _, _⟩ := mainBody_shape config fuel st st1 hb
  obtain ⟨hthr, hall⟩ := hI
  obtain ⟨hnoio, hnum, hrt, hne, _⟩ := hall k p hp
  obtain ⟨hcomp, _⟩ := hne hs
  obtain ⟨hnoio1, hthr2, hrt1, hcomp1⟩ := runProcess_noIO config fuel p p1 _ sh2 hnoio hrun
  have hnum1 := (runProcess_frame config fuel p p1 _ sh2 hrun).1
  obtain ⟨added, hout, hadded⟩ := runProcess_lines config fuel p p1 _ sh2 hrun
  rw [hnum] at hout hadded
  have hp1num : p1.control.processNum = (k : Int) + 1 := hnum1.trans hnum
  have hklt : k < st.program.length := by
    by_contra hge
    have : st.program[k]? = none := List.getElem?_eq_none (by omega)
    rw [this] at hp; cases hp
  have hothers : ∀ (j : Nat) (q : Process), st.program[j]? = some q → j ≠ k →
      ¬ (q.control.state = EXIT ∧ q.completed = false ∧ q.runningThreads = 0) := by
    rintro j q hj _ ⟨he, hc, _⟩
    have := ((hall j q hj).2.2.2.2 he).1
    rw [this] at hc; cases hc
  have hscan := completionScan_set st.program k p1 sh2.output hklt hothers
  have hrt2 : p1.runningThreads = 0 := hrt1.trans hrt
  have hcomp2 : p1.completed = false := hcomp1.trans hcomp
  have hnotrunner : ∀ l ∈ added, l ≠ LogLine.osCompleted ((k : Int) + 1) := by
    intro l hl hx
    have := (hadded l hl).1
    rw [hx] at this
    simp [isRunnerLine] at this
  have hlog : st1.sh.output = st.sh.output ++
      ([LogLine.osPreparing ((k : Int) + 1), LogLine.osStarting ((k : Int) + 1)] ++ added ++
        if p1.control.state = EXIT then [LogLine.osCompleted ((k : Int) + 1)] else []) := by
    rw [hsh]
    show (completionScan (st.program.set k p1) sh2.output).2 = _
    rw [hscan, hout, hp1num]
    by_cases he : p1.control.state = EXIT
    · simp [he, hcomp2, hrt2]
    · simp [he]
  refine ⟨k, p, p1, _, hp, hs, hprog, hnoio1, hp1num, hrt2, hcomp2, ?_, hlog, ?_, ?_, ?_⟩
  · rw [hsh]
    show sh2.threadCount = 0
    rw [hthr2]
    exact hthr
  · intro l hl
    simp only [List.mem_append, List.mem_cons, List.mem_singleton, List.not_mem_nil,
      or_false] at hl
    rcases hl with ((h | h) | h) | h
    · rw [h]; rfl
    · rw [h]; rfl
    · exact (hadded l h).2
    · split_ifs at h
      · simp only [List.mem_singleton] at h
        rw [h]; rfl
      · simp at h
  · intro he hmem
    rw [if_neg he, List.append_nil] at hmem
    simp only [List.mem_append, List.mem_cons, List.mem_singleton, List.not_mem_nil,
      or_false] at hmem
    rcases hmem with (h | h) | h
    · cases h
    · cases h
    · exact hnotrunner _ h rfl
  · intro he
    refine ⟨[LogLine.osPreparing ((k : Int) + 1), LogLine.osStarting ((k : Int) + 1)] ++ added,
      by rw [if_pos he], ?_⟩
    intro hmem
    simp only [List.mem_append, List.mem_cons, List.mem_singleton, List.not_mem_nil,
      or_false] at hmem
    rcases hmem with (h | h) | h
    · cases h
    · cases h
    · exact hnotrunner _ h rfl

theorem lineProcess_ne_of_index (i k : Nat) (hik : i ≠ k) (l : LogLine)
    (h : lineProcess l = some ((k : Int) + 1)) : lineProcess l ≠ some ((i : Int) + 1) := by
  rw [h]
  intro hx
  have := Option.some.inj hx
  omega

/-- One pass of the scheduler loop keeps the invariant of the `completed` lines. -/
theorem mainBody_completedInv (config : ConfigType) (fuel : Nat) (st st1 : MainState)
    (hI : CompletedInv st) (hb : mainBody fuel config st = some st1) : CompletedInv st1 := by
  obtain ⟨k, p, p1, tail, hp, hs, hprog, hnoio1, hnum1, hrt1, hcomp1, hthr1, hlog, htail,
    hnot, hlast⟩ := mainBody_log config fuel st st1 hI hb
  obtain ⟨_, hall⟩ := hI
  refine ⟨hthr1, ?_⟩
  intro j q hj
  rw [hprog] at hj
  rcases getElem?_set_map_markCompleted st.program k j p1 q hj with ⟨hjk, hq⟩ | ⟨hjk, r, hr, hq⟩
  · -- the process of the turn
    subst hjk
    obtain ⟨m1, _, m3, _⟩ := markCompleted_fields p1
    obtain ⟨m5, m6⟩ := markCompleted_more p1
    have hcount0 : st.sh.output.count (LogLine.osCompleted ((j : Int) + 1)) = 0 :=
      ((hall j p hp).2.2.2.1 hs).2
    refine ⟨?_, ?_, ?_, ?_, ?_⟩
    · rw [hq]
      exact ⟨by rw [m5]; exact hnoio1.1, by rw [m3]; exact hnoio1.2⟩
    · rw [hq, m1]; exact hnum1
    · rw [hq, m6]; exact hrt1
    · intro hne
      rw [hq, m1] at hne
      have hsame : markCompleted p1 = p1 := markCompleted_of_not p1 (fun hx => hne hx.1)
      refine ⟨by rw [hq, hsame]; exact hcomp1, ?_⟩
      rw [hlog, List.count_append, hcount0, Nat.zero_add]
      exact List.count_eq_zero_of_not_mem (hnot hne)
    · intro he
      rw [hq, m1] at he
      refine ⟨?_, ?_⟩
      · rw [hq]
        simp [markCompleted, he, hcomp1, hrt1]
      · obtain ⟨front, hfront, hnf⟩ := hlast he
        refine ⟨st.sh.output ++ front, [], ?_, ?_, by simp⟩
        · rw [hlog, hfront]; simp
        · intro hmem
          rcases List.mem_append.mp hmem with h | h
          · exact absurd (List.count_pos_iff.mpr h) (by omega)
          · exact hnf h
  · -- another process
    obtain ⟨hn, hnum, hrt, hne, hex⟩ := hall j r hr
    have hsame : markCompleted r = r := by
      apply markCompleted_of_not
      rintro ⟨he, hc, _⟩
      rw [(hex he).1] at hc; cases hc
    rw [hq, hsame]
    refine ⟨hn, hnum, hrt, ?_, ?_⟩
    · intro hx
      obtain ⟨hc, hcount⟩ := hne hx
      refine ⟨hc, ?_⟩
      rw [hlog, List.count_append, hcount, Nat.zero_add]
      apply List.count_eq_zero_of_not_mem
      intro hmem
      have := lineProcess_ne_of_index j k hjk _ (htail _ hmem)
      exact this rfl
    · intro hx
      obtain ⟨hc, pre, post, hpre, hnpre, hpost⟩ := hex hx
      refine ⟨hc, pre, post ++ tail, ?_, hnpre, ?_⟩
      · rw [hlog, hpre]; simp
      · intro l hl
        rcases List.mem_append.mp hl with h | h
        · exact hpost l h
        · exact lineProcess_ne_of_index j k hjk l (htail l h)

theorem isBatchOpcode_noIO (m : MetaDataType) (h : isBatchOpcode m) :
    m.code ≠ 'I' ∧ m.code ≠ 'O' := by
  rcases h with ⟨hc | hc, _⟩ | ⟨hc, _⟩ | ⟨hc, _⟩ <;> rw [hc] <;> decide

/-- The table `readInput` builds from opcodes without I/O satisfies the
invariant of the `completed` lines when the scheduler loop is entered. -/
theorem completedInv_init (opcodes : List MetaDataType)
    (hio : ∀ m ∈ opcodes, m.code ≠ 'I' ∧ m.code ≠ 'O') :
    CompletedInv (MainState.init (readInput opcodes)) := by
  refine ⟨rfl, ?_⟩
  intro i p hp
  have hp2 : (readInput opcodes)[i]? = some p := hp
  rw [readInput_groups, processesOfGroups_getElem?] at hp2
  cases hg : (tokenGroups [] opcodes)[i]? with
  | none => rw [hg] at hp2; cases hp2
  | some g =>
    rw [hg] at hp2
    simp only [Option.map_some', Option.some.injEq, Nat.zero_add] at hp2
    subst hp2
    have hsub : ∀ m ∈ g, m ∈ opcodes := by
      intro m hm
      have h1 := tokenGroups_flatten opcodes []
      simp only [List.nil_append] at h1
      rw [← h1]
      exact List.mem_append_left _ (List.mem_flatten.mpr ⟨g, List.getElem?_mem hg, hm⟩)
    refine ⟨⟨by simp [processOfGroup, loadedProcess, newProcess], ?_⟩, rfl, rfl, ?_, ?_⟩
    · intro m hm
      simp only [processOfGroup, loadedProcess, List.mem_map] at hm
      obtain ⟨m0, hm0, rfl⟩ := hm
      exact hio m0 (hsub m0 hm0)
    · intro _
      exact ⟨rfl, by simp [MainState.init]⟩
    · intro he
      simp [processOfGroup, loadedProcess, NEW, EXIT] at he

theorem mainTurns_completedInv (config : ConfigType) (fuel : Nat) :
    ∀ (n : Nat) (st st1 : MainState), mainTurns config fuel n st = some st1 →
      CompletedInv st → CompletedInv st1 := by
  intro n
  induction n with
  | zero => intro st st1 h hI; simp only [mainTurns] at h; cases h; exact hI
  | succ n ih =>
    intro st st1 h hI
    simp only [mainTurns] at h
    split_ifs at h
    · cases h; exact hI
    · cases hb : mainBody fuel config st with
      | none => simp [hb] at h
      | some st2 =>
        simp only [hb] at h
        exact ih st2 st1 h (mainBody_completedInv config fuel st st2 hI hb)

theorem mainLoop_completedInv (config : ConfigType) :
    ∀ (fuel : Nat) (st st1 : MainState), mainLoop config fuel st = some st1 →
      CompletedInv st → CompletedInv st1 := by
  intro fuel
  induction fuel with
  | zero => intro st st1 h hI; simp only [mainLoop] at h; split_ifs at h; cases h; exact hI
  | succ fuel ih =>
    intro st st1 h hI
    simp only [mainLoop] at h
    split_ifs at h
    · cases h; exact hI
    · cases hb : mainBody fuel config st with
      | none => simp [hb] at h
      | some st2 =>
        simp only [hb] at h
        exact ih st2 st1 h (mainBody_completedInv config fuel st st2 hI hb)

theorem completedOnce_append (n : Int) (log tail : List LogLine) (h : CompletedOnce n log)
    (ht : ∀ l ∈ tail, lineProcess l ≠ some n) : CompletedOnce n (log ++ tail) := by
  obtain ⟨pre, post, hlog, hpre, hpost⟩ := h
  refine ⟨pre, post ++ tail, by rw [hlog]; simp, hpre, ?_⟩
  intro l hl
  rcases List.mem_append.mp hl with h1 | h1
  · exact hpost l h1
  · exact ht l h1

/-- The `completed` lines of a workload without I/O whose scheduler loop ends:
between any two passes a process has its line exactly when it is in `EXIT`,
and the log of `main` has the line of every process once, behind every other
line about that process. -/
theorem main_completed_lines (config : ConfigType) (opcodes : List MetaDataType)
    (finished : Bool) (hq : 1 ≤ config.quantum) (hb : ∀ m ∈ opcodes, isBatchOpcode m)
    (ht : ∀ p ∈ readInput opcodes, p.timeRemaining < 100000) :
    (∀ (fuel n : Nat) (st : MainState),
      mainTurns config fuel n (MainState.init (readInput opcodes)) = some st →
      ∀ (i : Nat) (p : Process), st.program[i]? = some p →
        (p.control.state ≠ EXIT →
          st.sh.output.count (LogLine.osCompleted ((i : Int) + 1)) = 0) ∧
        (p.control.state = EXIT → CompletedOnce ((i : Int) + 1) st.sh.output)) ∧
    ∃ (fuel : Nat) (log : List LogLine),
      (∀ extra : Nat, main (fuel + extra) finished config opcodes = some log) ∧
      ∀ i : Nat, i < (readInput opcodes).length → CompletedOnce ((i : Int) + 1) log := by
  have hinit := completedInv_init opcodes (fun m hm => isBatchOpcode_noIO m (hb m hm))
  refine ⟨?_, ?_⟩
  · intro fuel n st h i p hp
    obtain ⟨_, hall⟩ := mainTurns_completedInv config fuel n _ st h hinit
    obtain ⟨_, _, _, hne, hex⟩ := hall i p hp
    exact ⟨fun hx => (hne hx).2, fun hx => (hex hx).2⟩
  · obtain ⟨fuel, st1, hloop, hexit⟩ := mainLoop_batch_readInput config opcodes hq hb ht
    have hinv := mainLoop_completedInv config fuel _ st1 (by simpa using hloop 0) hinit
    obtain ⟨hthr, hall⟩ := hinv
    have hcompleted : ∀ p ∈ st1.program, p.completed = true := by
      intro p hp
      obtain ⟨i, hi⟩ := List.getElem?_of_mem hp
      exact ((hall i p hi).2.2.2.2 (hexit p hp)).1
    have hlen : st1.program.length = (readInput opcodes).length := by
      have h := (mainLoop_inv (readInput opcodes) config fuel _ st1 (by simpa using hloop 0)
        (schedulerInv_init _)).1.1
      by_contra hne
      rcases Nat.lt_or_gt_of_ne hne with hlt | hgt
      · have a := h st1.program.length
        rw [List.getElem?_eq_none (Nat.le_refl _),
          List.getElem?_eq_getElem hlt] at a
        simp at a
      · have a := h (readInput opcodes).length
        rw [List.getElem?_eq_none (Nat.le_refl _),
          List.getElem?_eq_getElem hgt] at a
        simp at a
    refine ⟨fuel + 1, st1.sh.output ++ [LogLine.simulatorEnding], ?_, ?_⟩
    · intro extra
      have h1 : mainLoop config (fuel + 1 + extra) (MainState.init (readInput opcodes))
          = some st1 := by
        have := hloop (1 + extra)
        rw [← Nat.add_assoc] at this
        exact this
      have h2 := drainLoop_of_completed (fuel + 1 + extra) finished st1.program st1.sh
        (by omega) hthr hcompleted
      simp only [main, h1, h2]
    · intro i hi
      have hlt : i < st1.program.length := by omega
      have hget : st1.program[i]? = some st1.program[i] := List.getElem?_eq_getElem hlt
      have hex := (hall i _ hget).2.2.2.2 (hexit _ (List.getElem?_mem hget))
      exact completedOnce_append _ _ _ hex.2 (by
        intro l hl
        simp only [List.mem_singleton] at hl
        rw [hl]
        simp [lineProcess])

theorem runBody_idle (cfg : ConfigType) (st : RunState)
    (hP : st.running.current.code ≠ 'P') (hM : st.running.current.code ≠ 'M')
    (hI : st.running.current.code ≠ 'I') (hO : st.running.current.code ≠ 'O') :
    runBody cfg st = some { st with cycle := st.cycle + 1 } := by
  simp [runBody, hP, hM, hI, hO]

theorem fetch_idle (st : RunProcessState) (h : IdleProcess st.running) :
    IdleProcess (fetch st).running := by
  obtain ⟨hs, hcur | ⟨hc, hend, m, rest, hq, hm⟩⟩ := h
  · have hno : ¬ (st.running.current.cycles ≤ 0 ∨ st.running.current.code = 'I'
        ∨ st.running.current.code = 'O') := by
      obtain ⟨h0, _, _, hI, hO, _⟩ := hcur
      intro hx
      rcases hx with hx | hx | hx
      · omega
      · exact hI hx
      · exact hO hx
    have hf : fetch st = st := by simp [fetch, hno]
    rw [hf]
    exact ⟨hs, Or.inl hcur⟩
  · have hrun : ¬ (m.descriptor = "run") := hm.2.2.2.2.2.2
    have hf : (fetch st).running = { st.running with metaData := rest, current := m } := by
      simp [fetch, hc, hq, SimpleQueue.dequeue, hrun]
    rw [hf]
    exact ⟨hs, Or.inl hm⟩

theorem run_idle (cfg : ConfigType) (running : Process) (sh : Shared) (cycle : Int)
    (running1 : Process) (sh1 : Shared) (cycle1 : Int) (h : IdleProcess running)
    (hr : run running sh cfg cycle = some (running1, sh1, cycle1)) :
    IdleProcess running1 := by
  obtain ⟨hs, hcur | ⟨hc, hend, m, rest, hq, hm⟩⟩ := h
  · have hstate : (runLifecycle running.control running.current).state ≠ EXIT := by
      intro hx
      exact hcur.2.2.2.2.2.1 ((runLifecycle_exit _ _ hs).mp hx)
    simp only [run] at hr
    split at hr
    · cases hr
    · rename_i st hloop
      cases hr
      have hinv := runLoop_invariant cfg
        (fun s => s.running = { running with
          control := runLifecycle running.control running.current })
        (by
          intro s s1 hI _ hb
          have hcode : s.running.current = running.current := by rw [hI]
          rw [runBody_idle cfg s (by rw [hcode]; exact hcur.2.1) (by rw [hcode]; exact hcur.2.2.1)
            (by rw [hcode]; exact hcur.2.2.2.1) (by rw [hcode]; exact hcur.2.2.2.2.1)] at hb
          cases hb
          exact hI)
        _ _ st hloop rfl
      rw [hinv]
      exact ⟨hstate, Or.inl hcur⟩
  · rw [run_no_cycles running sh cfg cycle hc] at hr
    cases hr
    have hstate : (runLifecycle running.control running.current).state ≠ EXIT := by
      intro hx
      exact hend ((runLifecycle_exit _ _ hs).mp hx)
    exact ⟨hstate, Or.inr ⟨hc, hend, m, rest, hq, hm⟩⟩

/-- A call of `runProcess` on a process whose next opcode with cycles is
neither `P`, `M`, `I`, `O` nor an end marker leaves such a process: its state is
not `EXIT`. -/
theorem runProcess_idle (cfg : ConfigType) (fuel : Nat) (running running1 : Process)
    (sh sh1 : Shared) (h : IdleProcess running)
    (hr : runProcess fuel running sh cfg = some (running1, sh1)) :
    IdleProcess running1 := by
  simp only [runProcess] at hr
  split at hr
  · cases hr
  · rename_i st hloop
    cases hr
    have hinv := runProcessLoop_invariant cfg (fun p _ => IdleProcess p)
      (fun s hI => fetch_idle s hI)
      (fun p s c p1 s1 c1 _ hI hrun => run_idle cfg p s c p1 s1 c1 hI hrun)
      fuel _ st hloop h
    exact hinv

theorem mainBody_idle (config : ConfigType) (fuel : Nat) (st st1 : MainState)
    (k : Nat) (p : Process) (hp : st.program[k]? = some p) (hi : IdleProcess p)
    (hb : mainBody fuel config st = some st1) :
    ∃ p1, st1.program[k]? = some p1 ∧ IdleProcess p1 := by
  obtain ⟨j, q, q1, sh2, hq, _, hrun, hprog, _, _, _⟩ := mainBody_shape config fuel st st1 hb
  have hlt : k < st.program.length := by
    rcases Nat.lt_or_ge k st.program.length with h | h
    · exact h
    · rw [List.getElem?_eq_none h] at hp; cases hp
  by_cases hjk : j = k
  · subst hjk
    rw [hq] at hp
    cases hp
    have hi1 := runProcess_idle config fuel _ q1 _ sh2 hi hrun
    refine ⟨q1, ?_, hi1⟩
    rw [hprog, List.getElem?_map, List.getElem?_set_self hlt]
    simp only [Option.map_some']
    rw [markCompleted_of_not q1 (fun hx => hi1.1 hx.1)]
  · refine ⟨p, ?_, hi⟩
    rw [hprog, List.getElem?_map, List.getElem?_set_ne hjk, hp]
    simp only [Option.map_some']
    rw [markCompleted_of_not p (fun hx => hi.1 hx.1)]

theorem checkCompleted_idle (program : List Process) (k : Nat) (p : Process)
    (hp : program[k]? = some p) (hi : IdleProcess p) : checkCompleted program = false := by
  cases hc : checkCompleted program with
  | false => rfl
  | true => exact absurd ((checkCompleted_iff program).mp hc p (List.getElem?_mem hp)) hi.1

/-- The scheduler loop does not end on a table with a process whose next opcode
with cycles is neither `P`, `M`, `I`, `O` nor an end marker. -/
theorem mainLoop_idle (config : ConfigType) (k : Nat) :
    ∀ (fuel : Nat) (st : MainState) (p : Process), st.program[k]? = some p → IdleProcess p →
      mainLoop config fuel st = none := by
  intro fuel
  induction fuel with
  | zero =>
    intro st p hp hi
    simp [mainLoop, checkCompleted_idle st.program k p hp hi]
  | succ fuel ih =>
    intro st p hp hi
    simp only [mainLoop, checkCompleted_idle st.program k p hp hi]
    cases hb : mainBody fuel config st with
    | none => simp
    | some st1 =>
      obtain ⟨p1, hp1, hi1⟩ := mainBody_idle config fuel st st1 k p hp hi hb
      simpa using ih st1 p1 hp1 hi1

theorem mainTurns_idle (config : ConfigType) (fuel k : Nat) :
    ∀ (n : Nat) (st st1 : MainState) (p : Process), st.program[k]? = some p → IdleProcess p →
      mainTurns config fuel n st = some st1 →
      ∃ p1, st1.program[k]? = some p1 ∧ IdleProcess p1 := by
  intro n
  induction n with
  | zero =>
    intro st st1 p hp hi h
    simp only [mainTurns] at h
    cases h
    exact ⟨p, hp, hi⟩
  | succ n ih =>
    intro st st1 p hp hi h
    simp only [mainTurns, checkCompleted_idle st.program k p hp hi] at h
    cases hb : mainBody fuel config st with
    | none => simp [hb] at h
    | some st2 =>
      simp only [hb] at h
      obtain ⟨p2, hp2, hi2⟩ := mainBody_idle config fuel st st2 k p hp hi hb
      exact ih st2 st1 p2 hp2 hi2 h

theorem readInput_markerWithCycle :
    readInput markerWithCycle
      = [loadedProcess 1 [(opcode 'A' "start" 1), (opcode 'A' "end" 0)] 1] := by
  decide

theorem idle_markerWithCycle :
    IdleProcess (loadedProcess 1 [(opcode 'A' "start" 1), (opcode 'A' "end" 0)] 1) := by
  refine ⟨by decide, Or.inr ⟨by decide, ?_, _, _, rfl, ?_⟩⟩
  · simp [isEndOpcode, loadedProcess, newProcess]
  · simp [isIdleOpcode, isEndOpcode, opcode]

/-- The workload `A(start)1; A(end)0`: no pass of the scheduler loop writes the
`completed` line of its process, and the loop does not end. -/
theorem markerWithCycle_never_completed (config : ConfigType) :
    (∀ fuel : Nat, mainLoop config fuel (MainState.init (readInput markerWithCycle)) = none) ∧
    (∀ fuel : Nat, ∀ finished : Bool, main fuel finished config markerWithCycle = none) ∧
    ∀ (fuel n : Nat) (st : MainState),
      mainTurns config fuel n (MainState.init (readInput markerWithCycle)) = some st →
      st.sh.output.count (LogLine.osCompleted 1) = 0 := by
  have hget : (MainState.init (readInput markerWithCycle)).program[0]?
      = some (loadedProcess 1 [(opcode 'A' "start" 1), (opcode 'A' "end" 0)] 1) := by
    rw [readInput_markerWithCycle]; rfl
  have hloop : ∀ fuel : Nat,
      mainLoop config fuel (MainState.init (readInput markerWithCycle)) = none :=
    fun fuel => mainLoop_idle config 0 fuel _ _ hget idle_markerWithCycle
  refine ⟨hloop, ?_, ?_⟩
  · intro fuel finished
    simp [main, hloop fuel]
  · intro fuel n st h
    obtain ⟨p1, hp1, hi1⟩ := mainTurns_idle config fuel 0 n _ st _ hget idle_markerWithCycle h
    have hinv := mainTurns_completedInv config fuel n _ st h
      (completedInv_init markerWithCycle (by decide))
    have := ((hinv.2 0 p1 hp1).2.2.2.1 hi1.1).2
    simpa using this

/-! ## The claims on the scheduler scenarios -/

/-- C14 (the code departs from the claim).  The claim describes the log of one
`P(run)c` for every `c ≥ 1` and names no policy.  Under `SJF` with quantum 3 and
`c = 100000` the first scheduling decision returns the `retIndex` that was
never assigned and the scheduler loop has no defined pass, so none of the
lines is written.  (Lemma `mainLoop_singleRunOpen_log` has the claimed log for
every policy whenever the loop ends, and the loop ends under round robin for
every `c` and under the other policies for `c < 100000`.) -/
theorem preemption_log_missing_sjf :
    (readInput (singleRunOpen 100000)).map (fun p => p.timeRemaining) = [100000] ∧
    getSchedule 1 (readInput (singleRunOpen 100000)) SJF (-1) = none ∧
    ∀ fuel : Nat,
      mainLoop (exampleConfig 3 SJF) fuel (MainState.init (readInput (singleRunOpen 100000)))
        = none := by
  refine ⟨by decide, by decide, ?_⟩
  intro fuel
  exact mainLoop_none_of_getSchedule _ fuel _ (by decide) (fun f => by
    rw [getSchedule_of_not_rr f _ _ _ (by decide)]; decide)

/-- C15, as stated, fails for a table with an opcode of descriptor `run` that
is no `P(run)`.  The table is loaded from
`A(start)0; M(run)-60; P(run)50; A(end)0; A(start)0; P(run)1; A(end)0`: the
totals are -10 and 1 and both `P(run)` have at least one cycle.  Under `SJF`
with quantum 1 the first decision selects index 0; the dequeue step sets the
cycles of `M(run)-60` to 1 and adds 61 to `timeRemaining`, which is 50 after
the turn; the second decision selects index 1 while process 1 is still
`RUNNING`. -/
theorem sjf_leaves_selected_process :
    (readInput memoryRunFirst).map (fun p => p.timeRemaining) = [-10, 1] ∧
    (∀ m ∈ memoryRunFirst, m.code = 'P' → m.descriptor = "run" → 1 ≤ m.cycles) ∧
    (mainTurns (exampleConfig 1 SJF) 10 2 (MainState.init (readInput memoryRunFirst))).map
      (fun st => (st.schedule, st.program.map (fun p => (p.control.state, p.timeRemaining))))
      = some ([0, 1], [(RUNNING, 50), (RUNNING, 0)]) := by
  decide

/-- C15, amended.  Under `SJF`/`SRTF`, for a table in which no cache count is
negative and every queued opcode with descriptor `run` has at least one cycle:
when a pass of the scheduler loop has selected a process and, `n` passes
later, that process is still not in `EXIT`, then all these `n` passes selected
it, and so does the pass that follows. -/
theorem sjf_keeps_selected_process (config : ConfigType) (fuel n : Nat)
    (st st1 st2 : MainState) (halg : config.schedulingAlg ≠ RR)
    (hI : ∀ p ∈ st.program, PositiveRuns p)
    (hb : mainBody fuel config st = some st1)
    (ht : mainTurns config fuel n st1 = some st2)
    (hne : ∃ s, stateAt st2.program st1.processIndex = some s ∧ s ≠ EXIT) :
    st2.schedule = st1.schedule ++ List.replicate n st1.processIndex ∧
    ∀ (fuel1 : Nat) (st3 : MainState), mainBody fuel1 config st2 = some st3 →
      st3.schedule = st2.schedule ++ [st1.processIndex] := by
  obtain ⟨k, hsel, _, _, _⟩ := mainBody_selected config fuel st st1 halg hI hb
  have hidx : st1.processIndex = (k : Int) := hsel.2.1
  rw [hidx] at hne ⊢
  obtain ⟨s, hs, hsne⟩ := hne
  obtain ⟨_, p, hp, hps⟩ := stateAt_some st2.program _ s hs
  rw [Int.toNat_ofNat] at hp
  have hne2 : ∃ p, st2.program[k]? = some p ∧ p.control.state ≠ EXIT :=
    ⟨p, hp, by rw [hps]; exact hsne⟩
  obtain ⟨hsel2, hsched⟩ := mainTurns_selected config fuel k halg n st1 st2 hsel ht hne2
  refine ⟨hsched, ?_⟩
  intro fuel1 st3 hb3
  exact (mainBody_of_selected config fuel1 st2 st3 k halg hsel2 hne2 hb3).2

/-- C15, amended, for scenario S5 (totals 20 and 5, quantum 3, `SRTF`): the
first pass selects index 1; the process is not in `EXIT` after it, and the
next pass selects index 1 again.  The whole run selects index 1 until it is in
`EXIT` and only then index 0. -/
theorem sjf_keeps_selected_process_witness :
    (mainLoop (exampleConfig 3 SRTF) 20 (MainState.init (readInput shortestSecond))).map
      (fun st => st.schedule) = some [1, 1, 0, 0, 0, 0, 0, 0, 0] ∧
    ∃ st1, mainBody 10 (exampleConfig 3 SRTF) (MainState.init (readInput shortestSecond))
        = some st1 ∧ st1.processIndex = 1 ∧
      (st1.schedule = st1.schedule ++ List.replicate 0 st1.processIndex ∧
        ∀ (fuel1 : Nat) (st3 : MainState),
          mainBody fuel1 (exampleConfig 3 SRTF) st1 = some st3 →
          st3.schedule = st1.schedule ++ [st1.processIndex]) := by
  refine ⟨by decide, ?_⟩
  have hfact : (mainBody 10 (exampleConfig 3 SRTF)
      (MainState.init (readInput shortestSecond))).map
      (fun s => (s.processIndex, stateAt s.program s.processIndex)) = some (1, some RUNNING) := by
    decide
  cases hb : mainBody 10 (exampleConfig 3 SRTF) (MainState.init (readInput shortestSecond)) with
  | none => rw [hb] at hfact; cases hfact
  | some st1 =>
    rw [hb] at hfact
    simp only [Option.map_some', Option.some.injEq, Prod.mk.injEq] at hfact
    exact ⟨st1, rfl, hfact.1,
      sjf_keeps_selected_process (exampleConfig 3 SRTF) 10 0
        (MainState.init (readInput shortestSecond)) st1 st1 (by decide)
        (by decide) hb rfl ⟨RUNNING, hfact.2, by decide⟩⟩

/-- C18.  For a block size in `[0, 2^31)`, every table and every fuel: after any
number of passes of the scheduler loop, and when the loop has ended, the
addresses of the lines `memory allocated at` of the log are such that the first
is 0 and every later one is the one before it plus `blockSize`, or 0.  (The
value of `systemMemory` plays no part.) -/
theorem allocated_addresses_progress (config : ConfigType) (program : List Process)
    (fuel : Nat) (hlo : 0 ≤ config.blockSize) (hhi : config.blockSize < 2147483648) :
    (∀ (n : Nat) (st1 : MainState),
      mainTurns config fuel n (MainState.init program) = some st1 →
      AddressProgression config.blockSize (allocatedAddresses st1.sh.output)) ∧
    (∀ st1 : MainState, mainLoop config fuel (MainState.init program) = some st1 →
      AddressProgression config.blockSize (allocatedAddresses st1.sh.output)) :=
  ⟨fun n st1 h => (mainTurns_addressInv config fuel hlo hhi n _ st1 h
      (addressInv_init _ program)).1,
   fun st1 h => (mainLoop_addressInv config hlo hhi fuel _ st1 h
      (addressInv_init _ program)).1⟩

/-- C18, for three allocations with 300 kB of memory in blocks of 100 kB: the
addresses are 0, 100 and 0 again. -/
theorem allocated_addresses_progress_witness :
    (mainLoop (smallMemoryConfig 10 RR) 20 (MainState.init (readInput allocateThrice))).map
      (fun st => allocatedAddresses st.sh.output) = some [0, 100, 0] ∧
    (∀ (n : Nat) (st1 : MainState),
      mainTurns (smallMemoryConfig 10 RR) 20 n (MainState.init (readInput allocateThrice))
        = some st1 →
      AddressProgression (smallMemoryConfig 10 RR).blockSize
        (allocatedAddresses st1.sh.output)) ∧
    (∀ st1 : MainState,
      mainLoop (smallMemoryConfig 10 RR) 20 (MainState.init (readInput allocateThrice))
        = some st1 →
      AddressProgression (smallMemoryConfig 10 RR).blockSize
        (allocatedAddresses st1.sh.output)) :=
  ⟨by decide,
   allocated_addresses_progress (smallMemoryConfig 10 RR) (readInput allocateThrice) 20
     (by decide) (by decide)⟩

/-- C20.  For every stream of tokens, `P` the number of its tokens `A(end)`:
`readInput` builds `P` processes; the process at position `i` has number
`i + 1`, its queue ends with an `A(end)` and holds no other, and `completed`
is false, `cacheCount` 0 and `runningThreads` 0; the queues, in order, hold the
tokens up to the last `A(end)` (stored with `started = false`), and the tokens
behind it, none of them an `A(end)`, are in no queue. -/
theorem readInput_groups_processes (opcodes : List MetaDataType) :
    (readInput opcodes).length = opcodes.countP (fun m => decide (isAppEnd m)) ∧
    (∀ (i : Nat) (p : Process), (readInput opcodes)[i]? = some p →
      p.control.processNum = (i : Int) + 1 ∧
      (∃ front last, p.metaData = (front ++ [last]).map unstarted ∧ isAppEnd last ∧
        ∀ m ∈ front, ¬ isAppEnd m) ∧
      p.completed = false ∧ p.cacheCount = 0 ∧ p.runningThreads = 0) ∧
    ∃ trailing : List MetaDataType,
      ((readInput opcodes).map fun p => p.metaData).flatten ++ trailing.map unstarted
        = opcodes.map unstarted ∧
      ∀ m ∈ trailing, ¬ isAppEnd m := by
  rw [readInput_groups]
  refine ⟨?_, ?_, ?_⟩
  · rw [processesOfGroups_length, tokenGroups_length]
  · intro i p hp
    rw [processesOfGroups_getElem?] at hp
    cases hg : (tokenGroups [] opcodes)[i]? with
    | none => rw [hg] at hp; cases hp
    | some g =>
      rw [hg] at hp
      simp only [Option.map_some', Option.some.injEq, Nat.zero_add] at hp
      subst hp
      obtain ⟨front, last, hgl, hend, hfront⟩ :=
        tokenGroups_mem opcodes [] (by simp) g (List.getElem?_mem hg)
      refine ⟨rfl, ⟨front, last, by rw [← hgl]; rfl, hend, hfront⟩, rfl, rfl, rfl⟩
  · refine ⟨trailingTokens [] opcodes, ?_, trailingTokens_mem opcodes [] (by simp)⟩
    rw [processesOfGroups_metaData, ← List.map_append, tokenGroups_flatten]
    rfl

/-- C20, for the two processes of scenario S5 followed by `S(end)0`. -/
theorem readInput_groups_processes_witness :
    (readInput (shortestSecond ++ [opcode 'S' "end" 0])).map
      (fun p => (p.control.processNum, p.metaData.length)) = [(1, 3), (2, 3)] ∧
    (readInput (shortestSecond ++ [opcode 'S' "end" 0])).length
      = (shortestSecond ++ [opcode 'S' "end" 0]).countP (fun m => decide (isAppEnd m)) :=
  ⟨by decide, (readInput_groups_processes (shortestSecond ++ [opcode 'S' "end" 0])).1⟩

/-- C17.  For every capacity `INITIAL_CAPACITY ≥ 4` of the list (the constant is
in the header, which is not among the sources) and every list of items: the
calls of `enqueue` on the empty queue are all defined; as many calls of
`dequeue` then return true and leave, one after the other, the items in the
order of the calls of `enqueue` in the output argument; and the next call
returns false and leaves the output argument and the queue as they are. -/
theorem queue_first_in_first_out {α : Type} [Inhabited α] (INITIAL_CAPACITY : Nat)
    (items : List α) (dequeueData : α) (hcap : 4 ≤ INITIAL_CAPACITY) :
    ∃ q, (SimpleQueue.State.init INITIAL_CAPACITY).enqueueAll items = some q ∧
      ∃ dlast q1,
        SimpleQueue.State.dequeueAll items.length q dequeueData
          = some (items.map (fun x => (true, x)), dlast, q1) ∧
        dlast = (items.getLast?).getD dequeueData ∧
        q1.dequeue dlast = some (false, dlast, q1) := by
  have hvalid : (SimpleQueue.State.init INITIAL_CAPACITY : SimpleQueue.State α).Valid := by
    simp [SimpleQueue.State.Valid, SimpleQueue.State.init, hcap]
  obtain ⟨q, hq, hv, hi⟩ := SimpleQueue.State.enqueueAll_items items _ hvalid
  have hi2 : q.items = items := by
    rw [hi]; simp [SimpleQueue.State.items, SimpleQueue.State.init]
  obtain ⟨dlast, q1, hd, _, hz, hlast⟩ := SimpleQueue.State.dequeueAll_items items q dequeueData
    hv hi2
  exact ⟨q, hq, dlast, q1, hd, hlast, q1.dequeue_empty dlast hz⟩

/-- C17, for seven items in a list of four cells, which is resized three
times (to 5, 6 and 7 cells). -/
theorem queue_first_in_first_out_witness :
    ((SimpleQueue.State.init 4 : SimpleQueue.State Nat).enqueueAll [1, 2, 3, 4, 5, 6, 7]).map
      (fun q => (q.listData.length, q.queueSize)) = some (7, 7) ∧
    ∃ q, (SimpleQueue.State.init 4 : SimpleQueue.State Nat).enqueueAll [1, 2, 3, 4, 5, 6, 7]
        = some q ∧
      ∃ dlast q1,
        SimpleQueue.State.dequeueAll [1, 2, 3, 4, 5, 6, 7].length q 0
          = some ([1, 2, 3, 4, 5, 6, 7].map (fun x => (true, x)), dlast, q1) ∧
        dlast = ([1, 2, 3, 4, 5, 6, 7].getLast?).getD 0 ∧
        q1.dequeue dlast = some (false, dlast, q1) :=
  ⟨by decide, queue_first_in_first_out 4 [1, 2, 3, 4, 5, 6, 7] 0 (by decide)⟩

/-- C19, as stated, fails for a code that is a parenthesis.  For the token
`)(run)5` the loop of `parseCycles` stops at index 0, `atoi` is given `(run)5`
and the opcode has 0 cycles, not 5; for the token `((run)5` the loop of
`parseData` stops at index 0 and the descriptor is `(run`, not `run`. -/
theorem token_code_parenthesis :
    isToken (tokenChars ')' "run".toList "5".toList) = true ∧
    tokenOpcode (tokenChars ')' "run".toList "5".toList) = some (opcode ')' "run" 0) ∧
    isToken (tokenChars '(' "run".toList "5".toList) = true ∧
    tokenOpcode (tokenChars '(' "run".toList "5".toList) = some (opcode '(' "(run" 5) := by
  decide

/-- C19, amended.  For every token `<code>(<descriptor>)<cycles>` whose code is
one character above the space that is no parenthesis, whose descriptor has no
parenthesis and whose cycles are decimal digits of a value that fits an `int`:
`readInput` takes the buffer for a token, and the opcode it builds has the
first character as code, the text between the parentheses as descriptor, the
value of the digits as cycles and `started = false`; the same opcode is built
when the buffer has one space before the token. -/
theorem token_opcode_fields (code : Char) (descriptor digits : List Char)
    (hsp : ' ' < code) (hopen : code ≠ '(') (hclose : code ≠ ')')
    (hdesc : ∀ c ∈ descriptor, c ≠ '(' ∧ c ≠ ')')
    (hdigits : ∀ c ∈ digits, c.isDigit = true)
    (hrange : digitsValue digits < 2147483648) :
    isToken (tokenChars code descriptor digits) = true ∧
    parseData (tokenChars code descriptor digits) = some descriptor ∧
    parseCycles (tokenChars code descriptor digits) = some (digitsValue digits) ∧
    tokenOpcode (tokenChars code descriptor digits) = some
      { code := code, descriptor := String.mk descriptor, cycles := digitsValue digits,
        started := false } ∧
    tokenOpcode (' ' :: tokenChars code descriptor digits) = some
      { code := code, descriptor := String.mk descriptor, cycles := digitsValue digits,
        started := false } := by
  obtain ⟨h1, hd, hc, h2⟩ := tokenOpcode_tokenChars code descriptor digits hsp hopen hclose
    hdesc hdigits hrange
  have hns : code ≠ ' ' := fun hx => by rw [hx] at hsp; exact absurd hsp (by decide)
  have h3 := tokenOpcode_leading_space (tokenChars code descriptor digits)
    (by simp [tokenChars, hns])
  exact ⟨h1, hd, hc, h2, by rw [h3]; exact h2⟩

/-- C19, amended, for the token `I(hard drive)12`. -/
theorem token_opcode_fields_witness :
    tokenOpcode (tokenChars 'I' "hard drive".toList "12".toList)
      = some (opcode 'I' "hard drive" 12) ∧
    (isToken (tokenChars 'I' "hard drive".toList "12".toList) = true ∧
    parseData (tokenChars 'I' "hard drive".toList "12".toList) = some "hard drive".toList ∧
    parseCycles (tokenChars 'I' "hard drive".toList "12".toList)
      = some (digitsValue "12".toList) ∧
    tokenOpcode (tokenChars 'I' "hard drive".toList "12".toList) = some
      { code := 'I', descriptor := String.mk "hard drive".toList
        cycles := digitsValue "12".toList, started := false } ∧
    tokenOpcode (' ' :: tokenChars 'I' "hard drive".toList "12".toList) = some
      { code := 'I', descriptor := String.mk "hard drive".toList
        cycles := digitsValue "12".toList, started := false }) :=
  ⟨by decide,
   token_opcode_fields 'I' "hard drive".toList "12".toList (by decide) (by decide) (by decide)
     (by decide) (by decide) (by decide)⟩

/-! ### The clock -/

theorem toInt32_of_int (x : Int) (h0 : -2147483648 ≤ x) (h1 : x < 2147483648) :
    toInt32 x = x := by
  unfold toInt32
  omega

/-- The result of `timePassed` for a current time that is not before the
reference, with microsecond fields in `[0, 1000000)` and less than `2^31`
microseconds between the two. -/
theorem timePassed_exact (refTime currentTime : Timeval)
    (hr0 : 0 ≤ refTime.tv_usec) (hr1 : refTime.tv_usec < 1000000)
    (hc0 : 0 ≤ currentTime.tv_usec) (hc1 : currentTime.tv_usec < 1000000)
    (hlater : 0 ≤ (currentTime.tv_sec - refTime.tv_sec) * 1000000
      + (currentTime.tv_usec - refTime.tv_usec))
    (hsmall : (currentTime.tv_sec - refTime.tv_sec) * 1000000
      + (currentTime.tv_usec - refTime.tv_usec) < 2147483648) :
    timePassed refTime currentTime
      = (currentTime.tv_sec - refTime.tv_sec) * 1000000
        + (currentTime.tv_usec - refTime.tv_usec) := by
  have hs : toInt32 (currentTime.tv_sec - refTime.tv_sec)
      = currentTime.tv_sec - refTime.tv_sec := toInt32_of_int _ (by omega) (by omega)
  have hm : toInt32 (currentTime.tv_usec - refTime.tv_usec)
      = currentTime.tv_usec - refTime.tv_usec := toInt32_of_int _ (by omega) (by omega)
  simp only [timePassed, hs, hm]
  by_cases hneg : currentTime.tv_usec - refTime.tv_usec < 0
  · have h1 : toInt32 (currentTime.tv_usec - refTime.tv_usec + 1000000)
        = currentTime.tv_usec - refTime.tv_usec + 1000000 :=
      toInt32_of_int _ (by omega) (by omega)
    have h2 : toInt32 (currentTime.tv_sec - refTime.tv_sec - 1)
        = currentTime.tv_sec - refTime.tv_sec - 1 := toInt32_of_int _ (by omega) (by omega)
    simp only [hneg, if_true, h1, h2]
    by_cases hpos : currentTime.tv_sec - refTime.tv_sec - 1 > 0
    · have h3 : toInt32 ((currentTime.tv_sec - refTime.tv_sec - 1) * 1000000)
          = (currentTime.tv_sec - refTime.tv_sec - 1) * 1000000 :=
        toInt32_of_int _ (by omega) (by omega)
      simp only [hpos, if_true, h3]
      rw [toInt32_of_int _ (by omega) (by omega)]
      ring
    · simp only [hpos, if_false]
      omega
  · simp only [hneg, if_false]
    by_cases hpos : currentTime.tv_sec - refTime.tv_sec > 0
    · have h3 : toInt32 ((currentTime.tv_sec - refTime.tv_sec) * 1000000)
          = (currentTime.tv_sec - refTime.tv_sec) * 1000000 :=
        toInt32_of_int _ (by omega) (by omega)
      simp only [hpos, if_true, h3]
      rw [toInt32_of_int _ (by omega) (by omega)]
      ring
    · simp only [hpos, if_false]
      omega

/-! ### The slot scan -/

theorem slotScanLoop_spec (count : Int) :
    ∀ (fuel semNum : Nat) (used : List Bool) (i : Nat),
      (used.length : Int) = count → semNum ≤ i → i < used.length → i - semNum < fuel →
      used[i]? = some false → (∀ j : Nat, semNum ≤ j → j < i → used[j]? = some true) →
      slotScanLoop count fuel semNum used = some (i, used.set i true) := by
  intro fuel
  induction fuel with
  | zero => intro semNum used i _ _ _ hf; omega
  | succ fuel ih =>
    intro semNum used i hlen hle hi hf hfree hbusy
    have hlt : (semNum : Int) < count := by omega
    simp only [slotScanLoop, hlt, if_true]
    by_cases heq : semNum = i
    · subst heq
      simp [hfree]
    · have hb := hbusy semNum (Nat.le_refl _) (by omega)
      simp only [hb]
      simp only [Bool.true_eq_false, if_false]
      exact ih (semNum + 1) used i hlen (by omega) hi (by omega) hfree
        (fun j hj1 hj2 => hbusy j (by omega) hj2)

theorem exists_first_free (used : List Bool) (h : ∃ j : Nat, used[j]? = some false) :
    ∃ i : Nat, used[i]? = some false ∧ ∀ j : Nat, j < i → used[j]? = some true := by
  classical
  let i := Nat.find h
  have hi : used[i]? = some false := Nat.find_spec h
  refine ⟨i, hi, ?_⟩
  intro j hj
  have hlt : i < used.length := by
    rcases Nat.lt_or_ge i used.length with h1 | h1
    · exact h1
    · rw [List.getElem?_eq_none h1] at hi; cases hi
  have hjlt : j < used.length := by omega
  have hne : ¬ used[j]? = some false := Nat.find_min h hj
  rw [List.getElem?_eq_getElem hjlt] at hne ⊢
  cases hv : used[j] with
  | true => rfl
  | false => rw [hv] at hne; exact absurd rfl hne

/-- The slot scan on a bitmap of `count` entries with a free one: the lowest
free index is recorded and set, and clearing it gives the bitmap back. -/
theorem slotScan_first_free (count : Int) (used : List Bool)
    (hlen : (used.length : Int) = count) (hfree : ∃ j : Nat, used[j]? = some false) :
    ∃ i : Nat,
      slotScan count used = some (i, used.set i true) ∧
      used[i]? = some false ∧ (∀ j : Nat, j < i → used[j]? = some true) ∧
      (used.set i true)[i]? = some true ∧
      (∀ j : Nat, j ≠ i → (used.set i true)[j]? = used[j]?) ∧
      slotClear (used.set i true) i = some used := by
  obtain ⟨i, hi, hbusy⟩ := exists_first_free used hfree
  have hlt : i < used.length := by
    rcases Nat.lt_or_ge i used.length with h1 | h1
    · exact h1
    · rw [List.getElem?_eq_none h1] at hi; cases hi
  refine ⟨i, ?_, hi, hbusy, ?_, ?_, ?_⟩
  · have htn : count.toNat = used.length := by omega
    simp only [slotScan, htn]
    exact slotScanLoop_spec count used.length 0 used i hlen (Nat.zero_le _) hlt (by omega) hi
      (fun j _ hj => hbusy j hj)
  · rw [List.getElem?_set_self hlt]
  · intro j hj
    rw [List.getElem?_set_ne (Ne.symm hj)]
  · have hlt2 : i < (used.set i true).length := by simpa using hlt
    simp only [slotClear, hlt2, if_true, List.set_set]
    congr 1
    apply List.ext_getElem?
    intro j
    by_cases hj : i = j
    · subst hj
      rw [List.getElem?_set_self hlt, hi]
    · rw [List.getElem?_set_ne hj]

/-! ### One call of `run` on a marker -/

theorem runLoop_marker (cfg : ConfigType) :
    ∀ (fuel : Nat) (st : RunState), st.running.current.code ≠ 'P' →
      st.running.current.code ≠ 'M' → st.running.current.code ≠ 'I' →
      st.running.current.code ≠ 'O' → st.threadCreated = false →
      (cfg.quantum - st.cycle).toNat ≤ fuel →
      runLoop cfg fuel st = some
        { st with cycle := if 0 < st.running.current.cycles ∧ st.cycle < cfg.quantum
                           then cfg.quantum else st.cycle } := by
  intro fuel
  induction fuel with
  | zero =>
    intro st _ _ _ _ ht hf
    have hq : ¬ st.cycle < cfg.quantum := by omega
    simp [runLoop, runCond, hq]
  | succ fuel ih =>
    intro st hP hM hI hO ht hf
    by_cases hc : 0 < st.running.current.cycles ∧ st.cycle < cfg.quantum
    · have hcond : runCond cfg st = true := by simp [runCond, hc.1, hc.2, ht]
      simp only [runLoop, hcond, if_true, runBody_idle cfg st hP hM hI hO]
      rw [ih { st with cycle := st.cycle + 1 } hP hM hI hO ht
        (by show (cfg.quantum - (st.cycle + 1)).toNat ≤ fuel; omega)]
      rw [if_pos hc]
      congr 2
      show (if 0 < st.running.current.cycles ∧ st.cycle + 1 < cfg.quantum
        then cfg.quantum else st.cycle + 1) = cfg.quantum
      split_ifs with h
      · rfl
      · have := hc.2
        have h2 : ¬ st.cycle + 1 < cfg.quantum := fun hx => h ⟨hc.1, hx⟩
        omega
    · have hcond : runCond cfg st = false := by
        simp only [runCond, ht]
        by_cases h1 : 0 < st.running.current.cycles
        · have h2 : ¬ st.cycle < cfg.quantum := fun hx => hc ⟨h1, hx⟩
          simp [h2]
        · simp [h1]
      simp [runLoop, hcond, hc]

theorem marker_not_work (runMeta : MetaDataType)
    (hcode : runMeta.code = 'S' ∨ runMeta.code = 'A') :
    runMeta.code ≠ 'P' ∧ runMeta.code ≠ 'M' ∧ runMeta.code ≠ 'I' ∧ runMeta.code ≠ 'O' := by
  rcases hcode with h | h <;> rw [h] <;> decide

theorem runLifecycle_marker (control : PCB) (runMeta : MetaDataType)
    (hcode : runMeta.code = 'S' ∨ runMeta.code = 'A')
    (hdesc : runMeta.descriptor = "start" ∨ runMeta.descriptor = "end") :
    runLifecycle control runMeta = { control with state := markerState runMeta } := by
  have hse : ¬ ("end" = "start") := by decide
  have hAS : ¬ ('A' = 'S') := by decide
  rcases hcode with h | h <;> rcases hdesc with hd | hd <;>
    simp [runLifecycle, markerState, h, hd, hse, hAS]

/-- One call of `run` on an opcode `S(start)`, `S(end)`, `A(start)` or `A(end)`:
the state is set, nothing else of the process changes, no line is written, and
the counter is the one given when the opcode has no cycles or the counter has
reached the quantum, and the quantum otherwise. -/
theorem run_marker (cfg : ConfigType) (running : Process) (sh : Shared) (cycle : Int)
    (hcode : running.current.code = 'S' ∨ running.current.code = 'A')
    (hdesc : running.current.descriptor = "start" ∨ running.current.descriptor = "end") :
    run running sh cfg cycle = some
      ({ running with control := { running.control with state := markerState running.current } },
       { sh with executed := sh.executed ++ [running.current] },
       if 0 < running.current.cycles ∧ cycle < cfg.quantum then cfg.quantum else cycle) := by
  obtain ⟨hP, hM, hI, hO⟩ := marker_not_work running.current hcode
  have h := runLoop_marker cfg (cfg.quantum - cycle).toNat
    { running := { running with control := runLifecycle running.control running.current }
      sh := { sh with executed := sh.executed ++ [running.current] }
      cycle := cycle, threadCreated := false } hP hM hI hO rfl (Nat.le_refl _)
  simp only [run]
  rw [h]
  simp only [runLifecycle_marker running.control running.current hcode hdesc]

/-! ### The index given to `getSchedule` -/

theorem mainBody_indexInv (config : ConfigType) (fuel : Nat) (st st1 : MainState)
    (hb : mainBody fuel config st = some st1) :
    IndexInv st1 ∧ st1.program.length = st.program.length := by
  obtain ⟨k, p, p1, sh2, hp, _, _, hprog, _, hidx, _⟩ := mainBody_shape config fuel st st1 hb
  have hlt : k < st.program.length := by
    rcases Nat.lt_or_ge k st.program.length with h | h
    · exact h
    · rw [List.getElem?_eq_none h] at hp; cases hp
  have hlen : st1.program.length = st.program.length := by rw [hprog]; simp
  refine ⟨⟨?_, ?_⟩, hlen⟩
  · rw [hidx]; omega
  · rw [hidx, hlen]; omega

theorem indexInv_init (program : List Process) : IndexInv (MainState.init program) := by
  refine ⟨Int.le_refl _, ?_⟩
  show (-1 : Int) < (program.length : Int)
  omega

theorem mainTurns_indexInv (config : ConfigType) (fuel : Nat) :
    ∀ (n : Nat) (st st1 : MainState), mainTurns config fuel n st = some st1 →
      IndexInv st → IndexInv st1 ∧ st1.program.length = st.program.length := by
  intro n
  induction n with
  | zero => intro st st1 h hI; simp only [mainTurns] at h; cases h; exact ⟨hI, rfl⟩
  | succ n ih =>
    intro st st1 h hI
    simp only [mainTurns] at h
    split_ifs at h
    · cases h; exact ⟨hI, rfl⟩
    · cases hb : mainBody fuel config st with
      | none => simp [hb] at h
      | some st2 =>
        simp only [hb] at h
        obtain ⟨h1, h2⟩ := mainBody_indexInv config fuel st st2 hb
        obtain ⟨h3, h4⟩ := ih st2 st1 h h1
        exact ⟨h3, h4.trans h2⟩

theorem checkCompleted_false (program : List Process) (h : checkCompleted program = false) :
    1 ≤ program.length ∧ ∃ p ∈ program, p.control.state ≠ EXIT := by
  have hex : ∃ p ∈ program, p.control.state ≠ EXIT := by
    by_contra hno
    have hall : ∀ p ∈ program, p.control.state = EXIT := by
      intro p hp
      by_contra hne
      exact hno ⟨p, hp, hne⟩
    rw [(checkCompleted_iff program).mpr hall] at h
    cases h
  refine ⟨?_, hex⟩
  obtain ⟨p, hp, _⟩ := hex
  exact List.length_pos_of_mem hp

/-- A call of `getSchedule` with the round robin algorithm by the scheduler
loop: the table has a process that is not in `EXIT`, the remainder is by a
count that is not zero, and with as many steps as the table has processes the
loop returns an index of the table whose process is not in `EXIT`. -/
theorem getSchedule_rr_call (config : ConfigType) (program : List Process) (fuel n : Nat)
    (st : MainState) (fuel1 : Nat)
    (hreach : mainTurns config fuel n (MainState.init program) = some st)
    (hnot : checkCompleted st.program = false) (hfuel : st.program.length ≤ fuel1) :
    1 ≤ st.program.length ∧ (∃ p ∈ st.program, p.control.state ≠ EXIT) ∧
    ∃ (r : Nat) (p : Process),
      getSchedule fuel1 st.program RR st.processIndex = some (r : Int) ∧
      r < st.program.length ∧ st.program[r]? = some p ∧ p.control.state ≠ EXIT := by
  obtain ⟨hlen, hex⟩ := checkCompleted_false st.program hnot
  obtain ⟨hI, _⟩ := mainTurns_indexInv config fuel n _ st hreach (indexInv_init program)
  obtain ⟨k, _, _, hg, _, _⟩ := getSchedule_rr_spec st.program st.processIndex fuel1 hlen hex
    hI.1 hfuel
  obtain ⟨r, p, hr, hp, hs⟩ := getSchedule_not_exit fuel1 st.program RR st.processIndex _ hg
  refine ⟨hlen, hex, r, p, ?_, ?_, hp, hs⟩
  · rw [hg, hr]
  · rcases Nat.lt_or_ge r st.program.length with h | h
    · exact h
    · rw [List.getElem?_eq_none h] at hp; cases hp

theorem mainLoop_empty (config : ConfigType) (fuel : Nat) :
    mainLoop config fuel (MainState.init []) = some (MainState.init []) := by
  cases fuel <;> simp [mainLoop, MainState.init, checkCompleted]

/-! ### The last line of one call of `run` on an opcode of code `P` or `M` -/

theorem isCompletionLine_congr (a b : MetaDataType) (n : Int) (l : LogLine)
    (hc : a.code = b.code) (hd : a.descriptor = b.descriptor) :
    isCompletionLine a n l = isCompletionLine b n l := by
  simp only [isCompletionLine, hc, hd]

theorem isInterruptLine_congr (a b : MetaDataType) (n : Int) (l : LogLine)
    (hc : a.code = b.code) (hd : a.descriptor = b.descriptor) :
    isInterruptLine a n l = isInterruptLine b n l := by
  simp only [isInterruptLine, hc, hd]

theorem runBody_last_line (cfg : ConfigType) (st : RunState)
    (hkind : isCpuOrMemory st.running.current) :
    ∃ st1 startPart endPart, runBody cfg st = some st1 ∧
      st1.running.current = { st.running.current with
        started := true, cycles := st.running.current.cycles - 1 } ∧
      st1.running.control = st.running.control ∧
      st1.cycle = st.cycle + 1 ∧
      st1.threadCreated = st.threadCreated ∧
      st1.sh.output = st.sh.output ++ startPart ++ endPart ∧
      (∀ l ∈ startPart,
        isCompletionLine st.running.current st.running.control.processNum l = false ∧
        isInterruptLine st.running.current st.running.control.processNum l = false) ∧
      (st.running.current.cycles - 1 = 0 → ∃ l, endPart = [l] ∧
        isCompletionLine st.running.current st.running.control.processNum l = true ∧
        isInterruptLine st.running.current st.running.control.processNum l = false) ∧
      (st.running.current.cycles - 1 ≠ 0 → st.cycle = cfg.quantum - 1 → ∃ l, endPart = [l] ∧
        isInterruptLine st.running.current st.running.control.processNum l = true ∧
        isCompletionLine st.running.current st.running.control.processNum l = false) ∧
      (st.running.current.cycles - 1 ≠ 0 → st.cycle ≠ cfg.quantum - 1 → endPart = []) := by
  rcases hkind with hP | ⟨hM, hd⟩ | ⟨hM, hd⟩
  · refine ⟨{ processorStep cfg st with cycle := (processorStep cfg st).cycle + 1 },
      (if st.running.current.started then [] else
        [LogLine.startProcessing st.running.control.processNum]),
      (if st.running.current.cycles - 1 = 0 then
          [LogLine.endProcessing st.running.control.processNum]
        else if st.cycle = cfg.quantum - 1 then
          [LogLine.interruptProcessing st.running.control.processNum] else []),
      by simp only [runBody, hP, if_true], rfl, rfl, rfl, rfl, ?_, ?_, ?_, ?_, ?_⟩
    · cases hs : st.running.current.started <;>
        by_cases h0 : st.running.current.cycles - 1 = 0 <;>
        by_cases hq : st.cycle = cfg.quantum - 1 <;>
        simp [processorStep, hs, h0, hq]
    · intro l hl
      cases hs : st.running.current.started <;> simp [hs] at hl
      subst hl
      simp [isCompletionLine, isInterruptLine, hP]
    · intro h0
      exact ⟨LogLine.endProcessing st.running.control.processNum, by simp [h0], by simp [isCompletionLine, hP], by simp [isInterruptLine, hP]⟩
    · intro h0 hq
      exact ⟨LogLine.interruptProcessing st.running.control.processNum, by simp [h0, hq], by simp [isInterruptLine, hP], by simp [isCompletionLine, hP]⟩
    · intro h0 hq
      simp [h0, hq]
  · have hP : st.running.current.code ≠ 'P' := by rw [hM]; decide
    have hc : st.running.current.descriptor ≠ "cache" := by rw [hd]; decide
    have hc1 : (allocateStep cfg st).running.current.descriptor ≠ "cache" := hc
    refine ⟨{ allocateStep cfg st with cycle := (allocateStep cfg st).cycle + 1 },
      (if st.running.current.started then [] else
        [LogLine.allocatingMemory st.running.control.processNum]),
      (if st.running.current.cycles - 1 = 0 then
          [LogLine.memoryAllocated st.running.control.processNum
            (AllocateMemory (toInt32 cfg.systemMemory) cfg.blockSize
              (toInt32 st.sh.memoryLocation))]
        else if st.cycle = cfg.quantum - 1 then
          [LogLine.interruptAllocation st.running.control.processNum] else []),
      by simp only [runBody]; rw [if_neg hP, if_pos hM, if_pos hd, if_neg hc1],
      rfl, rfl, rfl, rfl, ?_, ?_, ?_, ?_, ?_⟩
    · cases hs : st.running.current.started <;>
        by_cases h0 : st.running.current.cycles - 1 = 0 <;>
        by_cases hq : st.cycle = cfg.quantum - 1 <;>
        simp [allocateStep, hs, h0, hq]
    · intro l hl
      cases hs : st.running.current.started <;> simp [hs] at hl
      subst hl
      simp [isCompletionLine, isInterruptLine, hP, hM, hd]
    · intro h0
      exact ⟨LogLine.memoryAllocated st.running.control.processNum
        (AllocateMemory (toInt32 cfg.systemMemory) cfg.blockSize (toInt32 st.sh.memoryLocation)), by simp [h0], by simp [isCompletionLine, hP, hM, hd],
        by simp [isInterruptLine, hP, hM, hd]⟩
    · intro h0 hq
      exact ⟨LogLine.interruptAllocation st.running.control.processNum, by simp [h0, hq], by simp [isInterruptLine, hP, hM, hd],
        by simp [isCompletionLine, hP, hM, hd]⟩
    · intro h0 hq
      simp [h0, hq]
  · have hP : st.running.current.code ≠ 'P' := by rw [hM]; decide
    have ha : st.running.current.descriptor ≠ "allocate" := by rw [hd]; decide
    refine ⟨{ cacheStep cfg st with cycle := (cacheStep cfg st).cycle + 1 },
      (if st.running.current.started then [] else
        [LogLine.startCaching st.running.control.processNum]),
      (if st.running.current.cycles - 1 = 0 then
          [LogLine.endCaching st.running.control.processNum]
        else if st.cycle = cfg.quantum - 1 then
          [LogLine.interruptCaching st.running.control.processNum] else []),
      by simp only [runBody]; rw [if_neg hP, if_pos hM, if_neg ha, if_pos hd],
      rfl, rfl, rfl, rfl, ?_, ?_, ?_, ?_, ?_⟩
    · cases hs : st.running.current.started <;>
        by_cases h0 : st.running.current.cycles - 1 = 0 <;>
        by_cases hq : st.cycle = cfg.quantum - 1 <;>
        simp [cacheStep, hs, h0, hq]
    · intro l hl
      cases hs : st.running.current.started <;> simp [hs] at hl
      subst hl
      simp [isCompletionLine, isInterruptLine, hP, hM, hd, ha]
    · intro h0
      exact ⟨LogLine.endCaching st.running.control.processNum, by simp [h0], by simp [isCompletionLine, hP, hM, hd, ha],
        by simp [isInterruptLine, hP, hM, hd, ha]⟩
    · intro h0 hq
      exact ⟨LogLine.interruptCaching st.running.control.processNum, by simp [h0, hq], by simp [isInterruptLine, hP, hM, hd, ha],
        by simp [isCompletionLine, hP, hM, hd, ha]⟩
    · intro h0 hq
      simp [h0, hq]

theorem runLoop_last_line (cfg : ConfigType) (rm : MetaDataType) (n : Int) :
    ∀ (fuel : Nat) (st : RunState), isCpuOrMemory st.running.current →
      st.running.current.code = rm.code → st.running.current.descriptor = rm.descriptor →
      st.running.control.processNum = n → st.threadCreated = false →
      runCond cfg st = true → (cfg.quantum - st.cycle).toNat ≤ fuel →
      ∃ st1 pre last, runLoop cfg fuel st = some st1 ∧
        st1.sh.output = st.sh.output ++ pre ++ [last] ∧
        (∀ l ∈ pre, isCompletionLine rm n l = false ∧ isInterruptLine rm n l = false) ∧
        0 ≤ st1.running.current.cycles ∧
        (st1.running.current.cycles = 0 →
          isCompletionLine rm n last = true ∧ isInterruptLine rm n last = false) ∧
        (st1.running.current.cycles ≠ 0 →
          isInterruptLine rm n last = true ∧ isCompletionLine rm n last = false ∧
          st1.cycle = cfg.quantum) := by
  intro fuel
  induction fuel with
  | zero =>
    intro st _ _ _ _ ht hcond hf
    simp only [runCond, ht, Bool.not_false, Bool.and_true, Bool.and_eq_true,
      decide_eq_true_eq] at hcond
    omega
  | succ fuel ih =>
    intro st hkind hcode hdesc hn ht hcond hf
    have hcond2 := hcond
    simp only [runCond, ht, Bool.not_false, Bool.and_true, Bool.and_eq_true,
      decide_eq_true_eq] at hcond2
    obtain ⟨hpos, hlt⟩ := hcond2
    obtain ⟨st1, startPart, endPart, hbody, hcur, hctl, hcyc, hthr, hout, hstart, hA, hB, hC⟩ :=
      runBody_last_line cfg st hkind
    have hcc : ∀ l, isCompletionLine st.running.current st.running.control.processNum l
        = isCompletionLine rm n l := fun l => by
      rw [hn]; exact isCompletionLine_congr _ _ _ _ hcode hdesc
    have hic : ∀ l, isInterruptLine st.running.current st.running.control.processNum l
        = isInterruptLine rm n l := fun l => by
      rw [hn]; exact isInterruptLine_congr _ _ _ _ hcode hdesc
    have hcycles1 : st1.running.current.cycles = st.running.current.cycles - 1 := by rw [hcur]
    simp only [runLoop, hcond, if_true, hbody]
    have hstart2 : ∀ l ∈ startPart,
        isCompletionLine rm n l = false ∧ isInterruptLine rm n l = false := by
      intro l hl
      have := hstart l hl
      rw [hcc, hic] at this
      exact this
    by_cases h0 : st.running.current.cycles - 1 = 0
    · obtain ⟨l, hl, hl1, hl2⟩ := hA h0
      have hc1 : runCond cfg st1 = false := by
        have : ¬ 0 < st1.running.current.cycles := by omega
        simp [runCond, this]
      rw [runLoop_of_not_cond cfg fuel st1 hc1]
      refine ⟨st1, startPart, l, rfl, by rw [hout, hl], hstart2, by omega, ?_, ?_⟩
      · intro _
        rw [← hcc, ← hic]
        exact ⟨hl1, hl2⟩
      · intro hne
        omega
    · by_cases hq : st.cycle = cfg.quantum - 1
      · obtain ⟨l, hl, hl1, hl2⟩ := hB h0 hq
        have hc1 : runCond cfg st1 = false := by
          have : ¬ st1.cycle < cfg.quantum := by omega
          simp [runCond, this]
        rw [runLoop_of_not_cond cfg fuel st1 hc1]
        refine ⟨st1, startPart, l, rfl, by rw [hout, hl], hstart2, by omega, ?_, ?_⟩
        · intro h
          omega
        · intro _
          rw [← hcc, ← hic]
          exact ⟨hl1, hl2, by omega⟩
      · have hend := hC h0 hq
        have hc1 : runCond cfg st1 = true := by
          have h1 : 0 < st1.running.current.cycles := by omega
          have h2 : st1.cycle < cfg.quantum := by omega
          simp [runCond, h1, h2, hthr, ht]
        have hcode1 : st1.running.current.code = rm.code := by rw [hcur]; exact hcode
        have hdesc1 : st1.running.current.descriptor = rm.descriptor := by rw [hcur]; exact hdesc
        have hkind1 : isCpuOrMemory st1.running.current :=
          isCpuOrMemory_congr st.running.current _ (by rw [hcur]) (by rw [hcur]) hkind
        obtain ⟨st2, pre, last, hloop, hout2, hpre, hnn, hD, hE⟩ :=
          ih st1 hkind1 hcode1 hdesc1 (by rw [hctl]; exact hn) (by rw [hthr]; exact ht) hc1
            (by omega)
        refine ⟨st2, startPart ++ pre, last, hloop, ?_, ?_, hnn, hD, hE⟩
        · rw [hout2, hout, hend]
          simp
        · intro l hl
          rcases List.mem_append.mp hl with h | h
          · exact hstart2 l h
          · exact hpre l h

/-- One call of `run` on an opcode of code `P`, or of code `M` with descriptor
`allocate` or `cache`, that has cycles left, entered with a counter below the
quantum: the call returns, the last line it appends is the completion line or
the interrupt line of the opcode, and no line before it is one of the two. -/
theorem run_last_line (cfg : ConfigType) (running : Process) (sh : Shared) (cycle : Int)
    (hkind : isCpuOrMemory running.current) (hpos : 0 < running.current.cycles)
    (hlt : cycle < cfg.quantum) :
    ∃ running1 sh1 cycle1 pre last,
      run running sh cfg cycle = some (running1, sh1, cycle1) ∧
      sh1.output = sh.output ++ pre ++ [last] ∧
      (∀ l ∈ pre, isCompletionLine running.current running.control.processNum l = false ∧
        isInterruptLine running.current running.control.processNum l = false) ∧
      0 ≤ running1.current.cycles ∧
      (running1.current.cycles = 0 →
        isCompletionLine running.current running.control.processNum last = true ∧
        isInterruptLine running.current running.control.processNum last = false) ∧
      (running1.current.cycles ≠ 0 →
        isInterruptLine running.current running.control.processNum last = true ∧
        isCompletionLine running.current running.control.processNum last = false ∧
        cycle1 = cfg.quantum) := by
  have hctl : runLifecycle running.control running.current = running.control :=
    runLifecycle_cpuOrMemory running.control running.current hkind
  obtain ⟨st1, pre, last, hloop, hout, hpre, hnn, hA, hB⟩ :=
    runLoop_last_line cfg running.current running.control.processNum
      (cfg.quantum - cycle).toNat
      { running := { running with control := runLifecycle running.control running.current }
        sh := { sh with executed := sh.executed ++ [running.current] }
        cycle := cycle, threadCreated := false }
      hkind rfl rfl (by show (runLifecycle running.control running.current).processNum = _
                        rw [hctl]) rfl
      (by simp [runCond, hpos, hlt]) (Nat.le_refl _)
  refine ⟨st1.running, st1.sh, st1.cycle, pre, last, ?_, hout, hpre, hnn, hA, hB⟩
  simp only [run]
  rw [hloop]

/-! ### The device bound -/

theorem sum_map_set {α : Type} (f : α → Int) :
    ∀ (l : List α) (i : Nat) (a b : α), l[i]? = some a →
      ((l.set i b).map f).sum = (l.map f).sum - f a + f b := by
  intro l
  induction l with
  | nil => intro i a b h; simp at h
  | cons x rest ih =>
    intro i a b h
    cases i with
    | zero =>
      simp only [List.getElem?_cons_zero, Option.some.injEq] at h
      subst h
      simp only [List.set_cons_zero, List.map_cons, List.sum_cons]
      omega
    | succ i =>
      simp only [List.getElem?_cons_succ] at h
      simp only [List.set_cons_succ, List.map_cons, List.sum_cons, ih i a b h]
      omega

theorem inFlight_append (d : Device) (log : List IoLine) (l : IoLine) :
    inFlight d (log ++ [l]) = inFlight d log
      + (if l.startOf = some d then 1 else 0) - (if l.endOf = some d then 1 else 0) := by
  simp only [inFlight, List.countP_append, List.countP_cons, List.countP_nil]
  by_cases h1 : l.startOf = some d <;> by_cases h2 : l.endOf = some d <;>
    simp [h1, h2] <;> omega

theorem startLine_startOf (d : Device) (w : Worker) (l : IoLine) (h : startLine d w = some l) :
    l.startOf = some d ∧ l.endOf = none := by
  cases d <;> simp only [startLine] at h
  · split_ifs at h <;> cases h <;> exact ⟨rfl, rfl⟩
  · cases h; exact ⟨rfl, rfl⟩
  · cases h; exact ⟨rfl, rfl⟩
  · cases h; exact ⟨rfl, rfl⟩

theorem endLine_endOf (d : Device) (w : Worker) (l : IoLine) (h : endLine d w = some l) :
    l.endOf = some d ∧ l.startOf = none := by
  cases d <;> simp only [endLine] at h
  · split_ifs at h <;> cases h <;> exact ⟨rfl, rfl⟩
  · cases h; exact ⟨rfl, rfl⟩
  · cases h; exact ⟨rfl, rfl⟩
  · cases h; exact ⟨rfl, rfl⟩

theorem semaphore_setSemaphore (st : IoState) (d d1 : Device) (value : Nat) :
    (st.setSemaphore d value).semaphore d1 = if d1 = d then value else st.semaphore d1 := by
  cases d <;> cases d1 <;> simp [IoState.setSemaphore, IoState.semaphore]

theorem setSemaphore_frame (st : IoState) (d : Device) (value : Nat) :
    (st.setSemaphore d value).workers = st.workers ∧
    (st.setSemaphore d value).output = st.output := by
  cases d <;> exact ⟨rfl, rfl⟩

theorem setUsed_frame (st : IoState) (d : Device) (used : List Bool) :
    (st.setUsed d used).workers = st.workers ∧ (st.setUsed d used).output = st.output ∧
    ∀ d1, (st.setUsed d used).semaphore d1 = st.semaphore d1 := by
  cases d <;> exact ⟨rfl, rfl, fun d1 => by cases d1 <;> rfl⟩

theorem deviceInv_of_update (cfg : ConfigType) (st st1 : IoState) (i : Nat) (w w1 : Worker)
    (hI : DeviceInv cfg st) (hw : st.workers[i]? = some w)
    (hws : st1.workers = st.workers.set i w1)
    (hsem : ∀ d, (st1.semaphore d : Int) + holdsDevice d w1
      = (st.semaphore d : Int) + holdsDevice d w)
    (hout : ∀ d, inFlight d st1.output - runsDevice d w1
      = inFlight d st.output - runsDevice d w) : DeviceInv cfg st1 := by
  intro d
  obtain ⟨h1, h2⟩ := hI d
  have hs := hsem d
  have ho := hout d
  rw [hws, sum_map_set (holdsDevice d) st.workers i w w1 hw,
    sum_map_set (runsDevice d) st.workers i w w1 hw]
  constructor <;> omega

/-- A step that moves worker `i` from place `p` to place `q` without a change
of the semaphores or of the log keeps the invariant when both places hold the
device or both do not, and both are between the two lines or both are not. -/
theorem deviceInv_move (cfg : ConfigType) (st st1 : IoState) (i : Nat) (w w1 : Worker)
    (hI : DeviceInv cfg st) (hw : st.workers[i]? = some w)
    (hws : st1.workers = st.workers.set i w1)
    (hsem : ∀ d, st1.semaphore d = st.semaphore d) (hout : st1.output = st.output)
    (hmeta : w1.runMeta = w.runMeta) (hh : w1.pc.holds = w.pc.holds)
    (hs : w1.pc.started = w.pc.started) : DeviceInv cfg st1 := by
  apply deviceInv_of_update cfg st st1 i w w1 hI hw hws
  · intro d
    simp only [hsem d, holdsDevice, hmeta, hh]
  · intro d
    simp only [hout, runsDevice, hmeta, hs]

theorem workerStep_deviceInv (cfg : ConfigType) (st st1 : IoState) (i : Nat)
    (hI : DeviceInv cfg st) (h : workerStep cfg st i = some st1) : DeviceInv cfg st1 := by
  simp only [workerStep] at h
  cases hw : st.workers[i]? with
  | none => simp [hw] at h
  | some w =>
    simp only [hw] at h
    cases hdev : deviceOf w.runMeta with
    | none =>
      cases hpc : w.pc <;> simp only [hpc, hdev] at h <;> try cases h
      · exact deviceInv_of_update cfg st _ i w { w with pc := WorkerPc.released } hI hw rfl
          (fun d => by cases d <;> simp [IoState.setWorker, IoState.semaphore, holdsDevice, hdev])
          (fun d => by simp [IoState.setWorker, runsDevice, hdev])
      · exact deviceInv_of_update cfg st _ i w { w with pc := WorkerPc.exited } hI hw rfl
          (fun d => by cases d <;> simp [IoState.setWorker, IoState.semaphore, holdsDevice, hdev])
          (fun d => by simp [IoState.setWorker, runsDevice, hdev])
    | some d =>
      cases hpc : w.pc <;> simp only [hpc, hdev] at h
      · -- entry
        split_ifs at h with hpos
        cases h
        refine deviceInv_of_update cfg st _ i w { w with pc := WorkerPc.acquired } hI hw
          (by simp [IoState.setWorker, (setSemaphore_frame st d _).1]) ?_ ?_
        · intro d1
          simp only [IoState.setWorker, holdsDevice, hdev, hpc, WorkerPc.holds]
          have e : ({ st.setSemaphore d (st.semaphore d - 1) with
              workers := (st.setSemaphore d (st.semaphore d - 1)).workers.set i
                { w with pc := WorkerPc.acquired } } : IoState).semaphore d1
              = (st.setSemaphore d (st.semaphore d - 1)).semaphore d1 := by cases d1 <;> rfl
          rw [e, semaphore_setSemaphore]
          by_cases hd : d1 = d
          · subst hd
            simp
            omega
          · have hd2 : ¬ (d = d1) := fun hx => hd hx.symm
            simp [hd, hd2]
        · intro d1
          simp [IoState.setWorker, (setSemaphore_frame st d _).2, runsDevice, hpc,
            WorkerPc.started]
      · -- acquired
        split_ifs at h <;> cases h
        · exact deviceInv_move cfg st _ i w _ hI hw rfl (fun d1 => by cases d1 <;> rfl) rfl rfl
            (by simp [hpc, WorkerPc.holds]) (by simp [hpc, WorkerPc.started])
        · exact deviceInv_move cfg st _ i w _ hI hw rfl (fun d1 => by cases d1 <;> rfl) rfl rfl
            (by simp [hpc, WorkerPc.holds]) (by simp [hpc, WorkerPc.started])
      · -- scanTest
        split_ifs at h
        · cases hb : (st.used d)[w.semNum]? with
          | none => simp [hb] at h
          | some b =>
            simp only [hb] at h
            split_ifs at h <;> cases h
            · exact deviceInv_move cfg st _ i w _ hI hw rfl (fun d1 => by cases d1 <;> rfl) rfl
                rfl (by simp [hpc, WorkerPc.holds]) (by simp [hpc, WorkerPc.started])
            · exact deviceInv_move cfg st _ i w _ hI hw rfl (fun d1 => by cases d1 <;> rfl) rfl
                rfl (by simp [hpc, WorkerPc.holds]) (by simp [hpc, WorkerPc.started])
        · cases h
          exact deviceInv_move cfg st _ i w _ hI hw rfl (fun d1 => by cases d1 <;> rfl) rfl
            rfl (by simp [hpc, WorkerPc.holds]) (by simp [hpc, WorkerPc.started])
      · -- scanMark
        split_ifs at h
        cases h
        exact deviceInv_move cfg st _ i w { w with pc := WorkerPc.scanned } hI hw
          (by simp [IoState.setWorker, (setUsed_frame st d _).1])
          (fun d1 => by
            have e : ∀ (s : IoState) (ws : List Worker),
              ({ s with workers := ws } : IoState).semaphore d1 = s.semaphore d1 :=
              fun s ws => by cases d1 <;> rfl
            simp only [IoState.setWorker, e]
            exact (setUsed_frame st d _).2.2 d1)
          (by simp [IoState.setWorker, (setUsed_frame st d _).2.1]) rfl
          (by simp [hpc, WorkerPc.holds]) (by simp [hpc, WorkerPc.started])
      · -- scanned
        cases hl : startLine d w with
        | none =>
          simp only [hl] at h
          cases h
          exact deviceInv_move cfg st _ i w _ hI hw rfl (fun d1 => by cases d1 <;> rfl) rfl
            rfl (by simp [hpc, WorkerPc.holds]) (by simp [hpc, WorkerPc.started])
        | some l =>
          simp only [hl] at h
          split_ifs at h
          cases h
          exact deviceInv_move cfg st _ i w _ hI hw rfl (fun d1 => by cases d1 <;> rfl) rfl
            rfl (by simp [hpc, WorkerPc.holds]) (by simp [hpc, WorkerPc.started])
      · -- startLocked
        cases hl : startLine d w with
        | none => simp [hl] at h
        | some l =>
          simp only [hl] at h
          cases h
          obtain ⟨hs1, hs2⟩ := startLine_startOf d w l hl
          refine deviceInv_of_update cfg st _ i w { w with pc := WorkerPc.startWritten } hI hw
            rfl ?_ ?_
          · intro d1
            have e : ({ st with output := st.output ++ [l] }.setWorker i
                { w with pc := WorkerPc.startWritten }).semaphore d1 = st.semaphore d1 := by
              cases d1 <;> rfl
            rw [e]
            simp [holdsDevice, hpc, WorkerPc.holds]
          · intro d1
            show inFlight d1 (st.output ++ [l]) - _ = _
            rw [inFlight_append, hs1, hs2]
            simp only [runsDevice, hdev, hpc, WorkerPc.started]
            by_cases hd : d = d1 <;> simp [hd]
      · -- startWritten
        cases h
        exact deviceInv_move cfg st _ i w _ hI hw rfl (fun d1 => by cases d1 <;> rfl) rfl
          rfl (by simp [hpc, WorkerPc.holds]) (by simp [hpc, WorkerPc.started])
      · -- startReleased
        cases h
        exact deviceInv_move cfg st _ i w _ hI hw rfl (fun d1 => by cases d1 <;> rfl) rfl
          rfl (by simp [hpc, WorkerPc.holds]) (by simp [hpc, WorkerPc.started])
      · -- busy
        split_ifs at h
        cases h
        exact deviceInv_move cfg st _ i w _ hI hw rfl (fun d1 => by cases d1 <;> rfl) rfl
          rfl (by simp [hpc, WorkerPc.holds]) (by simp [hpc, WorkerPc.started])
      · -- endLocked
        cases hl : endLine d w with
        | none => simp [hl] at h
        | some l =>
          simp only [hl] at h
          cases h
          obtain ⟨hs1, hs2⟩ := endLine_endOf d w l hl
          refine deviceInv_of_update cfg st _ i w { w with pc := WorkerPc.endWritten } hI hw
            rfl ?_ ?_
          · intro d1
            have e : ({ st with output := st.output ++ [l] }.setWorker i
                { w with pc := WorkerPc.endWritten }).semaphore d1 = st.semaphore d1 := by
              cases d1 <;> rfl
            rw [e]
            simp [holdsDevice, hpc, WorkerPc.holds]
          · intro d1
            show inFlight d1 (st.output ++ [l]) - _ = _
            rw [inFlight_append, hs1, hs2]
            simp only [runsDevice, hdev, hpc, WorkerPc.started]
            by_cases hd : d = d1 <;> simp [hd]
      · -- endWritten
        cases h
        exact deviceInv_move cfg st _ i w _ hI hw rfl (fun d1 => by cases d1 <;> rfl) rfl
          rfl (by simp [hpc, WorkerPc.holds]) (by simp [hpc, WorkerPc.started])
      · -- endReleased
        split_ifs at h
        · cases hc : slotClear (st.used d) w.semNum with
          | none => simp [hc] at h
          | some used =>
            simp only [hc] at h
            cases h
            exact deviceInv_move cfg st _ i w { w with pc := WorkerPc.slotCleared } hI hw
              (by simp [IoState.setWorker, (setUsed_frame st d _).1])
              (fun d1 => by
                have e : ∀ (s : IoState) (ws : List Worker),
                  ({ s with workers := ws } : IoState).semaphore d1 = s.semaphore d1 :=
                  fun s ws => by cases d1 <;> rfl
                simp only [IoState.setWorker, e]
                exact (setUsed_frame st d _).2.2 d1)
              (by simp [IoState.setWorker, (setUsed_frame st d _).2.1]) rfl
              (by simp [hpc, WorkerPc.holds]) (by simp [hpc, WorkerPc.started])
        · cases h
          exact deviceInv_move cfg st _ i w _ hI hw rfl (fun d1 => by cases d1 <;> rfl) rfl
            rfl (by simp [hpc, WorkerPc.holds]) (by simp [hpc, WorkerPc.started])
      · -- slotCleared
        cases h
        refine deviceInv_of_update cfg st _ i w { w with pc := WorkerPc.released } hI hw
          (by simp [IoState.setWorker, (setSemaphore_frame st d _).1]) ?_ ?_
        · intro d1
          simp only [IoState.setWorker, holdsDevice, hdev, hpc, WorkerPc.holds]
          have e : ({ st.setSemaphore d (st.semaphore d + 1) with
              workers := (st.setSemaphore d (st.semaphore d + 1)).workers.set i
                { w with pc := WorkerPc.released } } : IoState).semaphore d1
              = (st.setSemaphore d (st.semaphore d + 1)).semaphore d1 := by cases d1 <;> rfl
          rw [e, semaphore_setSemaphore]
          by_cases hd : d1 = d
          · subst hd
            simp
          · have hd2 : ¬ (d = d1) := fun hx => hd hx.symm
            simp [hd, hd2]
        · intro d1
          simp [IoState.setWorker, (setSemaphore_frame st d _).2, runsDevice, hpc,
            WorkerPc.started]
      · -- released
        cases h
        exact deviceInv_move cfg st _ i w _ hI hw rfl (fun d1 => by cases d1 <;> rfl) rfl
          rfl (by simp [hpc, WorkerPc.holds]) (by simp [hpc, WorkerPc.started])
      · -- exited
        cases h

theorem spawnWorker_deviceInv (cfg : ConfigType) (st st1 : IoState) (runMeta : MetaDataType)
    (processNum : Int) (hI : DeviceInv cfg st)
    (h : spawnWorker st runMeta processNum = some st1) : DeviceInv cfg st1 := by
  simp only [spawnWorker] at h
  split_ifs at h
  cases h
  intro d
  obtain ⟨h1, h2⟩ := hI d
  have e : ∀ (s : IoState) (t : Int) (ws : List Worker),
      ({ s with threadCount := t, workers := ws } : IoState).semaphore d = s.semaphore d :=
    fun s t ws => by cases d <;> rfl
  simp only [e, List.map_append, List.sum_append, List.map_cons, List.map_nil, List.sum_cons,
    List.sum_nil, holdsDevice, runsDevice, WorkerPc.holds, WorkerPc.started]
  simp only [Bool.false_eq_true, and_false, if_false, add_zero]
  exact ⟨h1, h2⟩

theorem deviceInit_deviceInv (cfg : ConfigType) (st : IoState) (h : deviceInit cfg = some st) :
    DeviceInv cfg st := by
  simp only [deviceInit] at h
  split_ifs at h with hc
  cases h
  intro d
  cases d <;> simp [IoState.semaphore, deviceCount, inFlight] <;> omega

theorem interleave_deviceInv (cfg : ConfigType) :
    ∀ (steps : List ThreadStep) (st st1 : IoState), interleave cfg steps st = some st1 →
      DeviceInv cfg st → DeviceInv cfg st1 := by
  intro steps
  induction steps with
  | nil => intro st st1 h hI; simp only [interleave] at h; cases h; exact hI
  | cons s rest ih =>
    intro st st1 h hI
    simp only [interleave] at h
    cases hs : threadStep cfg st s with
    | none => simp [hs] at h
    | some st2 =>
      simp only [hs] at h
      refine ih st2 st1 h ?_
      cases s with
      | create runMeta processNum => exact spawnWorker_deviceInv cfg st st2 _ _ hI hs
      | worker i => exact workerStep_deviceInv cfg st st2 i hI hs

theorem holdsDevice_bounds (d : Device) (w : Worker) :
    0 ≤ runsDevice d w ∧ runsDevice d w ≤ holdsDevice d w := by
  simp only [runsDevice, holdsDevice]
  by_cases h1 : deviceOf w.runMeta = some d
  · cases hpc : w.pc <;> simp [h1, WorkerPc.started, WorkerPc.holds]
  · simp [h1]

theorem sum_runs_le_holds (d : Device) (ws : List Worker) :
    0 ≤ (ws.map (runsDevice d)).sum ∧
    (ws.map (runsDevice d)).sum ≤ (ws.map (holdsDevice d)).sum := by
  induction ws with
  | nil => simp
  | cons w rest ih =>
    have := holdsDevice_bounds d w
    simp only [List.map_cons, List.sum_cons]
    omega

/-- After any interleaving of the threads, for every device class the start
lines without an end line are at most as many as the class has devices. -/
theorem deviceRun_bound (cfg : ConfigType) (steps : List ThreadStep) (st : IoState)
    (h : deviceRun cfg steps = some st) (d : Device) :
    0 ≤ inFlight d st.output ∧ inFlight d st.output ≤ deviceCount cfg d := by
  simp only [deviceRun] at h
  cases h0 : deviceInit cfg with
  | none => simp [h0] at h
  | some st0 =>
    simp only [h0, Option.some_bind] at h
    obtain ⟨h1, h2⟩ := interleave_deviceInv cfg steps st0 st h
      (deviceInit_deviceInv cfg st0 h0) d
    have := sum_runs_le_holds d st.workers
    rw [h2]
    constructor
    · exact this.1
    · have hs : (0 : Int) ≤ (st.semaphore d : Int) := Int.ofNat_nonneg _
      omega

theorem interleave_append (cfg : ConfigType) :
    ∀ (steps more : List ThreadStep) (st : IoState),
      interleave cfg (steps ++ more) st = (interleave cfg steps st).bind (interleave cfg more) := by
  intro steps
  induction steps with
  | nil => intro more st; rfl
  | cons s rest ih =>
    intro more st
    simp only [List.cons_append, interleave]
    cases threadStep cfg st s with
    | none => rfl
    | some st1 => exact ih more st1

/-- At every point of an interleaving, that is after each of its prefixes, the
bound of the device classes holds. -/
theorem deviceRun_prefix_bound (cfg : ConfigType) (steps : List ThreadStep) (st : IoState)
    (h : deviceRun cfg steps = some st) (k : Nat) :
    ∃ stk, deviceRun cfg (steps.take k) = some stk ∧
      ∀ d, 0 ≤ inFlight d stk.output ∧ inFlight d stk.output ≤ deviceCount cfg d := by
  have hsplit : deviceRun cfg (steps.take k ++ steps.drop k) = some st := by
    rw [List.take_append_drop]; exact h
  simp only [deviceRun] at hsplit
  cases h0 : deviceInit cfg with
  | none => simp [h0] at hsplit
  | some st0 =>
    simp only [h0, Option.some_bind, interleave_append] at hsplit
    cases hk : interleave cfg (steps.take k) st0 with
    | none => simp [hk] at hsplit
    | some stk =>
      have hrun : deviceRun cfg (steps.take k) = some stk := by
        simp only [deviceRun, h0, Option.some_bind, hk]
      exact ⟨stk, hrun, fun d => deviceRun_bound cfg _ stk hrun d⟩

/-! ## The claims on the workers, the clock and single calls of `run` -/

/-- C21.  In every interleaving of the scheduler thread and the workers that
starts when `main` has initialised the semaphores, at every point of it (after
each prefix of its steps) and for every device class, the start lines of the
class that have no end line yet are at most as many as the class has devices:
1 for the monitor and the keyboard, `hdCount` for the hard drives and
`printerCount` for the printers. -/
theorem device_bound_every_interleaving (cfg : ConfigType) (steps : List ThreadStep)
    (st : IoState) (h : deviceRun cfg steps = some st) (k : Nat) :
    ∃ stk, deviceRun cfg (steps.take k) = some stk ∧
      ∀ d, 0 ≤ inFlight d stk.output ∧ inFlight d stk.output ≤ deviceCount cfg d :=
  deviceRun_prefix_bound cfg steps st h k

/-- C21, for scenario S3: two workers for `I(hard drive)2` and one hard drive.
The second worker writes its start line after the end line of the first, and
after the first 7 steps one start line is without its end line. -/
theorem device_bound_every_interleaving_witness :
    (deviceRun (exampleConfig 5 RR) hardDriveContention).map (fun st => st.output)
      = some [IoLine.startHardDriveInput 1 0, IoLine.endHardDriveInput 1 0,
              IoLine.startHardDriveInput 2 0, IoLine.endHardDriveInput 2 0] ∧
    (deviceRun (exampleConfig 5 RR) (hardDriveContention.take 7)).map
      (fun st => inFlight Device.hardDrive st.output) = some 1 ∧
    deviceCount (exampleConfig 5 RR) Device.hardDrive = 1 ∧
    ∃ stk, deviceRun (exampleConfig 5 RR) (hardDriveContention.take 7) = some stk ∧
      ∀ d, 0 ≤ inFlight d stk.output ∧
        inFlight d stk.output ≤ deviceCount (exampleConfig 5 RR) d :=
  ⟨by decide, by decide, by decide,
   device_bound_every_interleaving (exampleConfig 5 RR) hardDriveContention
     ((deviceRun (exampleConfig 5 RR) hardDriveContention).get (by decide))
     (Option.some_get _).symm 7⟩

/-- C22 (the code departs from the claim).  The claim has the counter returned
by `run` at least as large as the counter given, also for an I/O opcode.  In
one call of `runProcess` with quantum 10 on the process loaded from
`A(start)0; P(run)4; I(keyboard)1; P(run)4; A(end)0` the counter is 4 after two
passes of the loop, the third pass calls `run` with counter 4 on
`I(keyboard)1`, and `run` returns 2: the I/O branch overwrites the counter
with the cycles of the opcode before it adds one. -/
theorem run_io_counter_decreases :
    (runProcessPasses (exampleConfig 10 RR) 2
      (RunProcessState.enter (firstProcess ioBetweenRuns) Shared.init)).map
      (fun st => (st.cyclesRun, (fetch st).running.current, (fetch st).dequeued))
      = some (4, opcode 'I' "keyboard" 1, true) ∧
    (runProcessPasses (exampleConfig 10 RR) 2
      (RunProcessState.enter (firstProcess ioBetweenRuns) Shared.init)).bind
      (fun st => (run (fetch st).running (fetch st).sh (exampleConfig 10 RR) st.cyclesRun).map
        (fun r => r.2.2)) = some 2 ∧
    (runProcessPasses (exampleConfig 10 RR) 3
      (RunProcessState.enter (firstProcess ioBetweenRuns) Shared.init)).map
      (fun st => st.cyclesRun) = some 2 := by
  decide

/-- C23.  One call of `run` on a current opcode of code `P`, or of code `M`
with descriptor `allocate` or `cache`, with cycles above 0 and a counter below
the quantum: the call returns; the lines it appends end with a line `last`
and none of the lines before it is a completion line or an interrupt line of
the opcode; `last` is the completion line (and not the interrupt line) when
the cycles of the opcode are 0 on return, and it is the interrupt line (and
not the completion line) when cycles remain, and then the returned counter is
the quantum. -/
theorem run_line_last (cfg : ConfigType) (running : Process) (sh : Shared) (cycle : Int)
    (hkind : isCpuOrMemory running.current) (hpos : 0 < running.current.cycles)
    (hlt : cycle < cfg.quantum) :
    ∃ running1 sh1 cycle1 pre last,
      run running sh cfg cycle = some (running1, sh1, cycle1) ∧
      sh1.output = sh.output ++ pre ++ [last] ∧
      (∀ l ∈ pre, isCompletionLine running.current running.control.processNum l = false ∧
        isInterruptLine running.current running.control.processNum l = false) ∧
      0 ≤ running1.current.cycles ∧
      (running1.current.cycles = 0 →
        isCompletionLine running.current running.control.processNum last = true ∧
        isInterruptLine running.current running.control.processNum last = false) ∧
      (running1.current.cycles ≠ 0 →
        isInterruptLine running.current running.control.processNum last = true ∧
        isCompletionLine running.current running.control.processNum last = false ∧
        cycle1 = cfg.quantum) :=
  run_last_line cfg running sh cycle hkind hpos hlt

/-- C23, for a fresh `P(run)5` under quantum 3: the call appends the start
line and the interrupt line, 2 cycles remain and the counter is 3. -/
theorem run_line_last_witness :
    (run freshRun Shared.init (exampleConfig 3 RR) 0).map
      (fun r => (r.1.current.cycles, r.2.1.output, r.2.2))
      = some (2, [LogLine.startProcessing 1, LogLine.interruptProcessing 1], 3) ∧
    ∃ running1 sh1 cycle1 pre last,
      run freshRun Shared.init (exampleConfig 3 RR) 0 = some (running1, sh1, cycle1) ∧
      sh1.output = Shared.init.output ++ pre ++ [last] ∧
      (∀ l ∈ pre, isCompletionLine freshRun.current freshRun.control.processNum l = false ∧
        isInterruptLine freshRun.current freshRun.control.processNum l = false) ∧
      0 ≤ running1.current.cycles ∧
      (running1.current.cycles = 0 →
        isCompletionLine freshRun.current freshRun.control.processNum last = true ∧
        isInterruptLine freshRun.current freshRun.control.processNum last = false) ∧
      (running1.current.cycles ≠ 0 →
        isInterruptLine freshRun.current freshRun.control.processNum last = true ∧
        isCompletionLine freshRun.current freshRun.control.processNum last = false ∧
        cycle1 = (exampleConfig 3 RR).quantum) :=
  ⟨by decide,
   run_line_last (exampleConfig 3 RR) freshRun Shared.init 0 (Or.inl rfl) (by decide)
     (by decide)⟩

/-- C24 (the claim fails on this input).  The current opcode is `A(start)` with
1 cycle, the quantum is 3 and `run` is entered with the counter 0: it sets
`RUNNING` and writes no line, and the counter it returns is 3, not 0.  The
loop of `run` has no branch for the codes `S` and `A`; a pass on such an
opcode only adds one to the counter, and the passes go on up to the quantum. -/
theorem marker_with_cycle_moves_counter :
    (run (processAt (opcode 'A' "start" 1)) Shared.init (exampleConfig 3 RR) 0).map
      (fun r => (r.1.control.state, r.2.1.output, r.2.2)) = some (RUNNING, [], 3) := by
  decide

/-- C24 (amended).  For a current opcode of code `S` or `A` with descriptor
`start` or `end` and any cycles, `run` returns: the state is `READY` for
`S(start)`, `RUNNING` for `A(start)` and `EXIT` for `S(end)` and `A(end)`, no
other field of the process changes, the stream is as it was, and the returned
counter is the one given when the opcode has no cycles above 0 or the counter
has reached the quantum, and the quantum otherwise. -/
theorem marker_sets_state_only (cfg : ConfigType) (running : Process) (sh : Shared)
    (cycle : Int)
    (hcode : running.current.code = 'S' ∨ running.current.code = 'A')
    (hdesc : running.current.descriptor = "start" ∨ running.current.descriptor = "end") :
    run running sh cfg cycle = some
      ({ running with control := { running.control with state := markerState running.current } },
       { sh with executed := sh.executed ++ [running.current] },
       if 0 < running.current.cycles ∧ cycle < cfg.quantum then cfg.quantum else cycle) :=
  run_marker cfg running sh cycle hcode hdesc

/-- C24, for `S(end)0` entered with the counter 2 under quantum 3: the state is
`EXIT` and the counter stays 2. -/
theorem marker_sets_state_only_witness :
    markerState (processAt (opcode 'S' "end" 0)).current = EXIT ∧
    run (processAt (opcode 'S' "end" 0)) Shared.init (exampleConfig 3 RR) 2 = some
      ({ processAt (opcode 'S' "end" 0) with
          control := { (processAt (opcode 'S' "end" 0)).control with
            state := markerState (processAt (opcode 'S' "end" 0)).current } },
       { Shared.init with
          executed := Shared.init.executed ++ [(processAt (opcode 'S' "end" 0)).current] },
       if 0 < (processAt (opcode 'S' "end" 0)).current.cycles ∧ 2 < (exampleConfig 3 RR).quantum
       then (exampleConfig 3 RR).quantum else 2) :=
  ⟨by decide,
   marker_sets_state_only (exampleConfig 3 RR) (processAt (opcode 'S' "end" 0)) Shared.init 2
     (Or.inl rfl) (Or.inr rfl)⟩

/-- C25.  For a bitmap of `count` entries of which one at least is `false`, the
slot scan of a worker returns the lowest index `i` whose entry is `false` and
the bitmap with entry `i` set: entry `i` is `true`, every other entry is as
before, and clearing entry `i` gives the bitmap of before the scan. -/
theorem slot_scan_lowest_free (count : Int) (used : List Bool)
    (hlen : (used.length : Int) = count) (hfree : ∃ j : Nat, used[j]? = some false) :
    ∃ i : Nat,
      slotScan count used = some (i, used.set i true) ∧
      used[i]? = some false ∧ (∀ j : Nat, j < i → used[j]? = some true) ∧
      (used.set i true)[i]? = some true ∧
      (∀ j : Nat, j ≠ i → (used.set i true)[j]? = used[j]?) ∧
      slotClear (used.set i true) i = some used :=
  slotScan_first_free count used hlen hfree

/-- C25, for four devices of which the second and the fourth are free: the
scan records slot 1. -/
theorem slot_scan_lowest_free_witness :
    slotScan 4 [true, false, true, false] = some (1, [true, true, true, false]) ∧
    ∃ i : Nat,
      slotScan 4 [true, false, true, false]
        = some (i, [true, false, true, false].set i true) ∧
      [true, false, true, false][i]? = some false ∧
      (∀ j : Nat, j < i → [true, false, true, false][j]? = some true) ∧
      ([true, false, true, false].set i true)[i]? = some true ∧
      (∀ j : Nat, j ≠ i →
        ([true, false, true, false].set i true)[j]? = [true, false, true, false][j]?) ∧
      slotClear ([true, false, true, false].set i true) i = some [true, false, true, false] :=
  ⟨by decide,
   slot_scan_lowest_free 4 [true, false, true, false] (by decide) ⟨1, by decide⟩⟩

/-- C26.  For a reference time and a current time with microsecond fields in
`[0, 1000000)`, the current time not before the reference and less than `2^31`
microseconds after it, `timePassed` returns
`(cur.tv_sec - ref.tv_sec) * 1000000 + (cur.tv_usec - ref.tv_usec)`, also when
the microsecond field of the current time is the smaller one. -/
theorem timePassed_microseconds (refTime currentTime : Timeval)
    (hr0 : 0 ≤ refTime.tv_usec) (hr1 : refTime.tv_usec < 1000000)
    (hc0 : 0 ≤ currentTime.tv_usec) (hc1 : currentTime.tv_usec < 1000000)
    (hlater : 0 ≤ (currentTime.tv_sec - refTime.tv_sec) * 1000000
      + (currentTime.tv_usec - refTime.tv_usec))
    (hsmall : (currentTime.tv_sec - refTime.tv_sec) * 1000000
      + (currentTime.tv_usec - refTime.tv_usec) < 2147483648) :
    timePassed refTime currentTime
      = (currentTime.tv_sec - refTime.tv_sec) * 1000000
        + (currentTime.tv_usec - refTime.tv_usec) :=
  timePassed_exact refTime currentTime hr0 hr1 hc0 hc1 hlater hsmall

/-- C26, for the borrow case: from 10.900000 s to 12.100000 s are 1200000
microseconds. -/
theorem timePassed_microseconds_witness :
    timePassed (timevalOf 10 900000) (timevalOf 12 100000) = 1200000 ∧
    timePassed (timevalOf 10 900000) (timevalOf 12 100000)
      = ((timevalOf 12 100000).tv_sec - (timevalOf 10 900000).tv_sec) * 1000000
        + ((timevalOf 12 100000).tv_usec - (timevalOf 10 900000).tv_usec) :=
  ⟨by decide,
   timePassed_microseconds (timevalOf 10 900000) (timevalOf 12 100000) (by decide) (by decide)
     (by decide) (by decide) (by decide) (by decide)⟩

/-- C27 (the code departs from the claim).  The claim has every process number
written as a decimal numeral.  Under round robin with quantum 5, for ten
processes of which the first executes `M(allocate)1`, the line
`memory allocated at` of process 1 leaves the stream in base 16, and the three
lines of process 10 are written as `OS: preparing process a`,
`OS: starting process a` and `OS: process a completed`. -/
theorem process_number_in_hex :
    (readInput tenProcesses).map (fun p => p.control.processNum)
      = [1, 2, 3, 4, 5, 6, 7, 8, 9, 10] ∧
    (main 20 false (exampleConfig 5 RR) tenProcesses).map (fun log => log.drop 30)
      = some [LogLine.osPreparing 10, LogLine.osStarting 10, LogLine.osCompleted 10,
              LogLine.simulatorEnding] ∧
    (main 20 false (exampleConfig 5 RR) tenProcesses).map
      (fun log => ((renderLog log).take 6, (renderLog log).drop 30))
      = some (["Simulator program starting", "OS: preparing process 1",
               "OS: starting process 1", "Process 1 allocating memory",
               "Process 1 memory allocated at 0x00000000", "OS: process 1 completed"],
              ["OS: preparing process a", "OS: starting process a",
               "OS: process a completed", "Simulator program ending"]) ∧
    (LogLine.osPreparing 10).text false = "OS: preparing process 10" := by
  decide

/-- C28.  When the scheduler loop, after any number of passes from its start
on a table, finds `checkCompleted` false and calls `getSchedule` with the
round robin algorithm: the table has at least one process and one that is not
in `EXIT`, so the remainder is not by zero; with as many steps as the table
has processes the loop over the processes in `EXIT` ends; and the index
returned is one of the table whose process is not in `EXIT`.  On the empty
table `checkCompleted` is true and the loop ends without a scheduling
decision. -/
theorem round_robin_call_is_safe (config : ConfigType) (program : List Process)
    (fuel n : Nat) (st : MainState) (fuel1 : Nat)
    (hrr : config.schedulingAlg = RR)
    (hreach : mainTurns config fuel n (MainState.init program) = some st)
    (hnot : checkCompleted st.program = false) (hfuel : st.program.length ≤ fuel1) :
    (1 ≤ st.program.length ∧ (∃ p ∈ st.program, p.control.state ≠ EXIT) ∧
      ∃ (r : Nat) (p : Process),
        getSchedule fuel1 st.program config.schedulingAlg st.processIndex = some (r : Int) ∧
        r < st.program.length ∧ st.program[r]? = some p ∧ p.control.state ≠ EXIT) ∧
    checkCompleted [] = true ∧
    ∀ fuel2 : Nat, mainLoop config fuel2 (MainState.init []) = some (MainState.init []) :=
  ⟨hrr ▸ getSchedule_rr_call config program fuel n st fuel1 hreach hnot hfuel,
   rfl, fun fuel2 => mainLoop_empty config fuel2⟩

/-- C28, for two processes under round robin with quantum 3 after the first
pass: process 1 is not finished, the previous index is 0, and `getSchedule`
returns index 1 with 2 steps of fuel. -/
theorem round_robin_call_is_safe_witness :
    ∃ st : MainState,
      mainTurns (exampleConfig 3 RR) 20 1 (MainState.init (readInput batchWorkload)) = some st ∧
      st.processIndex = 0 ∧
      getSchedule 2 st.program RR st.processIndex = some 1 ∧
      (1 ≤ st.program.length ∧ (∃ p ∈ st.program, p.control.state ≠ EXIT) ∧
        ∃ (r : Nat) (p : Process),
          getSchedule 2 st.program (exampleConfig 3 RR).schedulingAlg st.processIndex
            = some (r : Int) ∧
          r < st.program.length ∧ st.program[r]? = some p ∧ p.control.state ≠ EXIT) ∧
      checkCompleted [] = true ∧
      ∀ fuel2 : Nat,
        mainLoop (exampleConfig 3 RR) fuel2 (MainState.init []) = some (MainState.init []) :=
  ⟨(mainTurns (exampleConfig 3 RR) 20 1 (MainState.init (readInput batchWorkload))).get
      (by decide),
   (Option.some_get _).symm, by decide, by decide,
   round_robin_call_is_safe (exampleConfig 3 RR) (readInput batchWorkload) 20 1 _ 2
     (by decide) (Option.some_get _).symm (by decide) (by decide)⟩

/-! ### The process list for any content of the unassigned fields -/

theorem withUnassignedFrom_length (fresh : Nat → Unassigned) :
    ∀ (program : List Process) (start : Nat),
      (withUnassignedFrom fresh start program).length = program.length := by
  intro program
  induction program with
  | nil => intro start; rfl
  | cons p rest ih => intro start; simp [withUnassignedFrom, ih]

theorem withUnassignedFrom_append (fresh : Nat → Unassigned) :
    ∀ (program : List Process) (start : Nat) (p : Process),
      withUnassignedFrom fresh start (program ++ [p])
        = withUnassignedFrom fresh start program
          ++ [withUnassigned (fresh (start + program.length)) p] := by
  intro program
  induction program with
  | nil => intro start p; simp [withUnassignedFrom]
  | cons q rest ih =>
    intro start p
    have e : start + 1 + rest.length = start + (rest.length + 1) := by omega
    show withUnassigned (fresh start) q :: withUnassignedFrom fresh (start + 1) (rest ++ [p])
      = withUnassigned (fresh start) q ::
        (withUnassignedFrom fresh (start + 1) rest
          ++ [withUnassigned (fresh (start + (rest.length + 1))) p])
    rw [ih (start + 1) p, e]

theorem withUnassignedFrom_getElem? (fresh : Nat → Unassigned) :
    ∀ (program : List Process) (start i : Nat),
      (withUnassignedFrom fresh start program)[i]?
        = (program[i]?).map (withUnassigned (fresh (start + i))) := by
  intro program
  induction program with
  | nil => intro start i; simp [withUnassignedFrom]
  | cons p rest ih =>
    intro start i
    cases i with
    | zero => simp [withUnassignedFrom]
    | succ i =>
      simp only [withUnassignedFrom, List.getElem?_cons_succ, ih]
      have e : start + 1 + i = start + (i + 1) := by omega
      rw [e]

theorem readInputLoopWith_eq (fresh : Nat → Unassigned) :
    ∀ (opcodes : List MetaDataType) (ptmp : Process) (processList : List Process),
      readInputLoopWith fresh opcodes (withUnassigned (fresh processList.length) ptmp)
          (withUnassignedFrom fresh 0 processList)
        = withUnassignedFrom fresh 0 (readInputLoop opcodes ptmp processList) := by
  intro opcodes
  induction opcodes with
  | nil => intro ptmp processList; rfl
  | cons mdtmp rest ih =>
    intro ptmp processList
    simp only [readInputLoopWith, readInputLoop, withUnassignedFrom_length]
    split_ifs with hend
    · have h := ih newProcess
        (processList ++ [{ ptmp with
          metaData := SimpleQueue.enqueue ptmp.metaData { mdtmp with started := false }
          timeRemaining := ptmp.timeRemaining + mdtmp.cycles
          control := { ptmp.control with processNum := processList.length + 1 }
          completed := false, cacheCount := 0, runningThreads := 0 }])
      rw [withUnassignedFrom_append] at h
      simp only [List.length_append, List.length_singleton, Nat.zero_add] at h
      exact h
    · exact ih { ptmp with
        metaData := SimpleQueue.enqueue ptmp.metaData { mdtmp with started := false }
        timeRemaining := ptmp.timeRemaining + mdtmp.cycles } processList

/-- The list of `readInputWith` is the list of `readInput` with the unassigned
fields of the process at index `i` holding `fresh i`. -/
theorem readInputWith_eq (fresh : Nat → Unassigned) (opcodes : List MetaDataType) :
    readInputWith fresh opcodes = withUnassignedFrom fresh 0 (readInput opcodes) :=
  readInputLoopWith_eq fresh opcodes newProcess []

theorem readInputWith_getElem? (fresh : Nat → Unassigned) (opcodes : List MetaDataType)
    (i : Nat) :
    (readInputWith fresh opcodes)[i]?
      = ((readInput opcodes)[i]?).map (withUnassigned (fresh i)) := by
  rw [readInputWith_eq, withUnassignedFrom_getElem?, Nat.zero_add]

theorem readInputWith_length (fresh : Nat → Unassigned) (opcodes : List MetaDataType) :
    (readInputWith fresh opcodes).length = (readInput opcodes).length := by
  rw [readInputWith_eq, withUnassignedFrom_length]

theorem readInputLoopWith_zeroFilled :
    ∀ (opcodes : List MetaDataType) (ptmp : Process) (processList : List Process),
      readInputLoopWith (fun _ => zeroFilled) opcodes ptmp processList
        = readInputLoop opcodes ptmp processList := by
  intro opcodes
  induction opcodes with
  | nil => intro ptmp processList; rfl
  | cons mdtmp rest ih =>
    intro ptmp processList
    simp only [readInputLoopWith, readInputLoop]
    split_ifs
    · have e : newProcessWith zeroFilled = newProcess := rfl
      rw [e]
      exact ih _ _
    · exact ih _ _

/-- With zero-filled memory `readInputWith` and `mainWith` are `readInput` and
`main`. -/
theorem readInputWith_zeroFilled (opcodes : List MetaDataType) :
    readInputWith (fun _ => zeroFilled) opcodes = readInput opcodes :=
  readInputLoopWith_zeroFilled opcodes newProcess []

theorem mainWith_zeroFilled (fuel : Nat) (finished : Bool) (config : ConfigType)
    (opcodes : List MetaDataType) :
    mainWith (fun _ => zeroFilled) fuel finished config opcodes
      = main fuel finished config opcodes := by
  simp only [mainWith, main, readInputWith_zeroFilled]

theorem readInput_state (opcodes : List MetaDataType) (i : Nat) (p : Process)
    (h : (readInput opcodes)[i]? = some p) : p.control.state = NEW := by
  rw [readInput_groups, processesOfGroups_getElem?] at h
  cases hg : (tokenGroups [] opcodes)[i]? with
  | none => rw [hg] at h; cases h
  | some g =>
    rw [hg] at h
    simp only [Option.map_some', Option.some.injEq] at h
    subst h
    rfl

/-! ### The lines `completed` for any content of the unassigned fields -/

theorem completedInv_init_with (fresh : Nat → Unassigned) (opcodes : List MetaDataType)
    (hio : ∀ m ∈ opcodes, m.code ≠ 'I' ∧ m.code ≠ 'O')
    (hfresh : ∀ i, NotExitNorDevice (fresh i)) :
    CompletedInv (MainState.init (readInputWith fresh opcodes)) := by
  obtain ⟨ht, hall⟩ := completedInv_init opcodes hio
  refine ⟨rfl, ?_⟩
  intro i p hp
  have hp2 : (readInputWith fresh opcodes)[i]? = some p := hp
  rw [readInputWith_getElem?] at hp2
  cases hp0 : (readInput opcodes)[i]? with
  | none => rw [hp0] at hp2; cases hp2
  | some p0 =>
    rw [hp0] at hp2
    simp only [Option.map_some', Option.some.injEq] at hp2
    subst hp2
    obtain ⟨hn, hnum, hthr, hne, _⟩ := hall i p0 hp0
    have hs0 : p0.control.state ≠ EXIT := by
      rw [readInput_state opcodes i p0 hp0]; decide
    obtain ⟨hg1, hg2, hg3⟩ := hfresh i
    refine ⟨⟨⟨hg2, hg3⟩, hn.2⟩, hnum, hthr, ?_, ?_⟩
    · intro _
      exact hne hs0
    · intro he
      exact absurd he hg1

theorem mainLoop_completed (config : ConfigType) :
    ∀ (fuel : Nat) (st st1 : MainState), mainLoop config fuel st = some st1 →
      checkCompleted st1.program = true := by
  intro fuel
  induction fuel with
  | zero =>
    intro st st1 h
    simp only [mainLoop] at h
    split_ifs at h with hc
    cases h
    exact hc
  | succ fuel ih =>
    intro st st1 h
    simp only [mainLoop] at h
    split_ifs at h with hc
    · cases h; exact hc
    · cases hb : mainBody fuel config st with
      | none => simp [hb] at h
      | some st2 =>
        simp only [hb] at h
        exact ih st2 st1 h

theorem drainLoop_completed (fuel : Nat) (finished : Bool) (program : List Process)
    (sh : Shared) (r : List Process × Shared) (ht : sh.threadCount = 0)
    (h : ∀ p ∈ program, p.completed = true)
    (hr : drainLoop fuel finished program sh = some r) : r = (program, sh) := by
  cases fuel with
  | zero =>
    simp only [drainLoop] at hr
    split_ifs at hr
    cases hr
    rfl
  | succ fuel =>
    rw [drainLoop_of_completed (fuel + 1) finished program sh (by omega) ht h] at hr
    cases hr
    rfl

/-- The lines `completed` of a workload without I/O, for any content of the
unassigned fields with a state that is not `EXIT` and a code that is not one
of I/O: between any two passes a process has its line exactly when it is in
`EXIT`, once and behind every other line about it, and a log that `main`
returns has the line of every process in that way. -/
theorem mainWith_completed_lines (config : ConfigType) (fresh : Nat → Unassigned)
    (opcodes : List MetaDataType)
    (hio : ∀ m ∈ opcodes, m.code ≠ 'I' ∧ m.code ≠ 'O')
    (hfresh : ∀ i, NotExitNorDevice (fresh i)) :
    (∀ (fuel n : Nat) (st : MainState),
      mainTurns config fuel n (MainState.init (readInputWith fresh opcodes)) = some st →
      ∀ (i : Nat) (p : Process), st.program[i]? = some p →
        (p.control.state ≠ EXIT →
          st.sh.output.count (LogLine.osCompleted ((i : Int) + 1)) = 0) ∧
        (p.control.state = EXIT → CompletedOnce ((i : Int) + 1) st.sh.output)) ∧
    (∀ (fuel : Nat) (finished : Bool) (log : List LogLine),
      mainWith fresh fuel finished config opcodes = some log →
      ∀ i : Nat, i < (readInputWith fresh opcodes).length →
        CompletedOnce ((i : Int) + 1) log) := by
  have hinit := completedInv_init_with fresh opcodes hio hfresh
  refine ⟨?_, ?_⟩
  · intro fuel n st h i p hp
    obtain ⟨_, hall⟩ := mainTurns_completedInv config fuel n _ st h hinit
    obtain ⟨_, _, _, hne, hex⟩ := hall i p hp
    exact ⟨fun hx => (hne hx).2, fun hx => (hex hx).2⟩
  · intro fuel finished log hmain i hi
    simp only [mainWith] at hmain
    cases hloop : mainLoop config fuel (MainState.init (readInputWith fresh opcodes)) with
    | none => simp [hloop] at hmain
    | some st1 =>
      simp only [hloop] at hmain
      cases hdrain : drainLoop fuel finished st1.program st1.sh with
      | none => simp [hdrain] at hmain
      | some r =>
        simp only [hdrain, Option.some.injEq] at hmain
        obtain ⟨hthr, hall⟩ := mainLoop_completedInv config fuel _ st1 hloop hinit
        have hexit : ∀ p ∈ st1.program, p.control.state = EXIT :=
          (checkCompleted_iff st1.program).mp (mainLoop_completed config fuel _ st1 hloop)
        have hcompleted : ∀ p ∈ st1.program, p.completed = true := by
          intro p hp
          obtain ⟨j, hj⟩ := List.getElem?_of_mem hp
          exact ((hall j p hj).2.2.2.2 (hexit p hp)).1
        have hr := drainLoop_completed fuel finished st1.program st1.sh r hthr hcompleted hdrain
        subst hr
        have hlen : st1.program.length = (readInputWith fresh opcodes).length := by
          have h := (mainLoop_inv (readInputWith fresh opcodes) config fuel _ st1 hloop
            (schedulerInv_init _)).1.1
          by_contra hne
          rcases Nat.lt_or_gt_of_ne hne with hlt | hgt
          · have a := h st1.program.length
            rw [List.getElem?_eq_none (Nat.le_refl _),
              List.getElem?_eq_getElem hlt] at a
            simp at a
          · have a := h (readInputWith fresh opcodes).length
            rw [List.getElem?_eq_none (Nat.le_refl _),
              List.getElem?_eq_getElem hgt] at a
            simp at a
        have hlt : i < st1.program.length := by omega
        have hget : st1.program[i]? = some st1.program[i] := List.getElem?_eq_getElem hlt
        have hex := (hall i _ hget).2.2.2.2 (hexit _ (List.getElem?_mem hget))
        rw [← hmain]
        exact completedOnce_append _ _ _ hex.2 (by
          intro l hl
          simp only [List.mem_singleton] at hl
          rw [hl]
          simp [lineProcess])

theorem batchTable_with (fresh : Nat → Unassigned) (opcodes : List MetaDataType)
    (hb : ∀ m ∈ opcodes, isBatchOpcode m)
    (ht : ∀ p ∈ readInputWith fresh opcodes, p.timeRemaining < 100000)
    (hc : ∀ i, (fresh i).cycles ≤ 0) :
    BatchTable (MainState.init (readInputWith fresh opcodes)) := by
  refine ⟨?_, by simp [MainState.init]⟩
  intro p hp
  have hp1 : p ∈ readInputWith fresh opcodes := hp
  refine ⟨?_, ht p hp1⟩
  obtain ⟨i, hi⟩ := List.getElem?_of_mem hp1
  rw [readInputWith_getElem?] at hi
  cases hp0 : (readInput opcodes)[i]? with
  | none => rw [hp0] at hi; cases hi
  | some p0 =>
    rw [hp0] at hi
    simp only [Option.map_some', Option.some.injEq] at hi
    subst hi
    obtain ⟨h1, _, h3, h4⟩ := batchProcess_readInput opcodes hb p0 (List.getElem?_mem hp0)
    have hs0 : p0.control.state ≠ EXIT := by
      rw [readInput_state opcodes i p0 hp0]; decide
    exact ⟨h1, Or.inl (hc i), h3, fun _ => h4 hs0⟩

/-! ### A current opcode that was never assigned and has a cycle -/

theorem idleProcess_cycleLeft (p : Process) : IdleProcess (withUnassigned cycleLeft p) := by
  refine ⟨by show (0 : Int) ≠ EXIT; decide, Or.inl ?_⟩
  simp [isIdleOpcode, isEndOpcode, withUnassigned, cycleLeft]

/-- When the memory of the first `new Process` leaves a cycle in the current
opcode, with a code that is none of `P`, `M`, `I` and `O`, the process at index
0 never dequeues its first opcode: the scheduler loop does not end and `main`
has no log, whatever the workload, the policy and the fuel. -/
theorem mainWith_cycleLeft (config : ConfigType) (fresh : Nat → Unassigned)
    (opcodes : List MetaDataType) (h0 : fresh 0 = cycleLeft)
    (hlen : 0 < (readInput opcodes).length) :
    (∀ fuel : Nat,
      mainLoop config fuel (MainState.init (readInputWith fresh opcodes)) = none) ∧
    ∀ (fuel : Nat) (finished : Bool), mainWith fresh fuel finished config opcodes = none := by
  have hget : (MainState.init (readInputWith fresh opcodes)).program[0]?
      = some (withUnassigned cycleLeft (readInput opcodes)[0]) := by
    show (readInputWith fresh opcodes)[0]? = _
    rw [readInputWith_getElem?, List.getElem?_eq_getElem hlen, h0]
    rfl
  have hloop : ∀ fuel : Nat,
      mainLoop config fuel (MainState.init (readInputWith fresh opcodes)) = none :=
    fun fuel => mainLoop_idle config 0 fuel _ _ hget (idleProcess_cycleLeft _)
  refine ⟨hloop, ?_⟩
  intro fuel finished
  simp [mainWith, hloop fuel]

/-! ### Termination of `runProcess` and of the scheduler loop under round robin -/

theorem isPassableOpcode_of_batch (m : MetaDataType) (h : isBatchOpcode m) :
    isPassableOpcode m := by
  rcases h with ⟨hc, hd, hz⟩ | ⟨hc, hd, hn⟩ | ⟨hc, hd, hn⟩
  · refine ⟨?_, ?_, ?_, ?_⟩
    · intro hr
      rcases hd with hd | hd <;> rw [hd] at hr <;> exact absurd hr (by decide)
    · intro hp; omega
    · rcases hc with hc | hc <;> rw [hc] <;> decide
    · rcases hc with hc | hc <;> rw [hc] <;> decide
  · exact ⟨fun _ => hc, fun _ => Or.inl hc, by rw [hc]; decide, by rw [hc]; decide⟩
  · refine ⟨?_, ?_, by rw [hc]; decide, by rw [hc]; decide⟩
    · intro hr
      rcases hd with hd | hd <;> rw [hd] at hr <;> exact absurd hr (by decide)
    · intro _
      rcases hd with hd | hd
      · exact Or.inr (Or.inl ⟨hc, hd⟩)
      · exact Or.inr (Or.inr ⟨hc, hd⟩)

theorem isCpuOrMemory_code (m : MetaDataType) (h : isCpuOrMemory m) :
    m.code = 'P' ∨ m.code = 'M' := by
  rcases h with h | ⟨h, _⟩ | ⟨h, _⟩
  · exact Or.inl h
  · exact Or.inr h
  · exact Or.inr h

theorem runProcessLoop_passable_pass (cfg : ConfigType) (st : RunProcessState)
    (hI : PassableLoop st) (hcond : runProcessCond cfg st = true) :
    ∃ st2, (∀ fuel, runProcessLoop cfg (fuel + 1) st = runProcessLoop cfg fuel st2) ∧
      PassableLoop st2 ∧ workLeft st2.running < workLeft st.running ∧
      st2.running.control.processNum = st.running.control.processNum ∧
      st2.running.completed = st.running.completed ∧
      st2.running.runningThreads = st.running.runningThreads := by
  obtain ⟨⟨hQ, hC, hK, hE⟩, hdeq, hc0⟩ := hI
  have hcond2 : st.cyclesRun < cfg.quantum ∧ st.running.control.state ≠ EXIT := by
    simpa [runProcessCond] using hcond
  obtain ⟨hlt, hstate⟩ := hcond2
  by_cases hcyc : 0 < st.running.current.cycles
  · have hkind : isCpuOrMemory st.running.current := by
      rcases hC with h | h
      · omega
      · exact h
    have hf := fetch_of_work st hcyc hkind
    obtain ⟨p1, sh1, c1, hrun, hadv, _, hprog⟩ := run_work cfg st.running st.sh st.cyclesRun hkind
    obtain ⟨hlt1, hnn⟩ := hprog hcyc hlt
    obtain ⟨a1, a2, a3, a4, a5, a6, a7, a8, a9, a10⟩ := hadv
    refine ⟨{ st with running := p1, sh := sh1, cyclesRun := c1 }, ?_, ⟨⟨?_, ?_, ?_, ?_⟩, hdeq, ?_⟩,
      ?_, ?_, a4, a5⟩
    · intro fuel
      have := runProcessLoop_step_run cfg fuel st p1 sh1 c1 hcond (by rw [hf]; exact hdeq)
        (by rw [hf]; exact hrun)
      rw [this, hf]
    · show ∀ m ∈ p1.metaData, isPassableOpcode m
      rw [a2]; exact hQ
    · exact Or.inr (isCpuOrMemory_congr _ _ a7 a8 hkind)
    · show 0 ≤ p1.cacheCount
      omega
    · show p1.control.state ≠ EXIT → ∃ m ∈ p1.metaData, isEndOpcode m
      rw [a1, a2]; exact hE
    · show 0 ≤ c1
      omega
    · show workLeft p1 < workLeft st.running
      rw [workLeft_eq, workLeft_eq, a2]
      have : p1.current.cycles.toNat < st.running.current.cycles.toNat := by omega
      omega
    · show p1.control.processNum = _
      rw [a1]
  · have hcyc0 : st.running.current.cycles ≤ 0 := by omega
    obtain ⟨e, he, hend⟩ := hE hstate
    cases hq : st.running.metaData with
    | nil => rw [hq] at he; simp at he
    | cons h rest =>
      rw [hq] at he hQ
      have hf := fetch_dequeue st h rest hcyc0 hq
      have hQrest : ∀ m ∈ rest, isPassableOpcode m := fun m hm => hQ m (by simp [hm])
      have hh : isPassableOpcode h := hQ h (by simp)
      have hsum : workLeft st.running = queueWeight h + (rest.map queueWeight).sum := by
        rw [workLeft_eq, hq]
        have : st.running.current.cycles.toNat = 0 := by omega
        simp [this]
      by_cases hrun : h.descriptor = "run"
      · have hP : h.code = 'P' := hh.1 hrun
        rw [if_pos hrun] at hf
        have hkind : isCpuOrMemory (fetch st).running.current := by
          rw [hf]; exact Or.inl hP
        obtain ⟨p1, sh1, c1, hrn, hadv, _, hprog⟩ :=
          run_work cfg (fetch st).running (fetch st).sh (fetch st).cyclesRun hkind
        have hu : (fetch st).running.current.cycles
            = max 1 (h.cycles - 2 * st.running.cacheCount) := by rw [hf]
        have hcr : (fetch st).cyclesRun = st.cyclesRun := by rw [hf]
        obtain ⟨hlt1, hnn⟩ := hprog (by rw [hu]; omega) (by rw [hcr]; exact hlt)
        obtain ⟨a1, a2, a3, a4, a5, a6, a7, a8, a9, a10⟩ := hadv
        rw [hu, hcr] at a9
        rw [hcr] at a10 hlt1
        have b1 : (fetch st).running.control = st.running.control := by rw [hf]
        have b2 : (fetch st).running.metaData = rest := by rw [hf]
        have b4 : (fetch st).running.completed = st.running.completed := by rw [hf]
        have b5 : (fetch st).running.runningThreads = st.running.runningThreads := by rw [hf]
        have b6 : (fetch st).running.cacheCount = st.running.cacheCount := by rw [hf]
        refine ⟨{ fetch st with running := p1, sh := sh1, cyclesRun := c1 }, ?_,
          ⟨⟨?_, ?_, ?_, ?_⟩, ?_, ?_⟩, ?_, ?_, ?_, ?_⟩
        · intro fuel
          exact runProcessLoop_step_run cfg fuel st p1 sh1 c1 hcond (by rw [hf]) hrn
        · show ∀ m ∈ p1.metaData, isPassableOpcode m
          rw [a2, b2]; exact hQrest
        · exact Or.inr (isCpuOrMemory_congr _ _ a7 a8 hkind)
        · show 0 ≤ p1.cacheCount
          omega
        · show p1.control.state ≠ EXIT → ∃ m ∈ p1.metaData, isEndOpcode m
          rw [a1, a2, b1, b2]
          intro _
          rcases List.mem_cons.mp he with h1 | h1
          · exact absurd (h1 ▸ hend) (isEndOpcode_not_work h (Or.inl hP))
          · exact ⟨e, h1, hend⟩
        · show (fetch st).dequeued = true
          rw [hf]
        · show 0 ≤ c1
          omega
        · show workLeft p1 < workLeft st.running
          rw [hsum, workLeft_eq, a2, b2]
          unfold queueWeight
          have hmax : max 1 (h.cycles - 2 * st.running.cacheCount) ≤ max 1 h.cycles := by
            omega
          omega
        · show p1.control.processNum = _
          rw [a1, b1]
        · show p1.completed = _
          rw [a4, b4]
        · show p1.runningThreads = _
          rw [a5, b5]
      · rw [if_neg hrun] at hf
        have b1 : (fetch st).running.control = st.running.control := by rw [hf]
        have b2 : (fetch st).running.metaData = rest := by rw [hf]
        have b4 : (fetch st).running.completed = st.running.completed := by rw [hf]
        have b5 : (fetch st).running.runningThreads = st.running.runningThreads := by rw [hf]
        have b6 : (fetch st).running.cacheCount = st.running.cacheCount := by rw [hf]
        have b7 : (fetch st).running.current = h := by rw [hf]
        have hcr : (fetch st).cyclesRun = st.cyclesRun := by rw [hf]
        have hdq : (fetch st).dequeued = true := by rw [hf]
        by_cases hhc : 0 < h.cycles
        · have hkind0 : isCpuOrMemory h := hh.2.1 hhc
          have hkind : isCpuOrMemory (fetch st).running.current := by
            rw [b7]; exact hkind0
          obtain ⟨p1, sh1, c1, hrn, hadv, _, hprog⟩ :=
            run_work cfg (fetch st).running (fetch st).sh (fetch st).cyclesRun hkind
          obtain ⟨hlt1, hnn⟩ := hprog (by rw [b7]; exact hhc) (by rw [hcr]; exact hlt)
          obtain ⟨a1, a2, a3, a4, a5, a6, a7, a8, a9, a10⟩ := hadv
          rw [b7, hcr] at a9
          rw [hcr] at a10 hlt1
          refine ⟨{ fetch st with running := p1, sh := sh1, cyclesRun := c1 }, ?_,
            ⟨⟨?_, ?_, ?_, ?_⟩, hdq, ?_⟩, ?_, ?_, ?_, ?_⟩
          · intro fuel
            exact runProcessLoop_step_run cfg fuel st p1 sh1 c1 hcond hdq hrn
          · show ∀ m ∈ p1.metaData, isPassableOpcode m
            rw [a2, b2]; exact hQrest
          · exact Or.inr (isCpuOrMemory_congr _ _ a7 a8 hkind)
          · show 0 ≤ p1.cacheCount
            omega
          · show p1.control.state ≠ EXIT → ∃ m ∈ p1.metaData, isEndOpcode m
            rw [a1, a2, b1, b2]
            intro _
            rcases List.mem_cons.mp he with h1 | h1
            · exact absurd (h1 ▸ hend) (isEndOpcode_not_work h (isCpuOrMemory_code h hkind0))
            · exact ⟨e, h1, hend⟩
          · show 0 ≤ c1
            omega
          · show workLeft p1 < workLeft st.running
            rw [hsum, workLeft_eq, a2, b2]
            unfold queueWeight
            omega
          · show p1.control.processNum = _
            rw [a1, b1]
          · show p1.completed = _
            rw [a4, b4]
          · show p1.runningThreads = _
            rw [a5, b5]
        · have hhc0 : h.cycles ≤ 0 := by omega
          have hrn := run_no_cycles (fetch st).running (fetch st).sh cfg (fetch st).cyclesRun
            (by rw [b7]; exact hhc0)
          refine ⟨{ fetch st with
              running := { (fetch st).running with
                control := runLifecycle (fetch st).running.control (fetch st).running.current }
              sh := { (fetch st).sh with
                executed := (fetch st).sh.executed ++ [(fetch st).running.current] }
              cyclesRun := (fetch st).cyclesRun }, ?_,
            ⟨⟨?_, ?_, ?_, ?_⟩, hdq, ?_⟩, ?_, ?_, ?_, ?_⟩
          · intro fuel
            exact runProcessLoop_step_run cfg fuel st _ _ _ hcond hdq hrn
          · show ∀ m ∈ (fetch st).running.metaData, isPassableOpcode m
            rw [b2]; exact hQrest
          · show (fetch st).running.current.cycles ≤ 0 ∨ _
            rw [b7]; exact Or.inl hhc0
          · show 0 ≤ (fetch st).running.cacheCount
            rw [b6]; exact hK
          · show (runLifecycle (fetch st).running.control (fetch st).running.current).state ≠ EXIT
                → ∃ m ∈ (fetch st).running.metaData, isEndOpcode m
            rw [b1, b2, b7]
            intro hne
            have hnot : ¬ isEndOpcode h := fun hx =>
              hne ((runLifecycle_exit st.running.control h hstate).mpr hx)
            rcases List.mem_cons.mp he with h1 | h1
            · exact absurd (h1 ▸ hend) hnot
            · exact ⟨e, h1, hend⟩
          · show 0 ≤ (fetch st).cyclesRun
            rw [hcr]; exact hc0
          · show workLeft { (fetch st).running with
                control := runLifecycle (fetch st).running.control (fetch st).running.current }
              < workLeft st.running
            rw [hsum, workLeft_eq]
            show (fetch st).running.current.cycles.toNat
              + ((fetch st).running.metaData.map queueWeight).sum < _
            rw [b7, b2]
            unfold queueWeight
            omega
          · show (runLifecycle (fetch st).running.control (fetch st).running.current).processNum
              = _
            rw [runLifecycle_processNum, b1]
          · exact b4
          · exact b5

theorem workLeft_pos_passable (running : Process) (h : PassableProcess running)
    (hs : running.control.state ≠ EXIT) : 0 < workLeft running := by
  obtain ⟨m, hm, _⟩ := h.2.2.2 hs
  have h1 := queueWeight_le_sum running.metaData m hm
  have h2 : 2 ≤ queueWeight m := by unfold queueWeight; omega
  rw [workLeft_eq]
  omega

theorem runProcessLoop_passable (cfg : ConfigType) :
    ∀ (fuel : Nat) (st : RunProcessState), PassableLoop st → workLeft st.running ≤ fuel →
      ∃ st1, runProcessLoop cfg fuel st = some st1 ∧ PassableLoop st1 ∧
        workLeft st1.running ≤ workLeft st.running ∧
        (runProcessCond cfg st = true → workLeft st1.running < workLeft st.running) ∧
        st1.running.control.processNum = st.running.control.processNum ∧
        st1.running.completed = st.running.completed ∧
        st1.running.runningThreads = st.running.runningThreads := by
  intro fuel
  induction fuel with
  | zero =>
    intro st hI hfuel
    have hcond : runProcessCond cfg st = false := by
      by_contra hc
      have hc2 : st.cyclesRun < cfg.quantum ∧ st.running.control.state ≠ EXIT := by
        simpa [runProcessCond] using hc
      have := workLeft_pos_passable st.running hI.1 hc2.2
      omega
    exact ⟨st, by simp [runProcessLoop, hcond], hI, Nat.le_refl _, by simp [hcond],
      rfl, rfl, rfl⟩
  | succ fuel ih =>
    intro st hI hfuel
    by_cases hcond : runProcessCond cfg st = true
    · obtain ⟨st2, hstep, hI2, hlt, hnum, hcomp, hthr⟩ :=
        runProcessLoop_passable_pass cfg st hI hcond
      obtain ⟨st1, hloop, hI1, hle, _, hnum1, hcomp1, hthr1⟩ := ih st2 hI2 (by omega)
      exact ⟨st1, by rw [hstep fuel, hloop], hI1, by omega, fun _ => by omega,
        hnum1.trans hnum, hcomp1.trans hcomp, hthr1.trans hthr⟩
    · have hcond2 : runProcessCond cfg st = false := by simpa using hcond
      exact ⟨st, by simp [runProcessLoop, hcond2], hI, Nat.le_refl _, by simp [hcond2],
        rfl, rfl, rfl⟩

theorem runProcess_passable (cfg : ConfigType) (fuel : Nat) (running : Process) (sh : Shared)
    (hq : 1 ≤ cfg.quantum) (hI : PassableProcess running) (hs : running.control.state ≠ EXIT)
    (hfuel : workLeft running ≤ fuel) :
    ∃ running1 sh1, runProcess fuel running sh cfg = some (running1, sh1) ∧
      PassableProcess running1 ∧ processMeasure running1 < processMeasure running := by
  have hcond : runProcessCond cfg (RunProcessState.enter running sh) = true := by
    simp only [runProcessCond, RunProcessState.enter, Bool.and_eq_true, decide_eq_true_eq]
    exact ⟨by omega, hs⟩
  obtain ⟨st1, hloop, hI1, _, hlt, _, _, _⟩ :=
    runProcessLoop_passable cfg fuel (RunProcessState.enter running sh)
      ⟨hI, rfl, Int.le_refl 0⟩ hfuel
  have hlt1 := hlt hcond
  refine ⟨{ st1.running with timeRemaining := st1.running.timeRemaining - st1.cyclesRun },
    st1.sh, by simp only [runProcess, hloop], hI1.1, ?_⟩
  have h1 : processMeasure
      { st1.running with timeRemaining := st1.running.timeRemaining - st1.cyclesRun }
      ≤ workLeft st1.running := processMeasure_le st1.running
  have h2 : processMeasure running = workLeft running := by
    simp [processMeasure, hs]
  rw [h2]
  exact lt_of_le_of_lt h1 hlt1

theorem mainBody_passable (config : ConfigType) (st : MainState)
    (hrr : config.schedulingAlg = RR) (hq : 1 ≤ config.quantum) (hI : PassableTable st)
    (hc : checkCompleted st.program = false) :
    ∃ fuel st1, mainBody fuel config st = some st1 ∧ PassableTable st1 ∧
      tableMeasure st1.program < tableMeasure st.program := by
  obtain ⟨hall, hlo⟩ := hI
  obtain ⟨hP, hex⟩ := checkCompleted_false st.program hc
  obtain ⟨j, _, _, hg1, ⟨s, hs1, hne⟩, _⟩ :=
    getSchedule_rr_spec st.program st.processIndex st.program.length hP hex hlo (Nat.le_refl _)
  obtain ⟨h0, p, hp0, hps⟩ := stateAt_some st.program _ s hs1
  have hs : p.control.state ≠ EXIT := by rw [hps]; exact hne
  have hg0 : getSchedule st.program.length st.program config.schedulingAlg st.processIndex
      = some ((((st.processIndex + j) % st.program.length).toNat : Nat) : Int) := by
    rw [hrr, hg1, Int.toNat_of_nonneg h0]
  generalize ((st.processIndex + j) % st.program.length).toNat = k at hg0 hp0
  have hp : st.program[k]? = some p := hp0
  have hg := getSchedule_mono st.program.length (workLeft p) st.program config.schedulingAlg
    st.processIndex (k : Int) hg0
  have hmem : p ∈ st.program := List.getElem?_mem hp
  obtain ⟨p2, sh2, hrun, hI2, hmeas⟩ := runProcess_passable config
    (st.program.length + workLeft p) p
    { st.sh with output := st.sh.output ++
        [LogLine.osPreparing p.control.processNum, LogLine.osStarting p.control.processNum] }
    hq (hall p hmem) hs (Nat.le_add_left _ _)
  refine ⟨st.program.length + workLeft p,
    { program := (completionScan (st.program.set k p2) sh2.output).1
      sh := { sh2 with output := (completionScan (st.program.set k p2) sh2.output).2 }
      processIndex := (k : Int)
      schedule := st.schedule ++ [(k : Int)] }, ?_, ⟨?_, ?_⟩, ?_⟩
  · simp only [mainBody, hg]
    simp only [Int.toNat_ofNat, hp, hrun]
    simp
  · intro q hq
    show PassableProcess q
    have hq2 : q ∈ (completionScan (st.program.set k p2) sh2.output).1 := hq
    rw [completionScan_eq_map] at hq2
    obtain ⟨r, hr, hrq⟩ := List.mem_map.mp hq2
    have hr2 : PassableProcess r := by
      rcases List.mem_or_eq_of_mem_set hr with h | h
      · exact hall r h
      · subst h
        exact hI2
    rw [← hrq]
    split_ifs
    · exact hr2
    · exact hr2
  · show (-1 : Int) ≤ (k : Int)
    omega
  · show tableMeasure (completionScan (st.program.set k p2) sh2.output).1 < _
    rw [tableMeasure_completionScan]
    exact tableMeasure_set_lt st.program k p p2 hp hmeas

/-- The scheduler loop under round robin on a table of processes whose opcodes
they get past ends: with enough fuel it returns a table in which every process
is in `EXIT`. -/
theorem mainLoop_passable (config : ConfigType) (hrr : config.schedulingAlg = RR)
    (hq : 1 ≤ config.quantum) :
    ∀ (n : Nat) (st : MainState), PassableTable st → tableMeasure st.program ≤ n →
      ∃ fuel st1, mainLoop config fuel st = some st1 ∧
        checkCompleted st1.program = true := by
  intro n
  induction n with
  | zero =>
    intro st hI hn
    by_cases hc : checkCompleted st.program = true
    · exact ⟨0, st, mainLoop_of_completed config 0 st hc, hc⟩
    · have hc2 : checkCompleted st.program = false := by simpa using hc
      obtain ⟨_, st1, _, _, hlt⟩ := mainBody_passable config st hrr hq hI hc2
      omega
  | succ n ih =>
    intro st hI hn
    by_cases hc : checkCompleted st.program = true
    · exact ⟨0, st, mainLoop_of_completed config 0 st hc, hc⟩
    · have hc2 : checkCompleted st.program = false := by simpa using hc
      obtain ⟨f1, st1, hb, hI1, hlt⟩ := mainBody_passable config st hrr hq hI hc2
      obtain ⟨f2, st2, hl, hdone⟩ := ih st1 hI1 (by omega)
      refine ⟨(f1 + f2) + 1, st2, ?_, hdone⟩
      rw [mainLoop_step config (f1 + f2) st st1 hc2 (mainBody_mono f1 f2 config st st1 hb)]
      have := mainLoop_mono config f2 st1 st2 hl f1
      rw [Nat.add_comm] at this
      exact this

theorem passableProcess_readInput (opcodes : List MetaDataType)
    (hb : ∀ m ∈ opcodes, isPassableOpcode m) :
    ∀ p ∈ readInput opcodes, PassableProcess p := by
  intro p hp
  rw [readInput_groups] at hp
  obtain ⟨i, g, hg, rfl⟩ := mem_processesOfGroups _ _ p hp
  obtain ⟨front, last, hgl, hend, _⟩ := tokenGroups_mem opcodes [] (by simp) g hg
  have hsub : ∀ m ∈ g, m ∈ opcodes := by
    intro m hm
    have h1 := tokenGroups_flatten opcodes []
    simp only [List.nil_append] at h1
    rw [← h1]
    exact List.mem_append_left _ (List.mem_flatten.mpr ⟨g, hg, hm⟩)
  refine ⟨?_, Or.inl (by simp [processOfGroup, loadedProcess, newProcess]),
    by simp [processOfGroup, loadedProcess, newProcess], ?_⟩
  · intro m hm
    simp only [processOfGroup, loadedProcess, List.mem_map] at hm
    obtain ⟨m0, hm0, rfl⟩ := hm
    exact hb m0 (hsub m0 hm0)
  · intro _
    refine ⟨unstarted last, ?_, ?_⟩
    · simp only [processOfGroup, loadedProcess, List.mem_map]
      exact ⟨last, by rw [hgl]; simp, rfl⟩
    · exact ⟨Or.inr hend.2, hend.1⟩

theorem passableTable_with (fresh : Nat → Unassigned) (opcodes : List MetaDataType)
    (hb : ∀ m ∈ opcodes, isPassableOpcode m) (hc : ∀ i, (fresh i).cycles ≤ 0) :
    PassableTable (MainState.init (readInputWith fresh opcodes)) := by
  refine ⟨?_, by simp [MainState.init]⟩
  intro p hp
  have hp1 : p ∈ readInputWith fresh opcodes := hp
  obtain ⟨i, hi⟩ := List.getElem?_of_mem hp1
  rw [readInputWith_getElem?] at hi
  cases hp0 : (readInput opcodes)[i]? with
  | none => rw [hp0] at hi; cases hi
  | some p0 =>
    rw [hp0] at hi
    simp only [Option.map_some', Option.some.injEq] at hi
    subst hi
    obtain ⟨h1, _, h3, h4⟩ := passableProcess_readInput opcodes hb p0 (List.getElem?_mem hp0)
    have hs0 : p0.control.state ≠ EXIT := by
      rw [readInput_state opcodes i p0 hp0]; decide
    exact ⟨h1, Or.inl (hc i), h3, fun _ => h4 hs0⟩

/-- When the scheduler loop returns on the list of `readInputWith` for a
workload without I/O, with no unassigned state `EXIT` and no unassigned code of
I/O, then `main` returns its log from that fuel on, whatever the local
`finished` holds. -/
theorem mainWith_of_mainLoop (config : ConfigType) (fresh : Nat → Unassigned)
    (opcodes : List MetaDataType) (fuel : Nat) (st1 : MainState)
    (hio : ∀ m ∈ opcodes, m.code ≠ 'I' ∧ m.code ≠ 'O')
    (hfresh : ∀ i, NotExitNorDevice (fresh i))
    (hl : mainLoop config fuel (MainState.init (readInputWith fresh opcodes)) = some st1) :
    ∃ log : List LogLine, ∀ (extra : Nat) (finished : Bool),
      mainWith fresh (fuel + 1 + extra) finished config opcodes = some log := by
  have hdone := mainLoop_completed config fuel _ st1 hl
  have hinit := completedInv_init_with fresh opcodes hio hfresh
  obtain ⟨hthr, hall⟩ := mainLoop_completedInv config fuel _ st1 hl hinit
  have hexit : ∀ p ∈ st1.program, p.control.state = EXIT :=
    (checkCompleted_iff st1.program).mp hdone
  have hcompleted : ∀ p ∈ st1.program, p.completed = true := by
    intro p hp
    obtain ⟨j, hj⟩ := List.getElem?_of_mem hp
    exact ((hall j p hj).2.2.2.2 (hexit p hp)).1
  refine ⟨st1.sh.output ++ [LogLine.simulatorEnding], ?_⟩
  intro extra finished
  have h1 : mainLoop config (fuel + 1 + extra) (MainState.init (readInputWith fresh opcodes))
      = some st1 := by
    have := mainLoop_mono config fuel _ st1 hl (1 + extra)
    rw [← Nat.add_assoc] at this
    exact this
  have h2 := drainLoop_of_completed (fuel + 1 + extra) finished st1.program st1.sh
    (by omega) hthr hcompleted
  simp only [mainWith, h1, h2]

/-- Under round robin with a quantum of 1 at least, `main` returns its log on
every workload of opcodes a process gets past, when the unassigned fields hold
a state other than `EXIT`, a code that is not I/O and no cycles; under the
other policies it does on the workloads of `isBatchOpcode` with totals below
100000. -/
theorem mainWith_returns (config : ConfigType) (fresh : Nat → Unassigned)
    (opcodes : List MetaDataType) (hq : 1 ≤ config.quantum)
    (hfresh : ∀ i, NotExitNorDevice (fresh i)) (hc : ∀ i, (fresh i).cycles ≤ 0)
    (hclass : (config.schedulingAlg = RR ∧ ∀ m ∈ opcodes, isPassableOpcode m) ∨
      ((∀ m ∈ opcodes, isBatchOpcode m) ∧
        ∀ p ∈ readInputWith fresh opcodes, p.timeRemaining < 100000)) :
    ∃ (fuel : Nat) (log : List LogLine), ∀ (extra : Nat) (finished : Bool),
      mainWith fresh (fuel + extra) finished config opcodes = some log := by
  rcases hclass with ⟨hrr, hb⟩ | ⟨hb, ht⟩
  · obtain ⟨fuel, st1, hl, _⟩ := mainLoop_passable config hrr hq _
      (MainState.init (readInputWith fresh opcodes)) (passableTable_with fresh opcodes hb hc)
      (Nat.le_refl _)
    obtain ⟨log, hlog⟩ := mainWith_of_mainLoop config fresh opcodes fuel st1
      (fun m hm => ⟨(hb m hm).2.2.1, (hb m hm).2.2.2⟩) hfresh hl
    exact ⟨fuel + 1, log, hlog⟩
  · obtain ⟨fuel, st1, hl, _⟩ := mainLoop_batch config hq _
      (MainState.init (readInputWith fresh opcodes)) (batchTable_with fresh opcodes hb ht hc)
      (Nat.le_refl _)
    obtain ⟨log, hlog⟩ := mainWith_of_mainLoop config fresh opcodes fuel st1
      (fun m hm => isBatchOpcode_noIO m (hb m hm)) hfresh hl
    exact ⟨fuel + 1, log, hlog⟩

/-! ## The claims that depend on the fields `readInput` leaves unassigned -/

/-- C12 (the code departs from the claim).  The claim has the first `k·P`
decisions in cyclic order with `q` cycles in each turn.  For two processes
`A(start)0; P(run)3; A(end)0` under round robin with quantum 3 (`k = 1`): when
the memory of the second `new Process` holds 4 where `control.state` comes to
lie, the second process is in `EXIT` from the start and the two decisions are
`0, 0`; when the memory holds a cycle in the current opcode, with a code that
is none of `P`, `M`, `I` and `O`, the decisions are `0, 1` and no cycle is
executed in the two turns.  With zero-filled memory the decisions are `0, 1`
and 6 cycles are executed.  `readInput` assigns neither field (lines 508 and
556). -/
theorem round_robin_unassigned_fields :
    (mainTurns (exampleConfig 3 RR) 5 2
      (MainState.init (readInputWith (fun i => if i = 1 then stateExit else zeroFilled)
        (roundRobinWorkload 2 (1 * (exampleConfig 3 RR).quantum))))).map
      (fun st => (st.schedule, st.sh.cyclesDone)) = some ([0, 0], 3) ∧
    (mainTurns (exampleConfig 3 RR) 5 2
      (MainState.init (readInputWith (fun _ => cycleLeft)
        (roundRobinWorkload 2 (1 * (exampleConfig 3 RR).quantum))))).map
      (fun st => (st.schedule, st.sh.cyclesDone)) = some ([0, 1], 0) ∧
    (mainTurns (exampleConfig 3 RR) 5 2
      (MainState.init (readInputWith (fun _ => zeroFilled)
        (roundRobinWorkload 2 (1 * (exampleConfig 3 RR).quantum))))).map
      (fun st => (st.schedule, st.sh.cyclesDone)) = some ([0, 1], 6) := by
  decide

/-- C13 (the code departs from the claim).  The claim has the seven lines of
scenario S1 as the log of `S(start)0; A(start)0; P(run)5; A(end)0; S(end)0`
under round robin with quantum 10.  When the memory of the `new Process` holds
a cycle in the current opcode, with a code that is none of `P`, `M`, `I` and
`O`, `runProcess` never dequeues the first opcode: the scheduler loop does not
end and `main` has no log, on any fuel.  When the memory holds 4 where
`control.state` comes to lie, the process is in `EXIT` from the start and the
log has no line of its opcodes.  `readInput` assigns neither field (lines 508
and 556). -/
theorem single_process_unassigned_fields :
    (∀ (fuel : Nat) (finished : Bool),
      mainWith (fun _ => cycleLeft) fuel finished (exampleConfig 10 RR) (singleRun 5) = none) ∧
    mainWith (fun _ => stateExit) 6 false (exampleConfig 10 RR) (singleRun 5)
      = some [LogLine.simulatorStarting, LogLine.osCompleted 1, LogLine.simulatorEnding] ∧
    mainWith (fun _ => stateExit) 6 true (exampleConfig 10 RR) (singleRun 5)
      = some [LogLine.simulatorStarting, LogLine.simulatorEnding] :=
  ⟨(mainWith_cycleLeft (exampleConfig 10 RR) (fun _ => cycleLeft) (singleRun 5) rfl
      (by decide)).2,
   by decide, by decide⟩

/-- C16 (the code departs from the claim).  The claim has the scheduler loop
reach the state with every process in `EXIT` for every workload of markers
without cycles and of `P(run)`, `M(allocate)` and `M(cache)` with totals below
100000.  On such a workload of two processes, under round robin and under
`SJF` with quantum 3, the loop does not end on any fuel when the memory of the
first `new Process` holds a cycle in the current opcode, with a code that is
none of `P`, `M`, `I` and `O`: `runProcess` tests `current.cycles <= 0` before
it dequeues (line 804), finds the cycle, and calls `run` on the opcode that was
never assigned, turn after turn.  `readInput` does not assign `current` (lines
508 and 556). -/
theorem scheduler_loop_unassigned_current :
    (∀ m ∈ batchWorkload, isBatchOpcode m) ∧
    (∀ p ∈ readInputWith (fun _ => cycleLeft) batchWorkload, p.timeRemaining < 100000) ∧
    (∀ fuel : Nat,
      mainLoop (exampleConfig 3 RR) fuel
        (MainState.init (readInputWith (fun _ => cycleLeft) batchWorkload)) = none) ∧
    (∀ fuel : Nat,
      mainLoop (exampleConfig 3 SJF) fuel
        (MainState.init (readInputWith (fun _ => cycleLeft) batchWorkload)) = none) :=
  ⟨by decide, by decide,
   (mainWith_cycleLeft (exampleConfig 3 RR) (fun _ => cycleLeft) batchWorkload rfl
      (by decide)).1,
   (mainWith_cycleLeft (exampleConfig 3 SJF) (fun _ => cycleLeft) batchWorkload rfl
      (by decide)).1⟩

end OSSim
